import Mathlib

/-!
# Integer compressor of the decompressor prototype: pattern trie, counting pass,
abbreviation selection

A shallow embedding of `src/intcomp/CountWriter.cpp` and
`src/intcomp/AbbreviationsCollector.cpp`, with the theorems that settle the
specification's statements about them.  The declarations of the trie
(`CountNode.h`), the priority queue (`utils/heap.h`), the collector base class,
the Huffman encoder and the implementation of `AbbrevAssignWriter` are not
among the sources; what the embedded functions need of them is modelled from
the specification, and every such definition says so.

Conventions of the embedding.

* An `IntCountNode` is identified by the values on its parent chain, its own
  value first: `[3, 2, 1]` is the node reached from the root by `1`, then `2`,
  then `3`.  Its parent is the tail of the list and its path length is the
  length of the list.
* The trie is the map from such chains to the node's `Count`; a chain that is
  mapped to `none` is a node that has not been created.
* A `std::vector` that the code only uses as a stack is a list whose head is
  the back of the vector.
* The `Count` of a node is a `size_t`: `increment` adds one modulo `2 ^ 64`,
  and `incrementedBy c k` is the count `c` after `k` increments.
-/

set_option autoImplicit false

namespace wasm

namespace intcomp

/-- The integers of an integer stream (`decode::IntType`). -/
abbrev IntType := Nat

/-- Identity of an `IntCountNode`: the values on its parent chain, the node's
own value first. -/
abbrev IntPath := List IntType

/-- Modelled from the spec: `CountNode.h` is not part of the sources.  A
`CountNode::Ptr` is one of the five structural singletons owned by the root
(`BlockEnter`, `BlockExit`, `DefaultSingle`, `DefaultMultiple`, `Align`), or an
`IntCountNode`, given by its parent chain. -/
inductive CountNode where
  | BlockEnter
  | BlockExit
  | DefaultSingle
  | DefaultMultiple
  | Align
  | Int (Path : IntPath)
  deriving DecidableEq, Repr

/-- The test `isa<IntCountNode>(Nd)`. -/
def CountNode.isInt : CountNode → Bool
  | .Int _ => true
  | _ => false

/-- Modelled from the spec: the root of the trie (`RootCountNode`, declared in
`CountNode.h`, which is not part of the sources).  It owns the five structural
singletons, here their counts, and the `IntCountNode`s reachable from the root,
here the map from a parent chain to the count of the node, `none` for a node
that has not been created. -/
structure RootCountNode where
  BlockEnter : Nat
  BlockExit : Nat
  DefaultSingle : Nat
  DefaultMultiple : Nat
  Align : Nat
  Succs : IntPath → Option Nat

/-- A freshly made `RootCountNode`: no `IntCountNode`, all counts zero. -/
def RootCountNode.empty : RootCountNode :=
  { BlockEnter := 0, BlockExit := 0, DefaultSingle := 0, DefaultMultiple := 0,
    Align := 0, Succs := fun _ => none }

/-- Whether the node has been created.  The structural singletons always
exist. -/
def RootCountNode.hasNode (Root : RootCountNode) : CountNode → Bool
  | .Int p => (Root.Succs p).isSome
  | _ => true

/-- The accessor `CountNode::getCount`; a node that has not been created has no
count and is read as 0. -/
def RootCountNode.getCount (Root : RootCountNode) : CountNode → Nat
  | .BlockEnter => Root.BlockEnter
  | .BlockExit => Root.BlockExit
  | .DefaultSingle => Root.DefaultSingle
  | .DefaultMultiple => Root.DefaultMultiple
  | .Align => Root.Align
  | .Int p => (Root.Succs p).getD 0

/-- The accessor `CountNode::setCount`. -/
def RootCountNode.setCount (Root : RootCountNode) (Nd : CountNode) (NewValue : Nat) :
    RootCountNode :=
  match Nd with
  | .BlockEnter => { Root with BlockEnter := NewValue }
  | .BlockExit => { Root with BlockExit := NewValue }
  | .DefaultSingle => { Root with DefaultSingle := NewValue }
  | .DefaultMultiple => { Root with DefaultMultiple := NewValue }
  | .Align => { Root with Align := NewValue }
  | .Int p => { Root with Succs := Function.update Root.Succs p (some NewValue) }

/-- The method `increment` (`++Count`): `Count` is a `size_t`, so the
increment is taken modulo `2 ^ 64`. -/
def RootCountNode.increment (Root : RootCountNode) (Nd : CountNode) : RootCountNode :=
  Root.setCount Nd ((Root.getCount Nd + 1) % 2 ^ 64)

/-- The value of a `size_t` counter that holds `c` after `k` increments. -/
def incrementedBy (c k : Nat) : Nat :=
  (fun n => (n + 1) % 2 ^ 64)^[k] c

/-- Modelled from the spec: `lookup(Nd, Value)`, whose body is not part of the
sources, has lookup-or-create semantics: it returns the child of `Nd` for
`Value` and creates it, with count zero, when it is absent.  The child of the
chain `Parent` for `Value` is `Value :: Parent`, and `Parent = []` is the
root, so the result is the trie after the call. -/
def lookup (Root : RootCountNode) (Parent : IntPath) (Value : IntType) : RootCountNode :=
  match Root.Succs (Value :: Parent) with
  | some _ => Root
  | none => { Root with Succs := Function.update Root.Succs (Value :: Parent) (some 0) }

/-- Modelled from the spec: `getPathLength`, the depth from the root, 1 for a
top-level node. -/
def getPathLength (Nd : IntPath) : Nat := Nd.length

/-- The formats of a typed value, `interp::IntTypeFormat`, as
`Writer::writeTypedValue` lists them. -/
inductive IntTypeFormat where
  | Uint8
  | Uint32
  | Uint64
  | Varint32
  | Varint64
  | Varuint32
  | Varuint64
  deriving DecidableEq, Repr

/-- The state of a `CountWriter`.  `Frontier` is the vector of the code with
its back at the head of the list. -/
structure CountWriter where
  Root : RootCountNode
  Frontier : List IntPath
  CountCutoff : Nat
  UpToSize : Nat

/-- The constructor `CountWriter::CountWriter(Root)` followed by
`setCountCutoff` and `setUpToSize`, as in `IntCompressor::compressUpToSize`. -/
def CountWriter.make (Root : RootCountNode) (CountCutoff UpToSize : Nat) : CountWriter :=
  { Root := Root, Frontier := [], CountCutoff := CountCutoff, UpToSize := UpToSize }

section Counting

/- The virtual method `CountNode::getWeight`, whose body is in a file that is
not part of the sources, is a parameter: the weight of a node as a function of
the node and of its current count. -/
variable (getWeight : CountNode → Nat → Nat)

/-- The `while (!Frontier.empty())` loop of `CountWriter::addToUsageMap`:
the first list is what is left of `Frontier`, the pair is the trie and
`NextFrontier`. -/
def frontierLoop (CountCutoff UpToSize : Nat) (Value : IntType) (TopNd : IntPath) :
    List IntPath → RootCountNode × List IntPath → RootCountNode × List IntPath
  | [], acc => acc
  | Nd :: Frontier, (Root, NextFrontier) =>
    if getPathLength Nd ≥ UpToSize ∨
        getWeight (.Int TopNd) (Root.getCount (.Int TopNd)) < CountCutoff then
      frontierLoop CountCutoff UpToSize Value TopNd Frontier (Root, NextFrontier)
    else
      let Root1 := lookup Root Nd Value
      let Root2 := Root1.increment (.Int (Value :: Nd))
      frontierLoop CountCutoff UpToSize Value TopNd Frontier
        (Root2, (Value :: Nd) :: NextFrontier)

/-- The method `CountWriter::addToUsageMap`. -/
def CountWriter.addToUsageMap (w : CountWriter) (Value : IntType) : CountWriter :=
  let Root0 := lookup w.Root [] Value
  let TopNd : IntPath := [Value]
  if w.UpToSize = 1 then
    { w with Root := Root0.increment (.Int TopNd) }
  else
    let r := frontierLoop getWeight w.CountCutoff w.UpToSize Value TopNd w.Frontier (Root0, [])
    let Root1 := r.1
    let Frontier1 := r.2
    if getWeight (.Int TopNd) (Root1.getCount (.Int TopNd)) ≥ w.CountCutoff then
      { w with Root := Root1, Frontier := TopNd :: Frontier1 }
    else
      { w with Root := Root1, Frontier := Frontier1 }

/-- The method `CountWriter::writeVaruint64`. -/
def CountWriter.writeVaruint64 (w : CountWriter) (Value : IntType) : CountWriter × Bool :=
  (w.addToUsageMap getWeight Value, true)

/-- The method `CountWriter::writeBlockEnter`. -/
def CountWriter.writeBlockEnter (w : CountWriter) : CountWriter × Bool :=
  ({ w with Frontier := [], Root := w.Root.increment .BlockEnter }, true)

/-- The method `CountWriter::writeBlockExit`. -/
def CountWriter.writeBlockExit (w : CountWriter) : CountWriter × Bool :=
  ({ w with Frontier := [], Root := w.Root.increment .BlockExit }, true)

/-- The method `CountWriter::writeHeaderValue`. -/
def CountWriter.writeHeaderValue (w : CountWriter) (_Value : IntType)
    (_Format : IntTypeFormat) : CountWriter × Bool :=
  (w, true)

/-- One element of the traversal of an integer sequence, as the reader hands it
to a `Writer` (`writeVaruint64`, `writeBlockEnter`, `writeBlockExit`,
`writeHeaderValue`): a value, a block marker, or a header value. -/
inductive StreamEvent where
  | Value (v : IntType)
  | BlockEnter
  | BlockExit
  | HeaderValue (v : IntType) (Format : IntTypeFormat)
  deriving DecidableEq, Repr

/-- The `Writer` call made for one element of the traversal. -/
def CountWriter.writeEvent (w : CountWriter) : StreamEvent → CountWriter × Bool
  | .Value v => w.writeVaruint64 getWeight v
  | .BlockEnter => w.writeBlockEnter
  | .BlockExit => w.writeBlockExit
  | .HeaderValue v f => w.writeHeaderValue v f

/-- Modelled from the spec: `IntInterpreter::structuralRead` is not part of the
sources.  One counting pass hands the elements of the integer sequence to the
writer in order and stops at the first call that fails. -/
def CountWriter.structuralRead (w : CountWriter) : List StreamEvent → CountWriter × Bool
  | [] => (w, true)
  | e :: es =>
    let r := w.writeEvent getWeight e
    if r.2 then CountWriter.structuralRead r.1 es else (r.1, false)

/-- The method `IntCompressor::compressUpToSize`: one counting pass over
`Contents` with a fresh `CountWriter` on the trie `Root`. -/
def compressUpToSize (Root : RootCountNode) (CountCutoff Size : Nat)
    (Contents : List StreamEvent) : RootCountNode × Bool :=
  let r := (CountWriter.make Root CountCutoff Size).structuralRead getWeight Contents
  (r.1.Root, r.2)

end Counting

/-- The number of positions of the traversal at which the value path of the
node `p` ends: the value written there and the values written just before it,
read backwards, start with `p`, and no block marker lies inside.  `run` holds
the values written since the last block marker, the most recent first. -/
def occurrencesFrom (p : IntPath) : List IntType → List StreamEvent → Nat
  | _, [] => 0
  | run, .Value v :: es =>
    (if p <+: v :: run then 1 else 0) + occurrencesFrom p (v :: run) es
  | _, .BlockEnter :: es => occurrencesFrom p [] es
  | _, .BlockExit :: es => occurrencesFrom p [] es
  | run, .HeaderValue _ _ :: es => occurrencesFrom p run es

/-- The number of occurrences of the value path of node `p` in a traversal. -/
def occurrences (p : IntPath) (es : List StreamEvent) : Nat :=
  occurrencesFrom p [] es

/-- The weight `Count * PathLength` for an `IntCountNode` and `Count` for a
structural singleton: a weight that grows with the count and with the path
length, used for the concrete runs. -/
def weightCountTimesLength : CountNode → Nat → Nat
  | .Int p, c => c * p.length
  | _, c => c

/-- The fields of `CompressionFlags` that the collector and the compressor
read; the header that declares them is not part of the sources. -/
structure CompressionFlags where
  CountCutoff : Nat
  WeightCutoff : Nat
  MaxAbbreviations : Nat
  TrimOverriddenPatterns : Bool
  PatternLengthLimit : Nat
  PatternLengthMultiplier : Nat
  UseHuffmanEncoding : Bool

/-- The state that `AbbreviationsCollector` works on.

* `Root` is the trie, `Assignments` the set passed in by reference and
  `TrimmedNodes` the member of that name; both sets are lists without
  repetition, in the order of insertion.
* `Values` holds the nodes gathered by `collectUsingCutoffs`.
* `ValuesHeap` is the priority queue, its entries in the order in which they
  would be popped, and `HeapEntries` lists the nodes whose
  `getAssociatedHeapEntry()` is not null.
* `Symbols` holds the weights of the symbols made by the encoder so far and
  `AbbrevIndex` the symbol given to a node by `setAbbrevIndex`. -/
structure AbbreviationsCollector where
  Root : RootCountNode
  Assignments : List CountNode
  TrimmedNodes : List CountNode
  Values : List CountNode
  ValuesHeap : List CountNode
  HeapEntries : List CountNode
  Symbols : List Nat
  AbbrevIndex : CountNode → Option Nat

/-- The constructor of `AbbreviationsCollector` on a trie and an assignment
set, with no node trimmed, an empty queue and a new encoder. -/
def AbbreviationsCollector.make (Root : RootCountNode) (Assignments : List CountNode) :
    AbbreviationsCollector :=
  { Root := Root, Assignments := Assignments, TrimmedNodes := [], Values := [],
    ValuesHeap := [], HeapEntries := [], Symbols := [], AbbrevIndex := fun _ => none }

/-- Modelled from the spec: `RootCountNode::getOthers` is not part of the
sources.  It yields the five structural singletons of the root. -/
def getOthers : List CountNode :=
  [.BlockEnter, .BlockExit, .DefaultSingle, .DefaultMultiple, .Align]

/-- Path length of a node as used for ranking: the depth from the root, 1 for
the nodes owned by the root itself. -/
def CountNode.pathLength : CountNode → Nat
  | .Int p => getPathLength p
  | _ => 1

/-- The value a node stands for; it has no meaning for a structural
singleton, for which it is taken to be zero. -/
def CountNode.value : CountNode → Nat
  | .Int (v :: _) => v
  | _ => 0

/-- Unsigned subtraction on `size_t` and `uint64_t`: exact when there is no
borrow, modulo `2 ^ 64` otherwise. -/
def sizeSub (a b : Nat) : Nat :=
  if b ≤ a then a - b else (a + 2 ^ 64 - b % 2 ^ 64) % 2 ^ 64

section Selection

variable (getWeight : CountNode → Nat → Nat)

/-- Modelled from the spec: the comparison of the priority queue
(`utils/heap.h` and `CountNode::compare` are not part of the sources).  The
queue is keyed by weight, ties broken by higher count, then shorter path, then
the underlying value (the smaller first).  `popsBefore Root a b` says that `a`
is popped no later than `b` under the counts of `Root`. -/
def popsBefore (Root : RootCountNode) (a b : CountNode) : Prop :=
  let wa := getWeight a (Root.getCount a)
  let wb := getWeight b (Root.getCount b)
  wa > wb ∨ (wa = wb ∧
    (Root.getCount a > Root.getCount b ∨ (Root.getCount a = Root.getCount b ∧
      (a.pathLength < b.pathLength ∨ (a.pathLength = b.pathLength ∧ a.value ≤ b.value)))))

instance popsBeforeDecidable (Root : RootCountNode) (a b : CountNode) :
    Decidable (popsBefore getWeight Root a b) := by
  unfold popsBefore
  exact inferInstance

/-- Modelled from the spec: insertion of an entry into the priority queue.
The queue is kept in popping order, so the entry goes in front of the first
entry that it is popped before. -/
def heapInsert (Root : RootCountNode) (Nd : CountNode) : List CountNode → List CountNode
  | [] => [Nd]
  | x :: xs =>
    if popsBefore getWeight Root Nd x then Nd :: x :: xs
    else x :: heapInsert Root Nd xs

/-- Modelled from the spec: `CountNodeCollector::pushHeap`, which pushes the
node onto the queue and stores the handle of the new entry in the node. -/
def AbbreviationsCollector.pushHeap (st : AbbreviationsCollector) (Nd : CountNode) :
    AbbreviationsCollector :=
  { st with
    ValuesHeap := heapInsert getWeight st.Root Nd st.ValuesHeap,
    HeapEntries := if Nd ∈ st.HeapEntries then st.HeapEntries else Nd :: st.HeapEntries }

/-- Modelled from the spec: `entry::reinsert` on the handle stored in `Nd`,
the decrease-key operation.  When the entry is still in the queue it is moved
to the place of its current key and the result is `true`; otherwise nothing
changes and the result is `false`. -/
def AbbreviationsCollector.reinsert (st : AbbreviationsCollector) (Nd : CountNode) :
    AbbreviationsCollector × Bool :=
  if Nd ∈ st.ValuesHeap then
    ({ st with ValuesHeap := heapInsert getWeight st.Root Nd (st.ValuesHeap.erase Nd) }, true)
  else (st, false)

/-- Modelled from the spec: `CountNodeCollector::buildHeap`, which pushes the
collected `Values` onto the queue. -/
def AbbreviationsCollector.buildHeap (st : AbbreviationsCollector) : AbbreviationsCollector :=
  st.Values.foldl (fun s Nd => s.pushHeap getWeight Nd) st

/-- The body of the `while` loop of `AbbreviationsCollector::addAbbreviation`
from `ParentPtr->setCount(NewCount)` on: the count of the parent is lowered,
its entry in the queue is moved (or the parent is pushed again when its entry
has left the queue), and the parent is erased from the assignments. -/
def trimParent (Parent : CountNode) (NewCount : Nat) (st : AbbreviationsCollector) :
    AbbreviationsCollector :=
  let st1 : AbbreviationsCollector :=
    { st with Root := st.Root.setCount Parent NewCount }
  let st2 : AbbreviationsCollector :=
    if Parent ∈ st1.HeapEntries then
      let r := st1.reinsert getWeight Parent
      if r.2 then r.1 else r.1.pushHeap getWeight Parent
    else st1
  if Parent ∈ st2.Assignments then
    { st2 with Assignments := st2.Assignments.erase Parent }
  else st2

/-- The `while` loop of `AbbreviationsCollector::addAbbreviation` that walks
up the parents of the added node.  The argument is the chain of `NextNd`;
`getParent()` is null for a top-level node and for a parent that is gone. -/
def trimLoop (Count : Nat) : IntPath → AbbreviationsCollector → AbbreviationsCollector
  | v :: p :: ps, st =>
    let NextNd := CountNode.Int (v :: p :: ps)
    let Parent := CountNode.Int (p :: ps)
    if st.Root.hasNode Parent = false then st
    else if NextNd ∈ st.TrimmedNodes then st
    else
      let OldCount := st.Root.getCount Parent
      let NewCount := if OldCount > Count then sizeSub OldCount Count else 0
      if OldCount = NewCount then st
      else trimLoop Count (p :: ps) (trimParent getWeight Parent NewCount st)
  | _, st => st

/-- The method `AbbreviationsCollector::addAbbreviation`. -/
def AbbreviationsCollector.addAbbreviation (Flags : CompressionFlags)
    (st : AbbreviationsCollector) (Nd : CountNode) : AbbreviationsCollector :=
  if Nd ∈ st.Assignments then st
  else if Nd.isInt = true ∧ (st.Root.getCount Nd < Flags.CountCutoff ∨
      getWeight Nd (st.Root.getCount Nd) < Flags.WeightCutoff) then st
  else
    let st1 : AbbreviationsCollector := { st with Assignments := st.Assignments ++ [Nd] }
    if Flags.TrimOverriddenPatterns = false then st1
    else
      match Nd with
      | .Int p =>
        let st2 := trimLoop getWeight (st1.Root.getCount Nd) p st1
        { st2 with
          TrimmedNodes := if Nd ∈ st2.TrimmedNodes then st2.TrimmedNodes
                          else st2.TrimmedNodes ++ [Nd] }
      | _ => st1

/-- The first loop of `assignAbbreviations`: the structural singletons that
are used at least once are added. -/
def addOthers (Flags : CompressionFlags) :
    List CountNode → AbbreviationsCollector → AbbreviationsCollector
  | [], st => st
  | Nd :: Others, st =>
    if st.Root.getCount Nd = 0 then addOthers Flags Others st
    else addOthers Flags Others (st.addAbbreviation getWeight Flags Nd)

/-- One round of the selection loop of `assignAbbreviations`: `none` when the
loop condition fails, otherwise the state after `popHeap` and
`addAbbreviation`. -/
def selectStep (Flags : CompressionFlags) (st : AbbreviationsCollector) :
    Option AbbreviationsCollector :=
  match st.ValuesHeap with
  | [] => none
  | Nd :: Heap =>
    if st.Assignments.length < Flags.MaxAbbreviations then
      some (({ st with ValuesHeap := Heap }).addAbbreviation getWeight Flags Nd)
    else none

/-- The selection loop of `assignAbbreviations`, run for at most `fuel`
rounds. -/
def selectLoop (Flags : CompressionFlags) : Nat → AbbreviationsCollector → AbbreviationsCollector
  | 0, st => st
  | fuel + 1, st =>
    match selectStep getWeight Flags st with
    | none => st
    | some st1 => selectLoop Flags fuel st1

/-- A number of rounds after which the selection loop has ended: the entries
in the queue and, for every node that can be pushed again, its count. -/
def selectFuel (st : AbbreviationsCollector) : Nat :=
  st.ValuesHeap.length + (st.HeapEntries.map st.Root.getCount).sum

/-- Modelled from the spec: `HuffmanEncoder::createSymbol` is not part of the
sources.  The symbols are numbered in the order of their creation; the result
is the new state and the number of the new symbol. -/
def createSymbol (st : AbbreviationsCollector) (Weight : Nat) : AbbreviationsCollector × Nat :=
  ({ st with Symbols := st.Symbols ++ [Weight] }, st.Symbols.length)

/-- The last loop of `assignAbbreviations`: the queue is popped until it is
empty and every popped node gets the next symbol.  The first argument is the
queue. -/
def indexLoop : List CountNode → AbbreviationsCollector → AbbreviationsCollector
  | [], st => { st with ValuesHeap := [] }
  | Nd :: Heap, st =>
    let r := createSymbol { st with ValuesHeap := Heap } (st.Root.getCount Nd)
    indexLoop Heap { r.1 with AbbrevIndex := Function.update r.1.AbbrevIndex Nd (some r.2) }

/-- The statements of `assignAbbreviations` up to and including `buildHeap`.
`Collected` stands for what `collectUsingCutoffs` puts into `Values`; that
method is not part of the sources. -/
def assignAbbreviationsInit (Flags : CompressionFlags) (Collected : List CountNode)
    (st : AbbreviationsCollector) : AbbreviationsCollector :=
  let st1 : AbbreviationsCollector := { st with TrimmedNodes := [] }
  let st2 := addOthers getWeight Flags getOthers st1
  let st3 : AbbreviationsCollector := { st2 with Values := Collected }
  st3.buildHeap getWeight

/-- The statements of `assignAbbreviations` through the selection loop. -/
def assignAbbreviationsSelect (Flags : CompressionFlags) (Collected : List CountNode)
    (st : AbbreviationsCollector) : AbbreviationsCollector :=
  let st4 := assignAbbreviationsInit getWeight Flags Collected st
  selectLoop getWeight Flags (selectFuel st4) st4

/-- The method `AbbreviationsCollector::assignAbbreviations`. -/
def AbbreviationsCollector.assignAbbreviations (Flags : CompressionFlags)
    (Collected : List CountNode) (st : AbbreviationsCollector) : AbbreviationsCollector :=
  let st5 := assignAbbreviationsSelect getWeight Flags Collected st
  let st6 : AbbreviationsCollector := { st5 with TrimmedNodes := [] }
  let st7 := st6.Assignments.foldl (fun s Nd => s.pushHeap getWeight Nd) st6
  indexLoop st7.ValuesHeap st7

end Selection

/-! ### What a counting pass adds to the trie

The functions below describe the effect of a pass on the counts; the theorems
relate them to the code. -/

/-- What a pass with `UpToSize == 1` adds to the count of a node. -/
def flatCount (es : List StreamEvent) : CountNode → Nat
  | .Int [v] => es.count (.Value v)
  | .BlockEnter => es.count .BlockEnter
  | .BlockExit => es.count .BlockExit
  | _ => 0

/-- The nodes that the lookup of the top-level node can create. -/
def flatCreated (es : List StreamEvent) : CountNode → Bool
  | .Int [v] => decide (StreamEvent.Value v ∈ es)
  | _ => false

/-- The frontier nodes that one call of `addToUsageMap` extends: none when the
weight of the top-level node of `Value` is below the cutoff, else those of
path length below `UpToSize`. -/
def extended (getWeight : CountNode → Nat → Nat) (CountCutoff UpToSize : Nat)
    (Value : IntType) (Root : RootCountNode) (Frontier : List IntPath) : List IntPath :=
  if getWeight (.Int [Value]) (Root.getCount (.Int [Value])) < CountCutoff then []
  else Frontier.filter (fun Nd => decide (Nd.length < UpToSize))

/-- Whether an occurrence of the value path of `p` that ends at the head of
`run` is counted by a pass with limit `L`: the path lies in the current run,
is no longer than `L`, and all its values pass the filter `good`. -/
def countedAt (good : IntType → Bool) (L : Nat) (p : IntPath) (run : List IntType) : Bool :=
  decide (p <+: run) && (decide (p.length ≤ L) && p.all good)

/-- What one written value adds to the count of a node in a pass with
`UpToSize != 1`; `run` includes the written value. -/
def stepCount (good : IntType → Bool) (L : Nat) (run : List IntType) : CountNode → Nat
  | .Int p => if 2 ≤ p.length ∧ countedAt good L p run = true then 1 else 0
  | _ => 0

/-- The frontier of a pass with `UpToSize != 1` after the values of `run`:
it holds, once each, the nodes of the non-empty starts of `run` that are no
longer than the limit and whose values all pass the filter. -/
def FrontierOK (good : IntType → Bool) (L : Nat) (run : List IntType)
    (F : List IntPath) : Prop :=
  F.Nodup ∧ ∀ q, q ∈ F ↔ (q ≠ [] ∧ q <+: run ∧ q.length ≤ max L 1 ∧ q.all good = true)

/-- The number of occurrences of the value path of `p` that a pass with limit
`L` and filter `good` counts. -/
def countedOccurrencesFrom (good : IntType → Bool) (L : Nat) (p : IntPath) :
    List IntType → List StreamEvent → Nat
  | _, [] => 0
  | run, .Value v :: es =>
    (if countedAt good L p (v :: run) = true then 1 else 0)
      + countedOccurrencesFrom good L p (v :: run) es
  | _, .BlockEnter :: es => countedOccurrencesFrom good L p [] es
  | _, .BlockExit :: es => countedOccurrencesFrom good L p [] es
  | run, .HeaderValue _ _ :: es => countedOccurrencesFrom good L p run es

/-- The values written since the last block marker, the most recent first,
after the traversal `es` that starts with the run `run`. -/
def runAfter : List IntType → List StreamEvent → List IntType
  | run, [] => run
  | run, .Value v :: es => runAfter (v :: run) es
  | _, .BlockEnter :: es => runAfter [] es
  | _, .BlockExit :: es => runAfter [] es
  | run, .HeaderValue _ _ :: es => runAfter run es

/-- What a pass with `UpToSize != 1` adds to the count of a node. -/
def multiCount (good : IntType → Bool) (L : Nat) (run : List IntType)
    (es : List StreamEvent) : CountNode → Nat
  | .Int p => if 2 ≤ p.length then countedOccurrencesFrom good L p run es else 0
  | .BlockEnter => es.count .BlockEnter
  | .BlockExit => es.count .BlockExit
  | _ => 0

/-- The nodes that a pass with `UpToSize != 1` creates when they are absent. -/
def multiCreated (good : IntType → Bool) (L : Nat) (run : List IntType)
    (es : List StreamEvent) : CountNode → Bool
  | .Int p => flatCreated es (.Int p)
      || (decide (2 ≤ p.length) && decide (0 < countedOccurrencesFrom good L p run es))
  | _ => false

/-- The traversal `[1, 2, <enter>, 1, 2, <exit>]`. -/
def blockBoundaryExample : List StreamEvent :=
  [.Value 1, .Value 2, .BlockEnter, .Value 1, .Value 2, .BlockExit]

/-! ### Selection: states of the loop, order of the queue, examples -/

/-- The states at the head of the selection loop of `assignAbbreviations` in
its first `fuel` rounds, the start state first. -/
def selectStates (getWeight : CountNode → Nat → Nat) (Flags : CompressionFlags) :
    Nat → AbbreviationsCollector → List AbbreviationsCollector
  | 0, st => [st]
  | fuel + 1, st =>
    match selectStep getWeight Flags st with
    | none => [st]
    | some st1 => st :: selectStates getWeight Flags fuel st1

/-- The queue is in order: its entries stand in popping order under the
current counts, every entry belongs to a node that holds a handle, and no node
has two entries. -/
def HeapInv (getWeight : CountNode → Nat → Nat) (st : AbbreviationsCollector) : Prop :=
  st.ValuesHeap.Pairwise (popsBefore getWeight st.Root) ∧
  (∀ x ∈ st.ValuesHeap, x ∈ st.HeapEntries) ∧
  st.ValuesHeap.Nodup

/-- A trie for the concrete runs. -/
def exampleRoot : RootCountNode :=
  ((((RootCountNode.empty.setCount (.Int [1]) 5).setCount (.Int [2, 1]) 3).setCount
    (.Int [2]) 4).setCount .DefaultSingle 100).setCount .BlockEnter 1

/-- A trie whose `BlockEnter` and `BlockExit` singletons and whose top-level
node of `7` hold the largest `size_t` count, `2 ^ 64 - 1`. -/
def saturatedRoot : RootCountNode :=
  ((RootCountNode.empty.setCount .BlockEnter (2 ^ 64 - 1)).setCount .BlockExit
    (2 ^ 64 - 1)).setCount (.Int [7]) (2 ^ 64 - 1)

/-- Flags for the concrete runs: both cutoffs 1, at most 10 abbreviations,
trimming of overridden patterns on, patterns of length up to 2, no Huffman
encoding. -/
def exampleFlags : CompressionFlags :=
  { CountCutoff := 1, WeightCutoff := 1, MaxAbbreviations := 10, TrimOverriddenPatterns := true,
    PatternLengthLimit := 2, PatternLengthMultiplier := 2, UseHuffmanEncoding := false }

/-! ### The abbreviation rewriter and the reading grammar -/

/-- Modelled from the spec: the elements of the rewritten integer sequence that
`AbbrevAssignWriter` produces (its implementation file is not part of the
sources): the code of an abbreviation, the default code with the single value
it carries, the structural codes, and the alignment marker. -/
inductive OutputCode where
  | Abbrev (Index : Nat)
  | Default (Value : IntType)
  | BlockEnter
  | BlockExit
  | Align
  deriving DecidableEq, Repr

/-- Modelled from the spec: the state of `AbbrevAssignWriter`.  `Buffer` is
the lookahead buffer, the oldest value first, `BufSize` its capacity,
`AbbrevIndex` the index stored in each node, `Output` the rewritten sequence
and `Header` its header, both in the order written, and `Frozen` tells whether
the output has been frozen. -/
structure AbbrevAssignWriter where
  Root : RootCountNode
  Assignments : List CountNode
  AbbrevIndex : CountNode → Option Nat
  BufSize : Nat
  AssumeByteAlignment : Bool
  Buffer : List IntType
  Output : List OutputCode
  Header : List (IntType × IntTypeFormat)
  Frozen : Bool

/-- Modelled from the spec: the constructor of `AbbrevAssignWriter` as called
by `IntCompressor::generateIntOutput`. -/
def AbbrevAssignWriter.make (Root : RootCountNode) (Assignments : List CountNode)
    (AbbrevIndex : CountNode → Option Nat) (BufSize : Nat) (AssumeByteAlignment : Bool) :
    AbbrevAssignWriter :=
  { Root := Root, Assignments := Assignments, AbbrevIndex := AbbrevIndex, BufSize := BufSize,
    AssumeByteAlignment := AssumeByteAlignment, Buffer := [], Output := [], Header := [],
    Frozen := false }

/-- Modelled from the spec: the longest-match lookup.  The trie is walked from
the root along the buffered values; `Nd` is the node reached so far, `Max` the
last node on the way that is in the assignment set.  The walk stops where the
trie has no child. -/
def longestMatch (Root : RootCountNode) (Assignments : List CountNode) :
    IntPath → List IntType → Option IntPath → Option IntPath
  | _, [], Max => Max
  | Nd, V :: Buffer, Max =>
    if Root.hasNode (.Int (V :: Nd)) = true then
      longestMatch Root Assignments (V :: Nd) Buffer
        (if CountNode.Int (V :: Nd) ∈ Assignments then some (V :: Nd) else Max)
    else Max

/-- Modelled from the spec: `forwardAbbrev`, which emits the code of the
abbreviation, its numeric index. -/
def AbbrevAssignWriter.forwardAbbrev (w : AbbrevAssignWriter) (Abbrev : CountNode) :
    AbbrevAssignWriter :=
  { w with Output := w.Output ++ [.Abbrev ((w.AbbrevIndex Abbrev).getD 0)] }

/-- Modelled from the spec: `forwardOtherValue`, which emits the default code
for a single value. -/
def AbbrevAssignWriter.forwardOtherValue (w : AbbrevAssignWriter) (Value : IntType) :
    AbbrevAssignWriter :=
  { w with Output := w.Output ++ [.Default Value] }

/-- Modelled from the spec: `popValuesFromBuffer`, which removes the oldest
`Size` values from the buffer. -/
def AbbrevAssignWriter.popValuesFromBuffer (w : AbbrevAssignWriter) (Size : Nat) :
    AbbrevAssignWriter :=
  { w with Buffer := w.Buffer.drop Size }

/-- Modelled from the spec: `writeFromBuffer`.  With a longest match, its
abbreviation is emitted and the matched values are removed; without a match
the oldest value is emitted as a default value and removed. -/
def AbbrevAssignWriter.writeFromBuffer (w : AbbrevAssignWriter) : AbbrevAssignWriter :=
  match w.Buffer with
  | [] => w
  | Value :: _ =>
    match longestMatch w.Root w.Assignments [] w.Buffer none with
    | some Max => (w.forwardAbbrev (.Int Max)).popValuesFromBuffer (getPathLength Max)
    | none => (w.forwardOtherValue Value).popValuesFromBuffer 1

/-- Modelled from the spec: `writeUntilBufferEmpty`.  Every call of
`writeFromBuffer` on a buffer that is not empty removes a value, so as many
calls as the buffer holds values empty it. -/
def AbbrevAssignWriter.writeUntilBufferEmpty (w : AbbrevAssignWriter) : AbbrevAssignWriter :=
  (AbbrevAssignWriter.writeFromBuffer)^[w.Buffer.length] w

/-- Modelled from the spec: `bufferValue`.  The value is appended to the
buffer; a buffer at capacity is written from. -/
def AbbrevAssignWriter.bufferValue (w : AbbrevAssignWriter) (Value : IntType) :
    AbbrevAssignWriter :=
  let w1 : AbbrevAssignWriter := { w with Buffer := w.Buffer ++ [Value] }
  if w1.BufSize ≤ w1.Buffer.length then w1.writeFromBuffer else w1

/-- Modelled from the spec: `writeVaruint64`, which buffers the value. -/
def AbbrevAssignWriter.writeVaruint64 (w : AbbrevAssignWriter) (Value : IntType) :
    AbbrevAssignWriter × Bool :=
  (w.bufferValue Value, true)

/-- Modelled from the spec: `alignIfNecessary`, which emits the alignment
marker when the target encoding is not byte aligned. -/
def AbbrevAssignWriter.alignIfNecessary (w : AbbrevAssignWriter) : AbbrevAssignWriter :=
  if w.AssumeByteAlignment = true then w else { w with Output := w.Output ++ [.Align] }

/-- Modelled from the spec: `writeBlockEnter`, a full flush of the buffer, the
alignment marker when needed, then the structural code. -/
def AbbrevAssignWriter.writeBlockEnter (w : AbbrevAssignWriter) : AbbrevAssignWriter × Bool :=
  let w1 := w.writeUntilBufferEmpty.alignIfNecessary
  ({ w1 with Output := w1.Output ++ [.BlockEnter] }, true)

/-- Modelled from the spec: `writeBlockExit`. -/
def AbbrevAssignWriter.writeBlockExit (w : AbbrevAssignWriter) : AbbrevAssignWriter × Bool :=
  let w1 := w.writeUntilBufferEmpty.alignIfNecessary
  ({ w1 with Output := w1.Output ++ [.BlockExit] }, true)

/-- Modelled from the spec: `writeHeaderValue`, which passes the header value
on to the header of the output. -/
def AbbrevAssignWriter.writeHeaderValue (w : AbbrevAssignWriter) (Value : IntType)
    (Format : IntTypeFormat) : AbbrevAssignWriter × Bool :=
  ({ w with Header := w.Header ++ [(Value, Format)] }, true)

/-- Modelled from the spec: `writeFreezeEof`, which drains the buffer and
freezes the output. -/
def AbbrevAssignWriter.writeFreezeEof (w : AbbrevAssignWriter) : AbbrevAssignWriter × Bool :=
  let w1 := w.writeUntilBufferEmpty.alignIfNecessary
  ({ w1 with Frozen := true }, true)

/-- The `Writer` call made for one element of the traversal. -/
def AbbrevAssignWriter.writeEvent (w : AbbrevAssignWriter) :
    StreamEvent → AbbrevAssignWriter × Bool
  | .Value v => w.writeVaruint64 v
  | .BlockEnter => w.writeBlockEnter
  | .BlockExit => w.writeBlockExit
  | .HeaderValue v f => w.writeHeaderValue v f

/-- Modelled from the spec: the traversal of `IntInterpreter::structuralRead`
for the rewriter, which ends with `writeFreezeEof`. -/
def AbbrevAssignWriter.structuralRead (w : AbbrevAssignWriter) :
    List StreamEvent → AbbrevAssignWriter × Bool
  | [] => w.writeFreezeEof
  | e :: es =>
    let r := w.writeEvent e
    if r.2 then AbbrevAssignWriter.structuralRead r.1 es else (r.1, false)

/-- Modelled from the spec: whether the reading grammar generated from the
assignment set has a code for the node: the node is in the assignment set and
has an abbreviation index. -/
def hasCode (Assignments : List CountNode) (AbbrevIndex : CountNode → Option Nat)
    (Nd : CountNode) : Bool :=
  decide (Nd ∈ Assignments) && (AbbrevIndex Nd).isSome

/-- Modelled from the spec: the expansion of one code by the reading grammar
generated from the assignment set.  An abbreviation code expands to the value
path of the assigned node with that index.  The default code, the structural
codes and the alignment marker are the abbreviations of the structural
singletons `DefaultSingle`, `BlockEnter`, `BlockExit` and `Align`: they have
an expansion only when the grammar has a code for the singleton. -/
def expandCode (Assignments : List CountNode) (AbbrevIndex : CountNode → Option Nat) :
    OutputCode → Option (List StreamEvent)
  | .Abbrev i =>
    match Assignments.find? (fun Nd => Nd.isInt && AbbrevIndex Nd == some i) with
    | some (.Int p) => some (p.reverse.map StreamEvent.Value)
    | _ => none
  | .Default v =>
    if hasCode Assignments AbbrevIndex .DefaultSingle = true then some [.Value v] else none
  | .BlockEnter =>
    if hasCode Assignments AbbrevIndex .BlockEnter = true then some [.BlockEnter] else none
  | .BlockExit =>
    if hasCode Assignments AbbrevIndex .BlockExit = true then some [.BlockExit] else none
  | .Align =>
    if hasCode Assignments AbbrevIndex .Align = true then some [] else none

/-- Modelled from the spec: decoding of a rewritten sequence with the reading
grammar; `none` when a code has no expansion. -/
def decode (Assignments : List CountNode) (AbbrevIndex : CountNode → Option Nat) :
    List OutputCode → Option (List StreamEvent)
  | [] => some []
  | c :: cs =>
    match expandCode Assignments AbbrevIndex c, decode Assignments AbbrevIndex cs with
    | some es, some rest => some (es ++ rest)
    | _, _ => none

/-- The values and block markers of a traversal, without the header values. -/
def streamBody (es : List StreamEvent) : List StreamEvent :=
  es.filter (fun e => match e with
    | .HeaderValue _ _ => false
    | _ => true)

/-- The header values of a traversal. -/
def streamHeader (es : List StreamEvent) : List (IntType × IntTypeFormat) :=
  es.filterMap (fun e => match e with
    | .HeaderValue v f => some (v, f)
    | _ => none)

/-- The dictionary is well formed: every assigned node has an index, and no
other assigned node has the same one. -/
def DictOK (Assignments : List CountNode) (AbbrevIndex : CountNode → Option Nat) : Prop :=
  ∀ Nd ∈ Assignments, ∃ i, AbbrevIndex Nd = some i ∧
    ∀ Nd2 ∈ Assignments, AbbrevIndex Nd2 = some i → Nd2 = Nd

/-- The structural singletons whose codes the rewriter emits for the traversal
`es` are in the assignment set: `DefaultSingle`, `Align` when the output is
not byte aligned, and `BlockEnter` and `BlockExit` when the traversal has such
a marker. -/
def SingletonsAssigned (Assignments : List CountNode) (AssumeByteAlignment : Bool)
    (es : List StreamEvent) : Prop :=
  CountNode.DefaultSingle ∈ Assignments ∧
  (AssumeByteAlignment = false → CountNode.Align ∈ Assignments) ∧
  (StreamEvent.BlockEnter ∈ es → CountNode.BlockEnter ∈ Assignments) ∧
  (StreamEvent.BlockExit ∈ es → CountNode.BlockExit ∈ Assignments)

/-- What a state of the rewriter stands for: the expansion of its output
followed by the buffered values. -/
def AbbrevAssignWriter.meaning (w : AbbrevAssignWriter) : Option (List StreamEvent) :=
  (decode w.Assignments w.AbbrevIndex w.Output).map
    (fun es => es ++ w.Buffer.map StreamEvent.Value)

/-! ### The scenario of a repeated pair -/

/-- The traversal `[1, 2, 1, 2, 1, 2, 3]`. -/
def repeatedPairExample : List StreamEvent :=
  [.Value 1, .Value 2, .Value 1, .Value 2, .Value 1, .Value 2, .Value 3]

/-- A weight that is strictly larger for the longer path at every count and
below the cutoff 2 for every top-level node: the path length less one for an
`IntCountNode`, zero for a structural singleton. -/
def weightOfLengthOnly : CountNode → Nat → Nat
  | .Int p, _ => p.length - 1
  | _, _ => 0

/-- The trie after the two counting passes of `IntCompressor::compress` over
`Contents` on an empty trie: `compressUpToSize(1)`, then
`compressUpToSize(PatternLengthLimit)`. -/
def countBothPasses (getWeight : CountNode → Nat → Nat) (CountCutoff PatternLengthLimit : Nat)
    (Contents : List StreamEvent) : RootCountNode :=
  (compressUpToSize getWeight
    (compressUpToSize getWeight RootCountNode.empty CountCutoff 1 Contents).1
    CountCutoff PatternLengthLimit Contents).1

/-! ### Selection in another order -/

/-- The statements of `AbbreviationsCollector::assignAbbreviations` after the
selection loop: the assigned nodes are pushed onto the queue again and the
queue is popped until it is empty.  `Order` is the order in which the
range-based `for` loop visits the Assignment Set. -/
def assignAbbreviationsIndex (getWeight : CountNode → Nat → Nat) (Order : List CountNode)
    (st5 : AbbreviationsCollector) : AbbreviationsCollector :=
  let st6 : AbbreviationsCollector := { st5 with TrimmedNodes := [] }
  let st7 := Order.foldl (fun (s : AbbreviationsCollector) Nd => s.pushHeap getWeight Nd) st6
  indexLoop st7.ValuesHeap st7

/-- Two states of the collector that differ at most in the collected `Values`
and in the order in which the nodes with a queue handle are listed. -/
def SameCollector (s t : AbbreviationsCollector) : Prop :=
  s.Root = t.Root ∧ s.Assignments = t.Assignments ∧ s.TrimmedNodes = t.TrimmedNodes ∧
  s.ValuesHeap = t.ValuesHeap ∧ s.Symbols = t.Symbols ∧ s.AbbrevIndex = t.AbbrevIndex ∧
  ∀ x, x ∈ s.HeapEntries ↔ x ∈ t.HeapEntries

/-- The traversal `[1, 5, 2, 5]`, in which the paths `(1, 5)` and `(2, 5)`
occur once each. -/
def tieExample : List StreamEvent := [.Value 1, .Value 5, .Value 2, .Value 5]

/-- The trie after both counting passes over `tieExample`, with cutoff 1 and
pattern length limit 2. -/
def tieRoot : RootCountNode := countBothPasses weightCountTimesLength 1 2 tieExample

/-! ### The integer stream and its cursors -/

/-- A pointer to a block of an integer stream (`IntStream::BlockPtr`): the top
block of the stream, or the block that was pushed onto `Blocks` as its `i`-th
element. -/
inductive BlockPtr where
  | Top
  | Sub (i : Nat)
  deriving DecidableEq, Repr

/-- The value `std::numeric_limits<size_t>::max()`, which is the end index of
a block that has not been closed (see `IntStream::Block::describe`). -/
def sizeMax : Nat := 2 ^ 64 - 1

/-- The class `IntStream::Block`. -/
structure Block where
  BeginIndex : Nat
  EndIndex : Nat
  Subblocks : List BlockPtr
  deriving DecidableEq, Repr

/-- The constructor `Block(BeginIndex)`, with the end index left open. -/
def Block.make (BeginIndex : Nat) : Block :=
  { BeginIndex := BeginIndex, EndIndex := sizeMax, Subblocks := [] }

/-- The class `IntStream`: the header, the values in the order written, the
top block, the frozen flag, and the blocks in the order opened.  The blocks
are held here and cursors refer to them by `BlockPtr`. -/
structure IntStream where
  Header : List (IntType × IntTypeFormat)
  IsHeaderClosed : Bool
  Values : List IntType
  TopBlock : Block
  isFrozenFlag : Bool
  Blocks : List Block
  deriving DecidableEq, Repr

/-- The constructor of `IntStream`, which calls `IntStream::reset`: a stream
without values and blocks, with a new top block, not frozen. -/
def IntStream.reset : IntStream :=
  { Header := [], IsHeaderClosed := false, Values := [], TopBlock := Block.make 0,
    isFrozenFlag := false, Blocks := [] }

/-- The accessor `IntStream::isFrozen`. -/
def IntStream.isFrozen (s : IntStream) : Bool := s.isFrozenFlag

/-- The block that a pointer refers to. -/
def IntStream.getBlock (s : IntStream) : BlockPtr → Option Block
  | .Top => some s.TopBlock
  | .Sub i => s.Blocks[i]?

/-- The assignment `Blk->EndIndex = EndIndex` through a pointer to a block. -/
def IntStream.setEndIndex (s : IntStream) (Blk : BlockPtr) (EndIndex : Nat) : IntStream :=
  match Blk with
  | .Top => { s with TopBlock := { s.TopBlock with EndIndex := EndIndex } }
  | .Sub i =>
    match s.Blocks[i]? with
    | some b => { s with Blocks := s.Blocks.set i { b with EndIndex := EndIndex } }
    | none => s

/-- The call `Blk->Subblocks.push_back(Sub)` through a pointer to a block. -/
def IntStream.pushSubblock (s : IntStream) (Blk Sub : BlockPtr) : IntStream :=
  match Blk with
  | .Top => { s with TopBlock := { s.TopBlock with Subblocks := s.TopBlock.Subblocks ++ [Sub] } }
  | .Sub i =>
    match s.Blocks[i]? with
    | some b => { s with Blocks := s.Blocks.set i { b with Subblocks := b.Subblocks ++ [Sub] } }
    | none => s

/-- The class `IntStream::Cursor`: the index and the stack of enclosing
blocks, the outermost first (`front()` is the head, `back()` the last
element).  The stream the cursor points to is passed to each method. -/
structure Cursor where
  Index : Nat
  EnclosingBlocks : List BlockPtr
  deriving DecidableEq, Repr

/-- The constructor `Cursor(Stream)`: index 0, inside the top block. -/
def Cursor.make : Cursor := { Index := 0, EnclosingBlocks := [.Top] }

/-- The method `IntStream::Cursor::closeBlock`: a null pointer when at most
one block is enclosing, otherwise the innermost block, which is popped. -/
def Cursor.closeBlock (c : Cursor) : Option BlockPtr × Cursor :=
  if c.EnclosingBlocks.length ≤ 1 then (none, c)
  else (c.EnclosingBlocks.getLast?, { c with EnclosingBlocks := c.EnclosingBlocks.dropLast })

/-- The class `IntStream::WriteCursor`. -/
structure WriteCursor extends Cursor
  deriving DecidableEq, Repr

/-- The constructor `WriteCursor(Stream)`. -/
def WriteCursor.make : WriteCursor := { toCursor := Cursor.make }

/-- The method `IntStream::WriteCursor::write`.  The result is `none` when one
of the two assertions fails. -/
def WriteCursor.write (c : WriteCursor) (s : IntStream) (Value : IntType) :
    Option (Bool × WriteCursor × IntStream) :=
  match c.EnclosingBlocks.getLast? with
  | none => none
  | some Blk =>
    match s.getBlock Blk with
    | none => none
    | some b =>
      if b.EndIndex ≥ c.Index then
        some (true, { c with Index := c.Index + 1 }, { s with Values := s.Values ++ [Value] })
      else none

/-- The method `IntStream::WriteCursor::freezeEof`. -/
def WriteCursor.freezeEof (c : WriteCursor) (s : IntStream) : Bool × IntStream :=
  if s.isFrozen then (false, s)
  else
    (true, c.EnclosingBlocks.foldl (fun (t : IntStream) Blk => t.setEndIndex Blk s.Values.length)
      { s with isFrozenFlag := true })

/-- The method `IntStream::WriteCursor::openBlock`.  The result is `none` when
the assertion on the enclosing blocks fails. -/
def WriteCursor.openBlock (c : WriteCursor) (s : IntStream) :
    Option (Bool × WriteCursor × IntStream) :=
  match c.EnclosingBlocks.getLast? with
  | none => none
  | some CurBlock =>
    let Blk : BlockPtr := .Sub s.Blocks.length
    let s1 := s.pushSubblock CurBlock Blk
    some (true, { c with EnclosingBlocks := c.EnclosingBlocks ++ [Blk] },
      { s1 with Blocks := s1.Blocks ++ [Block.make c.Index] })

/-- The method `IntStream::WriteCursor::closeBlock`. -/
def WriteCursor.closeBlock (c : WriteCursor) (s : IntStream) : Bool × WriteCursor × IntStream :=
  match c.toCursor.closeBlock with
  | (none, _) => (false, c, s)
  | (some Blk, c1) => (true, { c with toCursor := c1 }, s.setEndIndex Blk c.Index)

/-- The class `IntStream::ReadCursor`: a cursor with the position `NextBlock`
in `Blocks` of the next block to open and the position `EndBlocks` of the end
of `Blocks`. -/
structure ReadCursor extends Cursor where
  NextBlock : Nat
  EndBlocks : Nat
  deriving DecidableEq, Repr

/-- The constructor `ReadCursor(Stream)`. -/
def ReadCursor.make (s : IntStream) : ReadCursor :=
  { toCursor := Cursor.make, NextBlock := 0, EndBlocks := s.Blocks.length }

/-- The method `IntStream::ReadCursor::closeBlock`, which leaves the stream as
it is. -/
def ReadCursor.closeBlock (c : ReadCursor) (s : IntStream) : Bool × ReadCursor :=
  match c.toCursor.closeBlock with
  | (none, _) => (false, c)
  | (some Blk, c1) =>
    match s.getBlock Blk with
    | some b => (decide (b.EndIndex = c.Index), { c with toCursor := c1 })
    | none => (false, { c with toCursor := c1 })

/-- A run on a new stream: the value 5 is written, the stream is frozen, and
the value 7 is written.  The result holds what `freezeEof` and the second
`write` return, the values of the stream after `freezeEof`, and its values
after the second `write`. -/
def writeAfterFreezeExample : Option (Bool × Bool × List IntType × List IntType) :=
  match WriteCursor.make.write IntStream.reset 5 with
  | none => none
  | some (_, c1, s1) =>
    match c1.write (c1.freezeEof s1).2 7 with
    | none => none
    | some (r, _, s3) => some ((c1.freezeEof s1).1, r, (c1.freezeEof s1).2.Values, s3.Values)

/-! ### The compressor -/

/-- The steps of `IntCompressor::compress` that call another method of the
compressor. -/
inductive Phase where
  | readInput
  | compressUpToSize (Size : Nat)
  | assignInitialAbbreviations
  | generateIntOutput
  | writeCodeOutput
  | writeDataOutput
  deriving DecidableEq, Repr

/-- What the parts of the pipeline that are not part of the sources do in one
run of `compress`; the compressor is embedded for every value of this record.
* `Contents` is the integer sequence that the interpreter of `readInput`
  writes, `InputSuccessful` its `isFinished() && isSuccessful()`.
* `CountErrors Size` is `Reader.errorsFound()` of the interpreter in
  `compressUpToSize(Size)`, `RewriteErrors` that of `generateIntOutput`.
* `removeSmallSingletonUsageCounts`, `removeAllSmallUsageCounts` and
  `zeroSmallUsageCounts` are the walks of `RemoveNodesVisitor` over the trie.
* `Collected` is the result of `collectUsingCutoffs`.
* `CodeOutput` are the bytes that `CasmWriter::writeBinary` appends for the
  code generated from the assignments, `CodeErrors` its `hasErrors()`.
* `DataOutput` are the bytes that the interpreter of `writeDataOutput`
  appends, `DataSuccessful` its `isFinished() && isSuccessful()`. -/
structure Collaborators where
  Contents : List StreamEvent
  InputSuccessful : Bool
  CountErrors : Nat → Bool
  removeSmallSingletonUsageCounts : RootCountNode → RootCountNode
  removeAllSmallUsageCounts : RootCountNode → RootCountNode
  zeroSmallUsageCounts : RootCountNode → RootCountNode
  Collected : RootCountNode → List CountNode
  RewriteErrors : Bool
  CodeOutput : List CountNode → List Nat
  CodeErrors : Bool
  DataOutput : List OutputCode → List Nat
  DataSuccessful : Bool

/-- The state of `IntCompressor`.  `Contents`, `Root` and `IntOutput` are the
pointers of these names, null before the object is created;
`AbbrevAssignments` is the local variable of `compress`, `AbbrevIndex` the
abbreviation index stored in the nodes of the trie, and `Output` the bytes
written to the output queue.  `Calls` lists the phases that have been
started, in order; it is a record for the theorems and not a member of the
class. -/
structure IntCompressor where
  MyFlags : CompressionFlags
  Contents : Option (List StreamEvent)
  Root : Option RootCountNode
  AbbrevAssignments : Option (List CountNode)
  AbbrevIndex : CountNode → Option Nat
  IntOutput : Option (List OutputCode)
  Output : List Nat
  ErrorsFound : Bool
  Calls : List Phase

/-- The constructor of `IntCompressor`, which sets `ErrorsFound(false)`. -/
def IntCompressor.make (MyFlags : CompressionFlags) : IntCompressor :=
  { MyFlags := MyFlags, Contents := none, Root := none, AbbrevAssignments := none,
    AbbrevIndex := fun _ => none, IntOutput := none, Output := [], ErrorsFound := false,
    Calls := [] }

/-- Modelled from the spec: the accessor `errorsFound()`, the error flag that
the caller can check.  The header in the sources belongs to an older version
of the class; `compress` tests the accessor right after `readInput`, which
reports a failure by setting `ErrorsFound`. -/
def IntCompressor.errorsFound (c : IntCompressor) : Bool := c.ErrorsFound

/-- The method `IntCompressor::getRoot`, which creates the trie on first
use. -/
def IntCompressor.getRoot (c : IntCompressor) : IntCompressor × RootCountNode :=
  match c.Root with
  | some Root => (c, Root)
  | none => ({ c with Root := some RootCountNode.empty }, RootCountNode.empty)

/-- The method `IntCompressor::readInput`. -/
def IntCompressor.readInput (co : Collaborators) (c : IntCompressor) : IntCompressor :=
  let c1 : IntCompressor :=
    { c with Contents := some co.Contents, Calls := c.Calls ++ [.readInput] }
  if co.InputSuccessful = false then { c1 with ErrorsFound := true } else c1

/-- The method `IntCompressor::compressUpToSize` on the state of the
compressor: the counting pass on the trie of `getRoot()`; the result is
`!Reader.errorsFound()`. -/
def IntCompressor.compressUpToSize (getWeight : CountNode → Nat → Nat) (co : Collaborators)
    (c : IntCompressor) (Size : Nat) : IntCompressor × Bool :=
  let g := c.getRoot
  let c0 : IntCompressor := g.1
  let r := intcomp.compressUpToSize getWeight g.2 c0.MyFlags.CountCutoff Size
    (c0.Contents.getD [])
  ({ c0 with Root := some r.1, Calls := c0.Calls ++ [.compressUpToSize Size] },
    r.2 && !co.CountErrors Size)

/-- The statements of `compress` that give the default patterns a count
before the selection: 100 for `DefaultSingle` and `DefaultMultiple`, and 1
for `Align` when Huffman encoding is used. -/
def seedDefaultCounts (MyFlags : CompressionFlags) (Root : RootCountNode) : RootCountNode :=
  let r1 := (Root.setCount .DefaultSingle 100).setCount .DefaultMultiple 100
  if MyFlags.UseHuffmanEncoding = true then r1.setCount .Align 1 else r1

/-- The method `IntCompressor::assignInitialAbbreviations`, called by
`compress` on an empty assignment set. -/
def IntCompressor.assignInitialAbbreviations (getWeight : CountNode → Nat → Nat)
    (co : Collaborators) (c : IntCompressor) (Assignments : List CountNode) : IntCompressor :=
  let g := c.getRoot
  let c0 : IntCompressor := g.1
  let Collector := (AbbreviationsCollector.make g.2 Assignments).assignAbbreviations getWeight
    c0.MyFlags (co.Collected g.2)
  { c0 with
    Root := some Collector.Root, AbbrevAssignments := some Collector.Assignments,
    AbbrevIndex := Collector.AbbrevIndex,
    Calls := c0.Calls ++ [.assignInitialAbbreviations] }

/-- The method `IntCompressor::generateIntOutput`: the rewriting pass over
`Contents` into `IntOutput`; the result is `!Interp.errorsFound()`.  The
assertion `IntOutput->isFrozen()` is left out; the traversal of the rewriter
ends with `writeFreezeEof`. -/
def IntCompressor.generateIntOutput (co : Collaborators) (c : IntCompressor) :
    IntCompressor × Bool :=
  let Writer := AbbrevAssignWriter.make (c.Root.getD RootCountNode.empty)
    (c.AbbrevAssignments.getD []) c.AbbrevIndex
    (c.MyFlags.PatternLengthLimit * c.MyFlags.PatternLengthMultiplier)
    (!c.MyFlags.UseHuffmanEncoding)
  let r := Writer.structuralRead (c.Contents.getD [])
  ({ c with IntOutput := some r.1.Output, Calls := c.Calls ++ [.generateIntOutput] },
    r.2 && !co.RewriteErrors)

/-- The method `IntCompressor::writeCodeOutput`.  The `CasmWriter` is local
to the method and only the write position is returned, so `co.CodeErrors` is
not read. -/
def IntCompressor.writeCodeOutput (co : Collaborators) (c : IntCompressor) : IntCompressor :=
  { c with
    Output := c.Output ++ co.CodeOutput (c.AbbrevAssignments.getD []),
    Calls := c.Calls ++ [.writeCodeOutput] }

/-- The method `IntCompressor::writeDataOutput`. -/
def IntCompressor.writeDataOutput (co : Collaborators) (c : IntCompressor) : IntCompressor :=
  let c1 : IntCompressor :=
    { c with
      Output := c.Output ++ co.DataOutput (c.IntOutput.getD []),
      Calls := c.Calls ++ [.writeDataOutput] }
  if co.DataSuccessful = false then { c1 with ErrorsFound := true } else c1

/-- The statements of `compress` from the seeding of the default patterns to
its end. -/
def IntCompressor.compressSelected (getWeight : CountNode → Nat → Nat) (co : Collaborators)
    (c : IntCompressor) : IntCompressor :=
  let c1 : IntCompressor := { c with Root := c.Root.map (seedDefaultCounts c.MyFlags) }
  let c2 := c1.assignInitialAbbreviations getWeight co []
  let c3 : IntCompressor := { c2 with Root := c2.Root.map co.zeroSmallUsageCounts }
  let c4 : IntCompressor := { c3 with IntOutput := some [] }
  let r5 := c4.generateIntOutput co
  if r5.2 = false then r5.1
  else
    let c6 := r5.1.writeCodeOutput co
    if c6.errorsFound = true then c6
    else c6.writeDataOutput co

/-- The method `IntCompressor::compress`. -/
def IntCompressor.compress (getWeight : CountNode → Nat → Nat) (co : Collaborators)
    (c : IntCompressor) : IntCompressor :=
  let c1 := c.readInput co
  if c1.errorsFound = true then c1
  else
    let r2 := c1.compressUpToSize getWeight co 1
    let c2 : IntCompressor := r2.1
    if r2.2 = false then c2
    else
      let c3 : IntCompressor :=
        { c2 with Root := c2.Root.map co.removeSmallSingletonUsageCounts }
      if c3.MyFlags.PatternLengthLimit > 1 then
        let r4 := c3.compressUpToSize getWeight co c3.MyFlags.PatternLengthLimit
        let c4 : IntCompressor := r4.1
        if r4.2 = false then c4
        else
          IntCompressor.compressSelected getWeight co
            { c4 with Root := c4.Root.map co.removeAllSmallUsageCounts }
      else IntCompressor.compressSelected getWeight co c3

/-- Collaborators under which every phase succeeds: the input is the
traversal `[1, 2, 1, 2]`, nothing is removed from the trie, the three integer
nodes are collected, and the two writers append the bytes 1 and 2. -/
def quietCollaborators : Collaborators :=
  { Contents := [.Value 1, .Value 2, .Value 1, .Value 2], InputSuccessful := true,
    CountErrors := fun _ => false, removeSmallSingletonUsageCounts := fun Root => Root,
    removeAllSmallUsageCounts := fun Root => Root, zeroSmallUsageCounts := fun Root => Root,
    Collected := fun _ => [.Int [1], .Int [2], .Int [2, 1]], RewriteErrors := false,
    CodeOutput := fun _ => [1], CodeErrors := false, DataOutput := fun _ => [2],
    DataSuccessful := true }

/-! ### Trimming -/

/-- A trie in which the path `(1, 2, 3)` has count 3, its parent `(1, 2)`
count 0 and the top-level node `1` count 5. -/
def zeroParentRoot : RootCountNode :=
  ((RootCountNode.empty.setCount (.Int [1]) 5).setCount (.Int [2, 1]) 0).setCount
    (.Int [3, 2, 1]) 3

/-! ### The cutoffs of the selection -/

/-- Every integer node of the Assignment Set passes both cutoffs with its
current count and weight. -/
def CutoffsHold (getWeight : CountNode → Nat → Nat) (Flags : CompressionFlags)
    (st : AbbreviationsCollector) : Prop :=
  ∀ p : IntPath, CountNode.Int p ∈ st.Assignments →
    Flags.CountCutoff ≤ st.Root.getCount (.Int p) ∧
    Flags.WeightCutoff ≤ getWeight (.Int p) (st.Root.getCount (.Int p))

/-! ### Longest match in the rewriter -/

/-- The buffered prefix of length `k` matches from the node `Nd`: the walk
along the first `k` buffered values finds a trie node at every step, and the
node reached is in the assignment set. -/
def MatchesFrom (Root : RootCountNode) (Assignments : List CountNode) (Nd : IntPath)
    (Buffer : List IntType) (k : Nat) : Prop :=
  1 ≤ k ∧ k ≤ Buffer.length ∧
    (∀ j, j < k → Root.hasNode (.Int ((Buffer.take (j + 1)).reverse ++ Nd)) = true) ∧
    CountNode.Int ((Buffer.take k).reverse ++ Nd) ∈ Assignments

/-- The trie node of the buffered prefix of length `k`, the path of its
values with the last one first. -/
def prefixNode (Buffer : List IntType) (k : Nat) : CountNode :=
  .Int (Buffer.take k).reverse

/-- The buffered prefix of length `k` has a trie node, reached from the root
through the nodes of the shorter prefixes, and that node is in the assignment
set. -/
def PrefixMatches (Root : RootCountNode) (Assignments : List CountNode)
    (Buffer : List IntType) (k : Nat) : Prop :=
  1 ≤ k ∧ k ≤ Buffer.length ∧
    (∀ j, j < k → Root.hasNode (prefixNode Buffer (j + 1)) = true) ∧
    prefixNode Buffer k ∈ Assignments

instance prefixMatchesDecidable (Root : RootCountNode) (Assignments : List CountNode)
    (Buffer : List IntType)
    (k : Nat) : Decidable (PrefixMatches Root Assignments Buffer k) := by
  unfold PrefixMatches
  infer_instance

/-- The flags of the scenario of a repeated pair: both cutoffs 2. -/
def repeatedPairFlags : CompressionFlags :=
  { exampleFlags with CountCutoff := 2, WeightCutoff := 2 }

/-- The collaborators of the scenario of a repeated pair: the input is
`[1, 2, 1, 2, 1, 2, 3]`, the nodes of the paths of length up to 2 over the
values 1 and 2 and the node of 3 are collected, and nothing fails. -/
def repeatedPairCollaborators : Collaborators :=
  { quietCollaborators with
    Contents := repeatedPairExample,
    Collected := fun _ => [.Int [1], .Int [2], .Int [3], .Int [2, 1], .Int [1, 2]] }

/-- The run of `IntCompressor::compress` in the scenario of a repeated pair. -/
def repeatedPairRun : IntCompressor :=
  (IntCompressor.make repeatedPairFlags).compress weightCountTimesLength
    repeatedPairCollaborators

/-- A rewriter for the scenario of a repeated pair: the trie of the two
counting passes, the node of the path 1, 2 selected with the index 2, and the
values 1, 2, 1 buffered. -/
def repeatedPairWriter : AbbrevAssignWriter :=
  { Root := countBothPasses weightCountTimesLength 2 2 repeatedPairExample,
    Assignments := [.Int [2, 1]],
    AbbrevIndex := fun Nd => if Nd = .Int [2, 1] then some 2 else none,
    BufSize := 4, AssumeByteAlignment := true, Buffer := [1, 2, 1], Output := [], Header := [],
    Frozen := false }

/-! ### A stream to freeze -/

/-- A stream with the values 5 and 6 and one block, opened at index 1, and the
write cursor that has written it and stands inside that block. -/
def freezeExampleStream : IntStream :=
  { Header := [], IsHeaderClosed := false, Values := [5, 6],
    TopBlock := { BeginIndex := 0, EndIndex := sizeMax, Subblocks := [.Sub 0] },
    isFrozenFlag := false, Blocks := [Block.make 1] }

/-- The write cursor of `freezeExampleStream`. -/
def freezeExampleCursor : WriteCursor :=
  { Index := 2, EnclosingBlocks := [.Top, .Sub 0] }

/-! ### The circular vector -/

/-- The class template `utils::circular_vector<T>`: the backing vector
`contents` and the three `size_t` fields. -/
structure circular_vector (T : Type) where
  contents : List T
  vector_max_size : Nat
  start_index : Nat
  vector_size : Nat
  deriving DecidableEq, Repr

/-- The private method `prefill`: the backing vector is emptied and filled
with `vector_max_size` default values. -/
def circular_vector.prefill {T : Type} [Inhabited T] (cv : circular_vector T) :
    circular_vector T :=
  { cv with contents := List.replicate cv.vector_max_size default }

/-- The constructor `circular_vector(vector_max_size)`. -/
def circular_vector.make {T : Type} [Inhabited T] (vector_max_size : Nat) :
    circular_vector T :=
  circular_vector.prefill
    { contents := [], vector_max_size := vector_max_size, start_index := 0, vector_size := 0 }

/-- The method `size`. -/
def circular_vector.size {T : Type} (cv : circular_vector T) : Nat := cv.vector_size

/-- The method `max_size`. -/
def circular_vector.max_size {T : Type} (cv : circular_vector T) : Nat := cv.vector_max_size

/-- The method `empty`. -/
def circular_vector.empty {T : Type} (cv : circular_vector T) : Bool :=
  decide (cv.vector_size = 0)

/-- The private method `get_index`, `(start_index + n) % vector_max_size` in
`size_t` arithmetic: the sum wraps at `2 ^ 64`. -/
def circular_vector.get_index {T : Type} (cv : circular_vector T) (n : Nat) : Nat :=
  ((cv.start_index + n) % 2 ^ 64) % cv.vector_max_size

/-- The method `at` (and `operator[]`) used to read: `contents.at(get_index(n))`,
which throws `std::out_of_range`, here `none`, when the index is not inside
the backing vector. -/
def circular_vector.getAt {T : Type} (cv : circular_vector T) (n : Nat) : Option T :=
  cv.contents[cv.get_index n]?

/-- The assignment `at(n) = v`, with `none` when `contents.at` throws. -/
def circular_vector.setAt {T : Type} (cv : circular_vector T) (n : Nat) (v : T) :
    Option (circular_vector T) :=
  if cv.get_index n < cv.contents.length then
    some { cv with contents := cv.contents.set (cv.get_index n) v }
  else none

/-- The private method `inc_start_index`. -/
def circular_vector.inc_start_index {T : Type} (cv : circular_vector T) : circular_vector T :=
  { cv with start_index := ((cv.start_index + 1) % 2 ^ 64) % cv.vector_max_size }

/-- The private method `dec_start_index`. -/
def circular_vector.dec_start_index {T : Type} (cv : circular_vector T) : circular_vector T :=
  if cv.start_index = 0 then
    { cv with start_index := (cv.vector_max_size + 2 ^ 64 - 1) % 2 ^ 64 }
  else { cv with start_index := cv.start_index - 1 }

/-- The method `push_front`. -/
def circular_vector.push_front {T : Type} (cv : circular_vector T) (v : T) :
    Option (circular_vector T) :=
  let cv1 : circular_vector T :=
    if cv.vector_size < cv.vector_max_size then { cv with vector_size := cv.vector_size + 1 }
    else cv
  cv1.dec_start_index.setAt 0 v

/-- The method `push_back`. -/
def circular_vector.push_back {T : Type} (cv : circular_vector T) (v : T) :
    Option (circular_vector T) :=
  if cv.vector_size < cv.vector_max_size then
    (cv.setAt cv.vector_size v).map (fun cv1 => { cv1 with vector_size := cv1.vector_size + 1 })
  else (cv.setAt 0 v).map circular_vector.inc_start_index

/-- The method `pop_front`, with `none` when the assertion fails. -/
def circular_vector.pop_front {T : Type} (cv : circular_vector T) :
    Option (circular_vector T) :=
  if cv.vector_size > 0 then
    some (circular_vector.inc_start_index { cv with vector_size := cv.vector_size - 1 })
  else none

/-- The method `pop_back`, with `none` when the assertion fails. -/
def circular_vector.pop_back {T : Type} (cv : circular_vector T) :
    Option (circular_vector T) :=
  if cv.vector_size > 0 then some { cv with vector_size := cv.vector_size - 1 } else none

/-- The method `clear`. -/
def circular_vector.clear {T : Type} (cv : circular_vector T) : circular_vector T :=
  { cv with contents := [], start_index := 0, vector_size := 0 }

/-- The elements `at(0)`, ..., `at(size() - 1)`. -/
def circular_vector.elements {T : Type} (cv : circular_vector T) : List (Option T) :=
  (List.range cv.size).map cv.getAt

/-- The four operations that change a circular vector element by element. -/
inductive DequeOp (T : Type) where
  | push_back (v : T)
  | push_front (v : T)
  | pop_front
  | pop_back
  deriving DecidableEq, Repr

/-- One operation on a circular vector. -/
def circular_vector.apply {T : Type} (cv : circular_vector T) :
    DequeOp T → Option (circular_vector T)
  | .push_back v => cv.push_back v
  | .push_front v => cv.push_front v
  | .pop_front => cv.pop_front
  | .pop_back => cv.pop_back

/-- A sequence of operations on a circular vector, `none` when one fails. -/
def circular_vector.run {T : Type} (cv : circular_vector T) :
    List (DequeOp T) → Option (circular_vector T)
  | [] => some cv
  | op :: ops =>
    match cv.apply op with
    | some cv1 => circular_vector.run cv1 ops
    | none => none

/-- The list model of the specification, one operation: `push_back` appends
and drops the first element when the length would exceed `c`, `push_front`
prepends and drops the last element when the length would exceed `c`, and the
pops remove the first or the last element of a list that is not empty. -/
def boundedDequeApply {T : Type} (c : Nat) (l : List T) : DequeOp T → Option (List T)
  | .push_back v => some (if c < (l ++ [v]).length then (l ++ [v]).drop 1 else l ++ [v])
  | .push_front v => some (if c < (v :: l).length then (v :: l).dropLast else v :: l)
  | .pop_front => if l.length = 0 then none else some (l.drop 1)
  | .pop_back => if l.length = 0 then none else some l.dropLast

/-- The list model of the specification, a sequence of operations. -/
def boundedDequeRun {T : Type} (c : Nat) (l : List T) : List (DequeOp T) → Option (List T)
  | [] => some l
  | op :: ops =>
    match boundedDequeApply c l op with
    | some l1 => boundedDequeRun c l1 ops
    | none => none

/-- The circular vector `cv` of maximum size `c` holds the list `l`. -/
def Holds {T : Type} (c : Nat) (cv : circular_vector T) (l : List T) : Prop :=
  cv.vector_max_size = c ∧ cv.contents.length = c ∧ cv.start_index < c ∧
  cv.vector_size = l.length ∧ l.length ≤ c ∧
  ∀ n, n < l.length → cv.contents[(cv.start_index + n) % c]? = l[n]?

/-! ### The rounds of the trim walks -/

/-- One round of the walk of `addAbbreviation` that computes `NewCount`: the
parent, its count `OldCount` at that point, and the count `Count` of the added
node that is subtracted. -/
structure TrimStep where
  Parent : CountNode
  OldCount : Nat
  Count : Nat
  deriving DecidableEq, Repr

/-- The rounds of the `while` loop of `addAbbreviation` that compute
`NewCount`, in order; it follows `trimLoop` and records each of them,
the round that leaves the loop with `OldCount == NewCount` included. -/
def trimSteps (getWeight : CountNode → Nat → Nat) (Count : Nat) :
    IntPath → AbbreviationsCollector → List TrimStep
  | v :: p :: ps, st =>
    let NextNd := CountNode.Int (v :: p :: ps)
    let Parent := CountNode.Int (p :: ps)
    if st.Root.hasNode Parent = false then []
    else if NextNd ∈ st.TrimmedNodes then []
    else
      let OldCount := st.Root.getCount Parent
      let NewCount := if OldCount > Count then sizeSub OldCount Count else 0
      { Parent := Parent, OldCount := OldCount, Count := Count } ::
        (if OldCount = NewCount then []
        else trimSteps getWeight Count (p :: ps) (trimParent getWeight Parent NewCount st))
  | _, _ => []

/-- The rounds of the walk made by one call of `addAbbreviation`; it follows
the tests of that method. -/
def addAbbreviationSteps (getWeight : CountNode → Nat → Nat) (Flags : CompressionFlags)
    (st : AbbreviationsCollector) (Nd : CountNode) : List TrimStep :=
  if Nd ∈ st.Assignments then []
  else if Nd.isInt = true ∧ (st.Root.getCount Nd < Flags.CountCutoff ∨
      getWeight Nd (st.Root.getCount Nd) < Flags.WeightCutoff) then []
  else if Flags.TrimOverriddenPatterns = false then []
  else
    match Nd with
    | .Int p =>
      trimSteps getWeight (st.Root.getCount Nd) p
        { st with Assignments := st.Assignments ++ [Nd] }
    | _ => []

/-- The rounds of all walks made in the first `fuel` rounds of the selection
loop of `assignAbbreviations`, in order. -/
def selectSteps (getWeight : CountNode → Nat → Nat) (Flags : CompressionFlags) :
    Nat → AbbreviationsCollector → List TrimStep
  | 0, _ => []
  | fuel + 1, st =>
    match st.ValuesHeap with
    | [] => []
    | Nd :: Heap =>
      if st.Assignments.length < Flags.MaxAbbreviations then
        addAbbreviationSteps getWeight Flags { st with ValuesHeap := Heap } Nd
          ++ selectSteps getWeight Flags fuel
            (({ st with ValuesHeap := Heap }).addAbbreviation getWeight Flags Nd)
      else []

/-- The total amount that the rounds `steps` subtract from the node `x`. -/
def subtractedFrom (x : CountNode) (steps : List TrimStep) : Nat :=
  ((steps.filter (fun s => decide (s.Parent = x))).map TrimStep.Count).sum

/-- The sum of the counts of the children of the node of the chain `p` for the
values `us`, the children in `Marked` left out. -/
def childSum (Marked : List CountNode) (Root : RootCountNode) (p : IntPath)
    (us : List IntType) : Nat :=
  (us.map (fun u => if CountNode.Int (u :: p) ∈ Marked then 0
    else Root.getCount (.Int (u :: p)))).sum

/-- The trie is consistent: the count of every `IntCountNode` is at least the
sum of the counts of its children, taken over any list of distinct values. -/
def TrieConsistent (Root : RootCountNode) : Prop :=
  ∀ p : IntPath, p ≠ [] → ∀ us : List IntType, us.Nodup →
    (us.map (fun u => Root.getCount (.Int (u :: p)))).sum ≤ Root.getCount (.Int p)

/-- The trie is consistent up to the marked nodes: the count of every
`IntCountNode` is at least the sum of the counts of its children that are not
marked. -/
def ConsistentUpTo (Marked : List CountNode) (Root : RootCountNode) : Prop :=
  ∀ p : IntPath, p ≠ [] → ∀ us : List IntType, us.Nodup →
    childSum Marked Root p us ≤ Root.getCount (.Int p)

/-- A consistent trie in which the node of the path `(1, 2)` has count 3 and
its parent count 5. -/
def consistentExample : RootCountNode :=
  (RootCountNode.empty.setCount (.Int [1]) 5).setCount (.Int [2, 1]) 3

/-! ### Reading a stream back -/

/-- The method `IntStream::Cursor::atEof`, with `none` when the assertion
fails. -/
def Cursor.atEof (c : Cursor) (s : IntStream) : Option Bool :=
  match c.EnclosingBlocks.head? with
  | none => none
  | some Blk =>
    match s.getBlock Blk with
    | none => none
    | some b => some (decide (c.Index ≥ b.EndIndex))

/-- The method `IntStream::Cursor::atEob`, with `none` when the assertion
fails. -/
def Cursor.atEob (c : Cursor) (s : IntStream) : Option Bool :=
  match c.EnclosingBlocks.getLast? with
  | none => none
  | some Blk =>
    match s.getBlock Blk with
    | none => none
    | some b => some (decide (c.Index ≥ b.EndIndex))

/-- The method `IntStream::Cursor::atEnd`; `atEof` is only called when exactly
one block is enclosing. -/
def Cursor.atEnd (c : Cursor) (s : IntStream) : Option Bool :=
  if c.EnclosingBlocks.length = 1 then c.atEof s else some false

/-- The method `IntStream::ReadCursor::read`, with `none` when one of the
three assertions fails. -/
def ReadCursor.read (c : ReadCursor) (s : IntStream) : Option (IntType × ReadCursor) :=
  match c.EnclosingBlocks.getLast? with
  | none => none
  | some Blk =>
    match s.getBlock Blk with
    | none => none
    | some b =>
      if b.EndIndex ≥ c.Index then
        match s.Values[c.Index]? with
        | some Value => some (Value, { c with Index := c.Index + 1 })
        | none => none
      else none

/-- The method `IntStream::ReadCursor::openBlock`, with `none` when the
assertion fails or `NextBlock` does not point into `Blocks`. -/
def ReadCursor.openBlock (c : ReadCursor) (s : IntStream) : Option (Bool × ReadCursor) :=
  if c.NextBlock = c.EndBlocks then some (false, c)
  else
    match s.Blocks[c.NextBlock]? with
    | none => none
    | some Blk =>
      if c.Index ≠ Blk.BeginIndex then some (false, c)
      else
        match c.EnclosingBlocks.getLast? with
        | none => none
        | some _ =>
          some (true, { c with
            EnclosingBlocks := c.EnclosingBlocks ++ [.Sub c.NextBlock],
            NextBlock := c.NextBlock + 1 })

/-- The operations of a cursor on an integer stream that a round trip is
made of. -/
inductive CursorOp where
  | write (Value : IntType)
  | openBlock
  | closeBlock
  deriving DecidableEq, Repr

/-- One operation of a write cursor; what the method returns is dropped. -/
def WriteCursor.apply (c : WriteCursor) (s : IntStream) :
    CursorOp → Option (WriteCursor × IntStream)
  | .write Value => (c.write s Value).map (fun r => r.2)
  | .openBlock => (c.openBlock s).map (fun r => r.2)
  | .closeBlock => some (c.closeBlock s).2

/-- A sequence of operations of a write cursor, `none` when an assertion
fails. -/
def WriteCursor.run (c : WriteCursor) (s : IntStream) :
    List CursorOp → Option (WriteCursor × IntStream)
  | [] => some (c, s)
  | op :: ops =>
    match c.apply s op with
    | none => none
    | some r => WriteCursor.run r.1 r.2 ops

/-- What a method of a read cursor returns: a value, or true or false. -/
inductive ReadResult where
  | value (Value : IntType)
  | result (b : Bool)
  deriving DecidableEq, Repr

/-- The operation of a read cursor that replays an operation of a write
cursor: `read` for `write`, and the method of the same name for the other
two. -/
def ReadCursor.apply (c : ReadCursor) (s : IntStream) :
    CursorOp → Option (ReadResult × ReadCursor)
  | .write _ => (c.read s).map (fun r => (.value r.1, r.2))
  | .openBlock => (c.openBlock s).map (fun r => (.result r.1, r.2))
  | .closeBlock => some (.result (c.closeBlock s).1, (c.closeBlock s).2)

/-- The replay of a sequence of operations on a read cursor: what the methods
return, in order, and the cursor at the end; `none` when an assertion
fails. -/
def ReadCursor.replay (c : ReadCursor) (s : IntStream) :
    List CursorOp → Option (List ReadResult × ReadCursor)
  | [] => some ([], c)
  | op :: ops =>
    match c.apply s op with
    | none => none
    | some r =>
      match ReadCursor.replay r.2 s ops with
      | none => none
      | some rs => some (r.1 :: rs.1, rs.2)

/-- What a replay that succeeds step by step returns: the value written for a
`write`, and true for `openBlock` and `closeBlock`. -/
def expectedResults : List CursorOp → List ReadResult
  | [] => []
  | .write Value :: ops => .value Value :: expectedResults ops
  | _ :: ops => .result true :: expectedResults ops

/-- A sequence of operations is well nested at depth `d`: no `closeBlock`
comes without an open block, and every block opened, as the `d` blocks open
at the start, is closed by the end. -/
def wellNested : Nat → List CursorOp → Bool
  | d, [] => decide (d = 0)
  | d, .write _ :: ops => wellNested d ops
  | d, .openBlock :: ops => wellNested (d + 1) ops
  | 0, .closeBlock :: _ => false
  | d + 1, .closeBlock :: ops => wellNested d ops

/-- The state of a write cursor on a stream that it alone has written: the
index is the number of values, the stream is not frozen, the enclosing blocks
are the top block followed by distinct blocks of the stream, and all of them
are open. -/
def WriteInv (c : WriteCursor) (s : IntStream) : Prop :=
  c.Index = s.Values.length ∧ s.isFrozenFlag = false ∧ c.EnclosingBlocks.Nodup ∧
  (∃ rest, c.EnclosingBlocks = .Top :: rest ∧
    ∀ B ∈ rest, ∃ i, B = .Sub i ∧ i < s.Blocks.length) ∧
  ∀ B ∈ c.EnclosingBlocks, ∃ b, s.getBlock B = some b ∧ b.EndIndex = sizeMax

/-- The read cursor that has replayed what the write cursor `c` has done on
the stream `s`, on a stream with `EndBlocks` blocks. -/
def readCursorOf (c : WriteCursor) (s : IntStream) (EndBlocks : Nat) : ReadCursor :=
  { toCursor := c.toCursor, NextBlock := s.Blocks.length, EndBlocks := EndBlocks }

/-- A sequence of operations with two nested blocks. -/
def roundTripExample : List CursorOp :=
  [.write 7, .openBlock, .write 8, .openBlock, .closeBlock, .write 9, .closeBlock, .write 10]

/-- The later stream `t` extends what the write cursor `c` has done on the
stream `s`: the values of `s` come first, the blocks that `c` has left are as
they were, every block has the begin index it had, and the blocks that
enclose `c` end at its index or later. -/
def Extends (c : WriteCursor) (s t : IntStream) : Prop :=
  s.Values <+: t.Values ∧
  (∀ B b, s.getBlock B = some b → B ∉ c.EnclosingBlocks → t.getBlock B = some b) ∧
  (∀ B b, s.getBlock B = some b → ∃ b2, t.getBlock B = some b2 ∧ b2.BeginIndex = b.BeginIndex) ∧
  (∀ B ∈ c.EnclosingBlocks, ∃ b, t.getBlock B = some b ∧ c.Index ≤ b.EndIndex) ∧
  s.Blocks.length ≤ t.Blocks.length

/-! ### Writing a block of the binary output -/

/-- The write cursor of namespace `decode` on a byte queue.  Its header and
the queue (`stream/WriteCursor.h`, `stream/Queue.h`) are not part of the
sources: the cursor is its current address, and the queue, a list of bytes by
address, is passed to each method. -/
structure decode.WriteCursor where
  CurAddress : Nat
  deriving DecidableEq, Repr

/-- The read cursor of namespace `decode` on a byte queue, its current
address. -/
structure decode.ReadCursor where
  CurAddress : Nat
  deriving DecidableEq, Repr

/-- The method `getCurAddress`. -/
def decode.WriteCursor.getCurAddress (Pos : decode.WriteCursor) : Nat := Pos.CurAddress

/-- The method `writeByte`: the byte at the current address is replaced, or
appended when the cursor is at the end of the queue, and the cursor moves on
by one; `none` for a cursor beyond the end of the queue. -/
def decode.WriteCursor.writeByte (Pos : decode.WriteCursor) (Que : List Nat) (Byte : Nat) :
    Option (decode.WriteCursor × List Nat) :=
  if Pos.CurAddress ≤ Que.length then
    some ({ CurAddress := Pos.CurAddress + 1 },
      Que.take Pos.CurAddress ++ Byte :: Que.drop (Pos.CurAddress + 1))
  else none

/-- The method `readByte`: the byte at the current address, zero at the end
of the queue, and the cursor moves on by one. -/
def decode.ReadCursor.readByte (Pos : decode.ReadCursor) (Que : List Nat) :
    Nat × decode.ReadCursor :=
  (Que[Pos.CurAddress]?.getD 0, { CurAddress := Pos.CurAddress + 1 })

/-- The bytes `Bytes` written one after the other with `writeByte`. -/
def writeBytes : decode.WriteCursor → List Nat → List Nat →
    Option (decode.WriteCursor × List Nat)
  | Pos, Que, [] => some (Pos, Que)
  | Pos, Que, Byte :: Bytes =>
    match Pos.writeByte Que Byte with
    | none => none
    | some r => writeBytes r.1 r.2 Bytes

/-- The method `ByteWriteStream::getStreamAddress`. -/
def ByteWriteStream.getStreamAddress (Pos : decode.WriteCursor) : Nat := Pos.getCurAddress

/-- The method `ByteWriteStream::writeFixedBlockSize`.  The function
`writeFixedVaruint32` is not part of the sources; `fixedVaruint32` gives the
bytes that it writes for a value. -/
def ByteWriteStream.writeFixedBlockSize (fixedVaruint32 : Nat → List Nat)
    (Pos : decode.WriteCursor) (Que : List Nat) (BlockSize : Nat) :
    Option (decode.WriteCursor × List Nat) :=
  writeBytes Pos Que (fixedVaruint32 BlockSize)

/-- The method `ByteWriteStream::writeVarintBlockSize`.  The function
`writeVaruint32` is not part of the sources; `varuint32` gives the bytes that
it writes for a value. -/
def ByteWriteStream.writeVarintBlockSize (varuint32 : Nat → List Nat)
    (Pos : decode.WriteCursor) (Que : List Nat) (BlockSize : Nat) :
    Option (decode.WriteCursor × List Nat) :=
  writeBytes Pos Que (varuint32 BlockSize)

/-- The method `ByteWriteStream::getBlockSize`, in `size_t` arithmetic.  The
constant `ChunksInWord` is not part of the sources and is a parameter. -/
def ByteWriteStream.getBlockSize (ChunksInWord : Nat) (StartPos EndPos : decode.WriteCursor) :
    Nat :=
  sizeSub EndPos.getCurAddress ((StartPos.getCurAddress + ChunksInWord) % 2 ^ 64)

/-- The loop of `ByteWriteStream::moveBlock`: `Size` times a byte is read at
`CopyPos` and written at `Pos`. -/
def ByteWriteStream.moveBlockLoop : Nat → decode.WriteCursor → decode.ReadCursor → List Nat →
    Option (decode.WriteCursor × List Nat)
  | 0, Pos, _, Que => some (Pos, Que)
  | Size + 1, Pos, CopyPos, Que =>
    match Pos.writeByte Que (CopyPos.readByte Que).1 with
    | none => none
    | some r => ByteWriteStream.moveBlockLoop Size r.1 (CopyPos.readByte Que).2 r.2

/-- The method `ByteWriteStream::moveBlock`. -/
def ByteWriteStream.moveBlock (Pos : decode.WriteCursor) (Que : List Nat)
    (StartAddress Size : Nat) : Option (decode.WriteCursor × List Nat) :=
  ByteWriteStream.moveBlockLoop Size Pos { CurAddress := StartAddress } Que

/-- The state of a `BinaryWriter` that `writeBlock` works on: the output
queue, the write position, and the flag `MinimizeBlockSize`. -/
structure BinaryWriter where
  Que : List Nat
  WritePos : decode.WriteCursor
  MinimizeBlockSize : Bool
  deriving DecidableEq, Repr

/-- The difference `SizeAfterSizeWrite - SizeAfterBackPatch` of
`BinaryWriter::writeBlock`. -/
def BinaryWriter.blockDiff (SizeAfterSizeWrite SizeAfterBackPatch : Nat) : Nat :=
  sizeSub SizeAfterSizeWrite SizeAfterBackPatch

/-- The number `(CurAddress - Diff) - SizeAfterBackPatch` of bytes that
`BinaryWriter::writeBlock` moves. -/
def BinaryWriter.moveSize (CurAddress Diff SizeAfterBackPatch : Nat) : Nat :=
  sizeSub (sizeSub CurAddress Diff) SizeAfterBackPatch

/-- The method `BinaryWriter::writeBlock`.  `ApplyFn` is the function passed
in, which writes the body of the block through `WritePos`; `none` when a
write fails. -/
def BinaryWriter.writeBlock (ChunksInWord : Nat) (fixedVaruint32 varuint32 : Nat → List Nat)
    (ApplyFn : BinaryWriter → Option BinaryWriter) (w : BinaryWriter) : Option BinaryWriter :=
  let BlockStart := w.WritePos
  match ByteWriteStream.writeFixedBlockSize fixedVaruint32 w.WritePos w.Que 0 with
  | none => none
  | some r1 =>
    let SizeAfterSizeWrite := ByteWriteStream.getStreamAddress r1.1
    match ApplyFn { w with WritePos := r1.1, Que := r1.2 } with
    | none => none
    | some w2 =>
      let NewSize := ByteWriteStream.getBlockSize ChunksInWord BlockStart w2.WritePos
      if w2.MinimizeBlockSize = false then
        match ByteWriteStream.writeFixedBlockSize fixedVaruint32 BlockStart w2.Que NewSize with
        | none => none
        | some r3 => some { w2 with Que := r3.2 }
      else
        match ByteWriteStream.writeVarintBlockSize varuint32 BlockStart w2.Que NewSize with
        | none => none
        | some r3 =>
          let SizeAfterBackPatch := ByteWriteStream.getStreamAddress r3.1
          let Diff := BinaryWriter.blockDiff SizeAfterSizeWrite SizeAfterBackPatch
          if Diff ≠ 0 then
            let CurAddress := ByteWriteStream.getStreamAddress w2.WritePos
            match ByteWriteStream.moveBlock r3.1 r3.2 SizeAfterSizeWrite
                (BinaryWriter.moveSize CurAddress Diff SizeAfterBackPatch) with
            | none => none
            | some r4 => some { w2 with Que := r4.2, WritePos := r4.1 }
          else some { w2 with Que := r3.2 }

/-- A fixed-width encoding for the concrete runs: five bytes of seven bits
each, the lowest first, all but the last with the continuation bit. -/
def exampleFixedVaruint32 (v : Nat) : List Nat :=
  [128 + v % 128, 128 + v / 128 % 128, 128 + v / 128 ^ 2 % 128, 128 + v / 128 ^ 3 % 128,
    v / 128 ^ 4 % 128]

/-- A variable-length encoding for the concrete runs: one byte for a value
below 128, the fixed-width encoding otherwise. -/
def exampleVaruint32 (v : Nat) : List Nat :=
  if v < 128 then [v] else exampleFixedVaruint32 v

/-- A body for the concrete runs: the bytes 10, 20, 30 written at
`WritePos`. -/
def exampleApplyFn (w : BinaryWriter) : Option BinaryWriter :=
  (writeBytes w.WritePos w.Que [10, 20, 30]).map
    (fun r => { w with WritePos := r.1, Que := r.2 })

/-- A writer for the concrete runs: the bytes 1, 2 are written, the write
position is behind them, and block sizes are minimised. -/
def exampleBlockWriter : BinaryWriter :=
  { Que := [1, 2], WritePos := { CurAddress := 2 }, MinimizeBlockSize := true }

/-- The writer of the concrete runs after the size field and the body
10, 20, 30 are written. -/
def exampleBlockWritten : BinaryWriter :=
  { Que := [1, 2] ++ exampleFixedVaruint32 0 ++ [10, 20, 30] ++ [],
    WritePos := { CurAddress := 10 }, MinimizeBlockSize := true }

/-! ### The run for the round trip -/

/-- Collaborators under which every phase succeeds on the traversal
`[1, 2, <enter>, 1, 2, <exit>]`: nothing is removed from the trie, the three
integer nodes are collected, and the two writers append the bytes 1 and 2. -/
def blockCollaborators : Collaborators :=
  { Contents := blockBoundaryExample, InputSuccessful := true,
    CountErrors := fun _ => false, removeSmallSingletonUsageCounts := fun Root => Root,
    removeAllSmallUsageCounts := fun Root => Root, zeroSmallUsageCounts := fun Root => Root,
    Collected := fun _ => [.Int [1], .Int [2], .Int [2, 1]], RewriteErrors := false,
    CodeOutput := fun _ => [1], CodeErrors := false, DataOutput := fun _ => [2],
    DataSuccessful := true }

/-! ## Theorems -/

section CountingTheorems

variable (getWeight : CountNode → Nat → Nat)

/-! ### The trie: what is read after a write -/

theorem getCount_setCount (Root : RootCountNode) (Nd Nd2 : CountNode) (c : Nat) :
    (Root.setCount Nd c).getCount Nd2 = if Nd2 = Nd then c else Root.getCount Nd2 := by
  cases Nd <;> cases Nd2 <;> simp [RootCountNode.setCount, RootCountNode.getCount]
  rename_i p q
  by_cases h : q = p
  · subst h; simp
  · simp [Function.update_noteq h, h]

theorem hasNode_setCount (Root : RootCountNode) (Nd Nd2 : CountNode) (c : Nat) :
    (Root.setCount Nd c).hasNode Nd2 = (Root.hasNode Nd2 || decide (Nd2 = Nd)) := by
  cases Nd <;> cases Nd2 <;> simp [RootCountNode.setCount, RootCountNode.hasNode]
  rename_i p q
  by_cases h : q = p
  · subst h; simp
  · simp [Function.update_noteq h, h]

theorem incrementedBy_zero (c : Nat) : incrementedBy c 0 = c := rfl

theorem incrementedBy_one (c : Nat) : incrementedBy c 1 = (c + 1) % 2 ^ 64 := rfl

theorem incrementedBy_succ (c k : Nat) :
    incrementedBy c (k + 1) = (incrementedBy c k + 1) % 2 ^ 64 := by
  unfold incrementedBy
  rw [Function.iterate_succ_apply']

theorem incrementedBy_add (c a b : Nat) :
    incrementedBy (incrementedBy c a) b = incrementedBy c (a + b) := by
  unfold incrementedBy
  rw [Nat.add_comm, Function.iterate_add_apply]

theorem incrementedBy_congr (c0 a b k : Nat) (h : ∀ c : Nat, c + a + b = c + k) :
    incrementedBy (incrementedBy c0 a) b = incrementedBy c0 k := by
  rw [incrementedBy_add]
  congr 1
  have := h 0
  omega

theorem incrementedBy_congr_one (c0 a k : Nat) (h : ∀ c : Nat, c + a = c + k) :
    incrementedBy c0 a = incrementedBy c0 k := by
  congr 1
  have := h 0
  omega

theorem incrementedBy_le (c k : Nat) : incrementedBy c k ≤ c + k := by
  induction k with
  | zero => simp [incrementedBy_zero]
  | succ k ih =>
    rw [incrementedBy_succ]
    have := Nat.mod_le (incrementedBy c k + 1) (2 ^ 64)
    omega

theorem incrementedBy_of_lt (c k : Nat) (h : c + k < 2 ^ 64) : incrementedBy c k = c + k := by
  induction k with
  | zero => rfl
  | succ k ih =>
    rw [incrementedBy_succ, ih (by omega), Nat.mod_eq_of_lt (by omega)]
    omega

theorem incrementedBy_mod (c k : Nat) :
    incrementedBy c k % 2 ^ 64 = (c + k) % 2 ^ 64 := by
  induction k with
  | zero => rfl
  | succ k ih =>
    rw [incrementedBy_succ, Nat.mod_mod, Nat.add_mod, ih]
    omega

theorem incrementedBy_pos (c k : Nat) (hk : 0 < k) :
    incrementedBy c k = (c + k) % 2 ^ 64 := by
  obtain ⟨j, rfl⟩ : ∃ j, k = j + 1 := ⟨k - 1, by omega⟩
  rw [incrementedBy_succ, Nat.add_mod, incrementedBy_mod]
  omega

theorem incrementedBy_zero_left (k : Nat) : incrementedBy 0 k = k % 2 ^ 64 := by
  have := incrementedBy_mod 0 k
  rcases Nat.eq_zero_or_pos k with h | h
  · subst h; rfl
  · rw [incrementedBy_pos 0 k h]; simp

theorem getCount_increment (Root : RootCountNode) (Nd Nd2 : CountNode) :
    (Root.increment Nd).getCount Nd2
      = incrementedBy (Root.getCount Nd2) (if Nd2 = Nd then 1 else 0) := by
  unfold RootCountNode.increment
  rw [getCount_setCount]
  split
  · rename_i h
    subst h
    rfl
  · rfl

theorem hasNode_increment (Root : RootCountNode) (Nd Nd2 : CountNode) :
    (Root.increment Nd).hasNode Nd2 = (Root.hasNode Nd2 || decide (Nd2 = Nd)) := by
  unfold RootCountNode.increment
  rw [hasNode_setCount]

theorem getCount_lookup (Root : RootCountNode) (Parent : IntPath) (Value : IntType)
    (Nd : CountNode) : (lookup Root Parent Value).getCount Nd = Root.getCount Nd := by
  unfold lookup
  split
  · rfl
  · rename_i h
    cases Nd <;> simp [RootCountNode.getCount]
    rename_i q
    by_cases hq : q = Value :: Parent
    · subst hq; simp [h]
    · simp [Function.update_noteq hq]

theorem hasNode_lookup (Root : RootCountNode) (Parent : IntPath) (Value : IntType)
    (Nd : CountNode) :
    (lookup Root Parent Value).hasNode Nd
      = (Root.hasNode Nd || decide (Nd = .Int (Value :: Parent))) := by
  unfold lookup
  split
  · rename_i c h
    cases Nd <;> simp [RootCountNode.hasNode]
    rename_i q
    by_cases hq : q = Value :: Parent
    · subst hq; simp [h]
    · simp [hq]
  · rename_i h
    cases Nd <;> simp [RootCountNode.hasNode]
    rename_i q
    by_cases hq : q = Value :: Parent
    · subst hq; simp
    · simp [Function.update_noteq hq, hq]

/-! ### The counting pass with `UpToSize == 1` -/

theorem writeEvent_snd (w : CountWriter) (e : StreamEvent) :
    (w.writeEvent getWeight e).2 = true := by
  cases e <;> rfl

theorem structuralRead_snd (w : CountWriter) (es : List StreamEvent) :
    (w.structuralRead getWeight es).2 = true := by
  induction es generalizing w with
  | nil => rfl
  | cons e es ih =>
    simp only [CountWriter.structuralRead, writeEvent_snd, if_true]
    exact ih _

theorem structuralRead_cons (w : CountWriter) (e : StreamEvent) (es : List StreamEvent) :
    w.structuralRead getWeight (e :: es)
      = (w.writeEvent getWeight e).1.structuralRead getWeight es := by
  simp only [CountWriter.structuralRead, writeEvent_snd, if_true]

theorem flat_pass (w : CountWriter) (h : w.UpToSize = 1) (es : List StreamEvent) :
    (∀ Nd, (w.structuralRead getWeight es).1.Root.getCount Nd
        = incrementedBy (w.Root.getCount Nd) (flatCount es Nd)) ∧
    (∀ Nd, (w.structuralRead getWeight es).1.Root.hasNode Nd
        = (w.Root.hasNode Nd || flatCreated es Nd)) ∧
    (w.Frontier = [] → (w.structuralRead getWeight es).1.Frontier = []) := by
  induction es generalizing w with
  | nil =>
    refine ⟨fun Nd => ?_, fun Nd => ?_, fun hf => hf⟩
    · cases Nd <;> simp [CountWriter.structuralRead, flatCount, incrementedBy_zero]
      rename_i p
      rcases p with _ | ⟨v, _ | ⟨u, q⟩⟩ <;> simp [flatCount, incrementedBy_zero]
    · cases Nd <;> simp [CountWriter.structuralRead, flatCreated]
      rename_i p
      rcases p with _ | ⟨v, _ | ⟨u, q⟩⟩ <;> simp [flatCreated]
  | cons e es ih =>
    rw [structuralRead_cons]
    cases e with
    | Value v =>
      have hw : (w.writeEvent getWeight (.Value v)).1
          = { w with Root := (lookup w.Root [] v).increment (.Int [v]) } := by
        simp [CountWriter.writeEvent, CountWriter.writeVaruint64, CountWriter.addToUsageMap, h]
      rw [hw]
      obtain ⟨ih1, ih2, ih3⟩ := ih { w with Root := (lookup w.Root [] v).increment (.Int [v]) } h
      refine ⟨fun Nd => ?_, fun Nd => ?_, fun hf => ih3 hf⟩
      · rw [ih1, getCount_increment, getCount_lookup]
        apply incrementedBy_congr
        intro c
        cases Nd <;> simp [flatCount, List.count_cons]
        rename_i p
        rcases p with _ | ⟨u, _ | ⟨u2, q⟩⟩ <;> simp [flatCount, List.count_cons]
        by_cases hu : u = v
        · subst hu; simp; omega
        · simp [hu]; intro h'; exact absurd h'.symm hu
      · rw [ih2, hasNode_increment, hasNode_lookup]
        cases Nd <;> simp [flatCreated]
        rename_i p
        rcases p with _ | ⟨u, _ | ⟨u2, q⟩⟩ <;> simp [flatCreated]
        by_cases hu : u = v
        · subst hu; simp
        · simp [hu]; 
    | BlockEnter =>
      have hw : (w.writeEvent getWeight .BlockEnter).1
          = { w with Frontier := [], Root := w.Root.increment .BlockEnter } := rfl
      rw [hw]
      obtain ⟨ih1, ih2, ih3⟩ := ih { w with Frontier := [], Root := w.Root.increment .BlockEnter } h
      refine ⟨fun Nd => ?_, fun Nd => ?_, fun _ => ih3 rfl⟩
      · rw [ih1, getCount_increment]
        apply incrementedBy_congr
        intro c
        cases Nd <;> simp [flatCount, List.count_cons]
        · omega
        · rename_i p
          rcases p with _ | ⟨u, _ | ⟨u2, q⟩⟩ <;> simp [flatCount, List.count_cons]
      · rw [ih2, hasNode_increment]
        cases Nd <;> simp [flatCreated, RootCountNode.hasNode]
    | BlockExit =>
      have hw : (w.writeEvent getWeight .BlockExit).1
          = { w with Frontier := [], Root := w.Root.increment .BlockExit } := rfl
      rw [hw]
      obtain ⟨ih1, ih2, ih3⟩ := ih { w with Frontier := [], Root := w.Root.increment .BlockExit } h
      refine ⟨fun Nd => ?_, fun Nd => ?_, fun _ => ih3 rfl⟩
      · rw [ih1, getCount_increment]
        apply incrementedBy_congr
        intro c
        cases Nd <;> simp [flatCount, List.count_cons]
        · omega
        · rename_i p
          rcases p with _ | ⟨u, _ | ⟨u2, q⟩⟩ <;> simp [flatCount, List.count_cons]
      · rw [ih2, hasNode_increment]
        cases Nd <;> simp [flatCreated, RootCountNode.hasNode]
    | HeaderValue v f =>
      have hw : (w.writeEvent getWeight (.HeaderValue v f)).1 = w := rfl
      rw [hw]
      obtain ⟨ih1, ih2, ih3⟩ := ih w h
      refine ⟨fun Nd => ?_, fun Nd => ?_, ih3⟩
      · rw [ih1]
        apply incrementedBy_congr_one
        intro c
        cases Nd <;> simp [flatCount, List.count_cons]
      · rw [ih2]
        cases Nd <;> simp [flatCreated]

/-! ### The counting pass with `UpToSize != 1` -/

theorem frontierLoop_spec (C L : Nat) (V : IntType) (F : List IntPath) :
    ∀ (Root : RootCountNode) (Next : List IntPath), (∀ Nd ∈ F, Nd ≠ []) →
    (frontierLoop getWeight C L V [V] F (Root, Next)).2
        = ((extended getWeight C L V Root F).map (fun q => V :: q)).reverse ++ Next ∧
    (∀ Nd, (frontierLoop getWeight C L V [V] F (Root, Next)).1.getCount Nd
        = incrementedBy (Root.getCount Nd)
            (((extended getWeight C L V Root F).map
              (fun q => CountNode.Int (V :: q))).count Nd)) ∧
    (∀ Nd, (frontierLoop getWeight C L V [V] F (Root, Next)).1.hasNode Nd
        = (Root.hasNode Nd
          || decide (Nd ∈ (extended getWeight C L V Root F).map
                (fun q => CountNode.Int (V :: q))))) := by
  induction F with
  | nil =>
    intro Root Next _
    simp [frontierLoop, extended, incrementedBy_zero]
  | cons Nd F ih =>
    intro Root Next hF
    have hNd : Nd ≠ [] := hF Nd (List.mem_cons_self _ _)
    have hF2 : ∀ q ∈ F, q ≠ [] := fun q hq => hF q (List.mem_cons_of_mem _ hq)
    by_cases hbad : getWeight (.Int [V]) (Root.getCount (.Int [V])) < C
    · have hstep : frontierLoop getWeight C L V [V] (Nd :: F) (Root, Next)
          = frontierLoop getWeight C L V [V] F (Root, Next) := by
        simp [frontierLoop, hbad]
      have hext0 : ∀ G, extended getWeight C L V Root G = [] := by
        intro G; simp [extended, hbad]
      rw [hstep, hext0]
      have := ih Root Next hF2
      rw [hext0] at this
      exact this
    · by_cases hlen : Nd.length < L
      · have hstep : frontierLoop getWeight C L V [V] (Nd :: F) (Root, Next)
            = frontierLoop getWeight C L V [V] F
                ((lookup Root Nd V).increment (.Int (V :: Nd)), (V :: Nd) :: Next) := by
          simp [frontierLoop, hbad, getPathLength, hlen]
        have htop : ((lookup Root Nd V).increment (.Int (V :: Nd))).getCount (.Int [V])
            = Root.getCount (.Int [V]) := by
          rw [getCount_increment, getCount_lookup]
          simp [hNd, incrementedBy_zero]
        have hbad2 : ¬ getWeight (.Int [V])
            (((lookup Root Nd V).increment (.Int (V :: Nd))).getCount (.Int [V])) < C := by
          rw [htop]; exact hbad
        have hext2 : extended getWeight C L V ((lookup Root Nd V).increment (.Int (V :: Nd))) F
            = extended getWeight C L V Root F := by
          simp [extended, hbad, hbad2]
        have hext0 : extended getWeight C L V Root (Nd :: F)
            = Nd :: extended getWeight C L V Root F := by
          simp [extended, hbad, hlen, List.filter_cons]
        obtain ⟨h1, h2, h3⟩ := ih ((lookup Root Nd V).increment (.Int (V :: Nd)))
          ((V :: Nd) :: Next) hF2
        rw [hstep, hext0]
        rw [hext2] at h1 h2 h3
        refine ⟨?_, fun x => ?_, fun x => ?_⟩
        · rw [h1]; simp
        · rw [h2 x, getCount_increment, getCount_lookup, List.map_cons, List.count_cons]
          apply incrementedBy_congr
          intro c
          by_cases hx : x = CountNode.Int (V :: Nd)
          · subst hx; simp; omega
          · have hx2 : ¬ (CountNode.Int (V :: Nd) = x) := fun h => hx h.symm
            simp [hx, hx2]
        · rw [h3 x, hasNode_increment, hasNode_lookup, List.map_cons]
          by_cases hx : x = CountNode.Int (V :: Nd)
          · subst hx; simp
          · simp [hx]
      · have hstep : frontierLoop getWeight C L V [V] (Nd :: F) (Root, Next)
            = frontierLoop getWeight C L V [V] F (Root, Next) := by
          simp [frontierLoop, getPathLength]
          intro h1 _
          omega
        have hext0 : extended getWeight C L V Root (Nd :: F)
            = extended getWeight C L V Root F := by
          simp [extended, hbad, hlen, List.filter_cons]
        rw [hstep, hext0]
        exact ih Root Next hF2

theorem mem_extended_map (C L : Nat) (V : IntType) (Root : RootCountNode)
    (good : IntType → Bool) (run : List IntType) (F : List IntPath)
    (hgood : good V = decide (C ≤ getWeight (.Int [V]) (Root.getCount (.Int [V]))))
    (hF : FrontierOK good L run F) (Nd : CountNode) :
    Nd ∈ (extended getWeight C L V Root F).map (fun q => CountNode.Int (V :: q))
      ↔ stepCount good L (V :: run) Nd = 1 := by
  obtain ⟨_, hmem⟩ := hF
  cases Nd with
  | Int p =>
    simp only [stepCount, countedAt, List.mem_map, CountNode.Int.injEq, extended]
    constructor
    · rintro ⟨q, hq, rfl⟩
      by_cases hbad : getWeight (.Int [V]) (Root.getCount (.Int [V])) < C
      · simp [hbad] at hq
      · simp only [hbad, if_false, List.mem_filter, decide_eq_true_eq] at hq
        obtain ⟨hqF, hlen⟩ := hq
        obtain ⟨hne, hpre, _, hall⟩ := (hmem q).1 hqF
        have hg : good V = true := by rw [hgood]; simp; omega
        have h2 : 2 ≤ (V :: q).length := by
          cases q with
          | nil => exact absurd rfl hne
          | cons a t => simp
        have hall2 : ∀ x ∈ q, good x = true := by simpa using hall
        simp only [List.length_cons] at h2 ⊢
        simp [h2, hpre, hg, hall2]
        exact ⟨by omega, hall2⟩
    · intro h
      split at h
      · rename_i hc
        obtain ⟨h2, hc⟩ := hc
        simp only [Bool.and_eq_true, decide_eq_true_eq] at hc
        obtain ⟨hpre, hlen, hall⟩ := hc
        rcases List.prefix_cons_iff.1 hpre with rfl | ⟨q, rfl, hq⟩
        · simp at h2
        · have hgV : good V = true := by simp at hall; exact hall.1
          have hbad : ¬ getWeight (.Int [V]) (Root.getCount (.Int [V])) < C := by
            rw [hgood] at hgV; simp at hgV; omega
          refine ⟨q, ?_, rfl⟩
          simp only [hbad, if_false, List.mem_filter, decide_eq_true_eq]
          simp at hlen h2
          refine ⟨(hmem q).2 ⟨?_, hq, ?_, ?_⟩, by omega⟩
          · intro hq0; subst hq0; simp at h2
          · omega
          · simp at hall; simpa using hall.2
      · simp at h
  | _ => simp [stepCount]

theorem nodup_extended_map (C L : Nat) (V : IntType) (Root : RootCountNode)
    (F : List IntPath) (hF : F.Nodup) :
    ((extended getWeight C L V Root F).map (fun q => CountNode.Int (V :: q))).Nodup := by
  apply List.Nodup.map
  · intro a b h
    simpa using h
  · unfold extended
    split
    · exact List.nodup_nil
    · exact hF.filter _

theorem stepCount_le_one (good : IntType → Bool) (L : Nat) (run : List IntType)
    (Nd : CountNode) : stepCount good L run Nd = 0 ∨ stepCount good L run Nd = 1 := by
  cases Nd <;> simp only [stepCount, true_or]
  split <;> simp

theorem count_extended_map (C L : Nat) (V : IntType) (Root : RootCountNode)
    (good : IntType → Bool) (run : List IntType) (F : List IntPath)
    (hgood : good V = decide (C ≤ getWeight (.Int [V]) (Root.getCount (.Int [V]))))
    (hF : FrontierOK good L run F) (Nd : CountNode) :
    ((extended getWeight C L V Root F).map (fun q => CountNode.Int (V :: q))).count Nd
      = stepCount good L (V :: run) Nd := by
  have hnd := nodup_extended_map getWeight C L V Root F hF.1
  have hm := mem_extended_map getWeight C L V Root good run F hgood hF Nd
  rw [List.count_eq_of_nodup hnd]
  split
  · rename_i h; exact (hm.1 h).symm
  · rename_i h
    rcases stepCount_le_one good L (V :: run) Nd with h0 | h1
    · exact h0.symm
    · exact absurd (hm.2 h1) h

theorem mem_map_cons_iff (V : IntType) (l : List IntPath) (p : IntPath) :
    p ∈ l.map (fun q => V :: q) ↔ CountNode.Int p ∈ l.map (fun q => CountNode.Int (V :: q)) := by
  simp [List.mem_map]

theorem stepCount_int_eq_one (good : IntType → Bool) (L : Nat) (run : List IntType)
    (p : IntPath) :
    stepCount good L run (.Int p) = 1
      ↔ (2 ≤ p.length ∧ p <+: run ∧ p.length ≤ L ∧ p.all good = true) := by
  simp only [stepCount, countedAt, Bool.and_eq_true, decide_eq_true_eq]
  constructor
  · intro h
    split at h
    · rename_i hc; exact hc
    · simp at h
  · intro h
    simp [h]

theorem addToUsageMap_multi (w : CountWriter) (V : IntType) (good : IntType → Bool)
    (run : List IntType) (hL : w.UpToSize ≠ 1)
    (hgood : ∀ u, good u
      = decide (w.CountCutoff ≤ getWeight (.Int [u]) (w.Root.getCount (.Int [u]))))
    (hF : FrontierOK good w.UpToSize run w.Frontier) :
    (w.addToUsageMap getWeight V).UpToSize = w.UpToSize ∧
    (w.addToUsageMap getWeight V).CountCutoff = w.CountCutoff ∧
    (∀ Nd, (w.addToUsageMap getWeight V).Root.getCount Nd
        = incrementedBy (w.Root.getCount Nd) (stepCount good w.UpToSize (V :: run) Nd)) ∧
    (∀ Nd, (w.addToUsageMap getWeight V).Root.hasNode Nd
        = (w.Root.hasNode Nd || decide (Nd = .Int [V])
            || decide (stepCount good w.UpToSize (V :: run) Nd = 1))) ∧
    FrontierOK good w.UpToSize (V :: run) (w.addToUsageMap getWeight V).Frontier := by
  have hne : ∀ q ∈ w.Frontier, q ≠ [] := fun q hq => ((hF.2 q).1 hq).1
  have hgood0 : good V = decide (w.CountCutoff
      ≤ getWeight (.Int [V]) ((lookup w.Root [] V).getCount (.Int [V]))) := by
    rw [getCount_lookup]; exact hgood V
  obtain ⟨s1, s2, s3⟩ := frontierLoop_spec getWeight w.CountCutoff w.UpToSize V w.Frontier
    (lookup w.Root [] V) [] hne
  have hcnt := count_extended_map getWeight w.CountCutoff w.UpToSize V (lookup w.Root [] V)
    good run w.Frontier hgood0 hF
  have hmem := mem_extended_map getWeight w.CountCutoff w.UpToSize V (lookup w.Root [] V)
    good run w.Frontier hgood0 hF
  have hRoot : (w.addToUsageMap getWeight V).Root
      = (frontierLoop getWeight w.CountCutoff w.UpToSize V [V] w.Frontier
          (lookup w.Root [] V, [])).1 := by
    simp only [CountWriter.addToUsageMap, hL, if_false]
    split <;> rfl
  have htop : (frontierLoop getWeight w.CountCutoff w.UpToSize V [V] w.Frontier
      (lookup w.Root [] V, [])).1.getCount (.Int [V]) = w.Root.getCount (.Int [V]) := by
    rw [s2, hcnt, getCount_lookup]
    simp [stepCount, incrementedBy_zero]
  have hFr : (w.addToUsageMap getWeight V).Frontier
      = if good V = true then
          [V] :: ((extended getWeight w.CountCutoff w.UpToSize V (lookup w.Root [] V)
            w.Frontier).map (fun q => V :: q)).reverse
        else [] := by
    simp only [CountWriter.addToUsageMap, hL, if_false]
    rw [htop, s1, hgood V]
    by_cases hg : w.CountCutoff ≤ getWeight (.Int [V]) (w.Root.getCount (.Int [V]))
    · simp [hg]
    · have hbad : getWeight (.Int [V]) ((lookup w.Root [] V).getCount (.Int [V]))
          < w.CountCutoff := by rw [getCount_lookup]; omega
      simp [hg, extended, hbad]
  have hU : (w.addToUsageMap getWeight V).UpToSize = w.UpToSize := by
    simp only [CountWriter.addToUsageMap, hL, if_false]
    split <;> rfl
  have hC : (w.addToUsageMap getWeight V).CountCutoff = w.CountCutoff := by
    simp only [CountWriter.addToUsageMap, hL, if_false]
    split <;> rfl
  refine ⟨hU, hC, fun Nd => ?_, fun Nd => ?_, ?_⟩
  · rw [hRoot, s2, hcnt, getCount_lookup]
  · rw [hRoot, s3, hasNode_lookup]
    congr 1
    by_cases h1 : stepCount good w.UpToSize (V :: run) Nd = 1
    · simp [h1, (hmem Nd).2 h1]
    · have : ¬ Nd ∈ (extended getWeight w.CountCutoff w.UpToSize V (lookup w.Root [] V)
          w.Frontier).map (fun q => CountNode.Int (V :: q)) := fun h => h1 ((hmem Nd).1 h)
      simp [h1, this]
  · rw [hFr]
    by_cases hg : good V = true
    · simp only [hg, if_true]
      constructor
      · rw [List.nodup_cons]
        constructor
        · intro h
          rw [List.mem_reverse, mem_map_cons_iff, hmem, stepCount_int_eq_one] at h
          simp at h
        · rw [List.nodup_reverse]
          apply List.Nodup.map
          · intro a b h; simpa using h
          · unfold extended
            split
            · exact List.nodup_nil
            · exact hF.1.filter _
      · intro q
        rw [List.mem_cons, List.mem_reverse, mem_map_cons_iff, hmem, stepCount_int_eq_one]
        constructor
        · rintro (rfl | ⟨h2, hpre, hlen, hall⟩)
          · refine ⟨by simp, ?_, ?_, by simp [hg]⟩
            · simp
            · simp
          · refine ⟨?_, hpre, ?_, hall⟩
            · intro h; subst h; simp at h2
            · omega
        · rintro ⟨hne2, hpre, hlen, hall⟩
          rcases List.prefix_cons_iff.1 hpre with rfl | ⟨t, rfl, ht⟩
          · exact absurd rfl hne2
          · cases t with
            | nil => left; rfl
            | cons a t =>
              right
              refine ⟨by simp, hpre, ?_, hall⟩
              simp at hlen ⊢
              omega
    · simp only [hg]
      constructor
      · exact List.nodup_nil
      · intro q
        constructor
        · intro h; simp at h
        · rintro ⟨hne2, hpre, _, hall⟩
          rcases List.prefix_cons_iff.1 hpre with rfl | ⟨t, rfl, _⟩
          · exact absurd rfl hne2
          · simp at hall
            exact absurd hall.1 hg

theorem frontierOK_nil (good : IntType → Bool) (L : Nat) : FrontierOK good L [] [] := by
  refine ⟨List.nodup_nil, fun q => ?_⟩
  constructor
  · intro h; simp at h
  · rintro ⟨hne, hpre, _⟩
    exact absurd (List.prefix_nil.1 hpre) hne

theorem multi_pass (good : IntType → Bool) (es : List StreamEvent) :
    ∀ (w : CountWriter) (run : List IntType), w.UpToSize ≠ 1 →
    (∀ u, good u
      = decide (w.CountCutoff ≤ getWeight (.Int [u]) (w.Root.getCount (.Int [u])))) →
    FrontierOK good w.UpToSize run w.Frontier →
    (∀ Nd, (w.structuralRead getWeight es).1.Root.getCount Nd
        = incrementedBy (w.Root.getCount Nd) (multiCount good w.UpToSize run es Nd)) ∧
    (∀ Nd, (w.structuralRead getWeight es).1.Root.hasNode Nd
        = (w.Root.hasNode Nd || multiCreated good w.UpToSize run es Nd)) ∧
    FrontierOK good w.UpToSize (runAfter run es) (w.structuralRead getWeight es).1.Frontier := by
  induction es with
  | nil =>
    intro w run _ _ hF
    refine ⟨fun Nd => ?_, fun Nd => ?_, hF⟩
    · cases Nd <;>
        simp [CountWriter.structuralRead, multiCount, countedOccurrencesFrom, incrementedBy_zero]
    · cases Nd <;>
        simp [CountWriter.structuralRead, multiCreated, countedOccurrencesFrom, flatCreated]
      rename_i p
      rcases p with _ | ⟨v, _ | ⟨u, q⟩⟩ <;> simp [flatCreated]
  | cons e es ih =>
    intro w run hL hgood hF
    rw [structuralRead_cons]
    cases e with
    | Value v =>
      obtain ⟨a1, a2, a3, a4, a5⟩ := addToUsageMap_multi getWeight w v good run hL hgood hF
      have hw : (w.writeEvent getWeight (.Value v)).1 = w.addToUsageMap getWeight v := rfl
      rw [hw]
      have hgood2 : ∀ u, good u = decide ((w.addToUsageMap getWeight v).CountCutoff
          ≤ getWeight (.Int [u]) ((w.addToUsageMap getWeight v).Root.getCount (.Int [u]))) := by
        intro u
        rw [a2, a3, hgood u]
        simp [stepCount, incrementedBy_zero]
      obtain ⟨i1, i2, i3⟩ := ih (w.addToUsageMap getWeight v) (v :: run)
        (by rw [a1]; exact hL) hgood2 (by rw [a1]; exact a5)
      rw [a1] at i1 i2 i3
      refine ⟨fun Nd => ?_, fun Nd => ?_, i3⟩
      · rw [i1, a3, incrementedBy_add]
        congr 1
        cases Nd <;> simp [stepCount, multiCount, countedOccurrencesFrom, List.count_cons]
        rename_i p
        by_cases h2 : 2 ≤ p.length <;> simp [h2]
      · rw [i2, a4]
        cases Nd <;> simp [stepCount, multiCreated, countedOccurrencesFrom, flatCreated]
        rename_i p
        rcases p with _ | ⟨u, _ | ⟨u2, q⟩⟩
        · simp [flatCreated]
        · simp [flatCreated]
          by_cases hu : u = v
          · subst hu; simp
          · simp [hu]
        · simp [flatCreated]
          by_cases hc : countedAt good w.UpToSize (u :: u2 :: q) (v :: run) = true
          · simp [hc]
          · simp [hc]
    | BlockEnter =>
      have hw : (w.writeEvent getWeight .BlockEnter).1
          = { w with Frontier := [], Root := w.Root.increment .BlockEnter } := rfl
      rw [hw]
      obtain ⟨i1, i2, i3⟩ := ih { w with Frontier := [], Root := w.Root.increment .BlockEnter }
        [] hL (by intro u; simp only [getCount_increment]; simpa [incrementedBy_zero] using hgood u)
        (frontierOK_nil good _)
      refine ⟨fun Nd => ?_, fun Nd => ?_, i3⟩
      · rw [i1]
        simp only [getCount_increment, incrementedBy_add]
        congr 1
        cases Nd <;> simp [multiCount, countedOccurrencesFrom, List.count_cons]
        omega
      · rw [i2]
        simp only [hasNode_increment]
        cases Nd <;> simp [multiCreated, countedOccurrencesFrom, flatCreated, RootCountNode.hasNode]
    | BlockExit =>
      have hw : (w.writeEvent getWeight .BlockExit).1
          = { w with Frontier := [], Root := w.Root.increment .BlockExit } := rfl
      rw [hw]
      obtain ⟨i1, i2, i3⟩ := ih { w with Frontier := [], Root := w.Root.increment .BlockExit }
        [] hL (by intro u; simp only [getCount_increment]; simpa [incrementedBy_zero] using hgood u)
        (frontierOK_nil good _)
      refine ⟨fun Nd => ?_, fun Nd => ?_, i3⟩
      · rw [i1]
        simp only [getCount_increment, incrementedBy_add]
        congr 1
        cases Nd <;> simp [multiCount, countedOccurrencesFrom, List.count_cons]
        omega
      · rw [i2]
        simp only [hasNode_increment]
        cases Nd <;> simp [multiCreated, countedOccurrencesFrom, flatCreated, RootCountNode.hasNode]
    | HeaderValue v f =>
      have hw : (w.writeEvent getWeight (.HeaderValue v f)).1 = w := rfl
      rw [hw]
      obtain ⟨i1, i2, i3⟩ := ih w run hL hgood hF
      refine ⟨fun Nd => ?_, fun Nd => ?_, i3⟩
      · rw [i1]
        congr 1
      · rw [i2]
        cases Nd <;> simp [multiCreated, countedOccurrencesFrom, flatCreated]

/-! ### Counted occurrences and occurrences -/

theorem occurrencesFrom_single (v : IntType) (es : List StreamEvent) :
    ∀ run, occurrencesFrom [v] run es = es.count (.Value v) := by
  induction es with
  | nil => intro run; rfl
  | cons e es ih =>
    intro run
    cases e with
    | Value u =>
      simp only [occurrencesFrom, ih, List.count_cons]
      by_cases h : v = u
      · subst h; simp; omega
      · have h2 : ¬ (u = v) := fun h3 => h h3.symm
        simp [h, h2]
    | BlockEnter => simp [occurrencesFrom, ih, List.count_cons]
    | BlockExit => simp [occurrencesFrom, ih, List.count_cons]
    | HeaderValue u f => simp [occurrencesFrom, ih, List.count_cons]

theorem countedOccurrencesFrom_le (good : IntType → Bool) (L : Nat) (p : IntPath)
    (es : List StreamEvent) :
    ∀ run, countedOccurrencesFrom good L p run es ≤ occurrencesFrom p run es := by
  induction es with
  | nil => intro run; simp [countedOccurrencesFrom, occurrencesFrom]
  | cons e es ih =>
    intro run
    cases e with
    | Value u =>
      simp only [countedOccurrencesFrom, occurrencesFrom]
      have := ih (u :: run)
      by_cases hc : countedAt good L p (u :: run) = true
      · have hp : p <+: u :: run := by
          simp only [countedAt, Bool.and_eq_true, decide_eq_true_eq] at hc
          exact hc.1
        simp [hc, hp]; omega
      · simp [hc]; omega
    | BlockEnter => simpa [countedOccurrencesFrom, occurrencesFrom] using ih []
    | BlockExit => simpa [countedOccurrencesFrom, occurrencesFrom] using ih []
    | HeaderValue u f => simpa [countedOccurrencesFrom, occurrencesFrom] using ih run

theorem countedOccurrencesFrom_pos (good : IntType → Bool) (L : Nat) (p : IntPath)
    (es : List StreamEvent) :
    ∀ run, 0 < countedOccurrencesFrom good L p run es → p.length ≤ L ∧ p.all good = true := by
  induction es with
  | nil => intro run h; simp [countedOccurrencesFrom] at h
  | cons e es ih =>
    intro run h
    cases e with
    | Value u =>
      simp only [countedOccurrencesFrom] at h
      by_cases hc : countedAt good L p (u :: run) = true
      · simp only [countedAt, Bool.and_eq_true, decide_eq_true_eq] at hc
        exact hc.2
      · simp [hc] at h
        exact ih _ h
    | BlockEnter => exact ih [] (by simpa [countedOccurrencesFrom] using h)
    | BlockExit => exact ih [] (by simpa [countedOccurrencesFrom] using h)
    | HeaderValue u f => exact ih run (by simpa [countedOccurrencesFrom] using h)

theorem countedOccurrencesFrom_eq (good : IntType → Bool) (L : Nat) (p : IntPath)
    (hlen : p.length ≤ L) (hall : p.all good = true) (es : List StreamEvent) :
    ∀ run, countedOccurrencesFrom good L p run es = occurrencesFrom p run es := by
  induction es with
  | nil => intro run; rfl
  | cons e es ih =>
    intro run
    cases e with
    | Value u =>
      simp only [countedOccurrencesFrom, occurrencesFrom, ih, countedAt, hlen, hall]
      simp
    | BlockEnter => simp [countedOccurrencesFrom, occurrencesFrom, ih]
    | BlockExit => simp [countedOccurrencesFrom, occurrencesFrom, ih]
    | HeaderValue u f => simp [countedOccurrencesFrom, occurrencesFrom, ih]

/-- C3: a counting pass with `L == 1` on an empty trie is flat frequency
counting.  For every traversal the pass succeeds, the frontier is empty as it
was at the start, the count of the top-level node of `v` is the number of
values `v` written (as a `size_t`, so modulo `2 ^ 64`; the number itself for
every traversal of fewer than `2 ^ 64` events), and no node of path length
above 1 exists or has a count. -/
theorem flat_counting_pass (C : Nat) (es : List StreamEvent) :
    ((CountWriter.make RootCountNode.empty C 1).structuralRead getWeight es).2 = true ∧
    ((CountWriter.make RootCountNode.empty C 1).structuralRead getWeight es).1.Frontier = [] ∧
    (∀ v, ((CountWriter.make RootCountNode.empty C 1).structuralRead getWeight es).1.Root.getCount
        (.Int [v]) = es.count (.Value v) % 2 ^ 64) ∧
    (es.length < 2 ^ 64 →
      ∀ v, ((CountWriter.make RootCountNode.empty C 1).structuralRead getWeight es).1.Root.getCount
        (.Int [v]) = es.count (.Value v)) ∧
    (∀ p, 1 < getPathLength p →
      ((CountWriter.make RootCountNode.empty C 1).structuralRead getWeight es).1.Root.hasNode
          (.Int p) = false ∧
      ((CountWriter.make RootCountNode.empty C 1).structuralRead getWeight es).1.Root.getCount
          (.Int p) = 0) := by
  obtain ⟨h1, h2, h3⟩ := flat_pass getWeight (CountWriter.make RootCountNode.empty C 1) rfl es
  have hc : ∀ Nd, (CountWriter.make RootCountNode.empty C 1).Root.getCount Nd = 0 := by
    intro Nd; cases Nd <;> rfl
  refine ⟨structuralRead_snd getWeight _ es, h3 rfl, fun v => ?_, fun hlen v => ?_,
    fun p hp => ⟨?_, ?_⟩⟩
  · rw [h1, hc, incrementedBy_zero_left]; simp [flatCount]
  · rw [h1, hc, incrementedBy_zero_left]
    have := List.count_le_length (StreamEvent.Value v) es
    rw [Nat.mod_eq_of_lt (by simp only [flatCount]; omega)]
    simp [flatCount]
  · rw [h2]
    rcases p with _ | ⟨u, _ | ⟨u2, q⟩⟩
    · simp [getPathLength] at hp
    · simp [getPathLength] at hp
    · simp [CountWriter.make, RootCountNode.empty, RootCountNode.hasNode, flatCreated]
  · rw [h1, hc]
    rcases p with _ | ⟨u, _ | ⟨u2, q⟩⟩
    · simp [getPathLength] at hp
    · simp [getPathLength] at hp
    · simp [flatCount, incrementedBy_zero]

theorem compressUpToSize_flat (Root : RootCountNode) (C : Nat) (es : List StreamEvent) :
    (∀ Nd, (compressUpToSize getWeight Root C 1 es).1.getCount Nd
        = incrementedBy (Root.getCount Nd) (flatCount es Nd)) ∧
    (∀ Nd, (compressUpToSize getWeight Root C 1 es).1.hasNode Nd
        = (Root.hasNode Nd || flatCreated es Nd)) := by
  obtain ⟨h1, h2, _⟩ := flat_pass getWeight (CountWriter.make Root C 1) rfl es
  exact ⟨h1, h2⟩

theorem compressUpToSize_multi (Root : RootCountNode) (C L : Nat) (hL : L ≠ 1)
    (es : List StreamEvent) :
    (∀ Nd, (compressUpToSize getWeight Root C L es).1.getCount Nd
        = incrementedBy (Root.getCount Nd)
            (multiCount (fun u => decide (C ≤ getWeight (.Int [u]) (Root.getCount (.Int [u]))))
              L [] es Nd)) ∧
    (∀ Nd, (compressUpToSize getWeight Root C L es).1.hasNode Nd
        = (Root.hasNode Nd
          || multiCreated (fun u => decide (C ≤ getWeight (.Int [u]) (Root.getCount (.Int [u]))))
              L [] es Nd)) := by
  obtain ⟨h1, h2, _⟩ := multi_pass getWeight
    (fun u => decide (C ≤ getWeight (.Int [u]) (Root.getCount (.Int [u])))) es
    (CountWriter.make Root C L) [] hL (fun u => rfl) (frontierOK_nil _ _)
  exact ⟨h1, h2⟩

theorem flatCount_le_occurrences (es : List StreamEvent) (p : IntPath) :
    flatCount es (.Int p) ≤ occurrences p es := by
  rcases p with _ | ⟨u, _ | ⟨u2, q⟩⟩
  · simp [flatCount]
  · simp [flatCount, occurrences, occurrencesFrom_single]
  · simp [flatCount]

theorem flatCreated_occurrences (es : List StreamEvent) (p : IntPath)
    (h : flatCreated es (.Int p) = true) : 0 < occurrences p es := by
  rcases p with _ | ⟨u, _ | ⟨u2, q⟩⟩
  · simp [flatCreated] at h
  · simp only [flatCreated, decide_eq_true_eq] at h
    simp only [occurrences, occurrencesFrom_single]
    exact List.count_pos_iff.2 h
  · simp [flatCreated] at h

theorem occurrencesFrom_le_length (p : IntPath) (es : List StreamEvent) :
    ∀ run, occurrencesFrom p run es ≤ es.length := by
  induction es with
  | nil => intro run; simp [occurrencesFrom]
  | cons e es ih =>
    intro run
    cases e with
    | Value u =>
      simp only [occurrencesFrom, List.length_cons]
      have := ih (u :: run)
      split <;> omega
    | BlockEnter =>
      simp only [occurrencesFrom, List.length_cons]
      have := ih []
      omega
    | BlockExit =>
      simp only [occurrencesFrom, List.length_cons]
      have := ih []
      omega
    | HeaderValue u f =>
      simp only [occurrencesFrom, List.length_cons]
      have := ih run
      omega

theorem occurrences_le_length (p : IntPath) (es : List StreamEvent) :
    occurrences p es ≤ es.length :=
  occurrencesFrom_le_length p es []

/-- C2 (amended): after a pass with `L == 1` on an empty trie followed by a
pass with any limit `L ≥ 2` and any cutoff `C` over the same traversal, the
count of every `IntCountNode` of the trie is the number of occurrences of its
value path in the traversal, inside one run of values without block marker
(as a `size_t`, so modulo `2 ^ 64`; the number itself for every traversal of
fewer than `2 ^ 64` events). -/
theorem two_pass_counts (C1 C L : Nat) (hL : 2 ≤ L) (es : List StreamEvent) (p : IntPath)
    (h : (compressUpToSize getWeight
      (compressUpToSize getWeight RootCountNode.empty C1 1 es).1 C L es).1.hasNode (.Int p)
        = true) :
    (compressUpToSize getWeight
      (compressUpToSize getWeight RootCountNode.empty C1 1 es).1 C L es).1.getCount (.Int p)
      = occurrences p es % 2 ^ 64 ∧
    (es.length < 2 ^ 64 →
      (compressUpToSize getWeight
        (compressUpToSize getWeight RootCountNode.empty C1 1 es).1 C L es).1.getCount (.Int p)
        = occurrences p es) := by
  have hmod : (compressUpToSize getWeight
      (compressUpToSize getWeight RootCountNode.empty C1 1 es).1 C L es).1.getCount (.Int p)
      = occurrences p es % 2 ^ 64 := by
    obtain ⟨f1, f2⟩ := compressUpToSize_flat getWeight RootCountNode.empty C1 es
    obtain ⟨m1, m2⟩ := compressUpToSize_multi getWeight
      (compressUpToSize getWeight RootCountNode.empty C1 1 es).1 C L (by omega) es
    rw [m2, f2] at h
    rw [m1, f1]
    have he : RootCountNode.empty.hasNode (.Int p) = false := rfl
    have hc : RootCountNode.empty.getCount (.Int p) = 0 := rfl
    rw [he] at h
    rw [hc, incrementedBy_add, incrementedBy_zero_left]
    congr 1
    rcases p with _ | ⟨u, _ | ⟨u2, q⟩⟩
    · simp [multiCreated, flatCreated] at h
    · simp [multiCount, flatCount, occurrences, occurrencesFrom_single]
    · simp only [multiCreated, flatCreated, Bool.false_or, Bool.and_eq_true,
        decide_eq_true_eq] at h
      obtain ⟨hlen, hall⟩ := countedOccurrencesFrom_pos _ _ _ _ _ h.2
      simp only [multiCount, flatCount, h.1, if_true, occurrences]
      rw [countedOccurrencesFrom_eq _ _ _ hlen hall]
      simp
  refine ⟨hmod, fun hlen => ?_⟩
  rw [hmod]
  have := occurrences_le_length p es
  exact Nat.mod_eq_of_lt (by omega)

/-- C2 (counterexample): one pass with `L = 2` and `C = 0` over `[7]` on an
empty trie leaves the node of `7` with count 0, while `7` occurs once. -/
theorem single_pass_counts_counterexample :
    (compressUpToSize weightCountTimesLength RootCountNode.empty 0 2
        [.Value 7]).1.hasNode (.Int [7]) = true ∧
    (compressUpToSize weightCountTimesLength RootCountNode.empty 0 2
        [.Value 7]).1.getCount (.Int [7]) = 0 ∧
    occurrences [7] [.Value 7] = 1 := by
  decide

/-- The theorem `two_pass_counts` at the traversal `[1, 2, 1, 2]`. -/
theorem two_pass_counts_witness :
    2 ≤ 2 ∧
    (compressUpToSize weightCountTimesLength
      (compressUpToSize weightCountTimesLength RootCountNode.empty 2 1
        [.Value 1, .Value 2, .Value 1, .Value 2]).1 2 2
        [.Value 1, .Value 2, .Value 1, .Value 2]).1.hasNode (.Int [2, 1]) = true ∧
    (compressUpToSize weightCountTimesLength
      (compressUpToSize weightCountTimesLength RootCountNode.empty 2 1
        [.Value 1, .Value 2, .Value 1, .Value 2]).1 2 2
        [.Value 1, .Value 2, .Value 1, .Value 2]).1.getCount (.Int [2, 1])
      = occurrences [2, 1] [.Value 1, .Value 2, .Value 1, .Value 2] :=
  ⟨by decide, by decide,
    (two_pass_counts weightCountTimesLength 2 2 2 (by decide)
      [.Value 1, .Value 2, .Value 1, .Value 2] [2, 1] (by decide)).2 (by decide)⟩

theorem pass_count_le (Root : RootCountNode) (C L : Nat) (es : List StreamEvent)
    (p : IntPath) :
    (compressUpToSize getWeight Root C L es).1.getCount (.Int p)
      ≤ Root.getCount (.Int p) + occurrences p es := by
  by_cases hL : L = 1
  · subst hL
    rw [(compressUpToSize_flat getWeight Root C es).1]
    have := flatCount_le_occurrences es p
    have := incrementedBy_le (Root.getCount (.Int p)) (flatCount es (.Int p))
    omega
  · rw [(compressUpToSize_multi getWeight Root C L hL es).1]
    refine le_trans (incrementedBy_le _ _) ?_
    simp only [multiCount]
    split
    · have := countedOccurrencesFrom_le
        (fun u => decide (C ≤ getWeight (.Int [u]) (Root.getCount (.Int [u])))) L p es []
      simp only [occurrences]
      omega
    · omega

theorem pass_created (Root : RootCountNode) (C L : Nat) (es : List StreamEvent)
    (p : IntPath) (h : (compressUpToSize getWeight Root C L es).1.hasNode (.Int p) = true) :
    Root.hasNode (.Int p) = true ∨ 0 < occurrences p es := by
  by_cases hL : L = 1
  · subst hL
    rw [(compressUpToSize_flat getWeight Root C es).2, Bool.or_eq_true] at h
    rcases h with h | h
    · exact Or.inl h
    · exact Or.inr (flatCreated_occurrences es p h)
  · rw [(compressUpToSize_multi getWeight Root C L hL es).2, Bool.or_eq_true] at h
    rcases h with h | h
    · exact Or.inl h
    · right
      simp only [multiCreated, Bool.or_eq_true, Bool.and_eq_true, decide_eq_true_eq] at h
      rcases h with h | h
      · exact flatCreated_occurrences es p h
      · have := countedOccurrencesFrom_le
          (fun u => decide (C ≤ getWeight (.Int [u]) (Root.getCount (.Int [u])))) L p es []
        simp only [occurrences]
        omega

/-- C4 (amended): patterns never span block boundaries.  In every pass the
count of a node grows by at most the number of occurrences of its value path
that lie inside one run of values without block marker, and a node is created
only if there is such an occurrence.  For `[1, 2, <enter>, 1, 2, <exit>]` with
`L = 2`, the node of the path `(1, 2)` is incremented twice (its `size_t`
count `c` becomes `(c + 2) % 2 ^ 64`) provided the top-level nodes of `1` and
of `2` have a weight of at least the cutoff, and the node of the path `(2, 1)`
is neither created nor incremented. -/
theorem patterns_within_blocks (Root : RootCountNode) (C L : Nat) (es : List StreamEvent) :
    (∀ p, (compressUpToSize getWeight Root C L es).1.getCount (.Int p)
        ≤ Root.getCount (.Int p) + occurrences p es) ∧
    (∀ p, (compressUpToSize getWeight Root C L es).1.hasNode (.Int p) = true →
        Root.hasNode (.Int p) = true ∨ 0 < occurrences p es) ∧
    (C ≤ getWeight (.Int [1]) (Root.getCount (.Int [1])) →
      C ≤ getWeight (.Int [2]) (Root.getCount (.Int [2])) →
      (compressUpToSize getWeight Root C 2 blockBoundaryExample).1.getCount (.Int [2, 1])
        = (Root.getCount (.Int [2, 1]) + 2) % 2 ^ 64) ∧
    (compressUpToSize getWeight Root C 2 blockBoundaryExample).1.getCount (.Int [1, 2])
        = Root.getCount (.Int [1, 2]) ∧
    (compressUpToSize getWeight Root C 2 blockBoundaryExample).1.hasNode (.Int [1, 2])
        = Root.hasNode (.Int [1, 2]) := by
  refine ⟨pass_count_le getWeight Root C L es, pass_created getWeight Root C L es, ?_, ?_, ?_⟩
  · intro h1 h2
    rw [(compressUpToSize_multi getWeight Root C 2 (by decide) blockBoundaryExample).1,
      ← incrementedBy_pos _ 2 (by decide)]
    congr 1
    simp [multiCount, blockBoundaryExample, countedOccurrencesFrom, countedAt, h1, h2]
  · rw [(compressUpToSize_multi getWeight Root C 2 (by decide) blockBoundaryExample).1]
    simp [multiCount, blockBoundaryExample, countedOccurrencesFrom, countedAt, incrementedBy_zero]
  · rw [(compressUpToSize_multi getWeight Root C 2 (by decide) blockBoundaryExample).2]
    simp [multiCreated, blockBoundaryExample, countedOccurrencesFrom, countedAt, flatCreated]

/-- C4 (counterexample): with the count cutoff 3, the pass with `L = 2` that
follows the pass with `L = 1` over `[1, 2, <enter>, 1, 2, <exit>]` does not
increment the node of the path `(1, 2)`: its count is 0 before and after. -/
theorem block_boundary_counterexample :
    (compressUpToSize weightCountTimesLength
      (compressUpToSize weightCountTimesLength RootCountNode.empty 3 1
        blockBoundaryExample).1 3 2 blockBoundaryExample).1.getCount (.Int [2, 1]) = 0 ∧
    (compressUpToSize weightCountTimesLength RootCountNode.empty 3 1
        blockBoundaryExample).1.getCount (.Int [2, 1]) = 0 := by
  decide

/-- The theorem `patterns_within_blocks` after the pass with `L == 1` and the
cutoff 2. -/
theorem patterns_within_blocks_witness :
    2 ≤ weightCountTimesLength (.Int [1])
      ((compressUpToSize weightCountTimesLength RootCountNode.empty 2 1
        blockBoundaryExample).1.getCount (.Int [1])) ∧
    2 ≤ weightCountTimesLength (.Int [2])
      ((compressUpToSize weightCountTimesLength RootCountNode.empty 2 1
        blockBoundaryExample).1.getCount (.Int [2])) ∧
    (compressUpToSize weightCountTimesLength
      (compressUpToSize weightCountTimesLength RootCountNode.empty 2 1
        blockBoundaryExample).1 2 2 blockBoundaryExample).1.getCount (.Int [2, 1])
      = (compressUpToSize weightCountTimesLength RootCountNode.empty 2 1
        blockBoundaryExample).1.getCount (.Int [2, 1]) + 2 :=
  ⟨by decide, by decide,
    (patterns_within_blocks weightCountTimesLength
      (compressUpToSize weightCountTimesLength RootCountNode.empty 2 1
        blockBoundaryExample).1 2 2 blockBoundaryExample).2.2.1 (by decide) (by decide)⟩

end CountingTheorems

section SelectionTheorems

variable (getWeight : CountNode → Nat → Nat)

/-! ### The walk up the parents of an added node -/

theorem trimParent_Root (Parent : CountNode) (New : Nat) (st : AbbreviationsCollector) :
    (trimParent getWeight Parent New st).Root = st.Root.setCount Parent New := by
  unfold trimParent AbbreviationsCollector.reinsert AbbreviationsCollector.pushHeap
  dsimp only
  split_ifs <;> rfl

theorem trimParent_Assignments (Parent : CountNode) (New : Nat) (st : AbbreviationsCollector) :
    (trimParent getWeight Parent New st).Assignments = st.Assignments.erase Parent := by
  unfold trimParent AbbreviationsCollector.reinsert AbbreviationsCollector.pushHeap
  dsimp only
  split_ifs <;> simp_all [List.erase_of_not_mem]

theorem trimParent_TrimmedNodes (Parent : CountNode) (New : Nat) (st : AbbreviationsCollector) :
    (trimParent getWeight Parent New st).TrimmedNodes = st.TrimmedNodes := by
  unfold trimParent AbbreviationsCollector.reinsert AbbreviationsCollector.pushHeap
  dsimp only
  split_ifs <;> rfl

theorem trimParent_HeapEntries (Parent : CountNode) (New : Nat) (st : AbbreviationsCollector) :
    (trimParent getWeight Parent New st).HeapEntries = st.HeapEntries := by
  unfold trimParent AbbreviationsCollector.reinsert AbbreviationsCollector.pushHeap
  dsimp only
  split_ifs <;> simp_all

theorem trimParent_ValuesHeap (Parent : CountNode) (New : Nat) (st : AbbreviationsCollector) :
    (trimParent getWeight Parent New st).ValuesHeap
      = if Parent ∈ st.HeapEntries then
          heapInsert getWeight (st.Root.setCount Parent New) Parent (st.ValuesHeap.erase Parent)
        else st.ValuesHeap := by
  unfold trimParent AbbreviationsCollector.reinsert AbbreviationsCollector.pushHeap
  dsimp only
  split_ifs <;> simp_all [List.erase_of_not_mem]

theorem trimParent_Symbols (Parent : CountNode) (New : Nat) (st : AbbreviationsCollector) :
    (trimParent getWeight Parent New st).Symbols = st.Symbols ∧
    (trimParent getWeight Parent New st).AbbrevIndex = st.AbbrevIndex ∧
    (trimParent getWeight Parent New st).Values = st.Values := by
  unfold trimParent AbbreviationsCollector.reinsert AbbreviationsCollector.pushHeap
  dsimp only
  split_ifs <;> exact ⟨rfl, rfl, rfl⟩

/-- Under the guard of the code the unsigned subtraction does not wrap: the
new count of a parent is the old count minus `Count`, or 0 when that would be
negative. -/
theorem newCount_eq (OldCount Count : Nat) :
    (if OldCount > Count then sizeSub OldCount Count else 0) = OldCount - Count := by
  unfold sizeSub
  split_ifs <;> omega

/-- An invariant of the walk up the parents: a property of the chain that is
left and of the state, kept by every round, holds when the walk ends. -/
theorem trimLoop_invariant (Count : Nat) (P : IntPath → AbbreviationsCollector → Prop)
    (hstep : ∀ (v : IntType) (q : IntPath) (st : AbbreviationsCollector),
      P (v :: q) st → q ≠ [] → st.Root.hasNode (.Int q) = true →
      CountNode.Int (v :: q) ∉ st.TrimmedNodes →
      st.Root.getCount (.Int q) - Count < st.Root.getCount (.Int q) →
      P q (trimParent getWeight (.Int q) (st.Root.getCount (.Int q) - Count) st)) :
    ∀ (p : IntPath) (st : AbbreviationsCollector), P p st →
      ∃ q, P q (trimLoop getWeight Count p st) := by
  intro p
  induction p with
  | nil => intro st h; exact ⟨[], by simpa [trimLoop] using h⟩
  | cons v q ih =>
    intro st h
    cases q with
    | nil => exact ⟨[v], by simpa [trimLoop] using h⟩
    | cons u ps =>
      unfold trimLoop
      simp only [newCount_eq]
      split_ifs with h1 h2 h3
      · exact ⟨_, h⟩
      · exact ⟨_, h⟩
      · exact ⟨_, h⟩
      · apply ih
        apply hstep v (u :: ps) st h (by simp) (by simpa using h1) h2
        omega
theorem trimLoop_Assignments_sublist (Count : Nat) (p : IntPath)
    (st : AbbreviationsCollector) :
    (trimLoop getWeight Count p st).Assignments.Sublist st.Assignments := by
  obtain ⟨_, h⟩ := trimLoop_invariant getWeight Count
    (fun _ s => s.Assignments.Sublist st.Assignments)
    (fun v q s hs _ _ _ _ => by
      beta_reduce at hs ⊢
      rw [trimParent_Assignments]
      exact (List.erase_sublist _ _).trans hs)
    p st (List.Sublist.refl _)
  exact h

theorem trimLoop_Assignments_keep (Count : Nat) (p : IntPath)
    (st : AbbreviationsCollector) (x : CountNode) (hx : x.isInt = false)
    (hmem : x ∈ st.Assignments) :
    x ∈ (trimLoop getWeight Count p st).Assignments := by
  obtain ⟨_, h⟩ := trimLoop_invariant getWeight Count
    (fun _ s => x ∈ s.Assignments)
    (fun v q s hs _ _ _ _ => by
      beta_reduce at hs ⊢
      rw [trimParent_Assignments]
      apply (List.mem_erase_of_ne _).2 hs
      intro h; subst h; simp [CountNode.isInt] at hx)
    p st hmem
  exact h

theorem trimLoop_TrimmedNodes (Count : Nat) (p : IntPath) (st : AbbreviationsCollector) :
    (trimLoop getWeight Count p st).TrimmedNodes = st.TrimmedNodes := by
  obtain ⟨_, h⟩ := trimLoop_invariant getWeight Count
    (fun _ s => s.TrimmedNodes = st.TrimmedNodes)
    (fun v q s hs _ _ _ _ => by beta_reduce at hs ⊢; rw [trimParent_TrimmedNodes]; exact hs)
    p st rfl
  exact h

theorem trimLoop_HeapEntries (Count : Nat) (p : IntPath) (st : AbbreviationsCollector) :
    (trimLoop getWeight Count p st).HeapEntries = st.HeapEntries := by
  obtain ⟨_, h⟩ := trimLoop_invariant getWeight Count
    (fun _ s => s.HeapEntries = st.HeapEntries)
    (fun v q s hs _ _ _ _ => by beta_reduce at hs ⊢; rw [trimParent_HeapEntries]; exact hs)
    p st rfl
  exact h

theorem trimLoop_Symbols (Count : Nat) (p : IntPath) (st : AbbreviationsCollector) :
    (trimLoop getWeight Count p st).Symbols = st.Symbols ∧
    (trimLoop getWeight Count p st).AbbrevIndex = st.AbbrevIndex ∧
    (trimLoop getWeight Count p st).Values = st.Values := by
  obtain ⟨_, h⟩ := trimLoop_invariant getWeight Count
    (fun _ s => s.Symbols = st.Symbols ∧ s.AbbrevIndex = st.AbbrevIndex ∧ s.Values = st.Values)
    (fun v q s hs _ _ _ _ => by
      beta_reduce at hs ⊢
      obtain ⟨h1, h2, h3⟩ := trimParent_Symbols getWeight (.Int q)
        (s.Root.getCount (.Int q) - Count) s
      rw [h1, h2, h3]; exact hs)
    p st ⟨rfl, rfl, rfl⟩
  exact h

/-- The counts after the walk: every count is the old one or the old one
minus `Count`, cut off at zero; the structural singletons and the nodes off the
chain keep theirs. -/
theorem trimLoop_getCount (Count : Nat) (p : IntPath) (st : AbbreviationsCollector)
    (x : CountNode) :
    ((trimLoop getWeight Count p st).Root.getCount x = st.Root.getCount x ∨
      (trimLoop getWeight Count p st).Root.getCount x = st.Root.getCount x - Count) ∧
    (x.isInt = false → (trimLoop getWeight Count p st).Root.getCount x = st.Root.getCount x) := by
  obtain ⟨_, h⟩ := trimLoop_invariant getWeight Count
    (fun q s => ((s.Root.getCount x = st.Root.getCount x ∨
        s.Root.getCount x = st.Root.getCount x - Count) ∧
        (x.isInt = false → s.Root.getCount x = st.Root.getCount x)) ∧
      ∀ t : IntPath, t.length < q.length → s.Root.getCount (.Int t) = st.Root.getCount (.Int t))
    (fun v q s hs _ _ _ _ => by
      beta_reduce at hs ⊢
      obtain ⟨⟨h1, h2⟩, h3⟩ := hs
      rw [trimParent_Root]
      refine ⟨⟨?_, ?_⟩, ?_⟩
      · rw [getCount_setCount]
        split
        · rename_i hx
          right
          rw [hx, h3 q (by simp)]
        · exact h1
      · intro hx
        rw [getCount_setCount]
        split
        · rename_i hx2; subst hx2; simp [CountNode.isInt] at hx
        · exact h2 hx
      · intro t ht
        rw [getCount_setCount]
        split
        · rename_i hx2
          simp only [CountNode.Int.injEq] at hx2
          subst hx2
          omega
        · exact h3 t (by simp; omega))
    p st ⟨⟨Or.inl rfl, fun _ => rfl⟩, fun _ _ => rfl⟩
  exact h.1

theorem addAbbreviation_getCount (Flags : CompressionFlags) (st : AbbreviationsCollector)
    (Nd x : CountNode) :
    ((st.addAbbreviation getWeight Flags Nd).Root.getCount x = st.Root.getCount x ∨
      (st.addAbbreviation getWeight Flags Nd).Root.getCount x
        = st.Root.getCount x - st.Root.getCount Nd) ∧
    (x.isInt = false →
      (st.addAbbreviation getWeight Flags Nd).Root.getCount x = st.Root.getCount x) := by
  unfold AbbreviationsCollector.addAbbreviation
  dsimp only
  split_ifs
  · exact ⟨Or.inl rfl, fun _ => rfl⟩
  · exact ⟨Or.inl rfl, fun _ => rfl⟩
  · exact ⟨Or.inl rfl, fun _ => rfl⟩
  · cases Nd with
    | Int p => exact trimLoop_getCount getWeight _ p _ x
    | _ => exact ⟨Or.inl rfl, fun _ => rfl⟩

/-- C8: trimming only decreases counts and never goes below zero.  After
`addAbbreviation` the count of every node is at most its count before.  It is
unchanged, or the walk has lowered it, and then it is the old count minus the
count of the added node when the old count is larger, and 0 otherwise: the
unsigned subtraction is only made when it does not wrap. -/
theorem trimming_only_decreases (Flags : CompressionFlags) (st : AbbreviationsCollector)
    (Nd x : CountNode) :
    (st.addAbbreviation getWeight Flags Nd).Root.getCount x ≤ st.Root.getCount x ∧
    ((st.addAbbreviation getWeight Flags Nd).Root.getCount x = st.Root.getCount x ∨
      (st.Root.getCount Nd < st.Root.getCount x ∧
        (st.addAbbreviation getWeight Flags Nd).Root.getCount x + st.Root.getCount Nd
          = st.Root.getCount x) ∨
      (st.Root.getCount x ≤ st.Root.getCount Nd ∧
        (st.addAbbreviation getWeight Flags Nd).Root.getCount x = 0)) := by
  have h := (addAbbreviation_getCount getWeight Flags st Nd x).1
  omega

/-! ### The assignment set under `addAbbreviation` and `assignAbbreviations` -/

theorem addAbbreviation_keep (Flags : CompressionFlags) (st : AbbreviationsCollector)
    (Nd x : CountNode) (hx : x.isInt = false) (hmem : x ∈ st.Assignments) :
    x ∈ (st.addAbbreviation getWeight Flags Nd).Assignments := by
  unfold AbbreviationsCollector.addAbbreviation
  dsimp only
  split_ifs
  · exact hmem
  · exact hmem
  · exact List.mem_append_left _ hmem
  · cases Nd with
    | Int p =>
      exact trimLoop_Assignments_keep getWeight _ p _ x hx (List.mem_append_left _ hmem)
    | _ => exact List.mem_append_left _ hmem

theorem addAbbreviation_self (Flags : CompressionFlags) (st : AbbreviationsCollector)
    (Nd : CountNode) (hNd : Nd.isInt = false) :
    Nd ∈ (st.addAbbreviation getWeight Flags Nd).Assignments := by
  unfold AbbreviationsCollector.addAbbreviation
  dsimp only
  split_ifs with h1 h2 h3
  · exact h1
  · rw [hNd] at h2; simp at h2
  · simp
  · cases Nd with
    | Int p => simp [CountNode.isInt] at hNd
    | _ => simp

/-- Adding a structural singleton that is not yet assigned appends it and
changes nothing else of the assignments. -/
theorem addAbbreviation_other (Flags : CompressionFlags) (st : AbbreviationsCollector)
    (Nd : CountNode) (hNd : Nd.isInt = false) :
    (st.addAbbreviation getWeight Flags Nd).Assignments
      = if Nd ∈ st.Assignments then st.Assignments else st.Assignments ++ [Nd] := by
  unfold AbbreviationsCollector.addAbbreviation
  dsimp only
  split_ifs with h1 h2 h3
  · rfl
  · rw [hNd] at h2; simp at h2
  · rfl
  · cases Nd with
    | Int p => simp [CountNode.isInt] at hNd
    | _ => rfl

theorem addAbbreviation_sublist (Flags : CompressionFlags) (st : AbbreviationsCollector)
    (Nd : CountNode) :
    (st.addAbbreviation getWeight Flags Nd).Assignments.Sublist (st.Assignments ++ [Nd]) := by
  unfold AbbreviationsCollector.addAbbreviation
  dsimp only
  split_ifs
  · exact List.sublist_append_left _ _
  · exact List.sublist_append_left _ _
  · exact List.Sublist.refl _
  · cases Nd with
    | Int p => exact trimLoop_Assignments_sublist getWeight _ p _
    | _ => exact List.Sublist.refl _

theorem addAbbreviation_length (Flags : CompressionFlags) (st : AbbreviationsCollector)
    (Nd : CountNode) :
    (st.addAbbreviation getWeight Flags Nd).Assignments.length ≤ st.Assignments.length + 1 := by
  have := (addAbbreviation_sublist getWeight Flags st Nd).length_le
  simpa using this

theorem addOthers_getCount (Flags : CompressionFlags) (Others : List CountNode) :
    ∀ (st : AbbreviationsCollector), (∀ Nd ∈ Others, Nd.isInt = false) →
      (addOthers getWeight Flags Others st).Root = st.Root := by
  induction Others with
  | nil => intro st _; rfl
  | cons Nd Others ih =>
    intro st h
    unfold addOthers
    split_ifs
    · exact ih st (fun x hx => h x (List.mem_cons_of_mem _ hx))
    · rw [ih _ (fun x hx => h x (List.mem_cons_of_mem _ hx))]
      have hNd := h Nd (List.mem_cons_self _ _)
      unfold AbbreviationsCollector.addAbbreviation
      dsimp only
      split_ifs
      · rfl
      · rfl
      · rfl
      · cases Nd with
        | Int p => simp [CountNode.isInt] at hNd
        | _ => rfl

/-- The first loop of `assignAbbreviations` from the assignments `A`: the
structural singletons with a count other than zero that are not in `A` are
appended in their order. -/
theorem addOthers_Assignments (Flags : CompressionFlags) (Others : List CountNode) :
    ∀ (st : AbbreviationsCollector), (∀ Nd ∈ Others, Nd.isInt = false) → Others.Nodup →
      (addOthers getWeight Flags Others st).Assignments
        = st.Assignments
          ++ Others.filter (fun Nd => decide (st.Root.getCount Nd ≠ 0 ∧ Nd ∉ st.Assignments)) := by
  induction Others with
  | nil => intro st _ _; simp [addOthers]
  | cons Nd Others ih =>
    intro st h hnd
    have hNd := h Nd (List.mem_cons_self _ _)
    have hO : ∀ x ∈ Others, x.isInt = false := fun x hx => h x (List.mem_cons_of_mem _ hx)
    have hnd2 : Others.Nodup := (List.nodup_cons.1 hnd).2
    have hnin : Nd ∉ Others := (List.nodup_cons.1 hnd).1
    unfold addOthers
    split_ifs with h0
    · rw [ih st hO hnd2]
      simp [List.filter_cons, h0]
    · rw [ih _ hO hnd2, addAbbreviation_other getWeight Flags st Nd hNd]
      have hR : (st.addAbbreviation getWeight Flags Nd).Root = st.Root := by
        have := addOthers_getCount getWeight Flags [Nd] st (by simpa using hNd)
        simpa [addOthers, h0] using this
      rw [hR]
      by_cases hin : Nd ∈ st.Assignments
      · simp [hin, List.filter_cons]
      · simp only [hin, if_false, List.filter_cons, h0, ne_eq, not_false_eq_true, and_self,
          decide_True, if_true, List.append_assoc, List.singleton_append]
        congr 2
        apply List.filter_congr
        intro x hx
        have hxne : x ≠ Nd := fun hh => hnin (hh ▸ hx)
        simp [hxne]

theorem pushHeap_fold_frame (l : List CountNode) :
    ∀ (st : AbbreviationsCollector),
      (l.foldl (fun s Nd => s.pushHeap getWeight Nd) st).Root = st.Root ∧
      (l.foldl (fun s Nd => s.pushHeap getWeight Nd) st).Assignments = st.Assignments ∧
      (l.foldl (fun s Nd => s.pushHeap getWeight Nd) st).TrimmedNodes = st.TrimmedNodes ∧
      (l.foldl (fun s Nd => s.pushHeap getWeight Nd) st).Symbols = st.Symbols ∧
      (l.foldl (fun s Nd => s.pushHeap getWeight Nd) st).AbbrevIndex = st.AbbrevIndex := by
  induction l with
  | nil => intro st; exact ⟨rfl, rfl, rfl, rfl, rfl⟩
  | cons x l ih =>
    intro st
    simp only [List.foldl_cons]
    obtain ⟨h1, h2, h3, h4, h5⟩ := ih (st.pushHeap getWeight x)
    exact ⟨h1, h2, h3, h4, h5⟩

theorem indexLoop_frame (Heap : List CountNode) :
    ∀ (st : AbbreviationsCollector),
      (indexLoop Heap st).Root = st.Root ∧
      (indexLoop Heap st).Assignments = st.Assignments ∧
      (indexLoop Heap st).ValuesHeap = [] := by
  induction Heap with
  | nil => intro st; exact ⟨rfl, rfl, rfl⟩
  | cons x Heap ih =>
    intro st
    unfold indexLoop
    obtain ⟨h1, h2, h3⟩ := ih
      { (createSymbol { st with ValuesHeap := Heap } (st.Root.getCount x)).1 with
        AbbrevIndex := Function.update
          (createSymbol { st with ValuesHeap := Heap } (st.Root.getCount x)).1.AbbrevIndex x
          (some (createSymbol { st with ValuesHeap := Heap } (st.Root.getCount x)).2) }
    exact ⟨h1, h2, h3⟩

theorem assignAbbreviationsInit_frame (Flags : CompressionFlags) (Collected : List CountNode)
    (st : AbbreviationsCollector) :
    (assignAbbreviationsInit getWeight Flags Collected st).Root = st.Root ∧
    (assignAbbreviationsInit getWeight Flags Collected st).Assignments
      = st.Assignments ++ getOthers.filter
          (fun Nd => decide (st.Root.getCount Nd ≠ 0 ∧ Nd ∉ st.Assignments)) := by
  unfold assignAbbreviationsInit AbbreviationsCollector.buildHeap
  dsimp only
  obtain ⟨h1, h2, _⟩ := pushHeap_fold_frame getWeight Collected
    { addOthers getWeight Flags getOthers { st with TrimmedNodes := [] } with
      Values := Collected }
  rw [h1, h2]
  have hO : ∀ Nd ∈ getOthers, Nd.isInt = false := by decide
  have hnd : getOthers.Nodup := by decide
  exact ⟨addOthers_getCount getWeight Flags getOthers _ hO,
    addOthers_Assignments getWeight Flags getOthers _ hO hnd⟩

theorem selectStep_keep (Flags : CompressionFlags) (st st1 : AbbreviationsCollector)
    (h : selectStep getWeight Flags st = some st1) (x : CountNode) (hx : x.isInt = false) :
    (x ∈ st.Assignments → x ∈ st1.Assignments) ∧ st1.Root.getCount x = st.Root.getCount x := by
  unfold selectStep at h
  split at h
  · simp at h
  · rename_i Nd Heap hheap
    split_ifs at h
    simp only [Option.some.injEq] at h
    subst h
    exact ⟨fun hm => addAbbreviation_keep getWeight Flags _ Nd x hx hm,
      (addAbbreviation_getCount getWeight Flags _ Nd x).2 hx⟩

theorem selectLoop_keep (Flags : CompressionFlags) (x : CountNode) (hx : x.isInt = false)
    (fuel : Nat) :
    ∀ (st : AbbreviationsCollector),
      (x ∈ st.Assignments → x ∈ (selectLoop getWeight Flags fuel st).Assignments) ∧
      (selectLoop getWeight Flags fuel st).Root.getCount x = st.Root.getCount x := by
  induction fuel with
  | zero => intro st; exact ⟨fun h => h, rfl⟩
  | succ n ih =>
    intro st
    unfold selectLoop
    cases hs : selectStep getWeight Flags st with
    | none => exact ⟨fun h => h, rfl⟩
    | some st1 =>
      obtain ⟨k1, k2⟩ := selectStep_keep getWeight Flags st st1 hs x hx
      obtain ⟨i1, i2⟩ := ih st1
      exact ⟨fun h => i1 (k1 h), by rw [i2, k2]⟩

theorem assignAbbreviations_Assignments (Flags : CompressionFlags)
    (Collected : List CountNode) (st : AbbreviationsCollector) :
    (st.assignAbbreviations getWeight Flags Collected).Assignments
      = (assignAbbreviationsSelect getWeight Flags Collected st).Assignments ∧
    (st.assignAbbreviations getWeight Flags Collected).Root
      = (assignAbbreviationsSelect getWeight Flags Collected st).Root := by
  unfold AbbreviationsCollector.assignAbbreviations
  dsimp only
  obtain ⟨h1, h2, _⟩ := indexLoop_frame
    ((List.foldl (fun (s : AbbreviationsCollector) Nd => s.pushHeap getWeight Nd)
      { assignAbbreviationsSelect getWeight Flags Collected st with TrimmedNodes := [] }
      (assignAbbreviationsSelect getWeight Flags Collected st).Assignments).ValuesHeap)
    (List.foldl (fun (s : AbbreviationsCollector) Nd => s.pushHeap getWeight Nd)
      { assignAbbreviationsSelect getWeight Flags Collected st with TrimmedNodes := [] }
      (assignAbbreviationsSelect getWeight Flags Collected st).Assignments)
  obtain ⟨p1, p2, _⟩ := pushHeap_fold_frame getWeight
    (assignAbbreviationsSelect getWeight Flags Collected st).Assignments
    { assignAbbreviationsSelect getWeight Flags Collected st with TrimmedNodes := [] }
  rw [h1, h2, p1, p2]
  exact ⟨rfl, rfl⟩

/-- C5: unconditional inclusion.  After `assignAbbreviations` every structural
singleton of the root whose count is not zero is in the assignment set, for
every trie, every list of collected candidates, every assignment set passed in
and every value of `CountCutoff`, `WeightCutoff` and `MaxAbbreviations`; its
count is what it was. -/
theorem others_always_assigned (Flags : CompressionFlags) (Collected : List CountNode)
    (Root : RootCountNode) (A : List CountNode) (Nd : CountNode) (hNd : Nd ∈ getOthers)
    (hc : Root.getCount Nd ≠ 0) :
    Nd ∈ ((AbbreviationsCollector.make Root A).assignAbbreviations getWeight Flags
      Collected).Assignments ∧
    ((AbbreviationsCollector.make Root A).assignAbbreviations getWeight Flags
      Collected).Root.getCount Nd = Root.getCount Nd := by
  have hO : ∀ x ∈ getOthers, x.isInt = false := by decide
  have hx := hO Nd hNd
  obtain ⟨a1, a2⟩ := assignAbbreviations_Assignments getWeight Flags Collected
    (AbbreviationsCollector.make Root A)
  obtain ⟨i1, i2⟩ := assignAbbreviationsInit_frame getWeight Flags Collected
    (AbbreviationsCollector.make Root A)
  rw [a1, a2]
  unfold assignAbbreviationsSelect
  dsimp only
  obtain ⟨s1, s2⟩ := selectLoop_keep getWeight Flags Nd hx
    (selectFuel (assignAbbreviationsInit getWeight Flags Collected
      (AbbreviationsCollector.make Root A)))
    (assignAbbreviationsInit getWeight Flags Collected (AbbreviationsCollector.make Root A))
  refine ⟨s1 ?_, by rw [s2, i1]; rfl⟩
  rw [i2]
  by_cases hin : Nd ∈ A
  · exact List.mem_append_left _ hin
  · apply List.mem_append_right
    rw [List.mem_filter]
    exact ⟨hNd, by simpa [AbbreviationsCollector.make, hin] using hc⟩

/-! ### The selection loop ends -/

theorem heapInsert_length (Root : RootCountNode) (x : CountNode) (l : List CountNode) :
    (heapInsert getWeight Root x l).length = l.length + 1 := by
  induction l with
  | nil => rfl
  | cons y l ih =>
    unfold heapInsert
    split_ifs
    · rfl
    · simp [ih]

theorem sum_getCount_setCount (Root : RootCountNode) (a : CountNode) (c : Nat)
    (l : List CountNode) (hl : l.Nodup) :
    (l.map (Root.setCount a c).getCount).sum + (if a ∈ l then Root.getCount a else 0)
      = (l.map Root.getCount).sum + (if a ∈ l then c else 0) := by
  induction l with
  | nil => simp
  | cons y l ih =>
    have hy : y ∉ l := (List.nodup_cons.1 hl).1
    have ih2 := ih (List.nodup_cons.1 hl).2
    simp only [List.map_cons, List.sum_cons, getCount_setCount, List.mem_cons]
    by_cases hay : a = y
    · subst hay
      simp only [hy, if_false, true_or, if_true] at ih2 ⊢
      omega
    · have hya : ¬ y = a := fun h => hay h.symm
      simp only [hay, hya, false_or, if_false]
      omega

theorem trimParent_selectFuel (Parent : CountNode) (New : Nat) (st : AbbreviationsCollector)
    (hnd : st.HeapEntries.Nodup) (hlt : New < st.Root.getCount Parent) :
    selectFuel (trimParent getWeight Parent New st) ≤ selectFuel st := by
  unfold selectFuel
  rw [trimParent_HeapEntries, trimParent_Root, trimParent_ValuesHeap]
  have hs := sum_getCount_setCount st.Root Parent New st.HeapEntries hnd
  by_cases hin : Parent ∈ st.HeapEntries
  · simp only [hin, if_true] at hs ⊢
    rw [heapInsert_length]
    have := (List.erase_sublist Parent st.ValuesHeap).length_le
    omega
  · simp only [hin, if_false] at hs ⊢
    omega

theorem trimLoop_selectFuel (Count : Nat) (p : IntPath) (st : AbbreviationsCollector)
    (hnd : st.HeapEntries.Nodup) :
    selectFuel (trimLoop getWeight Count p st) ≤ selectFuel st := by
  obtain ⟨_, h⟩ := trimLoop_invariant getWeight Count
    (fun _ s => selectFuel s ≤ selectFuel st ∧ s.HeapEntries.Nodup)
    (fun v q s hs _ _ _ hlt => by
      beta_reduce at hs ⊢
      rw [trimParent_HeapEntries]
      exact ⟨(trimParent_selectFuel getWeight _ _ s hs.2 hlt).trans hs.1, hs.2⟩)
    p st ⟨Nat.le_refl _, hnd⟩
  exact h.1

theorem addAbbreviation_selectFuel (Flags : CompressionFlags) (st : AbbreviationsCollector)
    (Nd : CountNode) (hnd : st.HeapEntries.Nodup) :
    selectFuel (st.addAbbreviation getWeight Flags Nd) ≤ selectFuel st ∧
    (st.addAbbreviation getWeight Flags Nd).HeapEntries = st.HeapEntries := by
  unfold AbbreviationsCollector.addAbbreviation
  dsimp only
  split_ifs
  · exact ⟨Nat.le_refl _, rfl⟩
  · exact ⟨Nat.le_refl _, rfl⟩
  · exact ⟨Nat.le_refl _, rfl⟩
  · cases Nd with
    | Int p =>
      exact ⟨trimLoop_selectFuel getWeight _ p
        { st with Assignments := st.Assignments ++ [CountNode.Int p] } hnd,
        trimLoop_HeapEntries getWeight _ p _⟩
    | _ => exact ⟨Nat.le_refl _, rfl⟩

theorem selectStep_selectFuel (Flags : CompressionFlags) (st st1 : AbbreviationsCollector)
    (hnd : st.HeapEntries.Nodup) (h : selectStep getWeight Flags st = some st1) :
    selectFuel st1 < selectFuel st ∧ st1.HeapEntries = st.HeapEntries := by
  unfold selectStep at h
  split at h
  · simp at h
  · rename_i Nd Heap hheap
    split_ifs at h
    simp only [Option.some.injEq] at h
    subst h
    obtain ⟨h1, h2⟩ := addAbbreviation_selectFuel getWeight Flags
      { st with ValuesHeap := Heap } Nd hnd
    refine ⟨?_, h2⟩
    have : selectFuel { st with ValuesHeap := Heap } + 1 = selectFuel st := by
      simp [selectFuel, hheap]; omega
    omega

/-- With `selectFuel` rounds the selection loop has ended: the result is a state
in which the loop condition fails. -/
theorem selectLoop_exit (Flags : CompressionFlags) (fuel : Nat) :
    ∀ (st : AbbreviationsCollector), st.HeapEntries.Nodup → selectFuel st ≤ fuel →
      selectStep getWeight Flags (selectLoop getWeight Flags fuel st) = none := by
  induction fuel with
  | zero =>
    intro st _ hf
    have h0 : st.ValuesHeap = [] := by
      have : st.ValuesHeap.length = 0 := by unfold selectFuel at hf; omega
      exact List.length_eq_zero.1 this
    simp [selectLoop, selectStep, h0]
  | succ n ih =>
    intro st hnd hf
    unfold selectLoop
    cases hs : selectStep getWeight Flags st with
    | none => exact hs
    | some st1 =>
      obtain ⟨h1, h2⟩ := selectStep_selectFuel getWeight Flags st st1 hnd hs
      exact ih st1 (h2 ▸ hnd) (by omega)

theorem pushHeap_fold_HeapEntries (l : List CountNode) :
    ∀ (st : AbbreviationsCollector), st.HeapEntries.Nodup →
      (l.foldl (fun s Nd => s.pushHeap getWeight Nd) st).HeapEntries.Nodup := by
  induction l with
  | nil => intro st h; exact h
  | cons x l ih =>
    intro st h
    simp only [List.foldl_cons]
    apply ih
    unfold AbbreviationsCollector.pushHeap
    dsimp only
    split_ifs with hx
    · exact h
    · exact List.nodup_cons.2 ⟨hx, h⟩

theorem addOthers_HeapEntries (Flags : CompressionFlags) (Others : List CountNode) :
    ∀ (st : AbbreviationsCollector), st.HeapEntries.Nodup →
      (addOthers getWeight Flags Others st).HeapEntries = st.HeapEntries := by
  induction Others with
  | nil => intro st _; rfl
  | cons Nd Others ih =>
    intro st h
    unfold addOthers
    split_ifs
    · exact ih st h
    · have := (addAbbreviation_selectFuel getWeight Flags st Nd h).2
      rw [ih _ (this ▸ h), this]

theorem assignAbbreviationsInit_HeapEntries (Flags : CompressionFlags)
    (Collected : List CountNode) (st : AbbreviationsCollector) (h : st.HeapEntries.Nodup) :
    (assignAbbreviationsInit getWeight Flags Collected st).HeapEntries.Nodup := by
  unfold assignAbbreviationsInit AbbreviationsCollector.buildHeap
  dsimp only
  apply pushHeap_fold_HeapEntries
  dsimp only
  have h2 : ({ st with TrimmedNodes := [] } : AbbreviationsCollector).HeapEntries.Nodup := h
  rw [addOthers_HeapEntries getWeight Flags getOthers _ h2]
  exact h

/-- The selection loop of `assignAbbreviations` ends: in the state it returns,
the queue is empty or the assignments have reached `MaxAbbreviations`. -/
theorem assignAbbreviationsSelect_exit (Flags : CompressionFlags)
    (Collected : List CountNode) (st : AbbreviationsCollector) (h : st.HeapEntries.Nodup) :
    (assignAbbreviationsSelect getWeight Flags Collected st).ValuesHeap = [] ∨
    Flags.MaxAbbreviations
      ≤ (assignAbbreviationsSelect getWeight Flags Collected st).Assignments.length := by
  have hx := selectLoop_exit getWeight Flags
    (selectFuel (assignAbbreviationsInit getWeight Flags Collected st))
    (assignAbbreviationsInit getWeight Flags Collected st)
    (assignAbbreviationsInit_HeapEntries getWeight Flags Collected st h) (Nat.le_refl _)
  unfold assignAbbreviationsSelect
  dsimp only
  unfold selectStep at hx
  split at hx
  · rename_i h0; exact Or.inl h0
  · split_ifs at hx with hlt
    right; omega

theorem selectStep_length (Flags : CompressionFlags) (st st1 : AbbreviationsCollector)
    (h : selectStep getWeight Flags st = some st1) :
    st.Assignments.length < Flags.MaxAbbreviations ∧
    st1.Assignments.length ≤ Flags.MaxAbbreviations := by
  unfold selectStep at h
  split at h
  · simp at h
  · rename_i Nd Heap hheap
    split_ifs at h with hlt
    simp only [Option.some.injEq] at h
    subst h
    have := addAbbreviation_length getWeight Flags { st with ValuesHeap := Heap } Nd
    exact ⟨hlt, by simp only at this; omega⟩

theorem selectLoop_length (Flags : CompressionFlags) (B : Nat)
    (hB : Flags.MaxAbbreviations ≤ B) (fuel : Nat) :
    ∀ (st : AbbreviationsCollector), st.Assignments.length ≤ B →
      (selectLoop getWeight Flags fuel st).Assignments.length ≤ B := by
  induction fuel with
  | zero => intro st h; exact h
  | succ n ih =>
    intro st h
    unfold selectLoop
    cases hs : selectStep getWeight Flags st with
    | none => exact h
    | some st1 =>
      exact ih st1 ((selectStep_length getWeight Flags st st1 hs).2.trans hB)

theorem make_init_Assignments (Flags : CompressionFlags) (Collected : List CountNode)
    (Root : RootCountNode) :
    (assignAbbreviationsInit getWeight Flags Collected
      (AbbreviationsCollector.make Root [])).Assignments
      = getOthers.filter (fun Nd => decide (Root.getCount Nd ≠ 0)) := by
  rw [(assignAbbreviationsInit_frame getWeight Flags Collected _).2]
  simp [AbbreviationsCollector.make]

/-- C6: `MaxAbbreviations` is respected by the greedy selection.  Starting from
an empty assignment set: before the selection loop only structural singletons
are assigned; a round of the loop, the only place where a pattern is added,
runs only from a state with fewer than `MaxAbbreviations` assignments and
leaves at most `MaxAbbreviations`; after `assignAbbreviations` the set has at
most `max(MaxAbbreviations, k)` members, `k` the number of structural
singletons with a count other than zero; and the loop ends, in a state where the
queue is empty or the assignments have reached `MaxAbbreviations`. -/
theorem max_abbreviations_respected (Flags : CompressionFlags) (Collected : List CountNode)
    (Root : RootCountNode) :
    (∀ x ∈ (assignAbbreviationsInit getWeight Flags Collected
        (AbbreviationsCollector.make Root [])).Assignments, x.isInt = false) ∧
    (∀ st st1, selectStep getWeight Flags st = some st1 →
      st.Assignments.length < Flags.MaxAbbreviations ∧
      st1.Assignments.length ≤ Flags.MaxAbbreviations) ∧
    ((AbbreviationsCollector.make Root []).assignAbbreviations getWeight Flags
        Collected).Assignments.length
      ≤ max Flags.MaxAbbreviations
          (getOthers.filter (fun Nd => decide (Root.getCount Nd ≠ 0))).length ∧
    ((assignAbbreviationsSelect getWeight Flags Collected
        (AbbreviationsCollector.make Root [])).ValuesHeap = [] ∨
      Flags.MaxAbbreviations
        ≤ (assignAbbreviationsSelect getWeight Flags Collected
            (AbbreviationsCollector.make Root [])).Assignments.length) := by
  refine ⟨?_, fun st st1 h => selectStep_length getWeight Flags st st1 h, ?_, ?_⟩
  · rw [make_init_Assignments]
    intro x hx
    have hO : ∀ y ∈ getOthers, y.isInt = false := by decide
    exact hO x (List.mem_filter.1 hx).1
  · rw [(assignAbbreviations_Assignments getWeight Flags Collected _).1]
    unfold assignAbbreviationsSelect
    dsimp only
    apply selectLoop_length getWeight Flags _ (Nat.le_max_left _ _)
    rw [make_init_Assignments]
    exact Nat.le_max_right _ _
  · exact assignAbbreviationsSelect_exit getWeight Flags Collected _ List.nodup_nil

theorem selectLoop_max_zero (Flags : CompressionFlags) (h : Flags.MaxAbbreviations = 0)
    (fuel : Nat) (st : AbbreviationsCollector) :
    selectLoop getWeight Flags fuel st = st := by
  cases fuel with
  | zero => rfl
  | succ n =>
    unfold selectLoop
    have : selectStep getWeight Flags st = none := by
      unfold selectStep
      split
      · rfl
      · simp [h]
    rw [this]

/-- C7: with `MaxAbbreviations = 0` and an assignment set that is empty at the
start, `assignAbbreviations` yields, for every trie and every list of collected
candidates, exactly the structural singletons with a count other than zero, and
so no `IntCountNode`. -/
theorem max_zero_only_others (Flags : CompressionFlags) (h : Flags.MaxAbbreviations = 0)
    (Collected : List CountNode) (Root : RootCountNode) :
    ((AbbreviationsCollector.make Root []).assignAbbreviations getWeight Flags
        Collected).Assignments
      = getOthers.filter (fun Nd => decide (Root.getCount Nd ≠ 0)) ∧
    ∀ x ∈ ((AbbreviationsCollector.make Root []).assignAbbreviations getWeight Flags
        Collected).Assignments, x.isInt = false := by
  have hA : ((AbbreviationsCollector.make Root []).assignAbbreviations getWeight Flags
      Collected).Assignments = getOthers.filter (fun Nd => decide (Root.getCount Nd ≠ 0)) := by
    rw [(assignAbbreviations_Assignments getWeight Flags Collected _).1]
    unfold assignAbbreviationsSelect
    dsimp only
    rw [selectLoop_max_zero getWeight Flags h, make_init_Assignments]
  refine ⟨hA, ?_⟩
  rw [hA]
  intro x hx
  have hO : ∀ y ∈ getOthers, y.isInt = false := by decide
  exact hO x (List.mem_filter.1 hx).1

/-- The theorem `others_always_assigned` for `DefaultSingle` on the example
trie. -/
theorem others_always_assigned_witness :
    CountNode.DefaultSingle ∈ getOthers ∧
    exampleRoot.getCount .DefaultSingle ≠ 0 ∧
    CountNode.DefaultSingle ∈ ((AbbreviationsCollector.make exampleRoot []).assignAbbreviations
      weightCountTimesLength exampleFlags [.Int [1], .Int [2, 1], .Int [2]]).Assignments :=
  ⟨by decide, by decide,
    (others_always_assigned weightCountTimesLength exampleFlags [.Int [1], .Int [2, 1], .Int [2]]
      exampleRoot [] .DefaultSingle (by decide) (by decide)).1⟩

/-- The theorem `max_zero_only_others` on the example trie: only `BlockEnter`
and `DefaultSingle`, the structural singletons with a count, are assigned. -/
theorem max_zero_only_others_witness :
    ({ exampleFlags with MaxAbbreviations := 0 } : CompressionFlags).MaxAbbreviations = 0 ∧
    ((AbbreviationsCollector.make exampleRoot []).assignAbbreviations weightCountTimesLength
        { exampleFlags with MaxAbbreviations := 0 }
        [.Int [1], .Int [2, 1], .Int [2]]).Assignments
      = [.BlockEnter, .DefaultSingle] :=
  ⟨rfl, (max_zero_only_others weightCountTimesLength { exampleFlags with MaxAbbreviations := 0 }
    rfl [.Int [1], .Int [2, 1], .Int [2]] exampleRoot).1.trans (by decide)⟩

/-! ### The order of the queue -/

theorem popsBefore_total (Root : RootCountNode) (a b : CountNode) :
    popsBefore getWeight Root a b ∨ popsBefore getWeight Root b a := by
  unfold popsBefore
  dsimp only
  omega

theorem popsBefore_trans (Root : RootCountNode) (a b c : CountNode)
    (h1 : popsBefore getWeight Root a b) (h2 : popsBefore getWeight Root b c) :
    popsBefore getWeight Root a c := by
  unfold popsBefore at *
  dsimp only at *
  omega

theorem popsBefore_weight (Root : RootCountNode) (a b : CountNode)
    (h : popsBefore getWeight Root a b) :
    getWeight b (Root.getCount b) ≤ getWeight a (Root.getCount a) := by
  unfold popsBefore at h
  dsimp only at h
  omega

theorem popsBefore_congr (Root Root2 : RootCountNode) (a b : CountNode)
    (ha : Root2.getCount a = Root.getCount a) (hb : Root2.getCount b = Root.getCount b)
    (h : popsBefore getWeight Root a b) : popsBefore getWeight Root2 a b := by
  unfold popsBefore at *
  rw [ha, hb]
  exact h

theorem mem_heapInsert (Root : RootCountNode) (x y : CountNode) (l : List CountNode) :
    y ∈ heapInsert getWeight Root x l ↔ y = x ∨ y ∈ l := by
  induction l with
  | nil => simp [heapInsert]
  | cons z l ih =>
    unfold heapInsert
    split_ifs
    · simp
    · simp only [List.mem_cons, ih]
      tauto

theorem heapInsert_pairwise (Root : RootCountNode) (x : CountNode) (l : List CountNode)
    (h : l.Pairwise (popsBefore getWeight Root)) :
    (heapInsert getWeight Root x l).Pairwise (popsBefore getWeight Root) := by
  induction l with
  | nil => simp [heapInsert]
  | cons z l ih =>
    obtain ⟨hz, hl⟩ := List.pairwise_cons.1 h
    unfold heapInsert
    split_ifs with hxz
    · refine List.pairwise_cons.2 ⟨?_, h⟩
      intro y hy
      rcases List.mem_cons.1 hy with rfl | hy
      · exact hxz
      · exact popsBefore_trans getWeight Root x z y hxz (hz y hy)
    · refine List.pairwise_cons.2 ⟨?_, ih hl⟩
      intro y hy
      rcases (mem_heapInsert getWeight Root x y l).1 hy with rfl | hy
      · rcases popsBefore_total getWeight Root y z with h1 | h1
        · exact absurd h1 hxz
        · exact h1
      · exact hz y hy

theorem heapInsert_nodup (Root : RootCountNode) (x : CountNode) (l : List CountNode)
    (h : l.Nodup) (hx : x ∉ l) : (heapInsert getWeight Root x l).Nodup := by
  induction l with
  | nil => simp [heapInsert]
  | cons z l ih =>
    obtain ⟨hz, hl⟩ := List.nodup_cons.1 h
    unfold heapInsert
    split_ifs
    · exact List.nodup_cons.2 ⟨hx, h⟩
    · refine List.nodup_cons.2 ⟨?_, ih hl (fun hm => hx (List.mem_cons_of_mem _ hm))⟩
      intro hm
      rcases (mem_heapInsert getWeight Root x z l).1 hm with rfl | hm
      · exact hx (List.mem_cons_self _ _)
      · exact hz hm

theorem pushHeap_HeapInv (st : AbbreviationsCollector) (Nd : CountNode)
    (h : HeapInv getWeight st) (hNd : Nd ∉ st.ValuesHeap) :
    HeapInv getWeight (st.pushHeap getWeight Nd) := by
  obtain ⟨h1, h2, h3⟩ := h
  unfold HeapInv AbbreviationsCollector.pushHeap
  dsimp only
  refine ⟨heapInsert_pairwise getWeight _ _ _ h1, ?_, heapInsert_nodup getWeight _ _ _ h3 hNd⟩
  intro x hx
  rcases (mem_heapInsert getWeight _ _ _ _).1 hx with rfl | hx
  · split_ifs with hin
    · exact hin
    · exact List.mem_cons_self _ _
  · split_ifs with hin
    · exact h2 x hx
    · exact List.mem_cons_of_mem _ (h2 x hx)

theorem trimParent_HeapInv (Parent : CountNode) (New : Nat) (st : AbbreviationsCollector)
    (h : HeapInv getWeight st) : HeapInv getWeight (trimParent getWeight Parent New st) := by
  obtain ⟨h1, h2, h3⟩ := h
  unfold HeapInv
  rw [trimParent_Root, trimParent_ValuesHeap, trimParent_HeapEntries]
  have hcongr : ∀ l : List CountNode, Parent ∉ l → l.Pairwise (popsBefore getWeight st.Root) →
      l.Pairwise (popsBefore getWeight (st.Root.setCount Parent New)) := by
    intro l hl hp
    refine hp.imp_of_mem ?_
    intro a b ha hb hab
    have hane : a ≠ Parent := fun hh => hl (hh ▸ ha)
    have hbne : b ≠ Parent := fun hh => hl (hh ▸ hb)
    exact popsBefore_congr getWeight _ _ a b (by rw [getCount_setCount]; simp [hane])
      (by rw [getCount_setCount]; simp [hbne]) hab
  by_cases hin : Parent ∈ st.HeapEntries
  · simp only [hin, if_true]
    have hnot : Parent ∉ st.ValuesHeap.erase Parent := fun hm => (h3.mem_erase_iff.1 hm).1 rfl
    refine ⟨heapInsert_pairwise getWeight _ _ _
        (hcongr _ hnot (h1.sublist (List.erase_sublist _ _))), ?_,
      heapInsert_nodup getWeight _ _ _ (h3.sublist (List.erase_sublist _ _)) hnot⟩
    intro x hx
    rcases (mem_heapInsert getWeight _ _ _ _).1 hx with rfl | hx
    · exact hin
    · exact h2 x (List.mem_of_mem_erase hx)
  · simp only [hin, if_false]
    have hnot : Parent ∉ st.ValuesHeap := fun hm => hin (h2 _ hm)
    exact ⟨hcongr _ hnot h1, h2, h3⟩

theorem trimLoop_HeapInv (Count : Nat) (p : IntPath) (st : AbbreviationsCollector)
    (h : HeapInv getWeight st) : HeapInv getWeight (trimLoop getWeight Count p st) := by
  obtain ⟨_, h⟩ := trimLoop_invariant getWeight Count
    (fun _ s => HeapInv getWeight s)
    (fun v q s hs _ _ _ _ => trimParent_HeapInv getWeight _ _ s hs)
    p st h
  exact h

theorem addAbbreviation_HeapInv (Flags : CompressionFlags) (st : AbbreviationsCollector)
    (Nd : CountNode) (h : HeapInv getWeight st) :
    HeapInv getWeight (st.addAbbreviation getWeight Flags Nd) := by
  unfold AbbreviationsCollector.addAbbreviation
  dsimp only
  split_ifs
  · exact h
  · exact h
  · exact h
  · cases Nd with
    | Int p =>
      have := trimLoop_HeapInv getWeight (st.Root.getCount (.Int p)) p
        { st with Assignments := st.Assignments ++ [CountNode.Int p] } h
      exact this
    | _ => exact h

theorem selectStep_HeapInv (Flags : CompressionFlags) (st st1 : AbbreviationsCollector)
    (h : HeapInv getWeight st) (hs : selectStep getWeight Flags st = some st1) :
    HeapInv getWeight st1 := by
  unfold selectStep at hs
  split at hs
  · simp at hs
  · rename_i Nd Heap hheap
    split_ifs at hs
    simp only [Option.some.injEq] at hs
    subst hs
    apply addAbbreviation_HeapInv
    obtain ⟨h1, h2, h3⟩ := h
    rw [hheap] at h1 h2 h3
    exact ⟨(List.pairwise_cons.1 h1).2, fun x hx => h2 x (List.mem_cons_of_mem _ hx),
      (List.nodup_cons.1 h3).2⟩

theorem selectStates_HeapInv (Flags : CompressionFlags) (fuel : Nat) :
    ∀ (st : AbbreviationsCollector), HeapInv getWeight st →
      ∀ s ∈ selectStates getWeight Flags fuel st, HeapInv getWeight s := by
  induction fuel with
  | zero =>
    intro st h s hs
    simp only [selectStates, List.mem_singleton] at hs
    exact hs ▸ h
  | succ n ih =>
    intro st h s hs
    unfold selectStates at hs
    cases hstep : selectStep getWeight Flags st with
    | none =>
      rw [hstep] at hs
      simp only [List.mem_singleton] at hs
      exact hs ▸ h
    | some st1 =>
      rw [hstep] at hs
      rcases List.mem_cons.1 hs with rfl | hs
      · exact h
      · exact ih st1 (selectStep_HeapInv getWeight Flags _ st1 h hstep) s hs

theorem pushHeap_fold_HeapInv (l : List CountNode) :
    ∀ (st : AbbreviationsCollector), HeapInv getWeight st → l.Nodup →
      (∀ x ∈ l, x ∉ st.ValuesHeap) →
      HeapInv getWeight (l.foldl (fun s Nd => s.pushHeap getWeight Nd) st) := by
  induction l with
  | nil => intro st h _ _; exact h
  | cons x l ih =>
    intro st h hnd hdis
    simp only [List.foldl_cons]
    obtain ⟨hx, hl⟩ := List.nodup_cons.1 hnd
    apply ih _ (pushHeap_HeapInv getWeight st x h (hdis x (List.mem_cons_self _ _))) hl
    intro y hy hmem
    simp only [AbbreviationsCollector.pushHeap] at hmem
    rcases (mem_heapInsert getWeight _ _ _ _).1 hmem with rfl | hmem
    · exact hx hy
    · exact hdis y (List.mem_cons_of_mem _ hy) hmem

theorem addOthers_ValuesHeap (Flags : CompressionFlags) (Others : List CountNode) :
    ∀ (st : AbbreviationsCollector), (∀ Nd ∈ Others, Nd.isInt = false) →
      (addOthers getWeight Flags Others st).ValuesHeap = st.ValuesHeap ∧
      (addOthers getWeight Flags Others st).HeapEntries = st.HeapEntries := by
  induction Others with
  | nil => intro st _; exact ⟨rfl, rfl⟩
  | cons Nd Others ih =>
    intro st h
    have hNd := h Nd (List.mem_cons_self _ _)
    have hO : ∀ x ∈ Others, x.isInt = false := fun x hx => h x (List.mem_cons_of_mem _ hx)
    unfold addOthers
    split_ifs
    · exact ih st hO
    · obtain ⟨i1, i2⟩ := ih (st.addAbbreviation getWeight Flags Nd) hO
      rw [i1, i2]
      unfold AbbreviationsCollector.addAbbreviation
      dsimp only
      split_ifs
      · exact ⟨rfl, rfl⟩
      · exact ⟨rfl, rfl⟩
      · exact ⟨rfl, rfl⟩
      · cases Nd with
        | Int p => simp [CountNode.isInt] at hNd
        | _ => exact ⟨rfl, rfl⟩

theorem assignAbbreviationsInit_HeapInv (Flags : CompressionFlags)
    (Collected : List CountNode) (hC : Collected.Nodup) (Root : RootCountNode)
    (A : List CountNode) :
    HeapInv getWeight (assignAbbreviationsInit getWeight Flags Collected
      (AbbreviationsCollector.make Root A)) := by
  unfold assignAbbreviationsInit AbbreviationsCollector.buildHeap
  dsimp only
  have hO : ∀ Nd ∈ getOthers, Nd.isInt = false := by decide
  obtain ⟨a1, a2⟩ := addOthers_ValuesHeap getWeight Flags getOthers
    { AbbreviationsCollector.make Root A with TrimmedNodes := [] } hO
  apply pushHeap_fold_HeapInv getWeight Collected _ _ hC
  · intro x _
    dsimp only
    rw [a1]
    simp [AbbreviationsCollector.make]
  · unfold HeapInv
    dsimp only
    rw [a1]
    simp [AbbreviationsCollector.make]

/-- C9: the greedy selection always pops a maximum-weight candidate.  For a
list of collected candidates without repetition, at every head of the selection
loop of `assignAbbreviations`, also after rounds that lowered the counts of
queued ancestors and moved their entries, the weight of the entry that is
popped next is at least the weight, under the current counts, of every entry
that stays in the queue. -/
theorem pop_is_maximum (Flags : CompressionFlags) (Collected : List CountNode)
    (hC : Collected.Nodup) (Root : RootCountNode) (A : List CountNode) (fuel : Nat)
    (st : AbbreviationsCollector)
    (hst : st ∈ selectStates getWeight Flags fuel
      (assignAbbreviationsInit getWeight Flags Collected (AbbreviationsCollector.make Root A)))
    (Nd : CountNode) (Heap : List CountNode) (hpop : st.ValuesHeap = Nd :: Heap)
    (x : CountNode) (hx : x ∈ Heap) :
    getWeight x (st.Root.getCount x) ≤ getWeight Nd (st.Root.getCount Nd) := by
  have hinv := selectStates_HeapInv getWeight Flags fuel _
    (assignAbbreviationsInit_HeapInv getWeight Flags Collected hC Root A) st hst
  obtain ⟨h1, _, _⟩ := hinv
  rw [hpop] at h1
  exact popsBefore_weight getWeight st.Root Nd x ((List.pairwise_cons.1 h1).1 x hx)

theorem selectLoop_mem_selectStates (Flags : CompressionFlags) (fuel : Nat) :
    ∀ (st : AbbreviationsCollector),
      selectLoop getWeight Flags fuel st ∈ selectStates getWeight Flags fuel st := by
  induction fuel with
  | zero => intro st; simp [selectLoop, selectStates]
  | succ n ih =>
    intro st
    unfold selectLoop selectStates
    cases hstep : selectStep getWeight Flags st with
    | none => simp
    | some st1 => exact List.mem_cons_of_mem _ (ih st1)

/-- The theorem `pop_is_maximum` on the example trie after the first round of
the loop, which selects the path `(1, 2)`, lowers the count of its parent `1`
from 5 to 2 and moves the entry of `1` behind the entry of `2`. -/
theorem pop_is_maximum_witness :
    [CountNode.Int [1], .Int [2, 1], .Int [2]].Nodup ∧
    (selectLoop weightCountTimesLength exampleFlags 1
      (assignAbbreviationsInit weightCountTimesLength exampleFlags
        [.Int [1], .Int [2, 1], .Int [2]]
        (AbbreviationsCollector.make exampleRoot []))).ValuesHeap = [.Int [2], .Int [1]] ∧
    weightCountTimesLength (.Int [1])
      ((selectLoop weightCountTimesLength exampleFlags 1
        (assignAbbreviationsInit weightCountTimesLength exampleFlags
          [.Int [1], .Int [2, 1], .Int [2]]
          (AbbreviationsCollector.make exampleRoot []))).Root.getCount (.Int [1]))
      ≤ weightCountTimesLength (.Int [2])
        ((selectLoop weightCountTimesLength exampleFlags 1
          (assignAbbreviationsInit weightCountTimesLength exampleFlags
            [.Int [1], .Int [2, 1], .Int [2]]
            (AbbreviationsCollector.make exampleRoot []))).Root.getCount (.Int [2])) :=
  ⟨by decide, by decide,
    pop_is_maximum weightCountTimesLength exampleFlags [.Int [1], .Int [2, 1], .Int [2]]
      (by decide) exampleRoot [] 1 _
      (selectLoop_mem_selectStates weightCountTimesLength exampleFlags 1 _)
      (.Int [2]) [.Int [1]] (by decide) (.Int [1]) (by decide)⟩

/-- C10 (the code at the failing input): on the example trie with
`MaxAbbreviations = 3` the selection loop stops with the candidates `2` and `1`
left in the queue.  The last loop of `assignAbbreviations` pops them together
with the three assigned nodes, so they get the symbols 2 and 3 although they
are not assigned, five symbols are made for three abbreviations, and the
indices of the assignment set are 0, 1 and 4. -/
theorem index_assignment_leftover :
    ((AbbreviationsCollector.make exampleRoot []).assignAbbreviations weightCountTimesLength
        { exampleFlags with MaxAbbreviations := 3 }
        [.Int [1], .Int [2, 1], .Int [2]]).Assignments
      = [.BlockEnter, .DefaultSingle, .Int [2, 1]] ∧
    [CountNode.DefaultSingle, .Int [2, 1], .Int [2], .Int [1], .BlockEnter].map
      ((AbbreviationsCollector.make exampleRoot []).assignAbbreviations weightCountTimesLength
        { exampleFlags with MaxAbbreviations := 3 }
        [.Int [1], .Int [2, 1], .Int [2]]).AbbrevIndex
      = [some 0, some 1, some 2, some 3, some 4] ∧
    ((AbbreviationsCollector.make exampleRoot []).assignAbbreviations weightCountTimesLength
        { exampleFlags with MaxAbbreviations := 3 }
        [.Int [1], .Int [2, 1], .Int [2]]).Symbols = [100, 3, 4, 2, 1] := by
  decide

end SelectionTheorems

section RewriterTheorems

variable (getWeight : CountNode → Nat → Nat)

/-! ### The rewriter keeps the sequence -/

theorem longestMatch_spec (Root : RootCountNode) (A : List CountNode) (Buffer : List IntType) :
    ∀ (Nd : IntPath) (Max M : Option IntPath),
      longestMatch Root A Nd Buffer Max = M →
      M = Max ∨ ∃ k, 1 ≤ k ∧ k ≤ Buffer.length ∧
        M = some ((Buffer.take k).reverse ++ Nd) ∧
        CountNode.Int ((Buffer.take k).reverse ++ Nd) ∈ A := by
  induction Buffer with
  | nil => intro Nd Max M h; left; simpa [longestMatch] using h.symm
  | cons V Buffer ih =>
    intro Nd Max M h
    unfold longestMatch at h
    split_ifs at h with hn hA
    · rcases ih _ _ _ h with h1 | ⟨k, hk1, hk2, hM, hmem⟩
      · right
        exact ⟨1, Nat.le_refl _, by simp, by simpa using h1, by simpa using hA⟩
      · right
        refine ⟨k + 1, by omega, by simp; omega, ?_, ?_⟩
        · simpa using hM
        · simpa using hmem
    · rcases ih _ _ _ h with h1 | ⟨k, hk1, hk2, hM, hmem⟩
      · left; exact h1
      · right
        refine ⟨k + 1, by omega, by simp; omega, ?_, ?_⟩
        · simpa using hM
        · simpa using hmem
    · left; exact h.symm

theorem decode_append (A : List CountNode) (idx : CountNode → Option Nat)
    (xs : List OutputCode) (c : OutputCode) (a b : List StreamEvent)
    (ha : decode A idx xs = some a) (hb : expandCode A idx c = some b) :
    decode A idx (xs ++ [c]) = some (a ++ b) := by
  induction xs generalizing a with
  | nil =>
    simp only [decode, Option.some.injEq] at ha
    subst ha
    simp [decode, hb]
  | cons x xs ih =>
    simp only [decode] at ha
    cases hx : expandCode A idx x with
    | none => simp [hx] at ha
    | some ex =>
      cases hd : decode A idx xs with
      | none => simp [hx, hd] at ha
      | some dx =>
        simp only [hx, hd, Option.some.injEq] at ha
        subst ha
        simp [decode, hx, ih dx hd]

theorem find_unique (l : List CountNode) (p : CountNode → Bool) (x : CountNode)
    (hx : x ∈ l) (hp : p x = true) (hu : ∀ y ∈ l, p y = true → y = x) :
    l.find? p = some x := by
  induction l with
  | nil => simp at hx
  | cons y l ih =>
    by_cases hy : p y = true
    · have := hu y (List.mem_cons_self _ _) hy
      subst this
      simp [List.find?, hy]
    · have hy2 : p y = false := by simpa using hy
      rw [List.find?, hy2]
      rcases List.mem_cons.1 hx with rfl | hx
      · exact absurd hp hy
      · exact ih hx (fun z hz => hu z (List.mem_cons_of_mem _ hz))

theorem expandCode_abbrev (A : List CountNode) (idx : CountNode → Option Nat)
    (hD : DictOK A idx) (M : IntPath) (hM : CountNode.Int M ∈ A) :
    expandCode A idx (.Abbrev ((idx (.Int M)).getD 0))
      = some (M.reverse.map StreamEvent.Value) := by
  obtain ⟨i, hi, hu⟩ := hD _ hM
  have hf : A.find? (fun Nd => Nd.isInt && idx Nd == some ((idx (.Int M)).getD 0))
      = some (.Int M) := by
    apply find_unique _ _ _ hM
    · simp [CountNode.isInt, hi]
    · intro y hy hp
      simp only [hi, Option.getD_some, Bool.and_eq_true, beq_iff_eq] at hp
      exact hu y hy hp.2
  simp only [expandCode, hf]

theorem hasCode_of_mem (A : List CountNode) (idx : CountNode → Option Nat)
    (hD : DictOK A idx) (Nd : CountNode) (h : Nd ∈ A) : hasCode A idx Nd = true := by
  obtain ⟨i, hi, _⟩ := hD Nd h
  simp [hasCode, h, hi]

theorem writeFromBuffer_nil (w : AbbrevAssignWriter) (h : w.Buffer = []) :
    w.writeFromBuffer = w := by
  unfold AbbrevAssignWriter.writeFromBuffer
  rw [h]

theorem writeFromBuffer_none (w : AbbrevAssignWriter) (V : IntType) (rest : List IntType)
    (h : w.Buffer = V :: rest)
    (hL : longestMatch w.Root w.Assignments [] (V :: rest) none = none) :
    w.writeFromBuffer = (w.forwardOtherValue V).popValuesFromBuffer 1 := by
  unfold AbbrevAssignWriter.writeFromBuffer
  rw [h]
  simp only [hL]

theorem writeFromBuffer_some (w : AbbrevAssignWriter) (V : IntType) (rest : List IntType)
    (M : IntPath) (h : w.Buffer = V :: rest)
    (hL : longestMatch w.Root w.Assignments [] (V :: rest) none = some M) :
    w.writeFromBuffer = (w.forwardAbbrev (.Int M)).popValuesFromBuffer (getPathLength M) := by
  unfold AbbrevAssignWriter.writeFromBuffer
  rw [h]
  simp only [hL]

theorem writeFromBuffer_spec (w : AbbrevAssignWriter)
    (hD : DictOK w.Assignments w.AbbrevIndex) (hDS : CountNode.DefaultSingle ∈ w.Assignments)
    (body : List StreamEvent) (hm : w.meaning = some body) :
    w.writeFromBuffer.meaning = some body ∧
    w.writeFromBuffer.Assignments = w.Assignments ∧
    w.writeFromBuffer.AbbrevIndex = w.AbbrevIndex ∧
    w.writeFromBuffer.Root = w.Root ∧
    w.writeFromBuffer.BufSize = w.BufSize ∧
    w.writeFromBuffer.AssumeByteAlignment = w.AssumeByteAlignment ∧
    w.writeFromBuffer.Header = w.Header ∧
    w.writeFromBuffer.Frozen = w.Frozen ∧
    w.writeFromBuffer.Buffer.length ≤ w.Buffer.length - 1 := by
  unfold AbbrevAssignWriter.meaning at hm
  cases hdec : decode w.Assignments w.AbbrevIndex w.Output with
  | none => simp [hdec] at hm
  | some out =>
    simp only [hdec, Option.map_some', Option.some.injEq] at hm
    cases hB : w.Buffer with
    | nil =>
      rw [writeFromBuffer_nil w hB]
      refine ⟨?_, rfl, rfl, rfl, rfl, rfl, rfl, rfl, by simp [hB]⟩
      simp [AbbrevAssignWriter.meaning, hdec, hB, ← hm]
    | cons V rest =>
      cases hL : longestMatch w.Root w.Assignments [] (V :: rest) none with
      | none =>
        rw [writeFromBuffer_none w V rest hB hL]
        refine ⟨?_, rfl, rfl, rfl, rfl, rfl, rfl, rfl, ?_⟩
        · simp only [AbbrevAssignWriter.meaning, AbbrevAssignWriter.popValuesFromBuffer,
            AbbrevAssignWriter.forwardOtherValue]
          have hb : expandCode w.Assignments w.AbbrevIndex (.Default V) = some [.Value V] := by
            simp only [expandCode, hasCode_of_mem _ _ hD _ hDS, if_true]
          rw [decode_append _ _ _ _ out [.Value V] hdec hb]
          simp [hB, ← hm]
        · simp [AbbrevAssignWriter.popValuesFromBuffer, AbbrevAssignWriter.forwardOtherValue, hB]
      | some M =>
        rw [writeFromBuffer_some w V rest M hB hL]
        rcases longestMatch_spec w.Root w.Assignments (V :: rest) [] none (some M) hL with
          h0 | ⟨k, hk1, hk2, hMk, hmem⟩
        · simp at h0
        · simp only [List.append_nil, Option.some.injEq] at hMk hmem
          have hlen : getPathLength M = k := by
            rw [hMk]
            simp only [getPathLength, List.length_reverse, List.length_take]
            omega
          have hrev : M.reverse = (V :: rest).take k := by rw [hMk]; simp
          refine ⟨?_, rfl, rfl, rfl, rfl, rfl, rfl, rfl, ?_⟩
          · simp only [AbbrevAssignWriter.meaning, AbbrevAssignWriter.popValuesFromBuffer,
              AbbrevAssignWriter.forwardAbbrev]
            rw [decode_append _ _ _ _ out _ hdec
              (expandCode_abbrev w.Assignments w.AbbrevIndex hD M (hMk ▸ hmem))]
            rw [hlen, hrev, hB]
            simp only [Option.map_some', Option.some.injEq, List.append_assoc]
            rw [← List.map_append, List.take_append_drop, ← hm, hB]
          · simp only [AbbrevAssignWriter.popValuesFromBuffer, AbbrevAssignWriter.forwardAbbrev,
              hlen, hB, List.length_drop]
            simp
            omega

theorem iterate_writeFromBuffer (n : Nat) :
    ∀ (w : AbbrevAssignWriter), DictOK w.Assignments w.AbbrevIndex →
      CountNode.DefaultSingle ∈ w.Assignments →
      ∀ body, w.meaning = some body →
      ((AbbrevAssignWriter.writeFromBuffer)^[n] w).meaning = some body ∧
      ((AbbrevAssignWriter.writeFromBuffer)^[n] w).Assignments = w.Assignments ∧
      ((AbbrevAssignWriter.writeFromBuffer)^[n] w).AbbrevIndex = w.AbbrevIndex ∧
      ((AbbrevAssignWriter.writeFromBuffer)^[n] w).Root = w.Root ∧
      ((AbbrevAssignWriter.writeFromBuffer)^[n] w).BufSize = w.BufSize ∧
      ((AbbrevAssignWriter.writeFromBuffer)^[n] w).AssumeByteAlignment
        = w.AssumeByteAlignment ∧
      ((AbbrevAssignWriter.writeFromBuffer)^[n] w).Header = w.Header ∧
      ((AbbrevAssignWriter.writeFromBuffer)^[n] w).Frozen = w.Frozen ∧
      ((AbbrevAssignWriter.writeFromBuffer)^[n] w).Buffer.length ≤ w.Buffer.length - n := by
  induction n with
  | zero =>
    intro w _ _ body hm
    exact ⟨hm, rfl, rfl, rfl, rfl, rfl, rfl, rfl, Nat.le_refl _⟩
  | succ n ih =>
    intro w hD hDS body hm
    obtain ⟨a1, a2, a3, a4, a5, a6, a7, a8, a9⟩ := writeFromBuffer_spec w hD hDS body hm
    obtain ⟨b1, b2, b3, b4, b5, b6, b7, b8, b9⟩ :=
      ih w.writeFromBuffer (by rw [a2, a3]; exact hD) (by rw [a2]; exact hDS) body a1
    rw [Function.iterate_succ_apply]
    exact ⟨b1, b2.trans a2, b3.trans a3, b4.trans a4, b5.trans a5, b6.trans a6, b7.trans a7,
      b8.trans a8, by omega⟩

theorem writeUntilBufferEmpty_spec (w : AbbrevAssignWriter)
    (hD : DictOK w.Assignments w.AbbrevIndex) (hDS : CountNode.DefaultSingle ∈ w.Assignments)
    (body : List StreamEvent) (hm : w.meaning = some body) :
    decode w.Assignments w.AbbrevIndex w.writeUntilBufferEmpty.Output = some body ∧
    w.writeUntilBufferEmpty.Buffer = [] ∧
    w.writeUntilBufferEmpty.Assignments = w.Assignments ∧
    w.writeUntilBufferEmpty.AbbrevIndex = w.AbbrevIndex ∧
    w.writeUntilBufferEmpty.Root = w.Root ∧
    w.writeUntilBufferEmpty.BufSize = w.BufSize ∧
    w.writeUntilBufferEmpty.AssumeByteAlignment = w.AssumeByteAlignment ∧
    w.writeUntilBufferEmpty.Header = w.Header ∧
    w.writeUntilBufferEmpty.Frozen = w.Frozen := by
  obtain ⟨b1, b2, b3, b4, b5, b6, b7, b8, b9⟩ :=
    iterate_writeFromBuffer w.Buffer.length w hD hDS body hm
  have hB : w.writeUntilBufferEmpty.Buffer = [] := by
    apply List.length_eq_zero.1
    unfold AbbrevAssignWriter.writeUntilBufferEmpty
    omega
  refine ⟨?_, hB, b2, b3, b4, b5, b6, b7, b8⟩
  have hm2 : w.writeUntilBufferEmpty.meaning = some body := b1
  unfold AbbrevAssignWriter.meaning at hm2
  rw [hB] at hm2
  have b2' : w.writeUntilBufferEmpty.Assignments = w.Assignments := b2
  have b3' : w.writeUntilBufferEmpty.AbbrevIndex = w.AbbrevIndex := b3
  rw [b2', b3'] at hm2
  cases hd : decode w.Assignments w.AbbrevIndex w.writeUntilBufferEmpty.Output with
  | none => simp [hd] at hm2
  | some out => simpa [hd] using hm2

/-- The state after a flush followed by the alignment marker when needed. -/
theorem flush_align_spec (w : AbbrevAssignWriter)
    (hD : DictOK w.Assignments w.AbbrevIndex) (hDS : CountNode.DefaultSingle ∈ w.Assignments)
    (hAl : w.AssumeByteAlignment = false → CountNode.Align ∈ w.Assignments)
    (body : List StreamEvent) (hm : w.meaning = some body) :
    decode w.Assignments w.AbbrevIndex w.writeUntilBufferEmpty.alignIfNecessary.Output
      = some body ∧
    w.writeUntilBufferEmpty.alignIfNecessary.Buffer = [] ∧
    w.writeUntilBufferEmpty.alignIfNecessary.Assignments = w.Assignments ∧
    w.writeUntilBufferEmpty.alignIfNecessary.AbbrevIndex = w.AbbrevIndex ∧
    w.writeUntilBufferEmpty.alignIfNecessary.Header = w.Header ∧
    w.writeUntilBufferEmpty.alignIfNecessary.AssumeByteAlignment = w.AssumeByteAlignment := by
  obtain ⟨c1, c2, c3, c4, _, _, c7, c8, _⟩ := writeUntilBufferEmpty_spec w hD hDS body hm
  unfold AbbrevAssignWriter.alignIfNecessary
  split_ifs with hal
  · exact ⟨c1, c2, c3, c4, c8, c7⟩
  · refine ⟨?_, c2, c3, c4, c8, c7⟩
    have hal2 : w.AssumeByteAlignment = false := by
      rw [c7] at hal
      simpa using hal
    have hb : expandCode w.Assignments w.AbbrevIndex .Align = some [] := by
      simp only [expandCode, hasCode_of_mem _ _ hD _ (hAl hal2), if_true]
    have := decode_append _ _ _ _ body [] c1 hb
    simpa using this

theorem writeEvent_spec (w : AbbrevAssignWriter) (e : StreamEvent)
    (hD : DictOK w.Assignments w.AbbrevIndex)
    (hS : SingletonsAssigned w.Assignments w.AssumeByteAlignment [e])
    (body : List StreamEvent) (hm : w.meaning = some body) :
    (w.writeEvent e).2 = true ∧
    (w.writeEvent e).1.meaning = some (body ++ streamBody [e]) ∧
    (w.writeEvent e).1.Assignments = w.Assignments ∧
    (w.writeEvent e).1.AbbrevIndex = w.AbbrevIndex ∧
    (w.writeEvent e).1.Header = w.Header ++ streamHeader [e] ∧
    (w.writeEvent e).1.AssumeByteAlignment = w.AssumeByteAlignment := by
  obtain ⟨hDS, hAl, hBE, hBX⟩ := hS
  cases e with
  | Value v =>
    have hm1 : ({ w with Buffer := w.Buffer ++ [v] } : AbbrevAssignWriter).meaning
        = some (body ++ [.Value v]) := by
      unfold AbbrevAssignWriter.meaning at hm ⊢
      cases hd : decode w.Assignments w.AbbrevIndex w.Output with
      | none => simp [hd] at hm
      | some out =>
        simp only [hd, Option.map_some', Option.some.injEq] at hm ⊢
        simp [← hm]
    simp only [AbbrevAssignWriter.writeEvent, AbbrevAssignWriter.writeVaruint64,
      AbbrevAssignWriter.bufferValue]
    split_ifs
    · obtain ⟨a1, a2, a3, _, _, a6, a7, _⟩ :=
        writeFromBuffer_spec { w with Buffer := w.Buffer ++ [v] } hD hDS _ hm1
      exact ⟨trivial, by simpa [streamBody] using a1, a2, a3,
        by simpa [streamHeader] using a7, a6⟩
    · exact ⟨trivial, by simpa [streamBody] using hm1, rfl, rfl, by simp [streamHeader], rfl⟩
  | BlockEnter =>
    obtain ⟨c1, c2, c3, c4, c5, c6⟩ := flush_align_spec w hD hDS hAl body hm
    simp only [AbbrevAssignWriter.writeEvent, AbbrevAssignWriter.writeBlockEnter]
    refine ⟨trivial, ?_, c3, c4, by simpa [streamHeader] using c5, c6⟩
    simp only [AbbrevAssignWriter.meaning, c2, c3, c4]
    have hb : expandCode w.Assignments w.AbbrevIndex .BlockEnter = some [.BlockEnter] := by
      simp only [expandCode, hasCode_of_mem _ _ hD _ (hBE (List.mem_singleton.2 rfl)), if_true]
    rw [decode_append _ _ _ _ body _ c1 hb]
    simp [streamBody]
  | BlockExit =>
    obtain ⟨c1, c2, c3, c4, c5, c6⟩ := flush_align_spec w hD hDS hAl body hm
    simp only [AbbrevAssignWriter.writeEvent, AbbrevAssignWriter.writeBlockExit]
    refine ⟨trivial, ?_, c3, c4, by simpa [streamHeader] using c5, c6⟩
    simp only [AbbrevAssignWriter.meaning, c2, c3, c4]
    have hb : expandCode w.Assignments w.AbbrevIndex .BlockExit = some [.BlockExit] := by
      simp only [expandCode, hasCode_of_mem _ _ hD _ (hBX (List.mem_singleton.2 rfl)), if_true]
    rw [decode_append _ _ _ _ body _ c1 hb]
    simp [streamBody]
  | HeaderValue v f =>
    simp only [AbbrevAssignWriter.writeEvent, AbbrevAssignWriter.writeHeaderValue]
    refine ⟨trivial, ?_, trivial, trivial, by simp [streamHeader], trivial⟩
    simpa [streamBody, AbbrevAssignWriter.meaning] using hm

theorem rewriter_structuralRead_spec (es : List StreamEvent) :
    ∀ (w : AbbrevAssignWriter), DictOK w.Assignments w.AbbrevIndex →
      SingletonsAssigned w.Assignments w.AssumeByteAlignment es →
      ∀ body, w.meaning = some body →
      (w.structuralRead es).2 = true ∧
      (w.structuralRead es).1.Frozen = true ∧
      decode w.Assignments w.AbbrevIndex (w.structuralRead es).1.Output
        = some (body ++ streamBody es) ∧
      (w.structuralRead es).1.Header = w.Header ++ streamHeader es := by
  induction es with
  | nil =>
    intro w hD hS body hm
    obtain ⟨c1, _, _, _, c5, _⟩ := flush_align_spec w hD hS.1 hS.2.1 body hm
    simp only [AbbrevAssignWriter.structuralRead, AbbrevAssignWriter.writeFreezeEof]
    exact ⟨trivial, trivial, by simpa [streamBody] using c1, by simpa [streamHeader] using c5⟩
  | cons e es ih =>
    intro w hD hS body hm
    obtain ⟨hDS, hAl, hBE, hBX⟩ := hS
    obtain ⟨e1, e2, e3, e4, e5, e6⟩ := writeEvent_spec w e hD
      ⟨hDS, hAl, fun h => hBE (by
          rw [List.mem_singleton] at h
          rw [h]
          exact List.mem_cons_self _ _),
        fun h => hBX (by
          rw [List.mem_singleton] at h
          rw [h]
          exact List.mem_cons_self _ _)⟩ body hm
    obtain ⟨i1, i2, i3, i4⟩ := ih (w.writeEvent e).1 (by rw [e3, e4]; exact hD)
      (by
        rw [e3, e6]
        exact ⟨hDS, hAl, fun h => hBE (List.mem_cons_of_mem _ h),
          fun h => hBX (List.mem_cons_of_mem _ h)⟩) _ e2
    simp only [AbbrevAssignWriter.structuralRead, e1, if_true]
    rw [e3, e4] at i3
    refine ⟨i1, i2, ?_, ?_⟩
    · rw [i3]
      simp [streamBody, List.filter_cons, List.append_assoc]
      cases e <;> simp
    · rw [i4, e5]
      simp [streamHeader]
      cases e <;> simp

/-! ### The indices after `assignAbbreviations` -/

theorem indexLoop_index (Heap : List CountNode) :
    ∀ (st : AbbreviationsCollector),
      (∀ Nd, Nd ∉ Heap → (indexLoop Heap st).AbbrevIndex Nd = st.AbbrevIndex Nd) ∧
      (∀ Nd ∈ Heap, ∃ i, (indexLoop Heap st).AbbrevIndex Nd = some (st.Symbols.length + i) ∧
        Heap[i]? = some Nd) := by
  induction Heap with
  | nil =>
    intro st
    exact ⟨fun Nd _ => rfl, fun Nd h => by simp at h⟩
  | cons x Heap ih =>
    intro st
    unfold indexLoop
    obtain ⟨h1, h2⟩ := ih
      { (createSymbol { st with ValuesHeap := Heap } (st.Root.getCount x)).1 with
        AbbrevIndex := Function.update
          (createSymbol { st with ValuesHeap := Heap } (st.Root.getCount x)).1.AbbrevIndex x
          (some (createSymbol { st with ValuesHeap := Heap } (st.Root.getCount x)).2) }
    simp only [createSymbol, List.length_append, List.length_singleton] at h1 h2 ⊢
    constructor
    · intro Nd hNd
      rw [h1 Nd (fun h => hNd (List.mem_cons_of_mem _ h))]
      have : Nd ≠ x := fun h => hNd (h ▸ List.mem_cons_self _ _)
      simp [Function.update_noteq this]
    · intro Nd hNd
      by_cases hin : Nd ∈ Heap
      · obtain ⟨i, hi1, hi2⟩ := h2 Nd hin
        exact ⟨i + 1, by rw [hi1]; congr 1; omega, by simpa using hi2⟩
      · have hx : Nd = x := by
          rcases List.mem_cons.1 hNd with h | h
          · exact h
          · exact absurd h hin
        subst hx
        refine ⟨0, ?_, by simp⟩
        rw [h1 Nd hin]
        simp

theorem pushHeap_fold_mem (l : List CountNode) :
    ∀ (st : AbbreviationsCollector) (x : CountNode), x ∈ l ∨ x ∈ st.ValuesHeap →
      x ∈ (l.foldl (fun s Nd => s.pushHeap getWeight Nd) st).ValuesHeap := by
  induction l with
  | nil =>
    intro st x h
    rcases h with h | h
    · simp at h
    · exact h
  | cons y l ih =>
    intro st x h
    simp only [List.foldl_cons]
    apply ih
    rcases h with h | h
    · rcases List.mem_cons.1 h with rfl | h
      · right
        simp only [AbbreviationsCollector.pushHeap]
        exact (mem_heapInsert getWeight _ _ _ _).2 (Or.inl rfl)
      · left; exact h
    · right
      simp only [AbbreviationsCollector.pushHeap]
      exact (mem_heapInsert getWeight _ _ _ _).2 (Or.inr h)

/-- After `assignAbbreviations` every node of the assignment set has an index
and no two of them have the same. -/
theorem assignAbbreviations_DictOK (Flags : CompressionFlags) (Collected : List CountNode)
    (st : AbbreviationsCollector) :
    DictOK (st.assignAbbreviations getWeight Flags Collected).Assignments
      (st.assignAbbreviations getWeight Flags Collected).AbbrevIndex := by
  rw [(assignAbbreviations_Assignments getWeight Flags Collected st).1]
  unfold AbbreviationsCollector.assignAbbreviations
  dsimp only
  obtain ⟨_, h2⟩ := indexLoop_index
    ((List.foldl (fun (s : AbbreviationsCollector) Nd => s.pushHeap getWeight Nd)
      { assignAbbreviationsSelect getWeight Flags Collected st with TrimmedNodes := [] }
      (assignAbbreviationsSelect getWeight Flags Collected st).Assignments).ValuesHeap)
    (List.foldl (fun (s : AbbreviationsCollector) Nd => s.pushHeap getWeight Nd)
      { assignAbbreviationsSelect getWeight Flags Collected st with TrimmedNodes := [] }
      (assignAbbreviationsSelect getWeight Flags Collected st).Assignments)
  have hmem : ∀ x ∈ (assignAbbreviationsSelect getWeight Flags Collected st).Assignments,
      x ∈ (List.foldl (fun (s : AbbreviationsCollector) Nd => s.pushHeap getWeight Nd)
        { assignAbbreviationsSelect getWeight Flags Collected st with TrimmedNodes := [] }
        (assignAbbreviationsSelect getWeight Flags Collected st).Assignments).ValuesHeap :=
    fun x hx => pushHeap_fold_mem getWeight _ _ x (Or.inl hx)
  intro Nd hNd
  obtain ⟨i, hi1, hi2⟩ := h2 Nd (hmem Nd hNd)
  refine ⟨_, hi1, ?_⟩
  intro Nd2 hNd2 hidx
  obtain ⟨k, hk1, hk2⟩ := h2 Nd2 (hmem Nd2 hNd2)
  rw [hk1] at hidx
  have hik : k = i := by
    simp only [Option.some.injEq] at hidx
    omega
  rw [hik, hi2] at hk2
  simpa using hk2.symm

end RewriterTheorems

section AddAbbreviationTheorems

variable (getWeight : CountNode → Nat → Nat)

theorem trimLoop_keep_self (Count : Nat) (p : IntPath) (st : AbbreviationsCollector)
    (x : CountNode) (hx : ∀ q : IntPath, q.length < p.length → x ≠ .Int q)
    (hmem : x ∈ st.Assignments) :
    x ∈ (trimLoop getWeight Count p st).Assignments := by
  obtain ⟨_, h⟩ := trimLoop_invariant getWeight Count
    (fun q s => x ∈ s.Assignments ∧ q.length ≤ p.length)
    (fun v q s hs _ _ _ _ => by
      beta_reduce at hs ⊢
      rw [trimParent_Assignments]
      have hlen : q.length < p.length := by
        have := hs.2
        simp only [List.length_cons] at this
        omega
      exact ⟨(List.mem_erase_of_ne (hx q hlen)).2 hs.1, hlen.le⟩)
    p st ⟨hmem, le_refl _⟩
  exact h.1

theorem trimLoop_nodup (Count : Nat) (p : IntPath) (st : AbbreviationsCollector)
    (h : st.Assignments.Nodup) : (trimLoop getWeight Count p st).Assignments.Nodup :=
  (trimLoop_Assignments_sublist getWeight Count p st).nodup h

theorem addAbbreviation_nodup (Flags : CompressionFlags) (st : AbbreviationsCollector)
    (Nd : CountNode) (h : st.Assignments.Nodup) :
    (st.addAbbreviation getWeight Flags Nd).Assignments.Nodup := by
  have h1 : ∀ hn : Nd ∉ st.Assignments, (st.Assignments ++ [Nd]).Nodup := by
    intro hn
    rw [List.nodup_append]
    refine ⟨h, List.nodup_singleton _, ?_⟩
    intro a ha hb
    rw [List.mem_singleton] at hb
    subst hb
    exact hn ha
  unfold AbbreviationsCollector.addAbbreviation
  dsimp only
  split_ifs with h2 h3 h4
  · exact h
  · exact h
  · exact h1 h2
  · cases Nd with
    | Int p =>
      dsimp only
      exact trimLoop_nodup getWeight _ _ _ (h1 h2)
    | BlockEnter => exact h1 h2
    | BlockExit => exact h1 h2
    | DefaultSingle => exact h1 h2
    | DefaultMultiple => exact h1 h2
    | Align => exact h1 h2

theorem addAbbreviation_of_mem (Flags : CompressionFlags) (st : AbbreviationsCollector)
    (Nd : CountNode) (h : Nd ∈ st.Assignments) :
    st.addAbbreviation getWeight Flags Nd = st := by
  unfold AbbreviationsCollector.addAbbreviation
  rw [if_pos h]

theorem addAbbreviation_rejected (Flags : CompressionFlags) (st : AbbreviationsCollector)
    (Nd : CountNode) (h : Nd ∉ st.Assignments)
    (hcut : Nd.isInt = true ∧ (st.Root.getCount Nd < Flags.CountCutoff ∨
      getWeight Nd (st.Root.getCount Nd) < Flags.WeightCutoff)) :
    st.addAbbreviation getWeight Flags Nd = st := by
  unfold AbbreviationsCollector.addAbbreviation
  rw [if_neg h, if_pos hcut]

theorem addAbbreviation_added (Flags : CompressionFlags) (st : AbbreviationsCollector)
    (Nd : CountNode) (h : Nd ∉ st.Assignments)
    (hcut : ¬ (Nd.isInt = true ∧ (st.Root.getCount Nd < Flags.CountCutoff ∨
      getWeight Nd (st.Root.getCount Nd) < Flags.WeightCutoff))) :
    Nd ∈ (st.addAbbreviation getWeight Flags Nd).Assignments := by
  unfold AbbreviationsCollector.addAbbreviation
  rw [if_neg h, if_neg hcut]
  dsimp only
  split_ifs with h4
  · simp
  · cases Nd with
    | Int p =>
      dsimp only
      apply trimLoop_keep_self
      · intro q hq heq
        injection heq with heq
        subst heq
        exact lt_irrefl _ hq
      · simp
    | BlockEnter => simp
    | BlockExit => simp
    | DefaultSingle => simp
    | DefaultMultiple => simp
    | Align => simp

theorem addAbbreviation_idem (Flags : CompressionFlags) (st : AbbreviationsCollector)
    (Nd : CountNode) :
    (st.addAbbreviation getWeight Flags Nd).addAbbreviation getWeight Flags Nd
      = st.addAbbreviation getWeight Flags Nd := by
  by_cases h : Nd ∈ st.Assignments
  · rw [addAbbreviation_of_mem getWeight Flags st Nd h,
      addAbbreviation_of_mem getWeight Flags st Nd h]
  · by_cases hcut : Nd.isInt = true ∧ (st.Root.getCount Nd < Flags.CountCutoff ∨
        getWeight Nd (st.Root.getCount Nd) < Flags.WeightCutoff)
    · rw [addAbbreviation_rejected getWeight Flags st Nd h hcut,
        addAbbreviation_rejected getWeight Flags st Nd h hcut]
    · exact addAbbreviation_of_mem getWeight Flags _ Nd
        (addAbbreviation_added getWeight Flags st Nd h hcut)

/-- C13: a node that is already in the Assignment Set is not added again:
`addAbbreviation` then returns the whole state unchanged (assignments, every
count, the trimmed nodes and the queue); adding the same node twice in a row
gives the same state as adding it once; and an Assignment Set without
repetition stays without repetition. -/
theorem readding_is_noop (Flags : CompressionFlags) (st : AbbreviationsCollector)
    (Nd : CountNode) :
    (Nd ∈ st.Assignments → st.addAbbreviation getWeight Flags Nd = st) ∧
    (st.addAbbreviation getWeight Flags Nd).addAbbreviation getWeight Flags Nd
      = st.addAbbreviation getWeight Flags Nd ∧
    (st.Assignments.Nodup → (st.addAbbreviation getWeight Flags Nd).Assignments.Nodup) :=
  ⟨addAbbreviation_of_mem getWeight Flags st Nd, addAbbreviation_idem getWeight Flags st Nd,
    addAbbreviation_nodup getWeight Flags st Nd⟩

/-- The theorem `readding_is_noop` on the example trie, for the node of `1`
that is already assigned. -/
theorem readding_is_noop_witness :
    CountNode.Int [1] ∈ (AbbreviationsCollector.make exampleRoot [.Int [1]]).Assignments ∧
    (AbbreviationsCollector.make exampleRoot [.Int [1]]).addAbbreviation weightCountTimesLength
      exampleFlags (.Int [1]) = AbbreviationsCollector.make exampleRoot [.Int [1]] :=
  ⟨by decide,
    (readding_is_noop weightCountTimesLength exampleFlags
      (AbbreviationsCollector.make exampleRoot [.Int [1]]) (.Int [1])).1 (by decide)⟩

theorem trimLoop_reduced_evicted (Count : Nat) (p : IntPath) (st : AbbreviationsCollector)
    (hnd : st.Assignments.Nodup) (x : CountNode)
    (hx : (trimLoop getWeight Count p st).Root.getCount x ≠ st.Root.getCount x) :
    x ∉ (trimLoop getWeight Count p st).Assignments := by
  obtain ⟨_, h⟩ := trimLoop_invariant getWeight Count
    (fun _ s => s.Assignments.Nodup ∧
      (s.Root.getCount x ≠ st.Root.getCount x → x ∉ s.Assignments))
    (fun v q s hs _ _ _ _ => by
      beta_reduce at hs ⊢
      rw [trimParent_Assignments, trimParent_Root, getCount_setCount]
      refine ⟨hs.1.erase _, ?_⟩
      by_cases hxq : x = .Int q
      · subst hxq
        intro _
        exact hs.1.not_mem_erase
      · rw [if_neg hxq]
        intro hne hmem
        exact hs.2 hne (List.mem_of_mem_erase hmem))
    p st ⟨hnd, fun hne => absurd rfl hne⟩
  exact h.2 hx

/-- C14: with overlap trimming enabled, when `addAbbreviation` adds an integer
node `N` (not yet assigned, passing both cutoffs) to an Assignment Set without
repetition, `N` is a member afterwards and no node whose count the call has
changed (these are ancestors of `N`) is a member. -/
theorem reduced_ancestors_evicted (Flags : CompressionFlags) (st : AbbreviationsCollector)
    (p : IntPath) (htrim : Flags.TrimOverriddenPatterns = true)
    (hnd : st.Assignments.Nodup) (hnew : CountNode.Int p ∉ st.Assignments)
    (hcount : Flags.CountCutoff ≤ st.Root.getCount (.Int p))
    (hweight : Flags.WeightCutoff ≤ getWeight (.Int p) (st.Root.getCount (.Int p))) :
    CountNode.Int p ∈ (st.addAbbreviation getWeight Flags (.Int p)).Assignments ∧
    ∀ x : CountNode,
      (st.addAbbreviation getWeight Flags (.Int p)).Root.getCount x ≠ st.Root.getCount x →
      x ∉ (st.addAbbreviation getWeight Flags (.Int p)).Assignments := by
  have hcut : ¬ ((CountNode.Int p).isInt = true ∧
      (st.Root.getCount (.Int p) < Flags.CountCutoff ∨
        getWeight (.Int p) (st.Root.getCount (.Int p)) < Flags.WeightCutoff)) := by
    rintro ⟨_, h | h⟩ <;> omega
  refine ⟨addAbbreviation_added getWeight Flags st _ hnew hcut, ?_⟩
  intro x
  unfold AbbreviationsCollector.addAbbreviation
  rw [if_neg hnew, if_neg hcut]
  dsimp only
  rw [if_neg (by simp [htrim])]
  intro hx
  apply trimLoop_reduced_evicted getWeight _ _ _ _ x hx
  rw [List.nodup_append]
  refine ⟨hnd, List.nodup_singleton _, ?_⟩
  intro a ha hb
  rw [List.mem_singleton] at hb
  subst hb
  exact hnew ha

/-- The theorem `reduced_ancestors_evicted` on the example trie: with the
parent `1` assigned, adding the path `(1, 2)` of count 3 lowers the count of
`1` from 5 to 2 and evicts it. -/
theorem reduced_ancestors_evicted_witness :
    exampleFlags.TrimOverriddenPatterns = true ∧
    (AbbreviationsCollector.make exampleRoot [.Int [1]]).Assignments.Nodup ∧
    (((AbbreviationsCollector.make exampleRoot [.Int [1]]).addAbbreviation
      weightCountTimesLength exampleFlags (.Int [2, 1])).Root.getCount (.Int [1]) = 2 ∧
    exampleRoot.getCount (.Int [1]) = 5) ∧
    CountNode.Int [2, 1] ∈ ((AbbreviationsCollector.make exampleRoot [.Int [1]]).addAbbreviation
      weightCountTimesLength exampleFlags (.Int [2, 1])).Assignments ∧
    CountNode.Int [1] ∉ ((AbbreviationsCollector.make exampleRoot [.Int [1]]).addAbbreviation
      weightCountTimesLength exampleFlags (.Int [2, 1])).Assignments :=
  ⟨rfl, by decide, by decide,
    (reduced_ancestors_evicted weightCountTimesLength exampleFlags
      (AbbreviationsCollector.make exampleRoot [.Int [1]]) [2, 1] rfl (by decide) (by decide)
      (by decide) (by decide)).1,
    (reduced_ancestors_evicted weightCountTimesLength exampleFlags
      (AbbreviationsCollector.make exampleRoot [.Int [1]]) [2, 1] rfl (by decide) (by decide)
      (by decide) (by decide)).2 (.Int [1]) (by decide)⟩

/-- C20 (amended): in a counting pass a block-enter event empties the
frontier, increments the `size_t` count `c` of the `BlockEnter` singleton to
`(c + 1) % 2 ^ 64`, which is `c + 1` unless `c` is `2 ^ 64 - 1`, reports
success, and changes no other count and creates no node; a block-exit event
does the same for the `BlockExit` singleton. -/
theorem block_event_counting (w : CountWriter) :
    ((w.writeEvent getWeight .BlockEnter).2 = true ∧
      (w.writeEvent getWeight .BlockEnter).1.Frontier = [] ∧
      (w.writeEvent getWeight .BlockEnter).1.Root.getCount .BlockEnter
        = (w.Root.getCount .BlockEnter + 1) % 2 ^ 64 ∧
      (w.Root.getCount .BlockEnter < 2 ^ 64 - 1 →
        (w.writeEvent getWeight .BlockEnter).1.Root.getCount .BlockEnter
          = w.Root.getCount .BlockEnter + 1) ∧
      (∀ x : CountNode, x ≠ .BlockEnter →
        (w.writeEvent getWeight .BlockEnter).1.Root.getCount x = w.Root.getCount x) ∧
      (∀ x : CountNode,
        (w.writeEvent getWeight .BlockEnter).1.Root.hasNode x = w.Root.hasNode x)) ∧
    ((w.writeEvent getWeight .BlockExit).2 = true ∧
      (w.writeEvent getWeight .BlockExit).1.Frontier = [] ∧
      (w.writeEvent getWeight .BlockExit).1.Root.getCount .BlockExit
        = (w.Root.getCount .BlockExit + 1) % 2 ^ 64 ∧
      (w.Root.getCount .BlockExit < 2 ^ 64 - 1 →
        (w.writeEvent getWeight .BlockExit).1.Root.getCount .BlockExit
          = w.Root.getCount .BlockExit + 1) ∧
      (∀ x : CountNode, x ≠ .BlockExit →
        (w.writeEvent getWeight .BlockExit).1.Root.getCount x = w.Root.getCount x) ∧
      (∀ x : CountNode,
        (w.writeEvent getWeight .BlockExit).1.Root.hasNode x = w.Root.hasNode x)) := by
  have e1 : (w.writeEvent getWeight .BlockEnter).1.Root.getCount .BlockEnter
      = (w.Root.getCount .BlockEnter + 1) % 2 ^ 64 := by
    simp [CountWriter.writeEvent, CountWriter.writeBlockEnter, getCount_increment,
      incrementedBy_one]
  have e2 : (w.writeEvent getWeight .BlockExit).1.Root.getCount .BlockExit
      = (w.Root.getCount .BlockExit + 1) % 2 ^ 64 := by
    simp [CountWriter.writeEvent, CountWriter.writeBlockExit, getCount_increment,
      incrementedBy_one]
  refine ⟨⟨rfl, rfl, e1, ?_, ?_, ?_⟩, ⟨rfl, rfl, e2, ?_, ?_, ?_⟩⟩
  · intro hlt
    rw [e1]
    exact Nat.mod_eq_of_lt (by omega)
  · intro x hx
    simp [CountWriter.writeEvent, CountWriter.writeBlockEnter, getCount_increment, hx,
      incrementedBy_zero]
  · intro x
    simp only [CountWriter.writeEvent, CountWriter.writeBlockEnter, hasNode_increment]
    cases x <;> simp [RootCountNode.hasNode]
  · intro hlt
    rw [e2]
    exact Nat.mod_eq_of_lt (by omega)
  · intro x hx
    simp [CountWriter.writeEvent, CountWriter.writeBlockExit, getCount_increment, hx,
      incrementedBy_zero]
  · intro x
    simp only [CountWriter.writeEvent, CountWriter.writeBlockExit, hasNode_increment]
    cases x <;> simp [RootCountNode.hasNode]

/-- C20 (counterexample): on a trie whose `BlockEnter` singleton holds the
count `2 ^ 64 - 1`, a block-enter event leaves the count 0, not one more; the
same holds for a block-exit event and the `BlockExit` singleton. -/
theorem block_event_counting_counterexample :
    (CountWriter.make saturatedRoot 2 1).Root.getCount .BlockEnter = 2 ^ 64 - 1 ∧
    ((CountWriter.make saturatedRoot 2 1).writeEvent weightCountTimesLength
      .BlockEnter).1.Root.getCount .BlockEnter = 0 ∧
    (CountWriter.make saturatedRoot 2 1).Root.getCount .BlockExit = 2 ^ 64 - 1 ∧
    ((CountWriter.make saturatedRoot 2 1).writeEvent weightCountTimesLength
      .BlockExit).1.Root.getCount .BlockExit = 0 := by
  decide

end AddAbbreviationTheorems

section ScenarioTheorems

variable (getWeight : CountNode → Nat → Nat)

theorem repeatedPair_counted (good : IntType → Bool) (h1 : good 1 = true)
    (h2 : good 2 = true) :
    countedOccurrencesFrom good 2 [2, 1] [] repeatedPairExample = 3 := by
  simp [repeatedPairExample, countedOccurrencesFrom, countedAt, h1, h2]

theorem repeatedPair_counts (h1 : 2 ≤ getWeight (.Int [1]) 3) (h2 : 2 ≤ getWeight (.Int [2]) 3) :
    (countBothPasses getWeight 2 2 repeatedPairExample).getCount (.Int [2, 1]) = 3 ∧
    (countBothPasses getWeight 2 2 repeatedPairExample).getCount (.Int [1]) = 3 ∧
    (countBothPasses getWeight 2 2 repeatedPairExample).getCount (.Int [2]) = 3 := by
  unfold countBothPasses
  obtain ⟨f1, _⟩ := compressUpToSize_flat getWeight RootCountNode.empty 2 repeatedPairExample
  obtain ⟨m1, _⟩ := compressUpToSize_multi getWeight
    (compressUpToSize getWeight RootCountNode.empty 2 1 repeatedPairExample).1 2 2 (by omega)
    repeatedPairExample
  have c1 : (compressUpToSize getWeight RootCountNode.empty 2 1
      repeatedPairExample).1.getCount (.Int [1]) = 3 := by
    rw [f1]; decide
  have c2 : (compressUpToSize getWeight RootCountNode.empty 2 1
      repeatedPairExample).1.getCount (.Int [2]) = 3 := by
    rw [f1]; decide
  have c3 : (compressUpToSize getWeight RootCountNode.empty 2 1
      repeatedPairExample).1.getCount (.Int [2, 1]) = 0 := by
    rw [f1]; decide
  refine ⟨?_, ?_, ?_⟩
  · rw [m1, c3]
    have hk : multiCount (fun u => decide (2 ≤ getWeight (.Int [u])
        ((compressUpToSize getWeight RootCountNode.empty 2 1
          repeatedPairExample).1.getCount (.Int [u])))) 2 [] repeatedPairExample
        (.Int [2, 1]) = 3 := by
      simp only [multiCount, List.length_cons, List.length_nil, le_refl, if_true]
      rw [repeatedPair_counted]
      · simp only [c1, decide_eq_true_eq]
        exact h1
      · simp only [c2, decide_eq_true_eq]
        exact h2
    rw [hk]
    rfl
  · rw [m1, c1]
    simp [multiCount, incrementedBy_zero]
  · rw [m1, c2]
    simp [multiCount, incrementedBy_zero]

theorem heap_before_of_weight (Flags : CompressionFlags) (Collected : List CountNode)
    (hC : Collected.Nodup) (Root : RootCountNode) (A : List CountNode) (x y : CountNode)
    (hy : y ∈ Collected)
    (hw : getWeight y (Root.getCount y) < getWeight x (Root.getCount x))
    (l1 l2 : List CountNode)
    (hsplit : (assignAbbreviationsInit getWeight Flags Collected
      (AbbreviationsCollector.make Root A)).ValuesHeap = l1 ++ x :: l2) :
    y ∈ l2 := by
  obtain ⟨hpw, _, hnd⟩ := assignAbbreviationsInit_HeapInv getWeight Flags Collected hC Root A
  have hRoot := (assignAbbreviationsInit_frame getWeight Flags Collected
    (AbbreviationsCollector.make Root A)).1
  have hRoot2 : (AbbreviationsCollector.make Root A).Root = Root := rfl
  rw [hRoot, hRoot2, hsplit] at hpw
  have hmem : y ∈ (assignAbbreviationsInit getWeight Flags Collected
      (AbbreviationsCollector.make Root A)).ValuesHeap := by
    unfold assignAbbreviationsInit AbbreviationsCollector.buildHeap
    dsimp only
    exact pushHeap_fold_mem getWeight Collected _ y (Or.inl hy)
  rw [hsplit] at hmem
  rcases List.mem_append.1 hmem with h | h
  · have := List.pairwise_append.1 hpw
    have hp := this.2.2 y h x (List.mem_cons_self _ _)
    have := popsBefore_weight getWeight Root y x hp
    omega
  · rcases List.mem_cons.1 h with rfl | h
    · omega
    · exact h

/-- C12 (amended): after the pass with `L = 1` and the pass with limit 2 and
cutoff 2 over `[1, 2, 1, 2, 1, 2, 3]` on an empty trie, when the singletons of
`1` and of `2` have a weight of at least the cutoff 2 at count 3, the node of
the path `(1, 2)` and the singletons of `1` and of `2` all have count 3; and
when the weight of the path at count 3 is strictly above the weights of both
singletons, the entry of the path stands in the queue built from any
candidates in front of the entries of both singletons, so it is popped before
them. -/
theorem repeated_pair_scenario
    (h1 : 2 ≤ getWeight (.Int [1]) 3) (h2 : 2 ≤ getWeight (.Int [2]) 3)
    (hl1 : getWeight (.Int [1]) 3 < getWeight (.Int [2, 1]) 3)
    (hl2 : getWeight (.Int [2]) 3 < getWeight (.Int [2, 1]) 3)
    (Flags : CompressionFlags) (Collected A : List CountNode) (hC : Collected.Nodup)
    (hm1 : CountNode.Int [1] ∈ Collected) (hm2 : CountNode.Int [2] ∈ Collected)
    (hm : CountNode.Int [2, 1] ∈ Collected) :
    ((countBothPasses getWeight 2 2 repeatedPairExample).getCount (.Int [2, 1]) = 3 ∧
      (countBothPasses getWeight 2 2 repeatedPairExample).getCount (.Int [1]) = 3 ∧
      (countBothPasses getWeight 2 2 repeatedPairExample).getCount (.Int [2]) = 3) ∧
    CountNode.Int [2, 1] ∈ (assignAbbreviationsInit getWeight Flags Collected
      (AbbreviationsCollector.make (countBothPasses getWeight 2 2 repeatedPairExample)
        A)).ValuesHeap ∧
    ∀ l1 l2 : List CountNode,
      (assignAbbreviationsInit getWeight Flags Collected
        (AbbreviationsCollector.make (countBothPasses getWeight 2 2 repeatedPairExample)
          A)).ValuesHeap = l1 ++ .Int [2, 1] :: l2 →
      CountNode.Int [1] ∈ l2 ∧ CountNode.Int [2] ∈ l2 := by
  obtain ⟨c3, c1, c2⟩ := repeatedPair_counts getWeight h1 h2
  refine ⟨⟨c3, c1, c2⟩, ?_, ?_⟩
  · unfold assignAbbreviationsInit AbbreviationsCollector.buildHeap
    dsimp only
    exact pushHeap_fold_mem getWeight Collected _ _ (Or.inl hm)
  · intro l1 l2 hsplit
    constructor
    · apply heap_before_of_weight getWeight Flags Collected hC _ A _ _ hm1 _ l1 l2 hsplit
      rw [c1, c3]
      exact hl1
    · apply heap_before_of_weight getWeight Flags Collected hC _ A _ _ hm2 _ l1 l2 hsplit
      rw [c2, c3]
      exact hl2

/-- The theorem `repeated_pair_scenario` for the weight count times path
length, with the four nodes of count at least 2 as candidates: the queue
starts with the path `(1, 2)`, of weight 6, and both singletons, of weight 3,
follow it. -/
theorem repeated_pair_scenario_witness :
    (assignAbbreviationsInit weightCountTimesLength
      { exampleFlags with CountCutoff := 2, WeightCutoff := 2 }
      [.Int [1], .Int [2], .Int [2, 1], .Int [1, 2]]
      (AbbreviationsCollector.make (countBothPasses weightCountTimesLength 2 2
        repeatedPairExample) [])).ValuesHeap
      = [] ++ .Int [2, 1] :: [.Int [1, 2], .Int [1], .Int [2]] ∧
    CountNode.Int [1] ∈ [CountNode.Int [1, 2], .Int [1], .Int [2]] ∧
    CountNode.Int [2] ∈ [CountNode.Int [1, 2], .Int [1], .Int [2]] :=
  ⟨by decide,
    (repeated_pair_scenario weightCountTimesLength (by decide) (by decide) (by decide)
      (by decide) { exampleFlags with CountCutoff := 2, WeightCutoff := 2 }
      [.Int [1], .Int [2], .Int [2, 1], .Int [1, 2]] [] (by decide) (by decide) (by decide)
      (by decide)).2.2 [] [.Int [1, 2], .Int [1], .Int [2]] (by decide)⟩

/-- C12 (counterexample): under a weight that is strictly larger for the path
`(1, 2)` than for either singleton at every count, but below the cutoff 2 for
the singletons, the pass with limit 2 and cutoff 2 never extends a frontier
node: after both passes over `[1, 2, 1, 2, 1, 2, 3]` the singletons of `1` and
of `2` have count 3 and the node of the path `(1, 2)` does not exist and has
count 0, not 3. -/
theorem repeated_pair_counterexample :
    (∀ c : Nat, weightOfLengthOnly (.Int [1]) c < weightOfLengthOnly (.Int [2, 1]) c ∧
      weightOfLengthOnly (.Int [2]) c < weightOfLengthOnly (.Int [2, 1]) c) ∧
    (countBothPasses weightOfLengthOnly 2 2 repeatedPairExample).getCount (.Int [1]) = 3 ∧
    (countBothPasses weightOfLengthOnly 2 2 repeatedPairExample).getCount (.Int [2]) = 3 ∧
    (countBothPasses weightOfLengthOnly 2 2 repeatedPairExample).hasNode (.Int [2, 1]) = false ∧
    (countBothPasses weightOfLengthOnly 2 2 repeatedPairExample).getCount (.Int [2, 1]) = 0 :=
  ⟨fun _ => ⟨Nat.zero_lt_one, Nat.zero_lt_one⟩, by decide, by decide, by decide, by decide⟩

end ScenarioTheorems

section OrderTheorems

variable (getWeight : CountNode → Nat → Nat)

theorem sameCollector_refl (s : AbbreviationsCollector) : SameCollector s s :=
  ⟨rfl, rfl, rfl, rfl, rfl, rfl, fun _ => Iff.rfl⟩

theorem sameCollector_pushHeap (s t : AbbreviationsCollector) (x : CountNode)
    (h : SameCollector s t) :
    SameCollector (s.pushHeap getWeight x) (t.pushHeap getWeight x) := by
  obtain ⟨h1, h2, h3, h4, h5, h6, h7⟩ := h
  unfold AbbreviationsCollector.pushHeap SameCollector
  dsimp only
  refine ⟨h1, h2, h3, by rw [h1, h4], h5, h6, ?_⟩
  intro y
  have hx := h7 x
  have hy := h7 y
  by_cases hs : x ∈ s.HeapEntries
  · rw [if_pos hs, if_pos (hx.1 hs)]
    exact hy
  · rw [if_neg hs, if_neg (fun ht => hs (hx.2 ht))]
    simp only [List.mem_cons, hy]

theorem sameCollector_reinsert (s t : AbbreviationsCollector) (x : CountNode)
    (h : SameCollector s t) :
    (s.reinsert getWeight x).2 = (t.reinsert getWeight x).2 ∧
    SameCollector (s.reinsert getWeight x).1 (t.reinsert getWeight x).1 := by
  obtain ⟨h1, h2, h3, h4, h5, h6, h7⟩ := h
  unfold AbbreviationsCollector.reinsert
  by_cases hs : x ∈ s.ValuesHeap
  · rw [if_pos hs, if_pos (h4 ▸ hs)]
    exact ⟨rfl, h1, h2, h3, by dsimp only; rw [h1, h4], h5, h6, h7⟩
  · rw [if_neg hs, if_neg (h4 ▸ hs)]
    exact ⟨rfl, h1, h2, h3, h4, h5, h6, h7⟩

theorem sameCollector_trimParent (s t : AbbreviationsCollector) (P : CountNode) (N : Nat)
    (h : SameCollector s t) :
    SameCollector (trimParent getWeight P N s) (trimParent getWeight P N t) := by
  have h0 : SameCollector { s with Root := s.Root.setCount P N }
      { t with Root := t.Root.setCount P N } := by
    obtain ⟨h1, h2, h3, h4, h5, h6, h7⟩ := h
    exact ⟨by dsimp only; rw [h1], h2, h3, h4, h5, h6, h7⟩
  have hmid : ∀ m m2 : AbbreviationsCollector, SameCollector m m2 →
      SameCollector
        (if P ∈ m.HeapEntries then
          (if (m.reinsert getWeight P).2 then (m.reinsert getWeight P).1
          else (m.reinsert getWeight P).1.pushHeap getWeight P)
        else m)
        (if P ∈ m2.HeapEntries then
          (if (m2.reinsert getWeight P).2 then (m2.reinsert getWeight P).1
          else (m2.reinsert getWeight P).1.pushHeap getWeight P)
        else m2) := by
    intro m m2 hm
    obtain ⟨r1, r2⟩ := sameCollector_reinsert getWeight _ _ P hm
    have hP := hm.2.2.2.2.2.2 P
    by_cases hs : P ∈ m.HeapEntries
    · rw [if_pos hs, if_pos (hP.1 hs), r1]
      split_ifs
      · exact r2
      · exact sameCollector_pushHeap getWeight _ _ P r2
    · rw [if_neg hs, if_neg (fun ht => hs (hP.2 ht))]
      exact hm
  have hlast : ∀ m m2 : AbbreviationsCollector, SameCollector m m2 →
      SameCollector
        (if P ∈ m.Assignments then { m with Assignments := m.Assignments.erase P } else m)
        (if P ∈ m2.Assignments then { m2 with Assignments := m2.Assignments.erase P }
          else m2) := by
    intro m m2 hm
    obtain ⟨m1, m2, m3, m4, m5, m6, m7⟩ := hm
    rw [m2]
    split_ifs
    · exact ⟨m1, rfl, m3, m4, m5, m6, m7⟩
    · exact ⟨m1, m2, m3, m4, m5, m6, m7⟩
  exact hlast _ _ (hmid _ _ h0)

theorem sameCollector_trimLoop (Count : Nat) (p : IntPath) :
    ∀ (s t : AbbreviationsCollector), SameCollector s t →
      SameCollector (trimLoop getWeight Count p s) (trimLoop getWeight Count p t) := by
  induction p with
  | nil => intro s t h; simpa [trimLoop] using h
  | cons v q ih =>
    intro s t h
    cases q with
    | nil => simpa [trimLoop] using h
    | cons u ps =>
      have e1 : t.Root.hasNode (.Int (u :: ps)) = s.Root.hasNode (.Int (u :: ps)) := by
        rw [h.1]
      have e2 : t.Root.getCount (.Int (u :: ps)) = s.Root.getCount (.Int (u :: ps)) := by
        rw [h.1]
      have e3 : (CountNode.Int (v :: u :: ps) ∈ t.TrimmedNodes)
          = (CountNode.Int (v :: u :: ps) ∈ s.TrimmedNodes) := by
        rw [h.2.2.1]
      unfold trimLoop
      simp only [newCount_eq]
      rw [e1, e2]
      simp only [e3]
      split_ifs
      · exact h
      · exact h
      · exact h
      · exact ih _ _ (sameCollector_trimParent getWeight _ _ _ _ h)

theorem sameCollector_addAbbreviation (Flags : CompressionFlags)
    (s t : AbbreviationsCollector) (Nd : CountNode) (h : SameCollector s t) :
    SameCollector (s.addAbbreviation getWeight Flags Nd)
      (t.addAbbreviation getWeight Flags Nd) := by
  have h0 : SameCollector { s with Assignments := s.Assignments ++ [Nd] }
      { t with Assignments := t.Assignments ++ [Nd] } := by
    obtain ⟨h1, h2, h3, h4, h5, h6, h7⟩ := h
    exact ⟨h1, by dsimp only; rw [h2], h3, h4, h5, h6, h7⟩
  have e1 : (Nd ∈ t.Assignments) = (Nd ∈ s.Assignments) := by rw [h.2.1]
  have e2 : t.Root.getCount Nd = s.Root.getCount Nd := by rw [h.1]
  have hlast : ∀ m m2 : AbbreviationsCollector, SameCollector m m2 →
      SameCollector
        { m with TrimmedNodes := if Nd ∈ m.TrimmedNodes then m.TrimmedNodes
                                 else m.TrimmedNodes ++ [Nd] }
        { m2 with TrimmedNodes := if Nd ∈ m2.TrimmedNodes then m2.TrimmedNodes
                                  else m2.TrimmedNodes ++ [Nd] } := by
    intro m m2 hm
    obtain ⟨m1, m2, m3, m4, m5, m6, m7⟩ := hm
    exact ⟨m1, m2, by dsimp only; rw [m3], m4, m5, m6, m7⟩
  unfold AbbreviationsCollector.addAbbreviation
  dsimp only
  rw [e2]
  simp only [e1]
  split_ifs
  · exact h
  · exact h
  · exact h0
  · cases Nd with
    | Int p =>
      exact hlast _ _ (sameCollector_trimLoop getWeight (s.Root.getCount (.Int p)) p _ _ h0)
    | BlockEnter => exact h0
    | BlockExit => exact h0
    | DefaultSingle => exact h0
    | DefaultMultiple => exact h0
    | Align => exact h0

theorem sameCollector_selectLoop (Flags : CompressionFlags) (fuel : Nat) :
    ∀ (s t : AbbreviationsCollector), SameCollector s t →
      SameCollector (selectLoop getWeight Flags fuel s) (selectLoop getWeight Flags fuel t) := by
  induction fuel with
  | zero => intro s t h; exact h
  | succ n ih =>
    intro s t h
    have e1 : t.ValuesHeap = s.ValuesHeap := h.2.2.2.1.symm
    have e2 : t.Assignments.length = s.Assignments.length := by rw [h.2.1]
    unfold selectLoop selectStep
    rw [e1, e2]
    cases hh : s.ValuesHeap with
    | nil => exact h
    | cons Nd Heap =>
      dsimp only
      split_ifs
      · apply ih
        apply sameCollector_addAbbreviation
        obtain ⟨h1, h2, h3, h4, h5, h6, h7⟩ := h
        exact ⟨h1, h2, h3, rfl, h5, h6, h7⟩
      · exact h

theorem sameCollector_pushHeap_fold (l : List CountNode) :
    ∀ (s t : AbbreviationsCollector), SameCollector s t →
      SameCollector (l.foldl (fun (m : AbbreviationsCollector) Nd => m.pushHeap getWeight Nd) s)
        (l.foldl (fun (m : AbbreviationsCollector) Nd => m.pushHeap getWeight Nd) t) := by
  induction l with
  | nil => intro s t h; exact h
  | cons x l ih =>
    intro s t h
    exact ih _ _ (sameCollector_pushHeap getWeight s t x h)

theorem sameCollector_indexLoop (Heap : List CountNode) :
    ∀ (s t : AbbreviationsCollector), SameCollector s t →
      SameCollector (indexLoop Heap s) (indexLoop Heap t) := by
  induction Heap with
  | nil =>
    intro s t h
    obtain ⟨h1, h2, h3, h4, h5, h6, h7⟩ := h
    exact ⟨h1, h2, h3, rfl, h5, h6, h7⟩
  | cons x Heap ih =>
    intro s t h
    unfold indexLoop
    apply ih
    obtain ⟨h1, h2, h3, h4, h5, h6, h7⟩ := h
    exact ⟨h1, h2, h3, rfl, by simp only [createSymbol]; rw [h5, h1],
      by simp only [createSymbol]; rw [h5, h6], h7⟩

theorem pairwise_perm_eq {α : Type} (r : α → α → Prop) :
    ∀ (l1 l2 : List α), l1.Perm l2 → l1.Pairwise r → l2.Pairwise r →
      (∀ a ∈ l1, ∀ b ∈ l1, r a b → r b a → a = b) → l1 = l2 := by
  intro l1
  induction l1 with
  | nil => intro l2 hp _ _ _; exact (List.nil_perm.1 hp).symm
  | cons a l1 ih =>
    intro l2 hp h1 h2 hanti
    cases l2 with
    | nil => exact absurd (List.perm_nil.1 hp) (List.cons_ne_nil _ _)
    | cons b l2 =>
      obtain ⟨ha, hl1⟩ := List.pairwise_cons.1 h1
      obtain ⟨hb, hl2⟩ := List.pairwise_cons.1 h2
      have hab : a = b := by
        have hmemb : b ∈ a :: l1 := hp.symm.subset (List.mem_cons_self _ _)
        have hmema : a ∈ b :: l2 := hp.subset (List.mem_cons_self _ _)
        rcases List.mem_cons.1 hmema with h | h
        · exact h
        · rcases List.mem_cons.1 hmemb with h' | h'
          · exact h'.symm
          · exact hanti a (List.mem_cons_self _ _) b hmemb (ha b h') (hb a h)
      subst hab
      rw [ih l2 (List.Perm.cons_inv hp) hl1 hl2
        (fun x hx y hy => hanti x (List.mem_cons_of_mem _ hx) y (List.mem_cons_of_mem _ hy))]

theorem heapInsert_perm (Root : RootCountNode) (x : CountNode) (l : List CountNode) :
    (heapInsert getWeight Root x l).Perm (x :: l) := by
  induction l with
  | nil => simp [heapInsert]
  | cons z l ih =>
    unfold heapInsert
    split_ifs
    · exact List.Perm.refl _
    · exact (List.Perm.cons z ih).trans (List.Perm.swap x z l)

theorem pushHeap_fold_perm (l : List CountNode) :
    ∀ (st : AbbreviationsCollector),
      (l.foldl (fun (m : AbbreviationsCollector) Nd => m.pushHeap getWeight Nd)
        st).ValuesHeap.Perm (l ++ st.ValuesHeap) := by
  induction l with
  | nil => intro st; exact List.Perm.refl _
  | cons x l ih =>
    intro st
    simp only [List.foldl_cons, List.cons_append]
    refine (ih _).trans ?_
    simp only [AbbreviationsCollector.pushHeap]
    exact ((heapInsert_perm getWeight st.Root x st.ValuesHeap).append_left l).trans
      List.perm_middle

theorem pushHeap_fold_pairwise (l : List CountNode) :
    ∀ (st : AbbreviationsCollector), st.ValuesHeap.Pairwise (popsBefore getWeight st.Root) →
      (l.foldl (fun (m : AbbreviationsCollector) Nd => m.pushHeap getWeight Nd)
        st).ValuesHeap.Pairwise (popsBefore getWeight st.Root) := by
  induction l with
  | nil => intro st h; exact h
  | cons x l ih =>
    intro st h
    simp only [List.foldl_cons]
    exact ih (st.pushHeap getWeight x) (heapInsert_pairwise getWeight st.Root x _ h)

theorem pushHeap_fold_mem_HeapEntries (l : List CountNode) :
    ∀ (st : AbbreviationsCollector) (x : CountNode),
      x ∈ (l.foldl (fun (m : AbbreviationsCollector) Nd => m.pushHeap getWeight Nd)
        st).HeapEntries ↔ x ∈ l ∨ x ∈ st.HeapEntries := by
  induction l with
  | nil => intro st x; simp
  | cons y l ih =>
    intro st x
    simp only [List.foldl_cons, ih, List.mem_cons]
    simp only [AbbreviationsCollector.pushHeap]
    split_ifs with hy
    · constructor
      · rintro (h | h)
        · exact Or.inl (Or.inr h)
        · exact Or.inr h
      · rintro ((h | h) | h)
        · exact Or.inr (h ▸ hy)
        · exact Or.inl h
        · exact Or.inr h
    · simp only [List.mem_cons]
      tauto

theorem sameCollector_pushHeap_perm (l1 l2 : List CountNode) (s t : AbbreviationsCollector)
    (hst : SameCollector s t) (hperm : l1.Perm l2)
    (hsorted : s.ValuesHeap.Pairwise (popsBefore getWeight s.Root))
    (hanti : ∀ a ∈ l1 ++ s.ValuesHeap, ∀ b ∈ l1 ++ s.ValuesHeap,
      popsBefore getWeight s.Root a b → popsBefore getWeight s.Root b a → a = b) :
    SameCollector (l1.foldl (fun (m : AbbreviationsCollector) Nd => m.pushHeap getWeight Nd) s)
      (l2.foldl (fun (m : AbbreviationsCollector) Nd => m.pushHeap getWeight Nd) t) := by
  obtain ⟨h1, h2, h3, h4, h5, h6, h7⟩ := hst
  obtain ⟨a1, a2, a3, a4, a5⟩ := pushHeap_fold_frame getWeight l1 s
  obtain ⟨b1, b2, b3, b4, b5⟩ := pushHeap_fold_frame getWeight l2 t
  refine ⟨by rw [a1, b1, h1], by rw [a2, b2, h2], by rw [a3, b3, h3], ?_, by rw [a4, b4, h5],
    by rw [a5, b5, h6], ?_⟩
  · have p1 := pushHeap_fold_perm getWeight l1 s
    have p2 := pushHeap_fold_perm getWeight l2 t
    have s1 := pushHeap_fold_pairwise getWeight l1 s hsorted
    have s2 := pushHeap_fold_pairwise getWeight l2 t (by rw [← h1, ← h4]; exact hsorted)
    rw [← h1] at s2
    apply pairwise_perm_eq (popsBefore getWeight s.Root) _ _ _ s1 s2
    · intro a ha b hb
      exact hanti a (p1.subset ha) b (p1.subset hb)
    · refine p1.trans (List.Perm.trans ?_ p2.symm)
      rw [h4]
      exact hperm.append_right _
  · intro x
    rw [pushHeap_fold_mem_HeapEntries, pushHeap_fold_mem_HeapEntries, h7 x, hperm.mem_iff]

theorem sameCollector_init (Flags : CompressionFlags) (C1 C2 : List CountNode)
    (Root : RootCountNode) (A : List CountNode) (hperm : C1.Perm C2)
    (hanti : ∀ a ∈ C1, ∀ b ∈ C1,
      popsBefore getWeight Root a b → popsBefore getWeight Root b a → a = b) :
    SameCollector
      (assignAbbreviationsInit getWeight Flags C1 (AbbreviationsCollector.make Root A))
      (assignAbbreviationsInit getWeight Flags C2 (AbbreviationsCollector.make Root A)) := by
  have hO : ∀ Nd ∈ getOthers, Nd.isInt = false := by decide
  obtain ⟨v1, _⟩ := addOthers_ValuesHeap getWeight Flags getOthers
    { AbbreviationsCollector.make Root A with TrimmedNodes := [] } hO
  have r1 := addOthers_getCount getWeight Flags getOthers
    { AbbreviationsCollector.make Root A with TrimmedNodes := [] } hO
  have hv : (addOthers getWeight Flags getOthers
      { AbbreviationsCollector.make Root A with TrimmedNodes := [] }).ValuesHeap = [] := by
    rw [v1]; rfl
  have hr : (addOthers getWeight Flags getOthers
      { AbbreviationsCollector.make Root A with TrimmedNodes := [] }).Root = Root := by
    rw [r1]; rfl
  unfold assignAbbreviationsInit AbbreviationsCollector.buildHeap
  dsimp only
  apply sameCollector_pushHeap_perm getWeight C1 C2 _ _ _ hperm
  · dsimp only
    rw [hv]
    exact List.Pairwise.nil
  · dsimp only
    rw [hv, hr, List.append_nil]
    exact hanti
  · exact ⟨rfl, rfl, rfl, rfl, rfl, rfl, fun _ => Iff.rfl⟩

theorem sameCollector_selectFuel (s t : AbbreviationsCollector) (h : SameCollector s t)
    (hs : s.HeapEntries.Nodup) (ht : t.HeapEntries.Nodup) : selectFuel s = selectFuel t := by
  obtain ⟨h1, _, _, h4, _, _, h7⟩ := h
  unfold selectFuel
  rw [h4, h1]
  have hp : s.HeapEntries.Perm t.HeapEntries := (List.perm_ext_iff_of_nodup hs ht).2 h7
  rw [(hp.map t.Root.getCount).sum_eq]

theorem sameCollector_select (Flags : CompressionFlags) (C1 C2 : List CountNode)
    (Root : RootCountNode) (A : List CountNode) (hperm : C1.Perm C2)
    (hanti : ∀ a ∈ C1, ∀ b ∈ C1,
      popsBefore getWeight Root a b → popsBefore getWeight Root b a → a = b) :
    SameCollector
      (assignAbbreviationsSelect getWeight Flags C1 (AbbreviationsCollector.make Root A))
      (assignAbbreviationsSelect getWeight Flags C2 (AbbreviationsCollector.make Root A)) := by
  have hi := sameCollector_init getWeight Flags C1 C2 Root A hperm hanti
  have hnd : (AbbreviationsCollector.make Root A).HeapEntries.Nodup := List.nodup_nil
  have hf := sameCollector_selectFuel _ _ hi
    (assignAbbreviationsInit_HeapEntries getWeight Flags C1 _ hnd)
    (assignAbbreviationsInit_HeapEntries getWeight Flags C2 _ hnd)
  unfold assignAbbreviationsSelect
  dsimp only
  rw [← hf]
  exact sameCollector_selectLoop getWeight Flags _ _ _ hi

theorem assignAbbreviationsSelect_sorted (Flags : CompressionFlags) (Collected : List CountNode)
    (hC : Collected.Nodup) (Root : RootCountNode) (A : List CountNode) :
    (assignAbbreviationsSelect getWeight Flags Collected
      (AbbreviationsCollector.make Root A)).ValuesHeap.Pairwise
      (popsBefore getWeight (assignAbbreviationsSelect getWeight Flags Collected
        (AbbreviationsCollector.make Root A)).Root) :=
  (selectStates_HeapInv getWeight Flags _ _
    (assignAbbreviationsInit_HeapInv getWeight Flags Collected hC Root A) _
    (selectLoop_mem_selectStates getWeight Flags _ _)).1

theorem assignAbbreviations_eq_index (Flags : CompressionFlags) (Collected : List CountNode)
    (st : AbbreviationsCollector) :
    st.assignAbbreviations getWeight Flags Collected
      = assignAbbreviationsIndex getWeight
          (assignAbbreviationsSelect getWeight Flags Collected st).Assignments
          (assignAbbreviationsSelect getWeight Flags Collected st) := rfl

theorem sameCollector_index (Order1 Order2 : List CountNode) (s t : AbbreviationsCollector)
    (hst : SameCollector s t) (hperm : Order1.Perm Order2)
    (hsorted : s.ValuesHeap.Pairwise (popsBefore getWeight s.Root))
    (hanti : ∀ a ∈ Order1 ++ s.ValuesHeap, ∀ b ∈ Order1 ++ s.ValuesHeap,
      popsBefore getWeight s.Root a b → popsBefore getWeight s.Root b a → a = b) :
    SameCollector (assignAbbreviationsIndex getWeight Order1 s)
      (assignAbbreviationsIndex getWeight Order2 t) := by
  have h0 : SameCollector { s with TrimmedNodes := [] } { t with TrimmedNodes := [] } := by
    obtain ⟨h1, h2, h3, h4, h5, h6, h7⟩ := hst
    exact ⟨h1, h2, rfl, h4, h5, h6, h7⟩
  have hf := sameCollector_pushHeap_perm getWeight Order1 Order2 _ _ h0 hperm hsorted hanti
  unfold assignAbbreviationsIndex
  dsimp only
  rw [← hf.2.2.2.1]
  exact sameCollector_indexLoop _ _ _ hf

/-- Order independence under the modelled ranking order, when it leaves no
ties: a run of selection in which the candidates are pushed in any other
order, and the Assignment Set is visited in any order when it is pushed again,
gives the same abbreviation indices, the same Assignment Set and the same
symbols as `assignAbbreviations` on the same trie with the same flags,
provided no two candidates are tied in the ranking order on the initial counts
and no two of the nodes that are assigned or left in the queue after the
selection loop are tied on the final counts. -/
theorem numbering_order_independent (Flags : CompressionFlags) (Root : RootCountNode)
    (A C1 C2 Order2 : List CountNode) (hC : C1.Nodup) (hperm : C1.Perm C2)
    (htie1 : ∀ a ∈ C1, ∀ b ∈ C1,
      popsBefore getWeight Root a b → popsBefore getWeight Root b a → a = b)
    (hO2 : Order2.Perm (assignAbbreviationsSelect getWeight Flags C2
      (AbbreviationsCollector.make Root A)).Assignments)
    (htie2 : ∀ a ∈ (assignAbbreviationsSelect getWeight Flags C1
          (AbbreviationsCollector.make Root A)).Assignments
        ++ (assignAbbreviationsSelect getWeight Flags C1
          (AbbreviationsCollector.make Root A)).ValuesHeap,
      ∀ b ∈ (assignAbbreviationsSelect getWeight Flags C1
          (AbbreviationsCollector.make Root A)).Assignments
        ++ (assignAbbreviationsSelect getWeight Flags C1
          (AbbreviationsCollector.make Root A)).ValuesHeap,
      popsBefore getWeight (assignAbbreviationsSelect getWeight Flags C1
        (AbbreviationsCollector.make Root A)).Root a b →
      popsBefore getWeight (assignAbbreviationsSelect getWeight Flags C1
        (AbbreviationsCollector.make Root A)).Root b a → a = b) :
    (assignAbbreviationsIndex getWeight Order2 (assignAbbreviationsSelect getWeight Flags C2
        (AbbreviationsCollector.make Root A))).AbbrevIndex
      = ((AbbreviationsCollector.make Root A).assignAbbreviations getWeight Flags
        C1).AbbrevIndex ∧
    (assignAbbreviationsIndex getWeight Order2 (assignAbbreviationsSelect getWeight Flags C2
        (AbbreviationsCollector.make Root A))).Assignments
      = ((AbbreviationsCollector.make Root A).assignAbbreviations getWeight Flags
        C1).Assignments ∧
    (assignAbbreviationsIndex getWeight Order2 (assignAbbreviationsSelect getWeight Flags C2
        (AbbreviationsCollector.make Root A))).Symbols
      = ((AbbreviationsCollector.make Root A).assignAbbreviations getWeight Flags
        C1).Symbols := by
  have hs := sameCollector_select getWeight Flags C1 C2 Root A hperm htie1
  have hp : (assignAbbreviationsSelect getWeight Flags C1
      (AbbreviationsCollector.make Root A)).Assignments.Perm Order2 := by
    rw [hs.2.1]
    exact hO2.symm
  obtain ⟨_, h2, _, _, h5, h6, _⟩ := sameCollector_index getWeight _ Order2 _ _ hs hp
    (assignAbbreviationsSelect_sorted getWeight Flags C1 hC Root A) htie2
  rw [assignAbbreviations_eq_index]
  exact ⟨h6.symm, h2.symm, h5.symm⟩

/-- The theorem `numbering_order_independent` on the example trie, whose three
candidates and five assigned nodes have pairwise different weights: the
candidates pushed in another order and the Assignment Set visited backwards
give the indices of `assignAbbreviations`. -/
theorem numbering_order_independent_witness :
    (assignAbbreviationsIndex weightCountTimesLength
      [.Int [1], .Int [2], .Int [2, 1], .DefaultSingle, .BlockEnter]
      (assignAbbreviationsSelect weightCountTimesLength exampleFlags
        [.Int [2], .Int [1], .Int [2, 1]]
        (AbbreviationsCollector.make exampleRoot []))).AbbrevIndex
      = ((AbbreviationsCollector.make exampleRoot []).assignAbbreviations
        weightCountTimesLength exampleFlags [.Int [1], .Int [2, 1], .Int [2]]).AbbrevIndex :=
  (numbering_order_independent weightCountTimesLength exampleFlags exampleRoot []
    [.Int [1], .Int [2, 1], .Int [2]] [.Int [2], .Int [1], .Int [2, 1]]
    [.Int [1], .Int [2], .Int [2, 1], .DefaultSingle, .BlockEnter]
    (by decide) (by decide) (by decide) (by decide) (by decide)).1

/-- Ties under the modelled ranking order: in the trie counted from
`[1, 5, 2, 5]` the nodes of the paths `(1, 5)` and `(2, 5)` are distinct and
tied in that order (weight 2, count 1, path length 2, value 5), and two runs of
`assignAbbreviations` on this trie with the same flags that push the two
candidates in different orders give the path `(1, 5)` the index 0 in one run
and the index 1 in the other. -/
theorem numbering_order_counterexample :
    [CountNode.Int [5, 1], .Int [5, 2]].Perm [.Int [5, 2], .Int [5, 1]] ∧
    CountNode.Int [5, 1] ≠ .Int [5, 2] ∧
    popsBefore weightCountTimesLength tieRoot (.Int [5, 1]) (.Int [5, 2]) ∧
    popsBefore weightCountTimesLength tieRoot (.Int [5, 2]) (.Int [5, 1]) ∧
    ((AbbreviationsCollector.make tieRoot []).assignAbbreviations weightCountTimesLength
      exampleFlags [.Int [5, 1], .Int [5, 2]]).AbbrevIndex (.Int [5, 1]) = some 0 ∧
    ((AbbreviationsCollector.make tieRoot []).assignAbbreviations weightCountTimesLength
      exampleFlags [.Int [5, 2], .Int [5, 1]]).AbbrevIndex (.Int [5, 1]) = some 1 := by
  decide

end OrderTheorems

section StreamTheorems

variable (getWeight : CountNode → Nat → Nat)

/-- C19: `closeBlock` on a write cursor or a read cursor that has at most one
enclosing block, the top block of the stream, returns false and leaves the
cursor (its index and its enclosing blocks) and the stream (its values and
blocks) as they are. -/
theorem close_top_block_fails (s : IntStream) (w : WriteCursor) (r : ReadCursor)
    (hw : w.EnclosingBlocks.length ≤ 1) (hr : r.EnclosingBlocks.length ≤ 1) :
    w.closeBlock s = (false, w, s) ∧ r.closeBlock s = (false, r) := by
  constructor
  · simp [WriteCursor.closeBlock, Cursor.closeBlock, hw]
  · simp [ReadCursor.closeBlock, Cursor.closeBlock, hr]

/-- The theorem `close_top_block_fails` for new cursors on a new stream. -/
theorem close_top_block_fails_witness :
    WriteCursor.make.closeBlock IntStream.reset = (false, WriteCursor.make, IntStream.reset) ∧
    (ReadCursor.make IntStream.reset).closeBlock IntStream.reset
      = (false, ReadCursor.make IntStream.reset) :=
  close_top_block_fails IntStream.reset WriteCursor.make (ReadCursor.make IntStream.reset)
    (by decide) (by decide)

/-- C18 (evaluation): on a new stream, after `write(5)` and a `freezeEof` that
returns true, `write(7)` returns true and the stored values change from `[5]`
to `[5, 7]`. -/
theorem write_after_freeze_appends :
    writeAfterFreezeExample = some (true, true, [5], [5, 7]) := by
  decide

end StreamTheorems

section CompressTheorems

variable (getWeight : CountNode → Nat → Nat)

theorem structural_singleton_assigned (Flags : CompressionFlags) (Collected : List CountNode)
    (Root : RootCountNode) (A : List CountNode) (Nd : CountNode) (hNd : Nd ∈ getOthers)
    (hc : Root.getCount Nd ≠ 0) :
    Nd ∈ ((AbbreviationsCollector.make Root A).assignAbbreviations getWeight Flags
      Collected).Assignments := by
  have hO : ∀ x ∈ getOthers, x.isInt = false := by decide
  have hx := hO Nd hNd
  obtain ⟨a1, _⟩ := assignAbbreviations_Assignments getWeight Flags Collected
    (AbbreviationsCollector.make Root A)
  obtain ⟨_, i2⟩ := assignAbbreviationsInit_frame getWeight Flags Collected
    (AbbreviationsCollector.make Root A)
  rw [a1]
  unfold assignAbbreviationsSelect
  dsimp only
  obtain ⟨s1, _⟩ := selectLoop_keep getWeight Flags Nd hx
    (selectFuel (assignAbbreviationsInit getWeight Flags Collected
      (AbbreviationsCollector.make Root A)))
    (assignAbbreviationsInit getWeight Flags Collected (AbbreviationsCollector.make Root A))
  apply s1
  rw [i2]
  by_cases hin : Nd ∈ A
  · exact List.mem_append_left _ hin
  · apply List.mem_append_right
    rw [List.mem_filter]
    exact ⟨hNd, by simpa [AbbreviationsCollector.make, hin] using hc⟩

theorem seedDefaultCounts_getCount (MyFlags : CompressionFlags) (Root : RootCountNode) :
    (seedDefaultCounts MyFlags Root).getCount .DefaultSingle = 100 ∧
    (seedDefaultCounts MyFlags Root).getCount .DefaultMultiple = 100 ∧
    (MyFlags.UseHuffmanEncoding = true → (seedDefaultCounts MyFlags Root).getCount .Align = 1) := by
  unfold seedDefaultCounts
  dsimp only
  split_ifs with h
  · simp [getCount_setCount]
  · simp [getCount_setCount, h]

theorem assignInitialAbbreviations_members (co : Collaborators) (c : IntCompressor)
    (R : RootCountNode) (hR : c.Root = some (seedDefaultCounts c.MyFlags R)) :
    ∃ A, (c.assignInitialAbbreviations getWeight co []).AbbrevAssignments = some A ∧
      CountNode.DefaultSingle ∈ A ∧ CountNode.DefaultMultiple ∈ A ∧
      (c.MyFlags.UseHuffmanEncoding = true → CountNode.Align ∈ A) := by
  obtain ⟨s1, s2, s3⟩ := seedDefaultCounts_getCount c.MyFlags R
  have hg : c.getRoot = (c, seedDefaultCounts c.MyFlags R) := by
    simp only [IntCompressor.getRoot, hR]
  refine ⟨((AbbreviationsCollector.make c.getRoot.2 []).assignAbbreviations getWeight
    c.getRoot.1.MyFlags (co.Collected c.getRoot.2)).Assignments, rfl, ?_, ?_, ?_⟩
  · rw [hg]
    apply structural_singleton_assigned getWeight _ _ _ _ _ (by decide)
    rw [s1]; decide
  · rw [hg]
    apply structural_singleton_assigned getWeight _ _ _ _ _ (by decide)
    rw [s2]; decide
  · intro h
    rw [hg]
    apply structural_singleton_assigned getWeight _ _ _ _ _ (by decide)
    rw [s3 h]; decide

theorem generateIntOutput_frame (co : Collaborators) (c : IntCompressor) :
    (c.generateIntOutput co).1.AbbrevAssignments = c.AbbrevAssignments ∧
    (c.generateIntOutput co).1.ErrorsFound = c.ErrorsFound ∧
    (c.generateIntOutput co).1.Calls = c.Calls ++ [.generateIntOutput] ∧
    (c.generateIntOutput co).1.Output = c.Output ∧
    (c.generateIntOutput co).1.Root = c.Root :=
  ⟨rfl, rfl, rfl, rfl, rfl⟩

theorem writeCodeOutput_frame (co : Collaborators) (c : IntCompressor) :
    (c.writeCodeOutput co).AbbrevAssignments = c.AbbrevAssignments ∧
    (c.writeCodeOutput co).ErrorsFound = c.ErrorsFound ∧
    (c.writeCodeOutput co).Calls = c.Calls ++ [.writeCodeOutput] ∧
    (c.writeCodeOutput co).IntOutput = c.IntOutput ∧
    (c.writeCodeOutput co).Root = c.Root :=
  ⟨rfl, rfl, rfl, rfl, rfl⟩

theorem writeDataOutput_frame (co : Collaborators) (c : IntCompressor) :
    (c.writeDataOutput co).AbbrevAssignments = c.AbbrevAssignments ∧
    (c.writeDataOutput co).ErrorsFound = (c.ErrorsFound || !co.DataSuccessful) ∧
    (c.writeDataOutput co).Calls = c.Calls ++ [.writeDataOutput] ∧
    (c.writeDataOutput co).IntOutput = c.IntOutput ∧
    (c.writeDataOutput co).Root = c.Root := by
  unfold IntCompressor.writeDataOutput
  dsimp only
  split_ifs with h
  · simp [h]
  · simp [h]

theorem compressSelected_AbbrevAssignments (co : Collaborators) (c : IntCompressor) :
    (c.compressSelected getWeight co).AbbrevAssignments
      = (IntCompressor.assignInitialAbbreviations getWeight co
          { c with Root := c.Root.map (seedDefaultCounts c.MyFlags) } []).AbbrevAssignments := by
  unfold IntCompressor.compressSelected
  dsimp only
  split_ifs
  · rw [(generateIntOutput_frame co _).1]
  · rw [(writeCodeOutput_frame co _).1, (generateIntOutput_frame co _).1]
  · rw [(writeDataOutput_frame co _).1, (writeCodeOutput_frame co _).1,
      (generateIntOutput_frame co _).1]

theorem compressSelected_members (co : Collaborators) (c : IntCompressor)
    (R : RootCountNode) (F : CompressionFlags) (hR : c.Root = some R) (hF : c.MyFlags = F) :
    ∃ A, (c.compressSelected getWeight co).AbbrevAssignments = some A ∧
      CountNode.DefaultSingle ∈ A ∧ CountNode.DefaultMultiple ∈ A ∧
      (F.UseHuffmanEncoding = true → CountNode.Align ∈ A) := by
  subst hF
  rw [compressSelected_AbbrevAssignments]
  exact assignInitialAbbreviations_members getWeight co
    { c with Root := c.Root.map (seedDefaultCounts c.MyFlags) } R (by simp [hR])

theorem compressUpToSize_state (co : Collaborators) (c : IntCompressor) (Size : Nat) :
    (∃ R, (c.compressUpToSize getWeight co Size).1.Root = some R) ∧
    (c.compressUpToSize getWeight co Size).1.MyFlags = c.MyFlags ∧
    (c.compressUpToSize getWeight co Size).1.Calls = c.Calls ++ [.compressUpToSize Size] ∧
    (c.compressUpToSize getWeight co Size).1.ErrorsFound = c.ErrorsFound ∧
    (c.compressUpToSize getWeight co Size).1.AbbrevAssignments = c.AbbrevAssignments ∧
    (c.compressUpToSize getWeight co Size).1.IntOutput = c.IntOutput ∧
    (c.compressUpToSize getWeight co Size).1.Output = c.Output := by
  unfold IntCompressor.compressUpToSize IntCompressor.getRoot
  cases c.Root <;> exact ⟨⟨_, rfl⟩, rfl, rfl, rfl, rfl, rfl, rfl⟩

/-- C15: in every run of `compress` on a new compressor that reaches the
selection of abbreviations, the counts of `DefaultSingle` and
`DefaultMultiple` are set to 100 (and that of `Align` to 1 under Huffman
encoding) in the trie handed to the selection, and `DefaultSingle` and
`DefaultMultiple` are in the Assignment Set after it, as is `Align` under
Huffman encoding, for every trie, flags, weight function and behaviour of the
other parts of the pipeline. -/
theorem fallback_abbreviations_selected (MyFlags : CompressionFlags) (co : Collaborators)
    (hreach : Phase.assignInitialAbbreviations
      ∈ ((IntCompressor.make MyFlags).compress getWeight co).Calls) :
    (∀ Root : RootCountNode,
      (seedDefaultCounts MyFlags Root).getCount .DefaultSingle = 100 ∧
      (seedDefaultCounts MyFlags Root).getCount .DefaultMultiple = 100 ∧
      (MyFlags.UseHuffmanEncoding = true →
        (seedDefaultCounts MyFlags Root).getCount .Align = 1)) ∧
    ∃ A, ((IntCompressor.make MyFlags).compress getWeight co).AbbrevAssignments = some A ∧
      CountNode.DefaultSingle ∈ A ∧ CountNode.DefaultMultiple ∈ A ∧
      (MyFlags.UseHuffmanEncoding = true → CountNode.Align ∈ A) := by
  refine ⟨seedDefaultCounts_getCount MyFlags, ?_⟩
  revert hreach
  unfold IntCompressor.compress
  dsimp only
  have hread : ((IntCompressor.make MyFlags).readInput co).Calls = [.readInput] ∧
      ((IntCompressor.make MyFlags).readInput co).MyFlags = MyFlags := by
    unfold IntCompressor.readInput
    dsimp only
    split_ifs <;> exact ⟨rfl, rfl⟩
  obtain ⟨⟨R1, hR1⟩, f1, k1, _⟩ := compressUpToSize_state getWeight co
    ((IntCompressor.make MyFlags).readInput co) 1
  split_ifs with h1 h2 h3 h4
  · intro h
    rw [hread.1] at h
    simp at h
  · intro h
    rw [k1, hread.1] at h
    simp at h
  · intro h
    obtain ⟨_, _, k2, _⟩ := compressUpToSize_state getWeight co
      { (IntCompressor.compressUpToSize getWeight co
            ((IntCompressor.make MyFlags).readInput co) 1).1 with
        Root := (IntCompressor.compressUpToSize getWeight co
            ((IntCompressor.make MyFlags).readInput co) 1).1.Root.map
          co.removeSmallSingletonUsageCounts }
      (IntCompressor.compressUpToSize getWeight co
            ((IntCompressor.make MyFlags).readInput co) 1).1.MyFlags.PatternLengthLimit
    rw [k2] at h
    dsimp only at h
    rw [k1, hread.1] at h
    simp at h
  · intro _
    obtain ⟨⟨R2, hR2⟩, f2, _⟩ := compressUpToSize_state getWeight co
      { (IntCompressor.compressUpToSize getWeight co
            ((IntCompressor.make MyFlags).readInput co) 1).1 with
        Root := (IntCompressor.compressUpToSize getWeight co
            ((IntCompressor.make MyFlags).readInput co) 1).1.Root.map
          co.removeSmallSingletonUsageCounts }
      (IntCompressor.compressUpToSize getWeight co
            ((IntCompressor.make MyFlags).readInput co) 1).1.MyFlags.PatternLengthLimit
    exact compressSelected_members getWeight co _ (co.removeAllSmallUsageCounts R2) MyFlags
      (by dsimp only; rw [hR2]; rfl) (by dsimp only; rw [f2]; dsimp only; rw [f1, hread.2])
  · intro _
    exact compressSelected_members getWeight co _ (co.removeSmallSingletonUsageCounts R1) MyFlags
      (by dsimp only; rw [hR1]; rfl) (by dsimp only; rw [f1, hread.2])

/-- The theorem `fallback_abbreviations_selected` for a run in which every
phase succeeds, with Huffman encoding on: the selection is reached and the
three default patterns are assigned. -/
theorem fallback_abbreviations_selected_witness :
    Phase.assignInitialAbbreviations
      ∈ ((IntCompressor.make { exampleFlags with UseHuffmanEncoding := true }).compress
        weightCountTimesLength quietCollaborators).Calls ∧
    ∃ A, ((IntCompressor.make { exampleFlags with UseHuffmanEncoding := true }).compress
        weightCountTimesLength quietCollaborators).AbbrevAssignments = some A ∧
      CountNode.DefaultSingle ∈ A ∧ CountNode.DefaultMultiple ∈ A ∧ CountNode.Align ∈ A :=
  ⟨by decide,
    (fallback_abbreviations_selected weightCountTimesLength
      { exampleFlags with UseHuffmanEncoding := true } quietCollaborators (by decide)).2.imp
      (fun _ h => ⟨h.1, h.2.1, h.2.2.1, h.2.2.2 rfl⟩)⟩

theorem readInput_frame (co : Collaborators) (c : IntCompressor) :
    (c.readInput co).ErrorsFound = (c.ErrorsFound || !co.InputSuccessful) ∧
    (c.readInput co).Calls = c.Calls ++ [.readInput] ∧
    (c.readInput co).Root = c.Root ∧
    (c.readInput co).AbbrevAssignments = c.AbbrevAssignments ∧
    (c.readInput co).IntOutput = c.IntOutput ∧
    (c.readInput co).Output = c.Output := by
  unfold IntCompressor.readInput
  dsimp only
  split_ifs with h
  · simp [h]
  · simp [h]

/-- When the decoding of the input fails, `compress` on a new compressor
returns right after `readInput` with the error flag set: no other phase is
started, and the trie, the Assignment Set and the output integer stream are
not created and nothing is written. -/
theorem compress_input_failure (MyFlags : CompressionFlags) (co : Collaborators)
    (h : co.InputSuccessful = false) :
    ((IntCompressor.make MyFlags).compress getWeight co).Calls = [.readInput] ∧
    ((IntCompressor.make MyFlags).compress getWeight co).errorsFound = true ∧
    ((IntCompressor.make MyFlags).compress getWeight co).Root = none ∧
    ((IntCompressor.make MyFlags).compress getWeight co).AbbrevAssignments = none ∧
    ((IntCompressor.make MyFlags).compress getWeight co).IntOutput = none ∧
    ((IntCompressor.make MyFlags).compress getWeight co).Output = [] := by
  obtain ⟨r1, r2, r3, r4, r5, r6⟩ := readInput_frame co (IntCompressor.make MyFlags)
  have he : ((IntCompressor.make MyFlags).readInput co).errorsFound = true := by
    unfold IntCompressor.errorsFound
    rw [r1, h]
    rfl
  unfold IntCompressor.compress
  dsimp only
  rw [if_pos he]
  exact ⟨r2, he, r3, r4, r5, r6⟩

/-- No phase of the compressor resets the error flag: each of them leaves a
flag that is set as it is. -/
theorem phases_keep_errorsFound (co : Collaborators) (c : IntCompressor)
    (h : c.errorsFound = true) :
    (c.readInput co).errorsFound = true ∧
    (∀ Size, (c.compressUpToSize getWeight co Size).1.errorsFound = true) ∧
    (c.assignInitialAbbreviations getWeight co []).errorsFound = true ∧
    (c.generateIntOutput co).1.errorsFound = true ∧
    (c.writeCodeOutput co).errorsFound = true ∧
    (c.writeDataOutput co).errorsFound = true ∧
    (c.compress getWeight co).errorsFound = true := by
  unfold IntCompressor.errorsFound at *
  have hr : (c.readInput co).ErrorsFound = true := by
    rw [(readInput_frame co c).1, h]
    rfl
  refine ⟨hr, ?_, ?_, h, h, ?_, ?_⟩
  · intro Size
    rw [(compressUpToSize_state getWeight co c Size).2.2.2.1, h]
  · unfold IntCompressor.assignInitialAbbreviations IntCompressor.getRoot
    cases c.Root <;> exact h
  · rw [(writeDataOutput_frame co c).2.1, h]
    rfl
  · unfold IntCompressor.compress
    dsimp only
    rw [if_pos (by unfold IntCompressor.errorsFound; exact hr)]
    exact hr

/-- C16 (evaluation): runs of `compress` on a new compressor in which the
input is decoded and one later phase fails: the singleton counting pass, the
counting pass with limit 2, the rewriting pass, or the output of the
dictionary.  In each run `errorsFound()` is false when `compress` has
returned; in the first three the failed phase is the last one started. -/
theorem failed_phase_without_flag :
    (((IntCompressor.make exampleFlags).compress weightCountTimesLength
        { quietCollaborators with CountErrors := fun Size => decide (Size = 1) }).errorsFound
        = false ∧
      ((IntCompressor.make exampleFlags).compress weightCountTimesLength
        { quietCollaborators with CountErrors := fun Size => decide (Size = 1) }).Calls
        = [.readInput, .compressUpToSize 1]) ∧
    (((IntCompressor.make exampleFlags).compress weightCountTimesLength
        { quietCollaborators with CountErrors := fun Size => decide (Size = 2) }).errorsFound
        = false ∧
      ((IntCompressor.make exampleFlags).compress weightCountTimesLength
        { quietCollaborators with CountErrors := fun Size => decide (Size = 2) }).Calls
        = [.readInput, .compressUpToSize 1, .compressUpToSize 2]) ∧
    (((IntCompressor.make exampleFlags).compress weightCountTimesLength
        { quietCollaborators with RewriteErrors := true }).errorsFound = false ∧
      ((IntCompressor.make exampleFlags).compress weightCountTimesLength
        { quietCollaborators with RewriteErrors := true }).Calls
        = [.readInput, .compressUpToSize 1, .compressUpToSize 2, .assignInitialAbbreviations,
            .generateIntOutput]) ∧
    ((IntCompressor.make exampleFlags).compress weightCountTimesLength
        { quietCollaborators with CodeErrors := true }).errorsFound = false := by
  decide

/-- C17 (evaluation): a run of `compress` on a new compressor in which the
output of the dictionary fails (`CasmWriter::hasErrors()` is true): the phase
`writeDataOutput` is still started and its bytes are appended after those of
the dictionary. -/
theorem data_output_after_failed_code_output :
    ((IntCompressor.make exampleFlags).compress weightCountTimesLength
        { quietCollaborators with CodeErrors := true }).Calls
      = [.readInput, .compressUpToSize 1, .compressUpToSize 2, .assignInitialAbbreviations,
          .generateIntOutput, .writeCodeOutput, .writeDataOutput] ∧
    ((IntCompressor.make exampleFlags).compress weightCountTimesLength
        { quietCollaborators with CodeErrors := true }).Output = [1, 2] := by
  decide

/-- When the input is decoded and the singleton counting pass fails,
`compress` on a new compressor returns right after that pass, and the error
flag is not set. -/
theorem compress_counting_failure (MyFlags : CompressionFlags) (co : Collaborators)
    (hin : co.InputSuccessful = true) (hc : co.CountErrors 1 = true) :
    ((IntCompressor.make MyFlags).compress getWeight co).Calls
      = [.readInput, .compressUpToSize 1] ∧
    ((IntCompressor.make MyFlags).compress getWeight co).errorsFound = false := by
  obtain ⟨r1, r2, _⟩ := readInput_frame co (IntCompressor.make MyFlags)
  have he : ¬ ((IntCompressor.make MyFlags).readInput co).errorsFound = true := by
    unfold IntCompressor.errorsFound
    rw [r1, hin]
    simp [IntCompressor.make]
  obtain ⟨_, _, k1, k2, _⟩ := compressUpToSize_state getWeight co
    ((IntCompressor.make MyFlags).readInput co) 1
  have hf : (IntCompressor.compressUpToSize getWeight co
      ((IntCompressor.make MyFlags).readInput co) 1).2 = false := by
    simp [IntCompressor.compressUpToSize, hc]
  unfold IntCompressor.compress
  dsimp only
  rw [if_neg he, if_pos hf]
  refine ⟨by rw [k1, r2]; rfl, ?_⟩
  unfold IntCompressor.errorsFound
  rw [k2, r1, hin]
  rfl

end CompressTheorems

section FrontierTheorems

variable (getWeight : CountNode → Nat → Nat)

/-- C21: for every value and format `CountWriter::writeHeaderValue` returns
true and returns the writer as it was, so that the trie (every node and
count), the frontier and the settings are unchanged; the same holds for the
writer call made for a header value of the traversal. -/
theorem header_value_not_counted (w : CountWriter) (Value : IntType) (Format : IntTypeFormat) :
    w.writeHeaderValue Value Format = (w, true) ∧
    w.writeEvent getWeight (.HeaderValue Value Format) = (w, true) :=
  ⟨rfl, rfl⟩

theorem frontierOK_bound (good : IntType → Bool) (L : Nat) (run : List IntType)
    (F : List IntPath) (hF : FrontierOK good L run F) (hL : 1 ≤ L) :
    F.length ≤ L ∧ (F.map List.length).Nodup := by
  obtain ⟨hnd, hmem⟩ := hF
  have hinj : (F.map List.length).Nodup := by
    apply List.Nodup.map_on _ hnd
    intro x hx y hy hxy
    obtain ⟨_, px, _, _⟩ := (hmem x).1 hx
    obtain ⟨_, py, _, _⟩ := (hmem y).1 hy
    exact (List.prefix_of_prefix_length_le px py hxy.le).eq_of_length hxy
  refine ⟨?_, hinj⟩
  have hsub : (F.map List.length).toFinset ⊆ Finset.Icc 1 L := by
    intro n hn
    rw [List.mem_toFinset, List.mem_map] at hn
    obtain ⟨q, hq, rfl⟩ := hn
    obtain ⟨hne, _, hlen, _⟩ := (hmem q).1 hq
    rw [Finset.mem_Icc]
    constructor
    · cases q with
      | nil => exact absurd rfl hne
      | cons a t => simp
    · rw [max_eq_left hL] at hlen
      exact hlen
  have hcard := Finset.card_le_card hsub
  rw [List.toFinset_card_of_nodup hinj, List.length_map, Nat.card_Icc] at hcard
  omega

/-- C22: in a counting pass with maximum pattern length `L ≥ 1` that starts
with an empty frontier, after any traversal (so after every written value and
block marker) the frontier holds at most `L` nodes, and their path lengths
are pairwise distinct. -/
theorem frontier_bounded (w : CountWriter) (es : List StreamEvent) (hL : 1 ≤ w.UpToSize)
    (hF : w.Frontier = []) :
    (w.structuralRead getWeight es).1.Frontier.length ≤ w.UpToSize ∧
    ((w.structuralRead getWeight es).1.Frontier.map getPathLength).Nodup := by
  by_cases h1 : w.UpToSize = 1
  · rw [(flat_pass getWeight w h1 es).2.2 hF]
    simp
  · obtain ⟨_, _, h⟩ := multi_pass getWeight
      (fun u => decide (w.CountCutoff ≤ getWeight (.Int [u]) (w.Root.getCount (.Int [u])))) es
      w [] h1 (fun u => rfl) (hF ▸ frontierOK_nil _ _)
    exact frontierOK_bound _ _ _ _ h hL

/-- The theorem `frontier_bounded` for the pass with limit 2 and cutoff 1 over
`[1, 2, 1, 2, 1, 2, 3]`, which ends with the frontier `(3)`, `(2, 3)`. -/
theorem frontier_bounded_witness :
    ((CountWriter.make (compressUpToSize weightCountTimesLength RootCountNode.empty 1 1
        repeatedPairExample).1 1 2).structuralRead weightCountTimesLength
        repeatedPairExample).1.Frontier = [[3], [3, 2]] ∧
    ((CountWriter.make (compressUpToSize weightCountTimesLength RootCountNode.empty 1 1
        repeatedPairExample).1 1 2).structuralRead weightCountTimesLength
        repeatedPairExample).1.Frontier.length ≤ 2 :=
  ⟨by decide,
    (frontier_bounded weightCountTimesLength
      (CountWriter.make (compressUpToSize weightCountTimesLength RootCountNode.empty 1 1
        repeatedPairExample).1 1 2) repeatedPairExample (by decide) rfl).1⟩

theorem addToUsageMap_frontier (w : CountWriter) (V : IntType) (hL : w.UpToSize ≠ 1)
    (hne : ∀ Nd ∈ w.Frontier, Nd ≠ []) :
    (w.addToUsageMap getWeight V).Frontier
      = (if w.CountCutoff ≤ getWeight (.Int [V]) (w.Root.getCount (.Int [V])) then
          [V] :: ((w.Frontier.filter (fun Nd => decide (getPathLength Nd < w.UpToSize))).map
            (fun Nd => V :: Nd)).reverse
        else []) ∧
    (∀ x, (w.addToUsageMap getWeight V).Root.getCount x
      = incrementedBy (w.Root.getCount x)
        (if w.CountCutoff ≤ getWeight (.Int [V]) (w.Root.getCount (.Int [V])) then
            ((w.Frontier.filter (fun Nd => decide (getPathLength Nd < w.UpToSize))).map
              (fun Nd => CountNode.Int (V :: Nd))).count x
          else 0)) := by
  obtain ⟨s1, s2, _⟩ := frontierLoop_spec getWeight w.CountCutoff w.UpToSize V w.Frontier
    (lookup w.Root [] V) [] hne
  have hext : extended getWeight w.CountCutoff w.UpToSize V (lookup w.Root [] V) w.Frontier
      = if w.CountCutoff ≤ getWeight (.Int [V]) (w.Root.getCount (.Int [V])) then
          w.Frontier.filter (fun Nd => decide (getPathLength Nd < w.UpToSize))
        else [] := by
    unfold extended
    rw [getCount_lookup]
    by_cases hg : w.CountCutoff ≤ getWeight (.Int [V]) (w.Root.getCount (.Int [V]))
    · rw [if_pos hg, if_neg (by omega)]
      rfl
    · rw [if_neg hg, if_pos (by omega)]
  have hzero : ((extended getWeight w.CountCutoff w.UpToSize V (lookup w.Root [] V)
      w.Frontier).map (fun q => CountNode.Int (V :: q))).count (.Int [V]) = 0 := by
    rw [List.count_eq_zero]
    intro h
    rw [List.mem_map] at h
    obtain ⟨q, hq, he⟩ := h
    have hq2 : q ∈ w.Frontier := by
      rw [hext] at hq
      split at hq
      · exact (List.mem_filter.1 hq).1
      · simp at hq
    injection he with he
    injection he with _ he
    exact hne q hq2 he
  have htop : (frontierLoop getWeight w.CountCutoff w.UpToSize V [V] w.Frontier
      (lookup w.Root [] V, [])).1.getCount (.Int [V]) = w.Root.getCount (.Int [V]) := by
    rw [s2, hzero, getCount_lookup]
    rfl
  have hRoot : (w.addToUsageMap getWeight V).Root
      = (frontierLoop getWeight w.CountCutoff w.UpToSize V [V] w.Frontier
          (lookup w.Root [] V, [])).1 := by
    simp only [CountWriter.addToUsageMap, hL, if_false]
    split <;> rfl
  constructor
  · simp only [CountWriter.addToUsageMap, hL, if_false]
    rw [htop, s1, hext]
    by_cases hg : w.CountCutoff ≤ getWeight (.Int [V]) (w.Root.getCount (.Int [V]))
    · simp [hg]
    · simp [hg]
  · intro x
    rw [hRoot, s2, hext, getCount_lookup]
    congr 1
    by_cases hg : w.CountCutoff ≤ getWeight (.Int [V]) (w.Root.getCount (.Int [V]))
    · simp [hg]
    · simp [hg]

/-- C29 (amended): in a counting pass with a limit other than 1, on an
incoming value `V` the next frontier is empty when the weight of the
top-level node of `V` is below the cutoff `C`; otherwise it holds the
top-level node of `V` and, for every frontier node `N` of path length below
`L`, the child of `N` for `V`, whatever the weight of `N` and the path length
and weight of the child.  The counts that change are those of these children,
incremented once for every frontier node they come from (`incrementedBy c k`
is the `size_t` count `c` after `k` increments, `c + k` below `2 ^ 64`). -/
theorem frontier_extension_rule (w : CountWriter) (V : IntType) (hL : w.UpToSize ≠ 1)
    (hne : ∀ Nd ∈ w.Frontier, Nd ≠ []) :
    (w.writeVaruint64 getWeight V).1.Frontier
      = (if w.CountCutoff ≤ getWeight (.Int [V]) (w.Root.getCount (.Int [V])) then
          [V] :: ((w.Frontier.filter (fun Nd => decide (getPathLength Nd < w.UpToSize))).map
            (fun Nd => V :: Nd)).reverse
        else []) ∧
    (∀ x, (w.writeVaruint64 getWeight V).1.Root.getCount x
      = incrementedBy (w.Root.getCount x)
        (if w.CountCutoff ≤ getWeight (.Int [V]) (w.Root.getCount (.Int [V])) then
            ((w.Frontier.filter (fun Nd => decide (getPathLength Nd < w.UpToSize))).map
              (fun Nd => CountNode.Int (V :: Nd))).count x
          else 0)) ∧
    (∀ x, w.Root.getCount x
        + ((w.Frontier.filter (fun Nd => decide (getPathLength Nd < w.UpToSize))).map
              (fun Nd => CountNode.Int (V :: Nd))).count x < 2 ^ 64 →
      (w.writeVaruint64 getWeight V).1.Root.getCount x
        = w.Root.getCount x
          + (if w.CountCutoff ≤ getWeight (.Int [V]) (w.Root.getCount (.Int [V])) then
              ((w.Frontier.filter (fun Nd => decide (getPathLength Nd < w.UpToSize))).map
                (fun Nd => CountNode.Int (V :: Nd))).count x
            else 0)) := by
  obtain ⟨h1, h2⟩ := addToUsageMap_frontier getWeight w V hL hne
  refine ⟨h1, h2, fun x hx => ?_⟩
  have h3 : (w.writeVaruint64 getWeight V).1.Root.getCount x
      = (w.addToUsageMap getWeight V).Root.getCount x := rfl
  rw [h3, h2 x]
  apply incrementedBy_of_lt
  split <;> omega

/-- The theorem `frontier_extension_rule` for cutoff 2 and limit 2 on the
trie counted from `[1, 1, 2]`, with the node of `1` in the frontier: the value
1, whose top-level node has weight 2, extends it to the path `(1, 1)`, which
is kept in the frontier although its path length is the limit. -/
theorem frontier_extension_rule_witness :
    ((({ CountWriter.make (compressUpToSize weightCountTimesLength RootCountNode.empty 2 1
        [.Value 1, .Value 1, .Value 2]).1 2 2 with Frontier := [[1]] } :
        CountWriter).writeVaruint64 weightCountTimesLength 1).1.Frontier = [[1], [1, 1]]) :=
  (frontier_extension_rule weightCountTimesLength
    { CountWriter.make (compressUpToSize weightCountTimesLength RootCountNode.empty 2 1
        [.Value 1, .Value 1, .Value 2]).1 2 2 with Frontier := [[1]] } 1
    (by decide) (by decide)).1.trans (by decide)

/-- C29 (counterexample): cutoff 2, limit 2, the trie counted from
`[1, 1, 2]`, and the node of `1` in the frontier; its path length 1 is below
the limit and its weight 2 is not below the cutoff.  On the value 2, whose
top-level node has weight 1, the node is not replaced by its child: no node
of the path `(1, 2)` is created and the frontier becomes empty. -/
theorem frontier_extension_counterexample :
    getPathLength [1] < 2 ∧
    2 ≤ weightCountTimesLength (.Int [1])
      ((compressUpToSize weightCountTimesLength RootCountNode.empty 2 1
        [.Value 1, .Value 1, .Value 2]).1.getCount (.Int [1])) ∧
    (({ CountWriter.make (compressUpToSize weightCountTimesLength RootCountNode.empty 2 1
        [.Value 1, .Value 1, .Value 2]).1 2 2 with Frontier := [[1]] } :
        CountWriter).writeVaruint64 weightCountTimesLength 2).1.Root.hasNode (.Int [2, 1])
      = false ∧
    (({ CountWriter.make (compressUpToSize weightCountTimesLength RootCountNode.empty 2 1
        [.Value 1, .Value 1, .Value 2]).1 2 2 with Frontier := [[1]] } :
        CountWriter).writeVaruint64 weightCountTimesLength 2).1.Frontier = [] := by
  decide

/-- C30 (amended): a value written in a pass with `L = 1` increments the
`size_t` count `c` of its top-level node to `(c + 1) % 2 ^ 64`, which is
`c + 1` unless `c` is `2 ^ 64 - 1`, and changes no other count; a value
written in a pass with another limit creates its top-level node when it is
absent and changes the count of no top-level node. -/
theorem top_level_count_step (w : CountWriter) (V : IntType)
    (hne : ∀ Nd ∈ w.Frontier, Nd ≠ []) :
    (w.UpToSize = 1 →
      ∀ x, (w.writeVaruint64 getWeight V).1.Root.getCount x
        = if x = .Int [V] then (w.Root.getCount x + 1) % 2 ^ 64 else w.Root.getCount x) ∧
    (w.UpToSize = 1 → w.Root.getCount (.Int [V]) < 2 ^ 64 - 1 →
      (w.writeVaruint64 getWeight V).1.Root.getCount (.Int [V])
        = w.Root.getCount (.Int [V]) + 1) ∧
    (w.UpToSize ≠ 1 →
      ∀ u, (w.writeVaruint64 getWeight V).1.Root.getCount (.Int [u])
        = w.Root.getCount (.Int [u])) ∧
    (w.writeVaruint64 getWeight V).1.Root.hasNode (.Int [V]) = true := by
  have hflat : w.UpToSize = 1 →
      ∀ x, (w.writeVaruint64 getWeight V).1.Root.getCount x
        = if x = .Int [V] then (w.Root.getCount x + 1) % 2 ^ 64 else w.Root.getCount x := by
    intro h1 x
    simp only [CountWriter.writeVaruint64, CountWriter.addToUsageMap, h1, if_true]
    rw [getCount_increment, getCount_lookup]
    split <;> rfl
  refine ⟨hflat, ?_, ?_, ?_⟩
  · intro h1 hlt
    rw [hflat h1, if_pos rfl]
    exact Nat.mod_eq_of_lt (by omega)
  · intro hL u
    simp only [CountWriter.writeVaruint64]
    rw [(addToUsageMap_frontier getWeight w V hL hne).2]
    split
    · rw [List.count_eq_zero.2, incrementedBy_zero]
      intro h
      rw [List.mem_map] at h
      obtain ⟨q, hq, he⟩ := h
      injection he with he
      injection he with _ he
      exact hne q (List.mem_filter.1 hq).1 he
    · rfl
  · by_cases h1 : w.UpToSize = 1
    · simp only [CountWriter.writeVaruint64, CountWriter.addToUsageMap, h1, if_true]
      rw [hasNode_increment]
      simp
    · obtain ⟨_, _, s3⟩ := frontierLoop_spec getWeight w.CountCutoff w.UpToSize V w.Frontier
        (lookup w.Root [] V) [] hne
      have hRoot : (w.addToUsageMap getWeight V).Root
          = (frontierLoop getWeight w.CountCutoff w.UpToSize V [V] w.Frontier
              (lookup w.Root [] V, [])).1 := by
        simp only [CountWriter.addToUsageMap, h1, if_false]
        split <;> rfl
      simp only [CountWriter.writeVaruint64]
      rw [hRoot, s3, hasNode_lookup]
      simp

/-- The theorem `top_level_count_step` on the example trie: the value 1 raises
the count 5 of its top-level node to 6 in a pass with `L = 1` and leaves it at
5 in a pass with limit 2. -/
theorem top_level_count_step_witness :
    ((CountWriter.make exampleRoot 1 1).writeVaruint64 weightCountTimesLength 1).1.Root.getCount
      (.Int [1]) = 6 ∧
    ((CountWriter.make exampleRoot 1 2).writeVaruint64 weightCountTimesLength 1).1.Root.getCount
      (.Int [1]) = 5 :=
  ⟨((top_level_count_step weightCountTimesLength (CountWriter.make exampleRoot 1 1) 1
      (by decide)).1 rfl (.Int [1])).trans (by decide),
    ((top_level_count_step weightCountTimesLength (CountWriter.make exampleRoot 1 2) 1
      (by decide)).2.2.1 (by decide) 1).trans (by decide)⟩

/-- C30 (counterexample): in a pass with limit 2 and cutoff 1 on the example
trie, the value 1 is written while the frontier holds the node of `2`; the
count of the top-level node of `1` is 5 before and 5 after. -/
theorem top_level_count_counterexample :
    exampleRoot.getCount (.Int [1]) = 5 ∧
    (({ CountWriter.make exampleRoot 1 2 with Frontier := [[2]] } :
      CountWriter).writeVaruint64 weightCountTimesLength 1).1.Root.getCount (.Int [1]) = 5 := by
  decide

end FrontierTheorems

section TrimTheorems

variable (getWeight : CountNode → Nat → Nat)

theorem trimLoop_walk (Count : Nat) (q : IntPath) :
    ∀ (v : IntType) (st : AbbreviationsCollector),
      (∀ r, r ≠ [] → r <:+ q → st.Root.hasNode (.Int r) = true) →
      (∀ r, r ≠ [] → r <:+ v :: q → CountNode.Int r ∉ st.TrimmedNodes) →
      (Count = 0 ∨ ∀ r, 2 ≤ r.length → r <:+ q → st.Root.getCount (.Int r) ≠ 0) →
      (∀ r, r ≠ [] → r <:+ q →
        (trimLoop getWeight Count (v :: q) st).Root.getCount (.Int r)
          = st.Root.getCount (.Int r) - Count) ∧
      (∀ x, (∀ r, r ≠ [] → r <:+ q → x ≠ .Int r) →
        (trimLoop getWeight Count (v :: q) st).Root.getCount x = st.Root.getCount x) := by
  induction q with
  | nil =>
    intro v st _ _ _
    refine ⟨fun r hr hs => absurd (List.suffix_nil.1 hs) hr, fun x _ => ?_⟩
    simp [trimLoop]
  | cons u ps ih =>
    intro v st hhas hmark hpos
    have h1 : st.Root.hasNode (.Int (u :: ps)) = true :=
      hhas _ (List.cons_ne_nil _ _) (List.suffix_refl _)
    have h2 : CountNode.Int (v :: u :: ps) ∉ st.TrimmedNodes :=
      hmark _ (List.cons_ne_nil _ _) (List.suffix_refl _)
    unfold trimLoop
    simp only [newCount_eq]
    rw [if_neg (by simp [h1]), if_neg h2]
    have hlen : ∀ r : IntPath, r <:+ ps → r ≠ u :: ps := by
      intro r hs he
      have := hs.length_le
      rw [he] at this
      simp at this
    by_cases h3 : st.Root.getCount (.Int (u :: ps)) = st.Root.getCount (.Int (u :: ps)) - Count
    · rw [if_pos h3]
      refine ⟨fun r hr hs => ?_, fun x _ => rfl⟩
      by_cases hc : Count = 0
      · rw [hc]; rfl
      · have hzero : st.Root.getCount (.Int (u :: ps)) = 0 := by omega
        cases ps with
        | nil =>
          rcases List.suffix_cons_iff.1 hs with h | h
          · rw [h]; exact h3
          · exact absurd (List.suffix_nil.1 h) hr
        | cons a t =>
          rcases hpos with h0 | hnz
          · exact absurd h0 hc
          · exact absurd hzero (hnz _ (by simp) (List.suffix_refl _))
    · rw [if_neg h3]
      have hR := trimParent_Root getWeight (.Int (u :: ps))
        (st.Root.getCount (.Int (u :: ps)) - Count) st
      have hT := trimParent_TrimmedNodes getWeight (.Int (u :: ps))
        (st.Root.getCount (.Int (u :: ps)) - Count) st
      have hcnt : ∀ x, x ≠ CountNode.Int (u :: ps) →
          (trimParent getWeight (.Int (u :: ps))
            (st.Root.getCount (.Int (u :: ps)) - Count) st).Root.getCount x
            = st.Root.getCount x := by
        intro x hx
        rw [hR, getCount_setCount, if_neg hx]
      have hne : ∀ r : IntPath, r <:+ ps → CountNode.Int r ≠ .Int (u :: ps) := by
        intro r hs he
        injection he with he
        exact hlen r hs he
      obtain ⟨ih1, ih2⟩ := ih u
        (trimParent getWeight (.Int (u :: ps)) (st.Root.getCount (.Int (u :: ps)) - Count) st)
        (by
          intro r hr hs
          rw [hR, hasNode_setCount, hhas r hr (hs.trans (List.suffix_cons _ _))]
          rfl)
        (by
          intro r hr hs
          rw [hT]
          exact hmark r hr (hs.trans (List.suffix_cons _ _)))
        (by
          rcases hpos with h0 | hnz
          · exact Or.inl h0
          · right
            intro r hr hs
            rw [hcnt _ (hne r hs)]
            exact hnz r hr (hs.trans (List.suffix_cons _ _)))
      constructor
      · intro r hr hs
        rcases List.suffix_cons_iff.1 hs with h | h
        · subst h
          rw [ih2 _ (fun r' _ hs' => (hne r' hs').symm), hR, getCount_setCount, if_pos rfl]
        · rw [ih1 r hr h, hcnt _ (hne r h)]
      · intro x hx
        rw [ih2 x (fun r hr hs => hx r hr (hs.trans (List.suffix_cons _ _)))]
        exact hcnt x (hx _ (List.cons_ne_nil _ _) (List.suffix_refl _))

theorem addAbbreviation_trim_eq (Flags : CompressionFlags) (st : AbbreviationsCollector)
    (p : IntPath) (htrim : Flags.TrimOverriddenPatterns = true)
    (hnew : CountNode.Int p ∉ st.Assignments)
    (hcount : Flags.CountCutoff ≤ st.Root.getCount (.Int p))
    (hweight : Flags.WeightCutoff ≤ getWeight (.Int p) (st.Root.getCount (.Int p))) :
    (st.addAbbreviation getWeight Flags (.Int p)).Root
      = (trimLoop getWeight (st.Root.getCount (.Int p)) p
          { st with Assignments := st.Assignments ++ [.Int p] }).Root ∧
    (st.addAbbreviation getWeight Flags (.Int p)).TrimmedNodes
      = if CountNode.Int p ∈ st.TrimmedNodes then st.TrimmedNodes
        else st.TrimmedNodes ++ [.Int p] := by
  have hcut : ¬ ((CountNode.Int p).isInt = true ∧
      (st.Root.getCount (.Int p) < Flags.CountCutoff ∨
        getWeight (.Int p) (st.Root.getCount (.Int p)) < Flags.WeightCutoff)) := by
    rintro ⟨_, h | h⟩ <;> omega
  unfold AbbreviationsCollector.addAbbreviation
  rw [if_neg hnew, if_neg hcut]
  dsimp only
  rw [if_neg (by simp [htrim])]
  refine ⟨rfl, ?_⟩
  dsimp only
  rw [trimLoop_TrimmedNodes]

/-- C24 (amended): when trimming is enabled and `addAbbreviation` adds the
integer node `N` of count `c` (not yet assigned, passing both cutoffs), no
node of the chain from `N` to its top-level ancestor is marked as trimmed,
every ancestor of `N` is present, and `c` is 0 or every ancestor other than
the top-level one has a count that is not 0, then afterwards every ancestor
has its old count minus `c`, cut off at 0, and the counts of `N` and of every
node that is not an ancestor of `N` are unchanged.  `N` is the node of the
chain `v :: q`, its ancestors are the nodes of the non-empty ends of `q`. -/
theorem trimming_subtracts_from_ancestors (Flags : CompressionFlags)
    (st : AbbreviationsCollector) (v : IntType) (q : IntPath)
    (htrim : Flags.TrimOverriddenPatterns = true)
    (hnew : CountNode.Int (v :: q) ∉ st.Assignments)
    (hcount : Flags.CountCutoff ≤ st.Root.getCount (.Int (v :: q)))
    (hweight : Flags.WeightCutoff
      ≤ getWeight (.Int (v :: q)) (st.Root.getCount (.Int (v :: q))))
    (hhas : ∀ r, r ≠ [] → r <:+ q → st.Root.hasNode (.Int r) = true)
    (hmark : ∀ r, r ≠ [] → r <:+ v :: q → CountNode.Int r ∉ st.TrimmedNodes)
    (hpos : st.Root.getCount (.Int (v :: q)) = 0 ∨
      ∀ r, 2 ≤ r.length → r <:+ q → st.Root.getCount (.Int r) ≠ 0) :
    (∀ r, r ≠ [] → r <:+ q →
      (st.addAbbreviation getWeight Flags (.Int (v :: q))).Root.getCount (.Int r)
        = st.Root.getCount (.Int r) - st.Root.getCount (.Int (v :: q))) ∧
    (st.addAbbreviation getWeight Flags (.Int (v :: q))).Root.getCount (.Int (v :: q))
      = st.Root.getCount (.Int (v :: q)) ∧
    (∀ x, (∀ r, r ≠ [] → r <:+ q → x ≠ .Int r) →
      (st.addAbbreviation getWeight Flags (.Int (v :: q))).Root.getCount x
        = st.Root.getCount x) := by
  rw [(addAbbreviation_trim_eq getWeight Flags st (v :: q) htrim hnew hcount hweight).1]
  obtain ⟨w1, w2⟩ := trimLoop_walk getWeight (st.Root.getCount (.Int (v :: q))) q v
    { st with Assignments := st.Assignments ++ [.Int (v :: q)] } hhas hmark hpos
  refine ⟨w1, w2 _ ?_, w2⟩
  intro r _ hs he
  injection he with he
  have := hs.length_le
  rw [← he] at this
  simp at this

/-- The theorem `trimming_subtracts_from_ancestors` on the example trie:
adding the path `(1, 2)` of count 3 lowers the count of its ancestor `1` from
5 to 2. -/
theorem trimming_subtracts_from_ancestors_witness :
    exampleRoot.getCount (.Int [2, 1]) = 3 ∧ exampleRoot.getCount (.Int [1]) = 5 ∧
    ((AbbreviationsCollector.make exampleRoot []).addAbbreviation weightCountTimesLength
      exampleFlags (.Int [2, 1])).Root.getCount (.Int [1]) = 5 - 3 :=
  ⟨by decide, by decide,
    (trimming_subtracts_from_ancestors weightCountTimesLength exampleFlags
      (AbbreviationsCollector.make exampleRoot []) 2 [1] rfl (by decide) (by decide) (by decide)
      (fun r hr hs => by
        rcases List.suffix_cons_iff.1 hs with h | h
        · rw [h]; decide
        · exact absurd (List.suffix_nil.1 h) hr)
      (fun r _ _ => by simp [AbbreviationsCollector.make])
      (Or.inr (fun r hr hs => by
        have := hs.length_le
        simp at this
        omega))).1 [1] (by decide) (List.suffix_refl _)⟩

/-- C24 (counterexample): trimming enabled, no node marked as trimmed, and a
trie in which the path `(1, 2, 3)` has count 3, its parent `(1, 2)` count 0
and the top-level node `1` count 5.  Adding `(1, 2, 3)` stops the walk at the
parent, whose count cannot be lowered, and the count of `1` stays 5, not
`max (5 - 3) 0 = 2`. -/
theorem trimming_stops_at_zero_counterexample :
    (AbbreviationsCollector.make zeroParentRoot []).TrimmedNodes = [] ∧
    zeroParentRoot.getCount (.Int [3, 2, 1]) = 3 ∧
    zeroParentRoot.getCount (.Int [1]) = 5 ∧
    CountNode.Int [3, 2, 1] ∈ ((AbbreviationsCollector.make zeroParentRoot []).addAbbreviation
      weightCountTimesLength exampleFlags (.Int [3, 2, 1])).Assignments ∧
    ((AbbreviationsCollector.make zeroParentRoot []).addAbbreviation weightCountTimesLength
      exampleFlags (.Int [3, 2, 1])).Root.getCount (.Int [1]) = 5 ∧
    max (5 - 3) 0 ≠ 5 := by
  decide

theorem trimLoop_marked (Count : Nat) (p : IntPath) :
    ∀ (st : AbbreviationsCollector) (r : IntPath), r ≠ [] → r <:+ p →
      CountNode.Int r ∈ st.TrimmedNodes →
      ∀ s, s <:+ r → s ≠ r →
        (trimLoop getWeight Count p st).Root.getCount (.Int s) = st.Root.getCount (.Int s) := by
  induction p with
  | nil => intro st r hr hs; exact absurd (List.suffix_nil.1 hs) hr
  | cons v q ih =>
    intro st r hr hs hmem s hsr hne
    cases q with
    | nil => simp [trimLoop]
    | cons u ps =>
      unfold trimLoop
      simp only [newCount_eq]
      split_ifs with h1 h2 h3
      · rfl
      · rfl
      · rfl
      · have hr2 : r <:+ u :: ps := by
          rcases List.suffix_cons_iff.1 hs with h | h
          · rw [h] at hmem
            exact absurd hmem h2
          · exact h
        rw [ih _ r hr hr2 (by rw [trimParent_TrimmedNodes]; exact hmem) s hsr hne,
          trimParent_Root, getCount_setCount, if_neg]
        intro he
        injection he with he
        have h4 := hsr.length_le
        have h5 := hr2.length_le
        have h6 : s.length ≠ r.length := fun h => hne (hsr.eq_of_length h)
        rw [he] at h4 h6
        omega

theorem trimLoop_of_marked (Count : Nat) (p : IntPath) (st : AbbreviationsCollector)
    (h : CountNode.Int p ∈ st.TrimmedNodes) : trimLoop getWeight Count p st = st := by
  rcases p with _ | ⟨v, _ | ⟨u, ps⟩⟩
  · simp [trimLoop]
  · simp [trimLoop]
  · unfold trimLoop
    dsimp only
    split_ifs <;> rfl

theorem addAbbreviation_Root_cases (Flags : CompressionFlags) (st : AbbreviationsCollector)
    (Nd : CountNode) :
    (st.addAbbreviation getWeight Flags Nd).Root = st.Root ∨
    ∃ p, Nd = .Int p ∧ (st.addAbbreviation getWeight Flags Nd).Root
      = (trimLoop getWeight (st.Root.getCount (.Int p)) p
          { st with Assignments := st.Assignments ++ [.Int p] }).Root := by
  unfold AbbreviationsCollector.addAbbreviation
  by_cases h1 : Nd ∈ st.Assignments
  · rw [if_pos h1]; exact Or.inl rfl
  · rw [if_neg h1]
    by_cases h2 : Nd.isInt = true ∧ (st.Root.getCount Nd < Flags.CountCutoff ∨
        getWeight Nd (st.Root.getCount Nd) < Flags.WeightCutoff)
    · rw [if_pos h2]; exact Or.inl rfl
    · rw [if_neg h2]
      dsimp only
      by_cases h3 : Flags.TrimOverriddenPatterns = false
      · rw [if_pos h3]; exact Or.inl rfl
      · rw [if_neg h3]
        cases Nd with
        | Int p => exact Or.inr ⟨p, rfl, rfl⟩
        | BlockEnter => exact Or.inl rfl
        | BlockExit => exact Or.inl rfl
        | DefaultSingle => exact Or.inl rfl
        | DefaultMultiple => exact Or.inl rfl
        | Align => exact Or.inl rfl

/-- C25: when `addAbbreviation` is called for the integer node `N` and a node
`X` of the chain from `N` upward (`N` itself or an ancestor) is already
marked as trimmed, the call leaves the count of every proper ancestor of `X`
unchanged; when `N` itself is marked, the call changes no count at all.  `N`
is the node of the chain `p`, `X` that of a non-empty end `r` of `p`. -/
theorem no_double_subtraction (Flags : CompressionFlags) (st : AbbreviationsCollector)
    (p r : IntPath) (hr : r ≠ []) (hs : r <:+ p)
    (hmark : CountNode.Int r ∈ st.TrimmedNodes) :
    (∀ s, s <:+ r → s ≠ r →
      (st.addAbbreviation getWeight Flags (.Int p)).Root.getCount (.Int s)
        = st.Root.getCount (.Int s)) ∧
    (CountNode.Int p ∈ st.TrimmedNodes →
      (st.addAbbreviation getWeight Flags (.Int p)).Root = st.Root) := by
  rcases addAbbreviation_Root_cases getWeight Flags st (.Int p) with h | ⟨p2, he, h⟩
  · rw [h]
    exact ⟨fun _ _ _ => rfl, fun _ => rfl⟩
  · injection he with he
    subst he
    rw [h]
    constructor
    · intro s hsr hne
      exact trimLoop_marked getWeight _ p
        { st with Assignments := st.Assignments ++ [.Int p] } r hr hs hmark s hsr hne
    · intro hp
      rw [trimLoop_of_marked getWeight _ p
        { st with Assignments := st.Assignments ++ [.Int p] } hp]

/-- The theorem `no_double_subtraction` on the example trie, with the path
`(1, 2)` marked as trimmed and not assigned: adding it again leaves the count
5 of its parent `1`. -/
theorem no_double_subtraction_witness :
    (CountNode.Int [2, 1] ∉ ({ AbbreviationsCollector.make exampleRoot [] with
      TrimmedNodes := [.Int [2, 1]] } : AbbreviationsCollector).Assignments) ∧
    (({ AbbreviationsCollector.make exampleRoot [] with
      TrimmedNodes := [.Int [2, 1]] } : AbbreviationsCollector).addAbbreviation
        weightCountTimesLength exampleFlags (.Int [2, 1])).Root.getCount (.Int [1]) = 5 :=
  ⟨by decide,
    ((no_double_subtraction weightCountTimesLength exampleFlags
      { AbbreviationsCollector.make exampleRoot [] with TrimmedNodes := [.Int [2, 1]] }
      [2, 1] [2, 1] (by decide) (List.suffix_refl _) (by decide)).1 [1]
      (List.suffix_cons 2 [1]) (by decide)).trans (by decide)⟩

/-- C26 (amended): when trimming is enabled and `addAbbreviation` adds the
integer node `N` (not yet assigned, passing both cutoffs), `N` is marked as
trimmed afterwards and it is the only node that the call marks: every other
node, an ancestor of `N` whose count the walk has lowered included, is marked
afterwards exactly when it was marked before. -/
theorem trim_walk_marks_added_node (Flags : CompressionFlags) (st : AbbreviationsCollector)
    (p : IntPath) (htrim : Flags.TrimOverriddenPatterns = true)
    (hnew : CountNode.Int p ∉ st.Assignments)
    (hcount : Flags.CountCutoff ≤ st.Root.getCount (.Int p))
    (hweight : Flags.WeightCutoff ≤ getWeight (.Int p) (st.Root.getCount (.Int p))) :
    CountNode.Int p ∈ (st.addAbbreviation getWeight Flags (.Int p)).TrimmedNodes ∧
    ∀ x, x ≠ .Int p →
      (x ∈ (st.addAbbreviation getWeight Flags (.Int p)).TrimmedNodes ↔ x ∈ st.TrimmedNodes) := by
  rw [(addAbbreviation_trim_eq getWeight Flags st p htrim hnew hcount hweight).2]
  split_ifs with h
  · exact ⟨h, fun _ _ => Iff.rfl⟩
  · refine ⟨by simp, fun x hx => ?_⟩
    simp [hx]

/-- The theorem `trim_walk_marks_added_node` on the example trie: adding the
path `(1, 2)` marks it. -/
theorem trim_walk_marks_added_node_witness :
    CountNode.Int [2, 1] ∈ ((AbbreviationsCollector.make exampleRoot []).addAbbreviation
      weightCountTimesLength exampleFlags (.Int [2, 1])).TrimmedNodes :=
  (trim_walk_marks_added_node weightCountTimesLength exampleFlags
    (AbbreviationsCollector.make exampleRoot []) [2, 1] rfl (by decide) (by decide)
    (by decide)).1

/-- C26 (counterexample): on the example trie with trimming enabled, adding
the path `(1, 2)` of count 3 lowers the count of its ancestor `1` from 5 to 2,
and afterwards `(1, 2)` is marked as trimmed while `1` is not. -/
theorem trim_walk_marks_counterexample :
    exampleRoot.getCount (.Int [1]) = 5 ∧
    ((AbbreviationsCollector.make exampleRoot []).addAbbreviation weightCountTimesLength
      exampleFlags (.Int [2, 1])).Root.getCount (.Int [1]) = 2 ∧
    ((AbbreviationsCollector.make exampleRoot []).addAbbreviation weightCountTimesLength
      exampleFlags (.Int [2, 1])).TrimmedNodes = [.Int [2, 1]] ∧
    CountNode.Int [1] ∉ ((AbbreviationsCollector.make exampleRoot []).addAbbreviation
      weightCountTimesLength exampleFlags (.Int [2, 1])).TrimmedNodes := by
  decide

end TrimTheorems

section CutoffTheorems

variable (getWeight : CountNode → Nat → Nat)

theorem addAbbreviation_cases (Flags : CompressionFlags) (st : AbbreviationsCollector)
    (Nd : CountNode) :
    st.addAbbreviation getWeight Flags Nd = st ∨
    (Nd ∉ st.Assignments ∧
      (Nd.isInt = true → Flags.CountCutoff ≤ st.Root.getCount Nd ∧
        Flags.WeightCutoff ≤ getWeight Nd (st.Root.getCount Nd)) ∧
      ((st.addAbbreviation getWeight Flags Nd
          = { st with Assignments := st.Assignments ++ [Nd] } ∧
        (Flags.TrimOverriddenPatterns = false ∨ Nd.isInt = false)) ∨
      (Flags.TrimOverriddenPatterns = true ∧ ∃ p, Nd = .Int p ∧
        (st.addAbbreviation getWeight Flags Nd).Root
          = (trimLoop getWeight (st.Root.getCount Nd) p
              { st with Assignments := st.Assignments ++ [Nd] }).Root ∧
        (st.addAbbreviation getWeight Flags Nd).Assignments
          = (trimLoop getWeight (st.Root.getCount Nd) p
              { st with Assignments := st.Assignments ++ [Nd] }).Assignments))) := by
  unfold AbbreviationsCollector.addAbbreviation
  by_cases h1 : Nd ∈ st.Assignments
  · rw [if_pos h1]; exact Or.inl rfl
  · rw [if_neg h1]
    by_cases h2 : Nd.isInt = true ∧ (st.Root.getCount Nd < Flags.CountCutoff ∨
        getWeight Nd (st.Root.getCount Nd) < Flags.WeightCutoff)
    · rw [if_pos h2]; exact Or.inl rfl
    · rw [if_neg h2]
      right
      refine ⟨h1, fun hi => ?_, ?_⟩
      · constructor
        · by_contra hc
          exact h2 ⟨hi, Or.inl (by omega)⟩
        · by_contra hc
          exact h2 ⟨hi, Or.inr (by omega)⟩
      · dsimp only
        by_cases h3 : Flags.TrimOverriddenPatterns = false
        · rw [if_pos h3]; exact Or.inl ⟨rfl, Or.inl h3⟩
        · rw [if_neg h3]
          have h4 : Flags.TrimOverriddenPatterns = true := by simpa using h3
          cases Nd with
          | Int p => exact Or.inr ⟨h4, p, rfl, rfl, rfl⟩
          | BlockEnter => exact Or.inl ⟨rfl, Or.inr rfl⟩
          | BlockExit => exact Or.inl ⟨rfl, Or.inr rfl⟩
          | DefaultSingle => exact Or.inl ⟨rfl, Or.inr rfl⟩
          | DefaultMultiple => exact Or.inl ⟨rfl, Or.inr rfl⟩
          | Align => exact Or.inl ⟨rfl, Or.inr rfl⟩

theorem addAbbreviation_CutoffsHold (Flags : CompressionFlags) (st : AbbreviationsCollector)
    (Nd : CountNode) (h : CutoffsHold getWeight Flags st) (hnd : st.Assignments.Nodup) :
    CutoffsHold getWeight Flags (st.addAbbreviation getWeight Flags Nd) := by
  have hnew : ∀ p : IntPath, CountNode.Int p ∈ st.Assignments ++ [Nd] →
      (Nd.isInt = true → Flags.CountCutoff ≤ st.Root.getCount Nd ∧
        Flags.WeightCutoff ≤ getWeight Nd (st.Root.getCount Nd)) →
      Flags.CountCutoff ≤ st.Root.getCount (.Int p) ∧
      Flags.WeightCutoff ≤ getWeight (.Int p) (st.Root.getCount (.Int p)) := by
    intro p hp hcut
    rcases List.mem_append.1 hp with hp | hp
    · exact h p hp
    · rw [List.mem_singleton] at hp
      rw [hp]
      exact hcut (by rw [← hp]; rfl)
  rcases addAbbreviation_cases getWeight Flags st Nd with
    he | ⟨hin, hcut, ⟨he, _⟩ | ⟨_, p, _, hR, hA⟩⟩
  · rw [he]; exact h
  · rw [he]
    intro p hp
    exact hnew p hp hcut
  · intro q hq
    rw [hA] at hq
    have hsame : (trimLoop getWeight (st.Root.getCount Nd) p
        { st with Assignments := st.Assignments ++ [Nd] }).Root.getCount (.Int q)
        = st.Root.getCount (.Int q) := by
      by_contra hne
      refine trimLoop_reduced_evicted getWeight _ p
        { st with Assignments := st.Assignments ++ [Nd] } ?_ (.Int q) hne hq
      rw [List.nodup_append]
      refine ⟨hnd, List.nodup_singleton _, ?_⟩
      intro a ha hb
      rw [List.mem_singleton] at hb
      subst hb
      exact hin ha
    rw [hR, hsame]
    exact hnew q ((trimLoop_Assignments_sublist getWeight _ p _).subset hq) hcut

theorem addOthers_CutoffsHold (Flags : CompressionFlags) (Others : List CountNode) :
    ∀ (st : AbbreviationsCollector), CutoffsHold getWeight Flags st → st.Assignments.Nodup →
      CutoffsHold getWeight Flags (addOthers getWeight Flags Others st) ∧
      (addOthers getWeight Flags Others st).Assignments.Nodup := by
  induction Others with
  | nil => intro st h hnd; exact ⟨h, hnd⟩
  | cons Nd Others ih =>
    intro st h hnd
    unfold addOthers
    split_ifs
    · exact ih st h hnd
    · exact ih _ (addAbbreviation_CutoffsHold getWeight Flags st Nd h hnd)
        (addAbbreviation_nodup getWeight Flags st Nd hnd)

theorem assignAbbreviationsInit_CutoffsHold (Flags : CompressionFlags)
    (Collected : List CountNode) (st : AbbreviationsCollector)
    (h : CutoffsHold getWeight Flags st) (hnd : st.Assignments.Nodup) :
    CutoffsHold getWeight Flags (assignAbbreviationsInit getWeight Flags Collected st) ∧
    (assignAbbreviationsInit getWeight Flags Collected st).Assignments.Nodup := by
  obtain ⟨a1, a2⟩ := addOthers_CutoffsHold getWeight Flags getOthers
    { st with TrimmedNodes := [] } h hnd
  unfold assignAbbreviationsInit AbbreviationsCollector.buildHeap
  dsimp only
  obtain ⟨f1, f2, _⟩ := pushHeap_fold_frame getWeight Collected
    { addOthers getWeight Flags getOthers { st with TrimmedNodes := [] } with
      Values := Collected }
  unfold CutoffsHold
  rw [f1, f2]
  exact ⟨a1, a2⟩

theorem selectStep_CutoffsHold (Flags : CompressionFlags) (st st1 : AbbreviationsCollector)
    (h : CutoffsHold getWeight Flags st) (hnd : st.Assignments.Nodup)
    (hs : selectStep getWeight Flags st = some st1) :
    CutoffsHold getWeight Flags st1 ∧ st1.Assignments.Nodup := by
  unfold selectStep at hs
  split at hs
  · simp at hs
  · split_ifs at hs
    simp only [Option.some.injEq] at hs
    subst hs
    exact ⟨addAbbreviation_CutoffsHold getWeight Flags _ _ h hnd,
      addAbbreviation_nodup getWeight Flags _ _ hnd⟩

theorem selectStates_CutoffsHold (Flags : CompressionFlags) (fuel : Nat) :
    ∀ (st : AbbreviationsCollector), CutoffsHold getWeight Flags st → st.Assignments.Nodup →
      ∀ s ∈ selectStates getWeight Flags fuel st, CutoffsHold getWeight Flags s := by
  induction fuel with
  | zero =>
    intro st h _ s hs
    simp only [selectStates, List.mem_singleton] at hs
    exact hs ▸ h
  | succ n ih =>
    intro st h hnd s hs
    unfold selectStates at hs
    cases hstep : selectStep getWeight Flags st with
    | none =>
      rw [hstep] at hs
      simp only [List.mem_singleton] at hs
      exact hs ▸ h
    | some st1 =>
      rw [hstep] at hs
      rcases List.mem_cons.1 hs with rfl | hs
      · exact h
      · obtain ⟨c1, c2⟩ := selectStep_CutoffsHold getWeight Flags _ st1 h hnd hstep
        exact ih st1 c1 c2 s hs

/-- C27: starting from an empty Assignment Set, every integer node of the
Assignment Set has a current count of at least `CountCutoff` and a current
weight of at least `WeightCutoff` after the structural singletons are added
and the queue is built, at the head of every round of the selection loop, and
after `assignAbbreviations`. -/
theorem cutoffs_hold_for_selected (Flags : CompressionFlags) (Root : RootCountNode)
    (Collected : List CountNode) :
    CutoffsHold getWeight Flags (assignAbbreviationsInit getWeight Flags Collected
      (AbbreviationsCollector.make Root [])) ∧
    (∀ fuel, ∀ s ∈ selectStates getWeight Flags fuel
        (assignAbbreviationsInit getWeight Flags Collected (AbbreviationsCollector.make Root [])),
      CutoffsHold getWeight Flags s) ∧
    CutoffsHold getWeight Flags ((AbbreviationsCollector.make Root []).assignAbbreviations
      getWeight Flags Collected) := by
  have h0 : CutoffsHold getWeight Flags (AbbreviationsCollector.make Root []) := by
    intro p hp
    simp [AbbreviationsCollector.make] at hp
  have hnd0 : (AbbreviationsCollector.make Root []).Assignments.Nodup := List.nodup_nil
  obtain ⟨i1, i2⟩ := assignAbbreviationsInit_CutoffsHold getWeight Flags Collected _ h0 hnd0
  have hall := fun fuel => selectStates_CutoffsHold getWeight Flags fuel _ i1 i2
  refine ⟨i1, hall, ?_⟩
  obtain ⟨a1, a2⟩ := assignAbbreviations_Assignments getWeight Flags Collected
    (AbbreviationsCollector.make Root [])
  unfold CutoffsHold
  rw [a1, a2]
  unfold assignAbbreviationsSelect
  exact hall _ _ (selectLoop_mem_selectStates getWeight Flags _ _)

theorem addAbbreviation_structural_Root (Flags : CompressionFlags)
    (st : AbbreviationsCollector) (Nd : CountNode) (hNd : Nd.isInt = false) :
    (st.addAbbreviation getWeight Flags Nd).Root = st.Root := by
  rcases addAbbreviation_cases getWeight Flags st Nd with he | ⟨_, _, ⟨he, _⟩ | ⟨_, p, hp, _⟩⟩
  · rw [he]
  · rw [he]
  · rw [hp] at hNd
    simp [CountNode.isInt] at hNd

theorem addAbbreviation_noTrim (Flags : CompressionFlags) (st : AbbreviationsCollector)
    (Nd : CountNode) (h : Flags.TrimOverriddenPatterns = false) :
    (st.addAbbreviation getWeight Flags Nd).Root = st.Root ∧
    (st.addAbbreviation getWeight Flags Nd).TrimmedNodes = st.TrimmedNodes ∧
    st.Assignments <+: (st.addAbbreviation getWeight Flags Nd).Assignments := by
  rcases addAbbreviation_cases getWeight Flags st Nd with he | ⟨_, _, ⟨he, _⟩ | ⟨ht, _⟩⟩
  · rw [he]
    exact ⟨rfl, rfl, List.prefix_refl _⟩
  · rw [he]
    exact ⟨rfl, rfl, List.prefix_append _ _⟩
  · rw [h] at ht
    simp at ht

theorem addOthers_noTrim (Flags : CompressionFlags) (h : Flags.TrimOverriddenPatterns = false)
    (Others : List CountNode) :
    ∀ (st : AbbreviationsCollector),
      (addOthers getWeight Flags Others st).Root = st.Root ∧
      (addOthers getWeight Flags Others st).TrimmedNodes = st.TrimmedNodes ∧
      st.Assignments <+: (addOthers getWeight Flags Others st).Assignments := by
  induction Others with
  | nil => intro st; exact ⟨rfl, rfl, List.prefix_refl _⟩
  | cons Nd Others ih =>
    intro st
    unfold addOthers
    split_ifs
    · exact ih st
    · obtain ⟨a1, a2, a3⟩ := addAbbreviation_noTrim getWeight Flags st Nd h
      obtain ⟨b1, b2, b3⟩ := ih (st.addAbbreviation getWeight Flags Nd)
      exact ⟨b1.trans a1, b2.trans a2, a3.trans b3⟩

theorem assignAbbreviationsInit_noTrim (Flags : CompressionFlags)
    (h : Flags.TrimOverriddenPatterns = false) (Collected : List CountNode)
    (st : AbbreviationsCollector) :
    (assignAbbreviationsInit getWeight Flags Collected st).Root = st.Root ∧
    (assignAbbreviationsInit getWeight Flags Collected st).TrimmedNodes = [] ∧
    st.Assignments <+: (assignAbbreviationsInit getWeight Flags Collected st).Assignments := by
  obtain ⟨a1, a2, a3⟩ := addOthers_noTrim getWeight Flags h getOthers
    { st with TrimmedNodes := [] }
  unfold assignAbbreviationsInit AbbreviationsCollector.buildHeap
  dsimp only
  obtain ⟨f1, f2, f3, _⟩ := pushHeap_fold_frame getWeight Collected
    { addOthers getWeight Flags getOthers { st with TrimmedNodes := [] } with
      Values := Collected }
  rw [f1, f2, f3]
  exact ⟨a1, a2, a3⟩

theorem selectStep_noTrim (Flags : CompressionFlags) (h : Flags.TrimOverriddenPatterns = false)
    (st st1 : AbbreviationsCollector) (hs : selectStep getWeight Flags st = some st1) :
    st1.Root = st.Root ∧ st1.TrimmedNodes = st.TrimmedNodes ∧
    st.Assignments <+: st1.Assignments := by
  unfold selectStep at hs
  split at hs
  · simp at hs
  · split_ifs at hs
    simp only [Option.some.injEq] at hs
    subst hs
    exact addAbbreviation_noTrim getWeight Flags _ _ h

theorem selectStates_noTrim (Flags : CompressionFlags) (h : Flags.TrimOverriddenPatterns = false)
    (fuel : Nat) :
    ∀ (st : AbbreviationsCollector), ∀ s ∈ selectStates getWeight Flags fuel st,
      s.Root = st.Root ∧ s.TrimmedNodes = st.TrimmedNodes ∧ st.Assignments <+: s.Assignments := by
  induction fuel with
  | zero =>
    intro st s hs
    simp only [selectStates, List.mem_singleton] at hs
    subst hs
    exact ⟨rfl, rfl, List.prefix_refl _⟩
  | succ n ih =>
    intro st s hs
    unfold selectStates at hs
    cases hstep : selectStep getWeight Flags st with
    | none =>
      rw [hstep] at hs
      simp only [List.mem_singleton] at hs
      subst hs
      exact ⟨rfl, rfl, List.prefix_refl _⟩
    | some st1 =>
      rw [hstep] at hs
      rcases List.mem_cons.1 hs with rfl | hs
      · exact ⟨rfl, rfl, List.prefix_refl _⟩
      · obtain ⟨a1, a2, a3⟩ := selectStep_noTrim getWeight Flags h _ st1 hstep
        obtain ⟨b1, b2, b3⟩ := ih st1 s hs
        exact ⟨b1.trans a1, b2.trans a2, a3.trans b3⟩

theorem indexLoop_TrimmedNodes (Heap : List CountNode) :
    ∀ (st : AbbreviationsCollector), (indexLoop Heap st).TrimmedNodes = st.TrimmedNodes := by
  induction Heap with
  | nil => intro st; rfl
  | cons x Heap ih =>
    intro st
    unfold indexLoop
    rw [ih]
    rfl

theorem assignAbbreviations_TrimmedNodes (Flags : CompressionFlags)
    (Collected : List CountNode) (st : AbbreviationsCollector) :
    (st.assignAbbreviations getWeight Flags Collected).TrimmedNodes = [] := by
  unfold AbbreviationsCollector.assignAbbreviations
  dsimp only
  rw [indexLoop_TrimmedNodes, (pushHeap_fold_frame getWeight _ _).2.2.1]

/-- C28: with `TrimOverriddenPatterns` disabled, `assignAbbreviations` leaves
the trie with all its counts as it was, marks no node as trimmed, and evicts
no node: the Assignment Set it was given is the start of the Assignment Set
at the head of every round of the selection loop and at the end, and every
round of the loop keeps the assignments it finds.  With or without trimming,
adding a structural singleton leaves the trie as it was. -/
theorem trimming_only_when_enabled (Flags : CompressionFlags)
    (h : Flags.TrimOverriddenPatterns = false) (Root : RootCountNode)
    (A Collected : List CountNode) :
    (((AbbreviationsCollector.make Root A).assignAbbreviations getWeight Flags
        Collected).Root = Root ∧
      ((AbbreviationsCollector.make Root A).assignAbbreviations getWeight Flags
        Collected).TrimmedNodes = [] ∧
      A <+: ((AbbreviationsCollector.make Root A).assignAbbreviations getWeight Flags
        Collected).Assignments) ∧
    (∀ fuel, ∀ s ∈ selectStates getWeight Flags fuel
        (assignAbbreviationsInit getWeight Flags Collected (AbbreviationsCollector.make Root A)),
      s.Root = Root ∧ s.TrimmedNodes = [] ∧ A <+: s.Assignments ∧
      ∀ s1, selectStep getWeight Flags s = some s1 → s.Assignments <+: s1.Assignments) ∧
    (∀ (Flags2 : CompressionFlags) (st : AbbreviationsCollector) (Nd : CountNode),
      Nd.isInt = false → (st.addAbbreviation getWeight Flags2 Nd).Root = st.Root) := by
  obtain ⟨i1, i2, i3⟩ := assignAbbreviationsInit_noTrim getWeight Flags h Collected
    (AbbreviationsCollector.make Root A)
  have hall : ∀ fuel, ∀ s ∈ selectStates getWeight Flags fuel
      (assignAbbreviationsInit getWeight Flags Collected (AbbreviationsCollector.make Root A)),
      s.Root = Root ∧ s.TrimmedNodes = [] ∧ A <+: s.Assignments := by
    intro fuel s hs
    obtain ⟨b1, b2, b3⟩ := selectStates_noTrim getWeight Flags h fuel _ s hs
    exact ⟨b1.trans i1, b2.trans i2, List.IsPrefix.trans i3 b3⟩
  refine ⟨⟨?_, assignAbbreviations_TrimmedNodes getWeight Flags Collected _, ?_⟩, ?_,
    fun Flags2 st Nd hNd => addAbbreviation_structural_Root getWeight Flags2 st Nd hNd⟩
  · rw [(assignAbbreviations_Assignments getWeight Flags Collected _).2]
    unfold assignAbbreviationsSelect
    exact (hall _ _ (selectLoop_mem_selectStates getWeight Flags _ _)).1
  · rw [(assignAbbreviations_Assignments getWeight Flags Collected _).1]
    unfold assignAbbreviationsSelect
    exact (hall _ _ (selectLoop_mem_selectStates getWeight Flags _ _)).2.2
  · intro fuel s hs
    obtain ⟨b1, b2, b3⟩ := hall fuel s hs
    exact ⟨b1, b2, b3, fun s1 hs1 => (selectStep_noTrim getWeight Flags h s s1 hs1).2.2⟩

/-- The theorem `trimming_only_when_enabled` on the example trie with
trimming disabled: the three patterns are assigned after the two structural
singletons, and the count of the node of `1` is still 5. -/
theorem trimming_only_when_enabled_witness :
    ((AbbreviationsCollector.make exampleRoot []).assignAbbreviations weightCountTimesLength
      { exampleFlags with TrimOverriddenPatterns := false }
      [.Int [1], .Int [2, 1], .Int [2]]).Assignments
      = [.BlockEnter, .DefaultSingle, .Int [2, 1], .Int [1], .Int [2]] ∧
    ((AbbreviationsCollector.make exampleRoot []).assignAbbreviations weightCountTimesLength
      { exampleFlags with TrimOverriddenPatterns := false }
      [.Int [1], .Int [2, 1], .Int [2]]).Root.getCount (.Int [1]) = 5 :=
  ⟨by decide,
    (congrArg (fun R : RootCountNode => R.getCount (.Int [1]))
      (trimming_only_when_enabled weightCountTimesLength
        { exampleFlags with TrimOverriddenPatterns := false } rfl exampleRoot []
        [.Int [1], .Int [2, 1], .Int [2]]).1.1).trans (by decide)⟩

end CutoffTheorems

section LongestMatchTheorems

variable (getWeight : CountNode → Nat → Nat)

theorem matchesFrom_nil (Root : RootCountNode) (A : List CountNode) (Nd : IntPath) (k : Nat) :
    ¬ MatchesFrom Root A Nd [] k := by
  rintro ⟨h1, h2, -, -⟩
  simp at h2
  omega

theorem matchesFrom_cons (Root : RootCountNode) (A : List CountNode) (Nd : IntPath)
    (V : IntType) (B : List IntType) (k : Nat)
    (hn : Root.hasNode (.Int (V :: Nd)) = true) :
    MatchesFrom Root A Nd (V :: B) (k + 1) ↔
      (k = 0 ∧ CountNode.Int (V :: Nd) ∈ A) ∨ MatchesFrom Root A (V :: Nd) B k := by
  constructor
  · rintro ⟨-, h2, h3, h4⟩
    rcases Nat.eq_zero_or_pos k with hk | hk
    · left
      subst hk
      exact ⟨rfl, by simpa using h4⟩
    · right
      refine ⟨hk, by simpa using h2, ?_, by simpa using h4⟩
      intro j hj
      have := h3 (j + 1) (by omega)
      simpa using this
  · rintro (⟨hk, hA⟩ | ⟨h1, h2, h3, h4⟩)
    · subst hk
      refine ⟨by omega, by simp, ?_, by simpa using hA⟩
      intro j hj
      have : j = 0 := by omega
      subst this
      simpa using hn
    · refine ⟨by omega, by simpa using h2, ?_, by simpa using h4⟩
      intro j hj
      rcases Nat.eq_zero_or_pos j with h0 | h0
      · subst h0
        simpa using hn
      · obtain ⟨i, rfl⟩ : ∃ i, j = i + 1 := ⟨j - 1, by omega⟩
        have := h3 i (by omega)
        simpa using this

theorem matchesFrom_cons_absent (Root : RootCountNode) (A : List CountNode) (Nd : IntPath)
    (V : IntType) (B : List IntType) (k : Nat)
    (hn : ¬ Root.hasNode (.Int (V :: Nd)) = true) :
    ¬ MatchesFrom Root A Nd (V :: B) k := by
  rintro ⟨h1, -, h3, -⟩
  have := h3 0 (by omega)
  exact hn (by simpa using this)

theorem longestMatch_char (Root : RootCountNode) (A : List CountNode) (Buffer : List IntType) :
    ∀ (Nd : IntPath) (Max : Option IntPath),
      (∀ k, MatchesFrom Root A Nd Buffer k → (∀ j, MatchesFrom Root A Nd Buffer j → j ≤ k) →
        longestMatch Root A Nd Buffer Max = some ((Buffer.take k).reverse ++ Nd)) ∧
      ((∀ k, ¬ MatchesFrom Root A Nd Buffer k) → longestMatch Root A Nd Buffer Max = Max) := by
  induction Buffer with
  | nil =>
    intro Nd Max
    exact ⟨fun k hk _ => absurd hk (matchesFrom_nil Root A Nd k), fun _ => by simp [longestMatch]⟩
  | cons V B ih =>
    intro Nd Max
    by_cases hn : Root.hasNode (.Int (V :: Nd)) = true
    · have hstep : ∀ M, longestMatch Root A Nd (V :: B) M =
          longestMatch Root A (V :: Nd) B
            (if CountNode.Int (V :: Nd) ∈ A then some (V :: Nd) else M) := by
        intro M
        rw [longestMatch, if_pos hn]
      constructor
      · intro k hk hmax
        obtain ⟨k', rfl⟩ : ∃ k', k = k' + 1 := ⟨k - 1, by have := hk.1; omega⟩
        rw [hstep]
        rcases (matchesFrom_cons Root A Nd V B k' hn).1 hk with ⟨h0, hA⟩ | hk'
        · subst h0
          have hnone : ∀ j, ¬ MatchesFrom Root A (V :: Nd) B j := by
            intro j hj
            have h1 := hj.1
            have := hmax (j + 1) ((matchesFrom_cons Root A Nd V B j hn).2 (Or.inr hj))
            omega
          rw [(ih (V :: Nd) _).2 hnone, if_pos hA]
          simp
        · have hmax' : ∀ j, MatchesFrom Root A (V :: Nd) B j → j ≤ k' := by
            intro j hj
            have := hmax (j + 1) ((matchesFrom_cons Root A Nd V B j hn).2 (Or.inr hj))
            omega
          rw [(ih (V :: Nd) _).1 k' hk' hmax']
          simp
      · intro hnone
        rw [hstep]
        have hA : CountNode.Int (V :: Nd) ∉ A := fun hA =>
          hnone 1 ((matchesFrom_cons Root A Nd V B 0 hn).2 (Or.inl ⟨rfl, hA⟩))
        have hnone' : ∀ j, ¬ MatchesFrom Root A (V :: Nd) B j := fun j hj =>
          hnone (j + 1) ((matchesFrom_cons Root A Nd V B j hn).2 (Or.inr hj))
        rw [(ih (V :: Nd) _).2 hnone', if_neg hA]
    · constructor
      · intro k hk _
        exact absurd hk (matchesFrom_cons_absent Root A Nd V B k hn)
      · intro _
        rw [longestMatch, if_neg hn]

theorem prefixMatches_iff (Root : RootCountNode) (A : List CountNode) (Buffer : List IntType)
    (k : Nat) : PrefixMatches Root A Buffer k ↔ MatchesFrom Root A [] Buffer k := by
  simp [PrefixMatches, MatchesFrom, prefixNode]

theorem exists_longest (P : Nat → Prop) (n : Nat) (hb : ∀ k, P k → k ≤ n) :
    (∃ k, P k ∧ ∀ j, P j → j ≤ k) ∨ ∀ k, ¬ P k := by
  classical
  by_cases h : ∃ k, P k
  · left
    obtain ⟨k0, hk0⟩ := h
    refine ⟨Nat.findGreatest P n, Nat.findGreatest_spec (hb k0 hk0) hk0, ?_⟩
    intro j hj
    exact Nat.le_findGreatest (hb j hj) hj
  · right
    exact fun k hk => h ⟨k, hk⟩

/-- C23.  Longest match first, single-value fallback and forward progress.  A
call of `writeFromBuffer` on a buffer that is not empty does one of two things.
Either some buffered prefix has its trie node in the assignment set: then, for
the longest such prefix, of length `k`, the code of the abbreviation of its
node is appended to the output and exactly the first `k` values leave the
buffer.  Or no prefix matches: then the oldest buffered value is appended to
the output as a default value and exactly that value leaves the buffer.  In
both cases the buffer gets shorter and the rest of the state is unchanged.  In
the scenario of the input `[1, 2, 1, 2, 1, 2, 3]`, where the node of the path
1, 2 is selected with the index 2 and no node of 3 is selected, the rewritten
sequence is three codes 2 followed by the default value 3. -/
theorem longest_match_first (w : AbbrevAssignWriter) (hB : w.Buffer ≠ []) :
    ((∃ k, PrefixMatches w.Root w.Assignments w.Buffer k ∧
        (∀ j, PrefixMatches w.Root w.Assignments w.Buffer j → j ≤ k) ∧
        w.writeFromBuffer.Output =
          w.Output ++ [.Abbrev ((w.AbbrevIndex (prefixNode w.Buffer k)).getD 0)] ∧
        w.writeFromBuffer.Buffer = w.Buffer.drop k) ∨
      ((∀ k, ¬ PrefixMatches w.Root w.Assignments w.Buffer k) ∧
        ∃ V rest, w.Buffer = V :: rest ∧
          w.writeFromBuffer.Output = w.Output ++ [.Default V] ∧
          w.writeFromBuffer.Buffer = rest)) ∧
    w.writeFromBuffer.Buffer.length < w.Buffer.length ∧
    w.writeFromBuffer.Root = w.Root ∧
    w.writeFromBuffer.Assignments = w.Assignments ∧
    w.writeFromBuffer.AbbrevIndex = w.AbbrevIndex ∧
    w.writeFromBuffer.Header = w.Header ∧
    w.writeFromBuffer.Frozen = w.Frozen ∧
    repeatedPairRun.AbbrevAssignments =
      some [.DefaultSingle, .DefaultMultiple, .Int [2, 1], .Int [1, 2]] ∧
    repeatedPairRun.AbbrevIndex (.Int [2, 1]) = some 2 ∧
    repeatedPairRun.IntOutput = some [.Abbrev 2, .Abbrev 2, .Abbrev 2, .Default 3] := by
  obtain ⟨V, rest, hVr⟩ : ∃ V rest, w.Buffer = V :: rest := by
    cases h : w.Buffer with
    | nil => exact absurd h hB
    | cons V rest => exact ⟨V, rest, rfl⟩
  have hchar := longestMatch_char w.Root w.Assignments w.Buffer [] none
  have hdich := exists_longest (PrefixMatches w.Root w.Assignments w.Buffer) w.Buffer.length
    (fun k hk => hk.2.1)
  have hcases : (∃ k, PrefixMatches w.Root w.Assignments w.Buffer k ∧
        (∀ j, PrefixMatches w.Root w.Assignments w.Buffer j → j ≤ k) ∧
        w.writeFromBuffer =
          (w.forwardAbbrev (prefixNode w.Buffer k)).popValuesFromBuffer k) ∨
      ((∀ k, ¬ PrefixMatches w.Root w.Assignments w.Buffer k) ∧
        w.writeFromBuffer = (w.forwardOtherValue V).popValuesFromBuffer 1) := by
    rcases hdich with ⟨k, hk, hmax⟩ | hnone
    · left
      refine ⟨k, hk, hmax, ?_⟩
      have hL := hchar.1 k ((prefixMatches_iff _ _ _ _).1 hk)
        (fun j hj => hmax j ((prefixMatches_iff _ _ _ _).2 hj))
      rw [hVr] at hL
      rw [writeFromBuffer_some w V rest _ hVr hL]
      have hlen : getPathLength (((V :: rest).take k).reverse ++ []) = k := by
        have := hk.2.1
        rw [hVr] at this
        simp only [getPathLength, List.append_nil, List.length_reverse, List.length_take]
        exact Nat.min_eq_left this
      rw [hlen, hVr]
      simp [prefixNode]
    · right
      refine ⟨hnone, ?_⟩
      have hL := hchar.2 (fun k hk => hnone k ((prefixMatches_iff _ _ _ _).2 hk))
      rw [hVr] at hL
      exact writeFromBuffer_none w V rest hVr hL
  refine ⟨?_, ?_, ?_, ?_, ?_, ?_, ?_, ?_, ?_, ?_⟩
  · rcases hcases with ⟨k, hk, hmax, he⟩ | ⟨hnone, he⟩
    · left
      exact ⟨k, hk, hmax, by rw [he]; rfl, by rw [he]; rfl⟩
    · right
      refine ⟨hnone, V, rest, hVr, by rw [he]; rfl, ?_⟩
      rw [he]
      simp [AbbrevAssignWriter.popValuesFromBuffer, AbbrevAssignWriter.forwardOtherValue, hVr]
  · rcases hcases with ⟨k, hk, hmax, he⟩ | ⟨hnone, he⟩
    · rw [he]
      have h1 := hk.1
      have h2 := hk.2.1
      simp [AbbrevAssignWriter.popValuesFromBuffer, AbbrevAssignWriter.forwardAbbrev]
      omega
    · rw [he]
      simp [AbbrevAssignWriter.popValuesFromBuffer, AbbrevAssignWriter.forwardOtherValue, hVr]
  · rcases hcases with ⟨k, hk, hmax, he⟩ | ⟨hnone, he⟩ <;> rw [he] <;> rfl
  · rcases hcases with ⟨k, hk, hmax, he⟩ | ⟨hnone, he⟩ <;> rw [he] <;> rfl
  · rcases hcases with ⟨k, hk, hmax, he⟩ | ⟨hnone, he⟩ <;> rw [he] <;> rfl
  · rcases hcases with ⟨k, hk, hmax, he⟩ | ⟨hnone, he⟩ <;> rw [he] <;> rfl
  · rcases hcases with ⟨k, hk, hmax, he⟩ | ⟨hnone, he⟩ <;> rw [he] <;> rfl
  · decide
  · decide
  · decide

theorem longest_match_first_witness :
    repeatedPairWriter.Buffer ≠ [] ∧
      PrefixMatches repeatedPairWriter.Root repeatedPairWriter.Assignments
        repeatedPairWriter.Buffer 2 ∧
      repeatedPairWriter.writeFromBuffer.Buffer.length < repeatedPairWriter.Buffer.length :=
  ⟨by decide, by decide, (longest_match_first repeatedPairWriter (by decide)).2.1⟩

end LongestMatchTheorems

section ClosedTrieTheorems

variable (getWeight : CountNode → Nat → Nat)

theorem prefixNode_parent (Root : RootCountNode) (Buffer : List IntType)
    (hclosed : ∀ (v : IntType) (q : IntPath), q ≠ [] →
      Root.hasNode (.Int (v :: q)) = true → Root.hasNode (.Int q) = true)
    (m : Nat) (h1 : 1 ≤ m) (h2 : m < Buffer.length)
    (h : Root.hasNode (prefixNode Buffer (m + 1)) = true) :
    Root.hasNode (prefixNode Buffer m) = true := by
  unfold prefixNode at h ⊢
  rw [List.take_succ, List.getElem?_eq_getElem h2] at h
  simp only [Option.toList_some, List.reverse_append, List.reverse_cons, List.reverse_nil,
    List.nil_append, List.singleton_append] at h
  refine hclosed _ _ ?_ h
  intro he
  have := congrArg List.length he
  rw [List.length_reverse, List.length_take, List.length_nil] at this
  omega

/-- In a trie in which every node other than a top-level one has its parent,
and which holds every assigned integer node, a buffered prefix matches exactly
when the node of its path is in the assignment set. -/
theorem prefixMatches_of_closed (Root : RootCountNode) (A : List CountNode)
    (Buffer : List IntType)
    (hclosed : ∀ (v : IntType) (q : IntPath), q ≠ [] →
      Root.hasNode (.Int (v :: q)) = true → Root.hasNode (.Int q) = true)
    (hA : ∀ p, CountNode.Int p ∈ A → Root.hasNode (.Int p) = true) (k : Nat) :
    PrefixMatches Root A Buffer k ↔
      (1 ≤ k ∧ k ≤ Buffer.length ∧ prefixNode Buffer k ∈ A) := by
  constructor
  · rintro ⟨h1, h2, -, h4⟩
    exact ⟨h1, h2, h4⟩
  · rintro ⟨h1, h2, h4⟩
    refine ⟨h1, h2, ?_, h4⟩
    have hk : Root.hasNode (prefixNode Buffer k) = true := hA _ h4
    have hdown : ∀ d m, m + d = k → 1 ≤ m → Root.hasNode (prefixNode Buffer m) = true := by
      intro d
      induction d with
      | zero =>
        intro m hm _
        have : m = k := by omega
        subst this
        exact hk
      | succ d ih =>
        intro m hm h1m
        exact prefixNode_parent Root Buffer hclosed m h1m (by omega)
          (ih (m + 1) (by omega) (by omega))
    intro j hj
    exact hdown (k - (j + 1)) (j + 1) (by omega) (by omega)

end ClosedTrieTheorems

section FreezeTheorems

variable (getWeight : CountNode → Nat → Nat)

theorem setEndIndex_frame (s : IntStream) (B : BlockPtr) (n : Nat) :
    (s.setEndIndex B n).Values = s.Values ∧ (s.setEndIndex B n).Header = s.Header ∧
    (s.setEndIndex B n).IsHeaderClosed = s.IsHeaderClosed ∧
    (s.setEndIndex B n).isFrozenFlag = s.isFrozenFlag ∧
    (s.setEndIndex B n).Blocks.length = s.Blocks.length := by
  cases B with
  | Top => simp [IntStream.setEndIndex]
  | Sub i =>
    cases h : s.Blocks[i]? with
    | none => simp [IntStream.setEndIndex, h]
    | some b => simp [IntStream.setEndIndex, h]

theorem getBlock_setEndIndex (s : IntStream) (B B2 : BlockPtr) (n : Nat) :
    (s.setEndIndex B n).getBlock B2
      = (s.getBlock B2).map (fun b => if B2 = B then { b with EndIndex := n } else b) := by
  cases B with
  | Top =>
    cases B2 with
    | Top => simp [IntStream.setEndIndex, IntStream.getBlock]
    | Sub j => simp [IntStream.setEndIndex, IntStream.getBlock]
  | Sub i =>
    cases h : s.Blocks[i]? with
    | none =>
      simp only [IntStream.setEndIndex, h]
      cases B2 with
      | Top => simp [IntStream.getBlock]
      | Sub j =>
        by_cases hji : j = i
        · subst hji
          simp [IntStream.getBlock, h]
        · have : BlockPtr.Sub j ≠ BlockPtr.Sub i := fun e => hji (BlockPtr.Sub.inj e)
          simp [IntStream.getBlock, this]
    | some b =>
      simp only [IntStream.setEndIndex, h]
      cases B2 with
      | Top => simp [IntStream.getBlock]
      | Sub j =>
        by_cases hji : j = i
        · subst hji
          have hlt : j < s.Blocks.length := by
            by_contra hge
            rw [List.getElem?_eq_none (by omega)] at h
            cases h
          simp [IntStream.getBlock, h, hlt]
        · have : BlockPtr.Sub j ≠ BlockPtr.Sub i := fun e => hji (BlockPtr.Sub.inj e)
          have hij : i ≠ j := fun e => hji e.symm
          simp [IntStream.getBlock, this, List.getElem?_set_ne hij]

theorem foldl_setEndIndex_frame (n : Nat) (l : List BlockPtr) :
    ∀ s : IntStream,
      (l.foldl (fun (t : IntStream) Blk => t.setEndIndex Blk n) s).Values = s.Values ∧
      (l.foldl (fun (t : IntStream) Blk => t.setEndIndex Blk n) s).Header = s.Header ∧
      (l.foldl (fun (t : IntStream) Blk => t.setEndIndex Blk n) s).IsHeaderClosed
        = s.IsHeaderClosed ∧
      (l.foldl (fun (t : IntStream) Blk => t.setEndIndex Blk n) s).isFrozenFlag
        = s.isFrozenFlag ∧
      (l.foldl (fun (t : IntStream) Blk => t.setEndIndex Blk n) s).Blocks.length
        = s.Blocks.length := by
  induction l with
  | nil => intro s; simp
  | cons B l ih =>
    intro s
    obtain ⟨h1, h2, h3, h4, h5⟩ := ih (s.setEndIndex B n)
    obtain ⟨g1, g2, g3, g4, g5⟩ := setEndIndex_frame s B n
    simp only [List.foldl_cons]
    exact ⟨h1.trans g1, h2.trans g2, h3.trans g3, h4.trans g4, h5.trans g5⟩

theorem getBlock_foldl_setEndIndex (n : Nat) (l : List BlockPtr) :
    ∀ (s : IntStream) (B2 : BlockPtr),
      (l.foldl (fun (t : IntStream) Blk => t.setEndIndex Blk n) s).getBlock B2
        = (s.getBlock B2).map (fun b => if B2 ∈ l then { b with EndIndex := n } else b) := by
  induction l with
  | nil => intro s B2; simp
  | cons B l ih =>
    intro s B2
    simp only [List.foldl_cons]
    rw [ih, getBlock_setEndIndex]
    cases s.getBlock B2 with
    | none => rfl
    | some b =>
      simp only [Option.map_some', List.mem_cons]
      by_cases h1 : B2 ∈ l
      · by_cases h2 : B2 = B <;> simp [h1, h2]
      · by_cases h2 : B2 = B <;> simp [h1, h2]

theorem freezeEof_frozen (c : WriteCursor) (s : IntStream) (h : s.isFrozen = true) :
    c.freezeEof s = (false, s) := by
  unfold WriteCursor.freezeEof
  rw [if_pos h]

/-- C35: `freezeEof` succeeds exactly once.  On a stream that is not frozen it
returns true, sets the frozen flag, gives every block that encloses the cursor
the number of stored values as its end index, and leaves the other blocks, the
values and the header as they are; a second call on the result returns false
and changes nothing.  On a frozen stream it returns false and the stream is
unchanged. -/
theorem freezeEof_succeeds_once (c : WriteCursor) (s : IntStream) :
    (s.isFrozen = false →
      (c.freezeEof s).1 = true ∧ (c.freezeEof s).2.isFrozen = true ∧
      (∀ Blk, (c.freezeEof s).2.getBlock Blk
        = (s.getBlock Blk).map (fun b =>
            if Blk ∈ c.EnclosingBlocks then { b with EndIndex := s.Values.length } else b)) ∧
      (c.freezeEof s).2.Values = s.Values ∧ (c.freezeEof s).2.Header = s.Header ∧
      (c.freezeEof s).2.Blocks.length = s.Blocks.length ∧
      c.freezeEof (c.freezeEof s).2 = (false, (c.freezeEof s).2)) ∧
    (s.isFrozen = true → c.freezeEof s = (false, s)) := by
  constructor
  · intro h
    have hf : c.freezeEof s = (true, c.EnclosingBlocks.foldl
        (fun (t : IntStream) Blk => t.setEndIndex Blk s.Values.length)
        { s with isFrozenFlag := true }) := by
      unfold WriteCursor.freezeEof
      rw [if_neg (by simp [h])]
    obtain ⟨g1, g2, -, g4, g5⟩ := foldl_setEndIndex_frame s.Values.length c.EnclosingBlocks
      { s with isFrozenFlag := true }
    have hfrozen : (c.freezeEof s).2.isFrozen = true := by
      rw [hf]
      exact g4
    refine ⟨by rw [hf], hfrozen, ?_, by rw [hf]; exact g1, by rw [hf]; exact g2,
      by rw [hf]; exact g5, ?_⟩
    · intro Blk
      rw [hf]
      simp only
      rw [getBlock_foldl_setEndIndex]
      cases Blk <;> rfl
    · exact freezeEof_frozen c _ hfrozen
  · exact freezeEof_frozen c s

theorem freezeEof_succeeds_once_example :
    (freezeExampleCursor.freezeEof freezeExampleStream).1 = true ∧
    (freezeExampleCursor.freezeEof freezeExampleStream).2.TopBlock.EndIndex = 2 ∧
    ((freezeExampleCursor.freezeEof freezeExampleStream).2.Blocks.map Block.EndIndex) = [2] ∧
    (freezeExampleCursor.freezeEof
      (freezeExampleCursor.freezeEof freezeExampleStream).2).1 = false := by
  decide

end FreezeTheorems

section CircularVectorTheorems

variable (getWeight : CountNode → Nat → Nat)

theorem mod_two (x c : Nat) (h : x < 2 * c) : x % c = if x < c then x else x - c := by
  split_ifs with h1
  · exact Nat.mod_eq_of_lt h1
  · rw [Nat.mod_eq_sub_mod (by omega)]
    exact Nat.mod_eq_of_lt (by omega)

theorem slot_ne (s c n m : Nat) (hs : s < c) (hn : n < c) (hm : m < c) (hnm : n ≠ m) :
    (s + n) % c ≠ (s + m) % c := by
  rw [mod_two (s + n) c (by omega), mod_two (s + m) c (by omega)]
  split_ifs <;> omega

theorem get_index_eq {T : Type} (cv : circular_vector T) (c n : Nat)
    (hmax : cv.vector_max_size = c) (hc : c ≤ 2 ^ 63) (hs : cv.start_index < c) (hn : n ≤ c) :
    cv.get_index n = (cv.start_index + n) % c := by
  unfold circular_vector.get_index
  rw [hmax, Nat.mod_eq_of_lt (a := cv.start_index + n)]
  have : (2 : Nat) ^ 64 = 2 * 2 ^ 63 := by norm_num
  omega

theorem holds_make {T : Type} [Inhabited T] (c : Nat) (hc : 1 ≤ c) :
    Holds c (circular_vector.make c : circular_vector T) [] := by
  refine ⟨rfl, by simp [circular_vector.make, circular_vector.prefill], ?_, rfl,
    Nat.zero_le _, ?_⟩
  · show 0 < c
    omega
  · intro n hn
    simp at hn

theorem holds_push_back {T : Type} (c : Nat) (hc : 1 ≤ c) (hc2 : c ≤ 2 ^ 63)
    (cv : circular_vector T) (l : List T) (v : T) (h : Holds c cv l) :
    ∃ cv1, cv.push_back v = some cv1 ∧
      Holds c cv1 (if c < (l ++ [v]).length then (l ++ [v]).drop 1 else l ++ [v]) := by
  obtain ⟨hmax, hlen, hs, hsize, hle, hel⟩ := h
  unfold circular_vector.push_back
  by_cases hfull : cv.vector_size < cv.vector_max_size
  · rw [if_pos hfull]
    have hidx : cv.get_index cv.vector_size = (cv.start_index + l.length) % c := by
      rw [get_index_eq cv c _ hmax hc2 hs (by omega), hsize]
    have hlt : (cv.start_index + l.length) % c < cv.contents.length := by
      rw [hlen]
      exact Nat.mod_lt _ (by omega)
    unfold circular_vector.setAt
    rw [hidx, if_pos hlt]
    have hl : l.length < c := by omega
    refine ⟨_, rfl, ?_⟩
    rw [if_neg (by simp; omega)]
    refine ⟨hmax, by simp [hlen], hs, by simp [hsize], by simp; omega, ?_⟩
    intro n hn
    simp only [List.length_append, List.length_singleton] at hn
    by_cases hnl : n = l.length
    · subst hnl
      simp only [List.getElem?_set_self hlt]
      simp
    · have hne := slot_ne cv.start_index c l.length n hs hl (by omega) (fun e => hnl e.symm)
      simp only [List.getElem?_set_ne hne]
      rw [hel n (by omega), List.getElem?_append_left (by omega)]
  · rw [if_neg hfull]
    have hl : l.length = c := by omega
    have hidx : cv.get_index 0 = cv.start_index := by
      rw [get_index_eq cv c _ hmax hc2 hs (by omega), Nat.add_zero, Nat.mod_eq_of_lt hs]
    unfold circular_vector.setAt
    rw [hidx, if_pos (by omega)]
    refine ⟨_, rfl, ?_⟩
    rw [if_pos (by simp; omega)]
    have hinc : ((cv.start_index + 1) % 2 ^ 64) % cv.vector_max_size
        = (cv.start_index + 1) % c := by
      rw [hmax, Nat.mod_eq_of_lt (a := cv.start_index + 1)]
      have : (2 : Nat) ^ 64 = 2 * 2 ^ 63 := by norm_num
      omega
    refine ⟨hmax, by simp [circular_vector.inc_start_index, hlen], ?_, ?_, ?_, ?_⟩
    · simp only [circular_vector.inc_start_index, hinc]
      exact Nat.mod_lt _ (by omega)
    · simp [circular_vector.inc_start_index, hsize]
    · simp
      omega
    · intro n hn
      simp only [List.length_drop, List.length_append, List.length_singleton] at hn
      simp only [circular_vector.inc_start_index, hinc, Option.map_some']
      have hpos : ((cv.start_index + 1) % c + n) % c = (cv.start_index + (n + 1)) % c := by
        rw [Nat.add_mod, Nat.mod_mod, ← Nat.add_mod]
        congr 1
        omega
      rw [hpos, List.getElem?_drop]
      by_cases hn1 : n + 1 < c
      · have hne := slot_ne cv.start_index c 0 (n + 1) hs (by omega) hn1 (by omega)
        rw [Nat.add_zero, Nat.mod_eq_of_lt hs] at hne
        rw [List.getElem?_set_ne hne, hel (n + 1) (by omega),
          List.getElem?_append_left (by omega)]
        congr 1
        omega
      · have hn2 : n + 1 = c := by omega
        have : (cv.start_index + (n + 1)) % c = cv.start_index := by
          rw [hn2, Nat.add_mod_right, Nat.mod_eq_of_lt hs]
        rw [this, List.getElem?_set_self (by omega)]
        rw [List.getElem?_append_right (by omega)]
        have : 1 + n - l.length = 0 := by omega
        simp [this]

theorem getElem?_dropLast_lt {T : Type} (l : List T) (n : Nat) (h : n + 1 < l.length) :
    l.dropLast[n]? = l[n]? := by
  rw [List.dropLast_eq_take, List.getElem?_take_of_lt (by omega)]

theorem holds_push_front {T : Type} (c : Nat) (hc : 1 ≤ c) (hc2 : c ≤ 2 ^ 63)
    (cv : circular_vector T) (l : List T) (v : T) (h : Holds c cv l) :
    ∃ cv1, cv.push_front v = some cv1 ∧
      Holds c cv1 (if c < (v :: l).length then (v :: l).dropLast else v :: l) := by
  obtain ⟨hmax, hlen, hs, hsize, hle, hel⟩ := h
  have h64 : (2 : Nat) ^ 64 = 2 * 2 ^ 63 := by norm_num
  obtain ⟨s1, hs1, hs1c, hback⟩ : ∃ s1, (∀ k, ({ cv with vector_size := k } :
      circular_vector T).dec_start_index = { cv with vector_size := k, start_index := s1 }) ∧
      s1 < c ∧ ∀ m, m + 1 < c → (s1 + (m + 1)) % c = (cv.start_index + m) % c := by
    by_cases h0 : cv.start_index = 0
    · refine ⟨c - 1, ?_, by omega, ?_⟩
      · intro k
        unfold circular_vector.dec_start_index
        rw [if_pos h0]
        have : (cv.vector_max_size + 2 ^ 64 - 1) % 2 ^ 64 = c - 1 := by
          rw [hmax]
          have : c + 2 ^ 64 - 1 = (c - 1) + 2 ^ 64 := by omega
          rw [this, Nat.add_mod_right]
          exact Nat.mod_eq_of_lt (by omega)
        simp only [this]
      · intro m hm
        rw [h0, mod_two _ c (by omega), mod_two _ c (by omega)]
        split_ifs <;> omega
    · refine ⟨cv.start_index - 1, ?_, by omega, ?_⟩
      · intro k
        unfold circular_vector.dec_start_index
        rw [if_neg h0]
      · intro m hm
        congr 1
        omega
  have hcv : cv = { cv with vector_size := cv.vector_size } := rfl
  obtain ⟨l1, hdef⟩ : ∃ l1, l1 = if c < (v :: l).length then (v :: l).dropLast else v :: l :=
    ⟨_, rfl⟩
  rw [← hdef]
  have hl1 : ∀ n, n < l1.length → l1[n]? = (v :: l)[n]? := by
    intro n hn
    by_cases hc1 : c < (v :: l).length
    · rw [hdef, if_pos hc1] at hn ⊢
      simp only [List.length_dropLast, List.length_cons] at hn
      exact getElem?_dropLast_lt _ _ (by simp; omega)
    · rw [hdef, if_neg hc1]
  have hl1len : l1.length = if cv.vector_size < cv.vector_max_size then cv.vector_size + 1
      else cv.vector_size := by
    by_cases hc1 : c < (v :: l).length
    · have : ¬ cv.vector_size < cv.vector_max_size := by
        simp only [List.length_cons] at hc1
        omega
      rw [hdef, if_pos hc1, if_neg this, List.length_dropLast, List.length_cons]
      omega
    · have : cv.vector_size < cv.vector_max_size := by
        simp only [List.length_cons] at hc1
        omega
      rw [hdef, if_neg hc1, if_pos this, List.length_cons]
      omega
  have hl1c : l1.length ≤ c := by
    rw [hl1len]
    split_ifs <;> omega
  have hstep : cv.push_front v = some { cv with
      vector_size := (if cv.vector_size < cv.vector_max_size then cv.vector_size + 1
        else cv.vector_size),
      start_index := s1, contents := cv.contents.set s1 v } := by
    unfold circular_vector.push_front
    have e1 : (if cv.vector_size < cv.vector_max_size then
        ({ cv with vector_size := cv.vector_size + 1 } : circular_vector T) else cv)
        = { cv with vector_size := (if cv.vector_size < cv.vector_max_size then
            cv.vector_size + 1 else cv.vector_size) } := by
      split_ifs <;> rfl
    simp only [e1, hs1]
    unfold circular_vector.setAt
    have e2 : circular_vector.get_index ({ cv with
        vector_size := (if cv.vector_size < cv.vector_max_size then cv.vector_size + 1
          else cv.vector_size), start_index := s1 } : circular_vector T) 0 = s1 := by
      have := get_index_eq ({ cv with
        vector_size := (if cv.vector_size < cv.vector_max_size then cv.vector_size + 1
          else cv.vector_size), start_index := s1 } : circular_vector T) c 0 hmax hc2 hs1c
        (by omega)
      rw [this]
      exact Nat.mod_eq_of_lt hs1c
    rw [e2, if_pos (by simp only; omega)]
  refine ⟨_, hstep, hmax, by simp [hlen], hs1c, hl1len.symm, hl1c, ?_⟩
  intro n hn
  show (cv.contents.set s1 v)[(s1 + n) % c]? = l1[n]?
  rw [hl1 n hn]
  rcases Nat.eq_zero_or_pos n with h0 | h0
  · subst h0
    rw [Nat.add_zero, Nat.mod_eq_of_lt hs1c, List.getElem?_set_self (by omega)]
    simp
  · obtain ⟨m, rfl⟩ : ∃ m, n = m + 1 := ⟨n - 1, by omega⟩
    have hm1 : m + 1 < c ∨ m + 1 = c := by omega
    have hmc : m + 1 < c := by
      rcases hm1 with h | h
      · exact h
      · exfalso
        rw [hl1len] at hn
        split_ifs at hn <;> omega
    have hne := slot_ne s1 c 0 (m + 1) hs1c (by omega) hmc (by omega)
    rw [Nat.add_zero, Nat.mod_eq_of_lt hs1c] at hne
    rw [List.getElem?_set_ne hne, hback m hmc]
    have hml : m < l.length := by
      rw [hl1len] at hn
      split_ifs at hn <;> omega
    rw [hel m hml]
    simp

theorem holds_pop_front {T : Type} (c : Nat) (hc : 1 ≤ c) (hc2 : c ≤ 2 ^ 63)
    (cv : circular_vector T) (l : List T) (h : Holds c cv l) (hne : l.length ≠ 0) :
    ∃ cv1, cv.pop_front = some cv1 ∧ Holds c cv1 (l.drop 1) := by
  obtain ⟨hmax, hlen, hs, hsize, hle, hel⟩ := h
  have h64 : (2 : Nat) ^ 64 = 2 * 2 ^ 63 := by norm_num
  unfold circular_vector.pop_front
  rw [if_pos (by omega)]
  have hinc : ((cv.start_index + 1) % 2 ^ 64) % cv.vector_max_size
      = (cv.start_index + 1) % c := by
    rw [hmax, Nat.mod_eq_of_lt (a := cv.start_index + 1)]
    omega
  refine ⟨_, rfl, hmax, hlen, ?_, ?_, ?_, ?_⟩
  · simp only [circular_vector.inc_start_index, hinc]
    exact Nat.mod_lt _ (by omega)
  · simp [circular_vector.inc_start_index, hsize]
  · simp
    omega
  · intro n hn
    simp only [List.length_drop] at hn
    simp only [circular_vector.inc_start_index, hinc]
    have hpos : ((cv.start_index + 1) % c + n) % c = (cv.start_index + (n + 1)) % c := by
      rw [Nat.add_mod, Nat.mod_mod, ← Nat.add_mod]
      congr 1
      omega
    rw [hpos, hel (n + 1) (by omega), List.getElem?_drop]
    congr 1
    omega

theorem holds_pop_back {T : Type} (c : Nat) (cv : circular_vector T) (l : List T)
    (h : Holds c cv l) (hne : l.length ≠ 0) :
    ∃ cv1, cv.pop_back = some cv1 ∧ Holds c cv1 l.dropLast := by
  obtain ⟨hmax, hlen, hs, hsize, hle, hel⟩ := h
  unfold circular_vector.pop_back
  rw [if_pos (by omega)]
  refine ⟨_, rfl, hmax, hlen, hs, by simp [hsize], by simp; omega, ?_⟩
  intro n hn
  simp only [List.length_dropLast] at hn
  rw [getElem?_dropLast_lt l n (by omega)]
  exact hel n (by omega)

theorem holds_apply {T : Type} (c : Nat) (hc : 1 ≤ c) (hc2 : c ≤ 2 ^ 63)
    (cv : circular_vector T) (l : List T) (op : DequeOp T) (h : Holds c cv l) :
    (∃ cv1 l1, cv.apply op = some cv1 ∧ boundedDequeApply c l op = some l1 ∧ Holds c cv1 l1) ∨
    (cv.apply op = none ∧ boundedDequeApply c l op = none) := by
  cases op with
  | push_back v =>
    obtain ⟨cv1, h1, h2⟩ := holds_push_back c hc hc2 cv l v h
    exact Or.inl ⟨cv1, _, h1, rfl, h2⟩
  | push_front v =>
    obtain ⟨cv1, h1, h2⟩ := holds_push_front c hc hc2 cv l v h
    exact Or.inl ⟨cv1, _, h1, rfl, h2⟩
  | pop_front =>
    by_cases hne : l.length = 0
    · right
      have hsz : cv.vector_size = 0 := by rw [h.2.2.2.1, hne]
      exact ⟨by simp [circular_vector.apply, circular_vector.pop_front, hsz],
        by simp [boundedDequeApply, hne]⟩
    · obtain ⟨cv1, h1, h2⟩ := holds_pop_front c hc hc2 cv l h hne
      exact Or.inl ⟨cv1, _, h1, by simp [boundedDequeApply, hne], h2⟩
  | pop_back =>
    by_cases hne : l.length = 0
    · right
      have hsz : cv.vector_size = 0 := by rw [h.2.2.2.1, hne]
      exact ⟨by simp [circular_vector.apply, circular_vector.pop_back, hsz],
        by simp [boundedDequeApply, hne]⟩
    · obtain ⟨cv1, h1, h2⟩ := holds_pop_back c cv l h hne
      exact Or.inl ⟨cv1, _, h1, by simp [boundedDequeApply, hne], h2⟩

theorem holds_run {T : Type} (c : Nat) (hc : 1 ≤ c) (hc2 : c ≤ 2 ^ 63)
    (ops : List (DequeOp T)) :
    ∀ (cv : circular_vector T) (l : List T), Holds c cv l →
      (∃ cv1 l1, cv.run ops = some cv1 ∧ boundedDequeRun c l ops = some l1 ∧ Holds c cv1 l1) ∨
      (cv.run ops = none ∧ boundedDequeRun c l ops = none) := by
  induction ops with
  | nil => intro cv l h; exact Or.inl ⟨cv, l, rfl, rfl, h⟩
  | cons op ops ih =>
    intro cv l h
    rcases holds_apply c hc hc2 cv l op h with ⟨cv1, l1, h1, h2, h3⟩ | ⟨h1, h2⟩
    · simp only [circular_vector.run, boundedDequeRun, h1, h2]
      exact ih cv1 l1 h3
    · right
      simp only [circular_vector.run, boundedDequeRun, h1, h2, and_self]

theorem holds_elements {T : Type} (c : Nat) (hc2 : c ≤ 2 ^ 63) (cv : circular_vector T)
    (l : List T) (h : Holds c cv l) : cv.elements = l.map some := by
  obtain ⟨hmax, hlen, hs, hsize, hle, hel⟩ := h
  apply List.ext_getElem?
  intro n
  simp only [circular_vector.elements, circular_vector.size, List.getElem?_map]
  by_cases hn : n < l.length
  · rw [List.getElem?_range (by omega)]
    simp only [Option.map_some', circular_vector.getAt]
    rw [get_index_eq cv c n hmax hc2 hs (by omega), hel n hn, List.getElem?_eq_getElem hn]
    rfl
  · rw [List.getElem?_eq_none (by simp; omega), List.getElem?_eq_none (by omega)]
    rfl

/-- C36: the circular vector refines the bounded deque.  For a maximum size
`c` with `1 ≤ c ≤ 2 ^ 63` and every sequence of `push_back`, `push_front`,
`pop_front` and `pop_back` applied to a newly made circular vector, the vector
fails (a pop on an empty vector) exactly when the list model does, and
otherwise `size()` is the length of the list of the model, which is at most
`c`, `max_size()` is `c`, and the elements `at(0)`, ..., `at(size() - 1)` are
the elements of that list in order. -/
theorem circular_vector_refines_deque {T : Type} [Inhabited T] (c : Nat) (hc : 1 ≤ c)
    (hc2 : c ≤ 2 ^ 63) (ops : List (DequeOp T)) :
    (((circular_vector.make c : circular_vector T).run ops).map circular_vector.elements
      = (boundedDequeRun c [] ops).map (List.map some)) ∧
    (∀ cv, (circular_vector.make c : circular_vector T).run ops = some cv →
      ∃ l, boundedDequeRun c [] ops = some l ∧ cv.size = l.length ∧ cv.size ≤ c ∧
        cv.max_size = c ∧ ∀ n, n < cv.size → cv.getAt n = l[n]?) := by
  rcases holds_run c hc hc2 ops _ _ (holds_make (T := T) c hc) with
    ⟨cv1, l1, h1, h2, h3⟩ | ⟨h1, h2⟩
  · refine ⟨by rw [h1, h2]; simp [holds_elements c hc2 cv1 l1 h3], ?_⟩
    intro cv hcv
    rw [h1] at hcv
    cases hcv
    refine ⟨l1, h2, h3.2.2.2.1, ?_, h3.1, ?_⟩
    · show cv1.vector_size ≤ c
      rw [h3.2.2.2.1]
      exact h3.2.2.2.2.1
    · intro n hn
      have hn2 : n < l1.length := by
        rw [← h3.2.2.2.1]
        exact hn
      unfold circular_vector.getAt
      rw [get_index_eq cv1 c n h3.1 hc2 h3.2.2.1 (by have := h3.2.2.2.2.1; omega)]
      exact h3.2.2.2.2.2 n hn2
  · refine ⟨by rw [h1, h2]; rfl, ?_⟩
    intro cv hcv
    rw [h1] at hcv
    cases hcv

theorem circular_vector_refines_deque_witness :
    (1 ≤ 2 ∧ 2 ≤ 2 ^ 63) ∧
    (((circular_vector.make 2 : circular_vector Nat).run
        [.push_back 1, .push_back 2, .push_back 3, .push_front 0, .pop_back]).map
        circular_vector.elements
      = (boundedDequeRun 2 []
          [.push_back 1, .push_back 2, .push_back 3, .push_front 0, .pop_back]).map
          (List.map some)) :=
  ⟨⟨by decide, by decide⟩,
    (circular_vector_refines_deque 2 (by decide) (by decide)
      [.push_back 1, .push_back 2, .push_back 3, .push_front 0, .pop_back]).1⟩

theorem circular_vector_example :
    ((circular_vector.make 2 : circular_vector Nat).run
        [.push_back 1, .push_back 2, .push_back 3, .push_front 0, .pop_back]).map
        circular_vector.elements = some [some 0] ∧
    ((circular_vector.make 2 : circular_vector Nat).run
        [.push_back 1, .push_back 2, .push_back 3]).map
        circular_vector.elements = some [some 2, some 3] ∧
    (circular_vector.make 2 : circular_vector Nat).run [.push_back 1, .pop_front, .pop_back]
      = none := by
  decide

theorem setAt_nil {T : Type} (cv : circular_vector T) (h : cv.contents = []) (n : Nat)
    (v : T) : cv.setAt n v = none := by
  unfold circular_vector.setAt
  rw [h, if_neg (by simp)]

/-- C37 (divergence): after `clear()` the vector is empty and has the maximum
size it had, but its backing vector is empty too, so every `at(n)` is out of
range and a following `push_back(v)` or `push_front(v)` fails with the
exception of `contents.at`; no vector of size 1 results.  For a vector of
maximum size 2 that holds the value 1, `push_back(7)` fails after `clear()`,
while it succeeds on a newly made vector. -/
theorem clear_leaves_no_storage {T : Type} (cv : circular_vector T) (v : T) :
    cv.clear.size = 0 ∧ cv.clear.empty = true ∧ cv.clear.max_size = cv.max_size ∧
    cv.clear.contents = [] ∧
    (∀ n, cv.clear.getAt n = none) ∧
    cv.clear.push_back v = none ∧ cv.clear.push_front v = none ∧
    (((circular_vector.make 2 : circular_vector Nat).push_back 1).bind
      (fun cv1 => cv1.clear.push_back 7) = none) ∧
    (((circular_vector.make 2 : circular_vector Nat).push_back 7).map
      circular_vector.elements = some [some 7]) := by
  refine ⟨rfl, rfl, rfl, rfl, ?_, ?_, ?_, by decide, by decide⟩
  · intro n
    simp [circular_vector.getAt, circular_vector.clear]
  · unfold circular_vector.push_back
    split_ifs
    · rw [setAt_nil _ rfl]
      rfl
    · rw [setAt_nil _ rfl]
      rfl
  · unfold circular_vector.push_front
    apply setAt_nil
    unfold circular_vector.dec_start_index
    split_ifs <;> rfl

end CircularVectorTheorems

section TwoPassTheorems

variable (getWeight : CountNode → Nat → Nat)

theorem occurrencesFrom_values (p : IntPath) (es : List StreamEvent) :
    ∀ run, 0 < occurrencesFrom p run es →
      ∀ v ∈ p, v ∈ run ∨ StreamEvent.Value v ∈ es := by
  induction es with
  | nil => intro run h; simp [occurrencesFrom] at h
  | cons e es ih =>
    intro run h v hv
    cases e with
    | Value u =>
      simp only [occurrencesFrom] at h
      by_cases hpre : p <+: u :: run
      · have := hpre.subset hv
        rcases List.mem_cons.1 this with rfl | hr
        · exact Or.inr (List.mem_cons_self _ _)
        · exact Or.inl hr
      · rw [if_neg hpre, Nat.zero_add] at h
        rcases ih _ h v hv with h1 | h1
        · rcases List.mem_cons.1 h1 with rfl | hr
          · exact Or.inr (List.mem_cons_self _ _)
          · exact Or.inl hr
        · exact Or.inr (List.mem_cons_of_mem _ h1)
    | BlockEnter =>
      simp only [occurrencesFrom] at h
      rcases ih _ h v hv with h1 | h1
      · simp at h1
      · exact Or.inr (List.mem_cons_of_mem _ h1)
    | BlockExit =>
      simp only [occurrencesFrom] at h
      rcases ih _ h v hv with h1 | h1
      · simp at h1
      · exact Or.inr (List.mem_cons_of_mem _ h1)
    | HeaderValue x f =>
      simp only [occurrencesFrom] at h
      rcases ih _ h v hv with h1 | h1
      · exact Or.inl h1
      · exact Or.inr (List.mem_cons_of_mem _ h1)

theorem two_pass_getCount (C1 C L : Nat) (hL : L ≠ 1) (es : List StreamEvent) (Nd : CountNode) :
    (compressUpToSize getWeight
        (compressUpToSize getWeight RootCountNode.empty C1 1 es).1 C L es).1.getCount Nd
      = incrementedBy (RootCountNode.empty.getCount Nd) (flatCount es Nd
        + multiCount (fun u => decide (C ≤ getWeight (.Int [u])
            ((compressUpToSize getWeight RootCountNode.empty C1 1 es).1.getCount (.Int [u]))))
          L [] es Nd) := by
  rw [(compressUpToSize_multi getWeight _ C L hL es).1 Nd,
    (compressUpToSize_flat getWeight _ C1 es).1 Nd, incrementedBy_add]

theorem two_pass_added_le (good : IntType → Bool) (L : Nat) (es : List StreamEvent)
    (p : IntPath) :
    flatCount es (.Int p) + multiCount good L [] es (.Int p) ≤ es.length := by
  refine le_trans ?_ (occurrences_le_length p es)
  rcases p with _ | ⟨u, _ | ⟨u2, q⟩⟩
  · simp [flatCount, multiCount]
  · simp [flatCount, multiCount, occurrences, occurrencesFrom_single]
  · simp only [flatCount, multiCount, occurrences, Nat.zero_add]
    rw [if_pos (by simp)]
    exact countedOccurrencesFrom_le good L _ es []

theorem two_pass_getCount_int (C1 C L : Nat) (hL : L ≠ 1) (es : List StreamEvent)
    (hlen : es.length < 2 ^ 64) (p : IntPath) :
    (compressUpToSize getWeight
        (compressUpToSize getWeight RootCountNode.empty C1 1 es).1 C L es).1.getCount (.Int p)
      = RootCountNode.empty.getCount (.Int p) + flatCount es (.Int p)
        + multiCount (fun u => decide (C ≤ getWeight (.Int [u])
            ((compressUpToSize getWeight RootCountNode.empty C1 1 es).1.getCount (.Int [u]))))
          L [] es (.Int p) := by
  rw [two_pass_getCount getWeight C1 C L hL es (.Int p)]
  have hc : RootCountNode.empty.getCount (.Int p) = 0 := rfl
  have := two_pass_added_le (fun u => decide (C ≤ getWeight (.Int [u])
    ((compressUpToSize getWeight RootCountNode.empty C1 1 es).1.getCount (.Int [u])))) L es p
  rw [hc, incrementedBy_of_lt _ _ (by omega)]
  omega

theorem two_pass_hasNode (C1 C L : Nat) (hL : L ≠ 1) (es : List StreamEvent) (Nd : CountNode) :
    (compressUpToSize getWeight
        (compressUpToSize getWeight RootCountNode.empty C1 1 es).1 C L es).1.hasNode Nd
      = ((RootCountNode.empty.hasNode Nd || flatCreated es Nd)
        || multiCreated (fun u => decide (C ≤ getWeight (.Int [u])
            ((compressUpToSize getWeight RootCountNode.empty C1 1 es).1.getCount (.Int [u]))))
          L [] es Nd) := by
  rw [(compressUpToSize_multi getWeight _ C L hL es).2 Nd,
    (compressUpToSize_flat getWeight _ C1 es).2 Nd]

theorem flatCount_long (es : List StreamEvent) (p : IntPath) (h : 2 ≤ p.length) :
    flatCount es (.Int p) = 0 := by
  match p, h with
  | _ :: _ :: _, _ => rfl

theorem flatCreated_long (es : List StreamEvent) (p : IntPath) (h : 2 ≤ p.length) :
    flatCreated es (.Int p) = false := by
  match p, h with
  | _ :: _ :: _, _ => rfl

/-- C31: two-pass counting is exact when no value is filtered.  On an empty
trie, after `compressUpToSize(1)` followed by `compressUpToSize(L)` with
`L ≥ 2` over the same traversal, when after the first pass the top-level node
of every value of the traversal has a weight of at least the cutoff `C`: the
count of the top-level node of `v` is the number of values `v` written, the
count of every node of path length from 2 to `L` is the number of occurrences
of its value path inside one run of values without block marker, and no node
of path length above `L` exists.  The counts are `size_t` values: they are
these numbers modulo `2 ^ 64`, and the numbers themselves for every traversal
of fewer than `2 ^ 64` events. -/
theorem two_pass_exact (C1 C L : Nat) (hL : 2 ≤ L) (es : List StreamEvent)
    (hgood : ∀ v, StreamEvent.Value v ∈ es → C ≤ getWeight (.Int [v])
      ((compressUpToSize getWeight RootCountNode.empty C1 1 es).1.getCount (.Int [v]))) :
    (∀ v, (compressUpToSize getWeight
        (compressUpToSize getWeight RootCountNode.empty C1 1 es).1 C L es).1.getCount (.Int [v])
      = es.count (.Value v) % 2 ^ 64) ∧
    (∀ p, 2 ≤ getPathLength p → getPathLength p ≤ L →
      (compressUpToSize getWeight
        (compressUpToSize getWeight RootCountNode.empty C1 1 es).1 C L es).1.getCount (.Int p)
      = occurrences p es % 2 ^ 64) ∧
    (es.length < 2 ^ 64 →
      (∀ v, (compressUpToSize getWeight
          (compressUpToSize getWeight RootCountNode.empty C1 1 es).1 C L es).1.getCount (.Int [v])
        = es.count (.Value v)) ∧
      (∀ p, 2 ≤ getPathLength p → getPathLength p ≤ L →
        (compressUpToSize getWeight
          (compressUpToSize getWeight RootCountNode.empty C1 1 es).1 C L es).1.getCount (.Int p)
        = occurrences p es)) ∧
    (∀ p, L < getPathLength p →
      (compressUpToSize getWeight
        (compressUpToSize getWeight RootCountNode.empty C1 1 es).1 C L es).1.hasNode (.Int p)
      = false) := by
  have hL1 : L ≠ 1 := by omega
  obtain ⟨good, hgd⟩ : ∃ good : IntType → Bool, good = fun u => decide (C ≤ getWeight (.Int [u])
      ((compressUpToSize getWeight RootCountNode.empty C1 1 es).1.getCount (.Int [u]))) :=
    ⟨_, rfl⟩
  have hcount : ∀ Nd, (compressUpToSize getWeight
      (compressUpToSize getWeight RootCountNode.empty C1 1 es).1 C L es).1.getCount Nd
      = (flatCount es Nd + multiCount good L [] es Nd) % 2 ^ 64 := by
    intro Nd
    rw [hgd, two_pass_getCount getWeight C1 C L hL1 es Nd]
    have hc : RootCountNode.empty.getCount Nd = 0 := by cases Nd <;> rfl
    rw [hc, incrementedBy_zero_left]
  have hnode : ∀ Nd, (compressUpToSize getWeight
      (compressUpToSize getWeight RootCountNode.empty C1 1 es).1 C L es).1.hasNode Nd
      = ((RootCountNode.empty.hasNode Nd || flatCreated es Nd)
        || multiCreated good L [] es Nd) := by
    intro Nd
    rw [hgd]
    exact two_pass_hasNode getWeight C1 C L hL1 es Nd
  have hgood2 : ∀ v, StreamEvent.Value v ∈ es → good v = true := by
    intro v hv
    rw [hgd]
    exact decide_eq_true (hgood v hv)
  have hk1 : ∀ v, flatCount es (.Int [v]) + multiCount good L [] es (.Int [v])
      = es.count (.Value v) := by
    intro v
    simp [flatCount, multiCount]
  have hk2 : ∀ p, 2 ≤ getPathLength p → getPathLength p ≤ L →
      flatCount es (.Int p) + multiCount good L [] es (.Int p) = occurrences p es := by
    intro p h2 hpL
    unfold getPathLength at h2 hpL
    rw [flatCount_long es p h2]
    simp only [Nat.zero_add, multiCount, if_pos h2]
    by_cases hall : p.all good = true
    · exact countedOccurrencesFrom_eq _ L p hpL hall es []
    · have hocc : occurrences p es = 0 := by
        by_contra hne
        have hpos : 0 < occurrencesFrom p [] es := Nat.pos_of_ne_zero hne
        apply hall
        rw [List.all_eq_true]
        intro v hv
        rcases occurrencesFrom_values p es [] hpos v hv with h1 | h1
        · simp at h1
        · exact hgood2 v h1
      have hle := countedOccurrencesFrom_le good L p es []
      unfold occurrences at hocc ⊢
      omega
  refine ⟨?_, ?_, ?_, ?_⟩
  · intro v
    rw [hcount, hk1]
  · intro p h2 hpL
    rw [hcount, hk2 p h2 hpL]
  · intro hlen
    constructor
    · intro v
      rw [hcount, hk1]
      have := List.count_le_length (StreamEvent.Value v) es
      exact Nat.mod_eq_of_lt (by omega)
    · intro p h2 hpL
      rw [hcount, hk2 p h2 hpL]
      have := occurrences_le_length p es
      exact Nat.mod_eq_of_lt (by omega)
  · intro p hp
    unfold getPathLength at hp
    rw [hnode, flatCreated_long es p (by omega)]
    simp only [RootCountNode.empty, RootCountNode.hasNode, Option.isSome_none, Bool.or_self,
      Bool.false_or, multiCreated, flatCreated_long es p (by omega : 2 ≤ p.length)]
    rw [Bool.and_eq_false_iff]
    right
    rw [decide_eq_false_iff_not]
    intro hpos
    have := (countedOccurrencesFrom_pos _ L p es [] hpos).1
    omega

theorem weight_of_written (C1 : Nat) (es : List StreamEvent) (hlen : es.length < 2 ^ 64)
    (v : IntType) (h : StreamEvent.Value v ∈ es) :
    1 ≤ weightCountTimesLength (.Int [v])
      ((compressUpToSize weightCountTimesLength RootCountNode.empty C1 1 es).1.getCount
        (.Int [v])) := by
  rw [(compressUpToSize_flat weightCountTimesLength _ C1 es).1]
  have hc : RootCountNode.empty.getCount (.Int [v]) = 0 := rfl
  rw [hc, incrementedBy_zero_left]
  simp only [flatCount, weightCountTimesLength, List.length_singleton, Nat.mul_one]
  have := List.count_le_length (StreamEvent.Value v) es
  rw [Nat.mod_eq_of_lt (by omega)]
  exact List.count_pos_iff.2 h

theorem two_pass_exact_witness :
    2 ≤ 2 ∧
    (compressUpToSize weightCountTimesLength
      (compressUpToSize weightCountTimesLength RootCountNode.empty 1 1 repeatedPairExample).1
      1 2 repeatedPairExample).1.getCount (.Int [2, 1]) = occurrences [2, 1] repeatedPairExample :=
  ⟨by decide, ((two_pass_exact weightCountTimesLength 1 1 2 (by decide) repeatedPairExample
    (fun v h => weight_of_written 1 repeatedPairExample (by decide) v h)).2.2.1 (by decide)).2
      [2, 1] (by decide) (by decide)⟩

theorem sum_le_of_single (f : IntType → Nat) (v : IntType) (b : Nat) (hv : f v ≤ b) :
    ∀ us : List IntType, us.Nodup → (∀ u ∈ us, u ≠ v → f u = 0) → (us.map f).sum ≤ b := by
  intro us
  induction us with
  | nil => intro _ _; simp
  | cons u us ih =>
    intro hnd h0
    rw [List.map_cons, List.sum_cons]
    by_cases huv : u = v
    · subst huv
      have hz : (us.map f).sum = 0 := by
        apply List.sum_eq_zero
        intro x hx
        obtain ⟨w, hw, rfl⟩ := List.mem_map.1 hx
        apply h0 w (List.mem_cons_of_mem _ hw)
        rintro rfl
        exact (List.nodup_cons.1 hnd).1 hw
      omega
    · have := h0 u (List.mem_cons_self _ _) huv
      have := ih (List.nodup_cons.1 hnd).2 (fun w hw => h0 w (List.mem_cons_of_mem _ hw))
      omega

theorem countedAt_child (good : IntType → Bool) (L : Nat) (p : IntPath) (u v : IntType)
    (run : List IntType) (h : countedAt good L (u :: p) (v :: run) = true) :
    u = v ∧ countedAt good L p run = true := by
  simp only [countedAt, Bool.and_eq_true, decide_eq_true_eq, List.all_cons,
    List.length_cons] at h ⊢
  obtain ⟨h1, h2, h3, h4⟩ := h
  rw [List.cons_prefix_cons] at h1
  exact ⟨h1.1, h1.2, by omega, h4⟩

theorem children_step_le (good : IntType → Bool) (L : Nat) (p : IntPath) (v : IntType)
    (run : List IntType) (us : List IntType) (hus : us.Nodup) :
    (us.map (fun u => if countedAt good L (u :: p) (v :: run) = true then 1 else 0)).sum
      ≤ if countedAt good L p run = true then 1 else 0 := by
  apply sum_le_of_single _ v _ _ us hus
  · intro u _ huv
    rw [if_neg]
    intro h
    exact huv (countedAt_child good L p u v run h).1
  · by_cases h : countedAt good L (v :: p) (v :: run) = true
    · rw [if_pos h, if_pos (countedAt_child good L p v v run h).2]
    · rw [if_neg h]
      exact Nat.zero_le _

theorem children_sum_le (good : IntType → Bool) (L : Nat) (p : IntPath) (hp : p ≠ [])
    (us : List IntType) (hus : us.Nodup) (es : List StreamEvent) :
    ∀ run, (us.map (fun u => countedOccurrencesFrom good L (u :: p) run es)).sum
      ≤ (if countedAt good L p run = true then 1 else 0)
        + countedOccurrencesFrom good L p run es := by
  have hnil : countedAt good L p [] = false := by
    simp [countedAt, hp]
  induction es with
  | nil => intro run; simp [countedOccurrencesFrom]
  | cons e es ih =>
    intro run
    cases e with
    | Value v =>
      simp only [countedOccurrencesFrom]
      rw [List.sum_map_add]
      have h1 := children_step_le good L p v run us hus
      have h2 := ih (v :: run)
      omega
    | BlockEnter =>
      simp only [countedOccurrencesFrom]
      have h2 := ih []
      rw [hnil] at h2
      simp only [Bool.false_eq_true, if_false, Nat.zero_add] at h2
      omega
    | BlockExit =>
      simp only [countedOccurrencesFrom]
      have h2 := ih []
      rw [hnil] at h2
      simp only [Bool.false_eq_true, if_false, Nat.zero_add] at h2
      omega
    | HeaderValue x f =>
      simp only [countedOccurrencesFrom]
      exact ih run

theorem two_pass_children (C1 C L : Nat) (hL : 2 ≤ L) (es : List StreamEvent)
    (hlen : es.length < 2 ^ 64) (p : IntPath)
    (hp : p ≠ []) (us : List IntType) (hus : us.Nodup) :
    (us.map (fun u => (compressUpToSize getWeight
        (compressUpToSize getWeight RootCountNode.empty C1 1 es).1 C L es).1.getCount
          (.Int (u :: p)))).sum
      ≤ (compressUpToSize getWeight
        (compressUpToSize getWeight RootCountNode.empty C1 1 es).1 C L es).1.getCount (.Int p) := by
  have hL1 : L ≠ 1 := by omega
  obtain ⟨good, hgd⟩ : ∃ good : IntType → Bool, good = fun u => decide (C ≤ getWeight (.Int [u])
      ((compressUpToSize getWeight RootCountNode.empty C1 1 es).1.getCount (.Int [u]))) :=
    ⟨_, rfl⟩
  have hcount : ∀ q, (compressUpToSize getWeight
      (compressUpToSize getWeight RootCountNode.empty C1 1 es).1 C L es).1.getCount (.Int q)
      = RootCountNode.empty.getCount (.Int q) + flatCount es (.Int q)
        + multiCount good L [] es (.Int q) := by
    intro q
    rw [hgd]
    exact two_pass_getCount_int getWeight C1 C L hL1 es hlen q
  have hchild : ∀ u, (compressUpToSize getWeight
      (compressUpToSize getWeight RootCountNode.empty C1 1 es).1 C L es).1.getCount
        (.Int (u :: p)) = countedOccurrencesFrom good L (u :: p) [] es := by
    intro u
    have h2 : 2 ≤ (u :: p).length := by
      have := List.length_pos.2 hp
      simp only [List.length_cons]
      omega
    rw [hcount, flatCount_long es _ h2]
    simp only [RootCountNode.empty, RootCountNode.getCount, Option.getD_none, Nat.zero_add,
      multiCount, if_pos h2]
  have hself : countedOccurrencesFrom good L p [] es ≤ (compressUpToSize getWeight
      (compressUpToSize getWeight RootCountNode.empty C1 1 es).1 C L es).1.getCount (.Int p) := by
    rw [hcount]
    by_cases h2 : 2 ≤ p.length
    · simp only [multiCount, if_pos h2]
      omega
    · obtain ⟨v, rfl⟩ : ∃ v, p = [v] := by
        match p, hp, h2 with
        | [v], _, _ => exact ⟨v, rfl⟩
        | _ :: _ :: _, _, h2 => simp at h2
      have h1 := countedOccurrencesFrom_le good L [v] es []
      rw [occurrencesFrom_single] at h1
      simp only [flatCount]
      omega
  simp only [hchild]
  have hsum := children_sum_le good L p hp us hus es []
  have hnil : countedAt good L p [] = false := by
    simp [countedAt, hp]
  rw [hnil] at hsum
  simp only [Bool.false_eq_true, if_false, Nat.zero_add] at hsum
  omega

/-- C32: every occurrence counted for a pattern is also counted for its
prefixes.  On an empty trie, after `compressUpToSize(1)` followed by
`compressUpToSize(L)` with `L ≥ 2` over the same traversal of fewer than
`2 ^ 64` events (no `size_t` count wraps), with any cutoffs, the count of
every `IntCountNode` is at least the sum of the counts of its children, taken
over any list of distinct values, and at least the count of each of its
descendants.  The node is that of the chain `p`, its child for `u` that of
`u :: p`, and its descendants those of the chains that end with `p`. -/
theorem prefix_counts_dominate (C1 C L : Nat) (hL : 2 ≤ L) (es : List StreamEvent)
    (hlen : es.length < 2 ^ 64) (p : IntPath) (hp : p ≠ []) :
    (∀ us : List IntType, us.Nodup →
      (us.map (fun u => (compressUpToSize getWeight
        (compressUpToSize getWeight RootCountNode.empty C1 1 es).1 C L es).1.getCount
          (.Int (u :: p)))).sum
      ≤ (compressUpToSize getWeight
        (compressUpToSize getWeight RootCountNode.empty C1 1 es).1 C L es).1.getCount
          (.Int p)) ∧
    (∀ q, p <:+ q →
      (compressUpToSize getWeight
        (compressUpToSize getWeight RootCountNode.empty C1 1 es).1 C L es).1.getCount (.Int q)
      ≤ (compressUpToSize getWeight
        (compressUpToSize getWeight RootCountNode.empty C1 1 es).1 C L es).1.getCount
          (.Int p)) := by
  refine ⟨fun us hus => two_pass_children getWeight C1 C L hL es hlen p hp us hus, ?_⟩
  rintro q ⟨ext, rfl⟩
  induction ext with
  | nil => exact Nat.le_refl _
  | cons u ext ih =>
    have h1 := two_pass_children getWeight C1 C L hL es hlen (ext ++ p) (by simp [hp]) [u]
      (List.nodup_singleton u)
    simp only [List.map_cons, List.map_nil, List.sum_cons, List.sum_nil, Nat.add_zero] at h1
    exact Nat.le_trans h1 ih

theorem prefix_counts_dominate_witness :
    (2 ≤ 2 ∧ repeatedPairExample.length < 2 ^ 64 ∧ ([1] : IntPath) ≠ []) ∧
    (([2, 3].map (fun u => (compressUpToSize weightCountTimesLength
        (compressUpToSize weightCountTimesLength RootCountNode.empty 2 1 repeatedPairExample).1
          2 2 repeatedPairExample).1.getCount (.Int (u :: [1])))).sum
      ≤ (compressUpToSize weightCountTimesLength
        (compressUpToSize weightCountTimesLength RootCountNode.empty 2 1 repeatedPairExample).1
          2 2 repeatedPairExample).1.getCount (.Int [1])) :=
  ⟨⟨by decide, by decide, by decide⟩,
    (prefix_counts_dominate weightCountTimesLength 2 2 2 (by decide) repeatedPairExample
      (by decide) [1] (by decide)).1 [2, 3] (by decide)⟩

end TwoPassTheorems

section SaturationTheorems

variable (getWeight : CountNode → Nat → Nat)

theorem sum_change_mem (f g : IntType → Nat) (v : IntType) :
    ∀ us : List IntType, us.Nodup → (∀ u ∈ us, u ≠ v → f u = g u) → v ∈ us →
      (us.map f).sum + g v = (us.map g).sum + f v := by
  intro us
  induction us with
  | nil => intro _ _ h; simp at h
  | cons u us ih =>
    intro hnd hag hv
    rw [List.map_cons, List.sum_cons, List.map_cons, List.sum_cons]
    by_cases huv : u = v
    · subst huv
      have hnot := (List.nodup_cons.1 hnd).1
      have : us.map f = us.map g := by
        apply List.map_congr_left
        intro w hw
        apply hag w (List.mem_cons_of_mem _ hw)
        rintro rfl
        exact hnot hw
      rw [this]
      omega
    · have h1 := hag u (List.mem_cons_self _ _) huv
      have hv2 : v ∈ us := by
        rcases List.mem_cons.1 hv with h | h
        · exact absurd h.symm huv
        · exact h
      have := ih (List.nodup_cons.1 hnd).2 (fun w hw => hag w (List.mem_cons_of_mem _ hw)) hv2
      omega

theorem sum_change_not_mem (f g : IntType → Nat) (v : IntType) (us : List IntType)
    (hag : ∀ u ∈ us, u ≠ v → f u = g u) (hv : v ∉ us) :
    (us.map f).sum = (us.map g).sum := by
  have : us.map f = us.map g := by
    apply List.map_congr_left
    intro w hw
    apply hag w hw
    rintro rfl
    exact hv hw
  rw [this]

theorem childSum_le_of_subset (M M2 : List CountNode) (Root : RootCountNode) (p : IntPath)
    (us : List IntType) (h : ∀ x, x ∈ M → x ∈ M2) :
    childSum M2 Root p us ≤ childSum M Root p us := by
  unfold childSum
  induction us with
  | nil => simp
  | cons u us ih =>
    simp only [List.map_cons, List.sum_cons]
    have : (if CountNode.Int (u :: p) ∈ M2 then 0 else Root.getCount (.Int (u :: p)))
        ≤ (if CountNode.Int (u :: p) ∈ M then 0 else Root.getCount (.Int (u :: p))) := by
      by_cases h1 : CountNode.Int (u :: p) ∈ M
      · rw [if_pos h1, if_pos (h _ h1)]
      · rw [if_neg h1]
        split_ifs
        · exact Nat.zero_le _
        · exact Nat.le_refl _
    omega

/-- With the child for `h` lowered by `c`, or marked, the parent has `c` to
spare. -/
theorem childSum_slack (M M2 : List CountNode) (R R2 : RootCountNode) (q : IntPath)
    (h : IntType) (c : Nat)
    (hcons : ∀ us : List IntType, us.Nodup → childSum M R q us ≤ R.getCount (.Int q))
    (hM : CountNode.Int (h :: q) ∉ M)
    (hother : ∀ u, u ≠ h →
      (if CountNode.Int (u :: q) ∈ M2 then 0 else R2.getCount (.Int (u :: q)))
        = (if CountNode.Int (u :: q) ∈ M then 0 else R.getCount (.Int (u :: q))))
    (hchild : (if CountNode.Int (h :: q) ∈ M2 then 0 else R2.getCount (.Int (h :: q))) + c
      ≤ R.getCount (.Int (h :: q)))
    (us : List IntType) (hus : us.Nodup) :
    childSum M2 R2 q us + c ≤ R.getCount (.Int q) := by
  by_cases hmem : h ∈ us
  · have h1 := sum_change_mem
      (fun u => if CountNode.Int (u :: q) ∈ M2 then 0 else R2.getCount (.Int (u :: q)))
      (fun u => if CountNode.Int (u :: q) ∈ M then 0 else R.getCount (.Int (u :: q)))
      h us hus (fun u _ hu => hother u hu) hmem
    have h2 := hcons us hus
    unfold childSum at h2 ⊢
    simp only [if_neg hM] at h1
    omega
  · have h1 := sum_change_not_mem
      (fun u => if CountNode.Int (u :: q) ∈ M2 then 0 else R2.getCount (.Int (u :: q)))
      (fun u => if CountNode.Int (u :: q) ∈ M then 0 else R.getCount (.Int (u :: q)))
      h us (fun u _ hu => hother u hu) hmem
    have h2 := hcons (h :: us) (List.nodup_cons.2 ⟨hmem, hus⟩)
    unfold childSum at h2 ⊢
    simp only [List.map_cons, List.sum_cons, if_neg hM] at h2
    have h3 : 0 ≤ (if CountNode.Int (h :: q) ∈ M2 then 0 else R2.getCount (.Int (h :: q))) :=
      Nat.zero_le _
    omega

theorem childSum_congr (M : List CountNode) (R R2 : RootCountNode) (q : IntPath)
    (us : List IntType) (h : ∀ u ∈ us, R2.getCount (.Int (u :: q)) = R.getCount (.Int (u :: q))) :
    childSum M R2 q us = childSum M R q us := by
  unfold childSum
  congr 1
  apply List.map_congr_left
  intro u hu
  rw [h u hu]

theorem subtractedFrom_cons (x : CountNode) (s : TrimStep) (steps : List TrimStep) :
    subtractedFrom x (s :: steps)
      = (if s.Parent = x then s.Count else 0) + subtractedFrom x steps := by
  unfold subtractedFrom
  by_cases h : s.Parent = x
  · simp [List.filter_cons, h]
  · simp [List.filter_cons, h]

theorem subtractedFrom_append (x : CountNode) (a b : List TrimStep) :
    subtractedFrom x (a ++ b) = subtractedFrom x a + subtractedFrom x b := by
  unfold subtractedFrom
  simp [List.filter_append]

theorem trimLoop_cons_cons (c : Nat) (v h : IntType) (q : IntPath)
    (st : AbbreviationsCollector) :
    trimLoop getWeight c (v :: h :: q) st
      = if st.Root.hasNode (.Int (h :: q)) = false then st
        else if CountNode.Int (v :: h :: q) ∈ st.TrimmedNodes then st
        else if st.Root.getCount (.Int (h :: q)) = st.Root.getCount (.Int (h :: q)) - c then st
        else trimLoop getWeight c (h :: q)
          (trimParent getWeight (.Int (h :: q)) (st.Root.getCount (.Int (h :: q)) - c) st) := by
  rw [trimLoop]
  simp only [newCount_eq]

theorem trimSteps_cons_cons (c : Nat) (v h : IntType) (q : IntPath)
    (st : AbbreviationsCollector) :
    trimSteps getWeight c (v :: h :: q) st
      = if st.Root.hasNode (.Int (h :: q)) = false then []
        else if CountNode.Int (v :: h :: q) ∈ st.TrimmedNodes then []
        else { Parent := .Int (h :: q), OldCount := st.Root.getCount (.Int (h :: q)),
               Count := c } ::
          (if st.Root.getCount (.Int (h :: q)) = st.Root.getCount (.Int (h :: q)) - c then []
          else trimSteps getWeight c (h :: q)
            (trimParent getWeight (.Int (h :: q)) (st.Root.getCount (.Int (h :: q)) - c) st)) := by
  rw [trimSteps]
  simp only [newCount_eq]

theorem cons_ne_self (u : IntType) (q : IntPath) : u :: q ≠ q := by
  intro h
  have := congrArg List.length h
  simp at this

/-- The walk up the parents keeps the trie consistent up to the marked nodes
and never subtracts more than a parent has: `M` are the marked nodes with the
added node, `p` is the chain of `NextNd`, and the parent of `NextNd` has `c` to
spare unless `NextNd` is marked. -/
theorem trimLoop_consistent (c : Nat) (M : List CountNode) :
    ∀ (p : IntPath) (st : AbbreviationsCollector),
      (∀ r, r ≠ [] → r ≠ p.tail → ∀ us : List IntType, us.Nodup →
        childSum M st.Root r us ≤ st.Root.getCount (.Int r)) →
      (p.tail ≠ [] → CountNode.Int p ∉ st.TrimmedNodes → ∀ us : List IntType, us.Nodup →
        childSum M st.Root p.tail us + c ≤ st.Root.getCount (.Int p.tail)) →
      (p.tail ≠ [] → CountNode.Int p ∈ st.TrimmedNodes → ∀ us : List IntType, us.Nodup →
        childSum M st.Root p.tail us ≤ st.Root.getCount (.Int p.tail)) →
      (∀ r, r <:+ p → r ≠ p → r ≠ [] →
        (CountNode.Int r ∈ M ↔ CountNode.Int r ∈ st.TrimmedNodes)) →
      ConsistentUpTo M (trimLoop getWeight c p st).Root ∧
      (∀ s ∈ trimSteps getWeight c p st, s.Count ≤ s.OldCount) ∧
      (∀ x, subtractedFrom x (trimSteps getWeight c p st)
        + (trimLoop getWeight c p st).Root.getCount x = st.Root.getCount x) := by
  intro p
  induction p with
  | nil =>
    intro st H1 _ _ _
    refine ⟨fun r hr us hus => H1 r hr hr us hus, by simp [trimSteps], ?_⟩
    intro x
    simp [trimSteps, trimLoop, subtractedFrom]
  | cons v q ih =>
    intro st H1 H2 H3 H4
    cases q with
    | nil =>
      refine ⟨fun r hr us hus => H1 r hr hr us hus, by simp [trimSteps], ?_⟩
      intro x
      simp [trimSteps, trimLoop, subtractedFrom]
    | cons h q =>
      simp only [List.tail_cons] at H1 H2 H3
      have hq : (h :: q) ≠ [] := List.cons_ne_nil _ _
      have hstay : ConsistentUpTo M st.Root := by
        intro r hr us hus
        by_cases hrq : r = h :: q
        · subst hrq
          by_cases hm : CountNode.Int (v :: h :: q) ∈ st.TrimmedNodes
          · exact H3 hq hm us hus
          · have := H2 hq hm us hus
            omega
        · exact H1 r hr hrq us hus
      rw [trimLoop_cons_cons, trimSteps_cons_cons]
      by_cases h1 : st.Root.hasNode (.Int (h :: q)) = false
      · rw [if_pos h1, if_pos h1]
        exact ⟨hstay, by simp, fun x => by simp [subtractedFrom]⟩
      · rw [if_neg h1, if_neg h1]
        by_cases h2 : CountNode.Int (v :: h :: q) ∈ st.TrimmedNodes
        · rw [if_pos h2, if_pos h2]
          exact ⟨hstay, by simp, fun x => by simp [subtractedFrom]⟩
        · rw [if_neg h2, if_neg h2]
          have hslack := H2 hq h2
          have hc : c ≤ st.Root.getCount (.Int (h :: q)) := by
            have := hslack [] List.nodup_nil
            simp only [childSum, List.map_nil, List.sum_nil, Nat.zero_add] at this
            exact this
          by_cases h3 : st.Root.getCount (.Int (h :: q)) = st.Root.getCount (.Int (h :: q)) - c
          · rw [if_pos h3, if_pos h3]
            have hc0 : c = 0 := by omega
            refine ⟨hstay, ?_, ?_⟩
            · intro s hs
              simp only [List.mem_singleton] at hs
              subst hs
              exact hc
            · intro x
              rw [subtractedFrom_cons]
              simp only [subtractedFrom, List.filter_nil, List.map_nil, List.sum_nil, hc0]
              split_ifs <;> omega
          · rw [if_neg h3, if_neg h3]
            have hR : (trimParent getWeight (.Int (h :: q))
                (st.Root.getCount (.Int (h :: q)) - c) st).Root
                = st.Root.setCount (.Int (h :: q)) (st.Root.getCount (.Int (h :: q)) - c) :=
              trimParent_Root getWeight _ _ st
            have hT : (trimParent getWeight (.Int (h :: q))
                (st.Root.getCount (.Int (h :: q)) - c) st).TrimmedNodes = st.TrimmedNodes :=
              trimParent_TrimmedNodes getWeight _ _ st
            have hget : ∀ x, (trimParent getWeight (.Int (h :: q))
                (st.Root.getCount (.Int (h :: q)) - c) st).Root.getCount x
                = if x = .Int (h :: q) then st.Root.getCount (.Int (h :: q)) - c
                  else st.Root.getCount x := by
              intro x
              rw [hR, getCount_setCount]
            have hqq : (h :: q) ≠ q := cons_ne_self h q
            have hmarkq : CountNode.Int (h :: q) ∈ M ↔ CountNode.Int (h :: q) ∈ st.TrimmedNodes :=
              H4 (h :: q) (List.suffix_cons _ _) (cons_ne_self v (h :: q)).symm hq
            obtain ⟨g1, g2, g3⟩ := ih
              (trimParent getWeight (.Int (h :: q)) (st.Root.getCount (.Int (h :: q)) - c) st)
              (by
                intro r hr hrq us hus
                simp only [List.tail_cons] at hrq
                by_cases hrq2 : r = h :: q
                · subst hrq2
                  rw [childSum_congr M st.Root _ (h :: q) us (fun u _ => by
                    rw [hget, if_neg (fun e => cons_ne_self u (h :: q) (CountNode.Int.inj e))])]
                  rw [hget, if_pos rfl]
                  have := hslack us hus
                  omega
                · rw [childSum_congr M st.Root _ r us (fun u _ => by
                    rw [hget, if_neg (fun e => hrq (List.cons.inj (CountNode.Int.inj e)).2)])]
                  rw [hget, if_neg (fun e => hrq2 (CountNode.Int.inj e))]
                  exact H1 r hr hrq2 us hus)
              (by
                intro hq2 hm us hus
                simp only [List.tail_cons] at hq2 ⊢
                rw [hT] at hm
                rw [hget, if_neg (fun e => hqq (CountNode.Int.inj e).symm)]
                apply childSum_slack M M st.Root _ q h c
                  (fun us hus => H1 q hq2 (fun e => hqq e.symm) us hus)
                  (fun hmem => hm (hmarkq.1 hmem)) _ _ us hus
                · intro u hu
                  rw [hget, if_neg (fun e => hu (List.cons.inj (CountNode.Int.inj e)).1)]
                · rw [if_neg (fun hmem => hm (hmarkq.1 hmem)), hget, if_pos rfl]
                  omega)
              (by
                intro hq2 hm us hus
                simp only [List.tail_cons] at hq2 ⊢
                rw [hT] at hm
                rw [hget, if_neg (fun e => hqq (CountNode.Int.inj e).symm)]
                have hmM := hmarkq.2 hm
                have : childSum M (trimParent getWeight (.Int (h :: q))
                    (st.Root.getCount (.Int (h :: q)) - c) st).Root q us
                    = childSum M st.Root q us := by
                  unfold childSum
                  congr 1
                  apply List.map_congr_left
                  intro u _
                  by_cases hu : u = h
                  · subst hu
                    rw [if_pos hmM, if_pos hmM]
                  · rw [hget, if_neg (fun e => hu (List.cons.inj (CountNode.Int.inj e)).1)]
                rw [this]
                exact H1 q hq2 (fun e => hqq e.symm) us hus)
              (by
                intro r hr hne hr0
                rw [hT]
                refine H4 r (hr.trans (List.suffix_cons _ _)) ?_ hr0
                intro e
                have := hr.length_le
                rw [e] at this
                simp at this)
            refine ⟨g1, ?_, ?_⟩
            · intro s hs
              rcases List.mem_cons.1 hs with rfl | hs
              · exact hc
              · exact g2 s hs
            · intro x
              rw [subtractedFrom_cons]
              have := g3 x
              rw [hget] at this
              simp only
              by_cases hx : x = .Int (h :: q)
              · subst hx
                rw [if_pos rfl] at this ⊢
                omega
              · rw [if_neg hx] at this
                rw [if_neg (fun e => hx e.symm)]
                omega

theorem addAbbreviation_consistent (Flags : CompressionFlags) (st : AbbreviationsCollector)
    (Nd : CountNode) (hJ : ConsistentUpTo st.TrimmedNodes st.Root) :
    ConsistentUpTo (st.addAbbreviation getWeight Flags Nd).TrimmedNodes
      (st.addAbbreviation getWeight Flags Nd).Root ∧
    (∀ s ∈ addAbbreviationSteps getWeight Flags st Nd, s.Count ≤ s.OldCount) ∧
    (∀ x, subtractedFrom x (addAbbreviationSteps getWeight Flags st Nd)
      + (st.addAbbreviation getWeight Flags Nd).Root.getCount x = st.Root.getCount x) := by
  have hnone : ∀ st2 : AbbreviationsCollector, st2.TrimmedNodes = st.TrimmedNodes →
      st2.Root = st.Root →
      ConsistentUpTo st2.TrimmedNodes st2.Root ∧
      (∀ s ∈ ([] : List TrimStep), s.Count ≤ s.OldCount) ∧
      (∀ x, subtractedFrom x [] + st2.Root.getCount x = st.Root.getCount x) := by
    intro st2 e1 e2
    rw [e1, e2]
    exact ⟨hJ, by simp, fun x => by simp [subtractedFrom]⟩
  unfold AbbreviationsCollector.addAbbreviation addAbbreviationSteps
  by_cases h1 : Nd ∈ st.Assignments
  · rw [if_pos h1, if_pos h1]
    exact hnone st rfl rfl
  · rw [if_neg h1, if_neg h1]
    by_cases h2 : Nd.isInt = true ∧ (st.Root.getCount Nd < Flags.CountCutoff ∨
        getWeight Nd (st.Root.getCount Nd) < Flags.WeightCutoff)
    · rw [if_pos h2, if_pos h2]
      exact hnone st rfl rfl
    · rw [if_neg h2, if_neg h2]
      dsimp only
      by_cases h3 : Flags.TrimOverriddenPatterns = false
      · rw [if_pos h3, if_pos h3]
        exact hnone _ rfl rfl
      · rw [if_neg h3, if_neg h3]
        cases Nd with
        | Int p =>
          dsimp only
          have hT := trimLoop_TrimmedNodes getWeight (st.Root.getCount (.Int p)) p
            { st with Assignments := st.Assignments ++ [.Int p] }
          simp only [hT]
          by_cases hm : CountNode.Int p ∈ st.TrimmedNodes
          · rw [if_pos hm]
            exact trimLoop_consistent getWeight (st.Root.getCount (.Int p)) st.TrimmedNodes p
              { st with Assignments := st.Assignments ++ [.Int p] }
              (fun r hr _ us hus => hJ r hr us hus)
              (fun _ hn => absurd hm hn)
              (fun ht _ us hus => hJ _ ht us hus)
              (fun r _ _ _ => Iff.rfl)
          · rw [if_neg hm]
            refine trimLoop_consistent getWeight (st.Root.getCount (.Int p))
              (st.TrimmedNodes ++ [CountNode.Int p]) p
              { st with Assignments := st.Assignments ++ [.Int p] } ?_ ?_
              (fun _ hn => absurd hn hm) ?_
            · intro r hr _ us hus
              exact Nat.le_trans (childSum_le_of_subset st.TrimmedNodes _ st.Root r us
                (fun x hx => List.mem_append_left _ hx)) (hJ r hr us hus)
            · intro ht _ us hus
              cases p with
              | nil => simp at ht
              | cons v q =>
                simp only [List.tail_cons] at ht ⊢
                apply childSum_slack st.TrimmedNodes (st.TrimmedNodes ++ [CountNode.Int (v :: q)])
                  st.Root st.Root q v (st.Root.getCount (.Int (v :: q)))
                  (fun us hus => hJ q ht us hus) hm _ _ us hus
                · intro u hu
                  have : CountNode.Int (u :: q) ∈ st.TrimmedNodes ++ [CountNode.Int (v :: q)]
                      ↔ CountNode.Int (u :: q) ∈ st.TrimmedNodes := by
                    simp only [List.mem_append, List.mem_singleton, CountNode.Int.injEq,
                      List.cons.injEq, and_true]
                    exact ⟨fun h => h.elim id (fun e => absurd e hu), Or.inl⟩
                  simp only [this]
                · rw [if_pos (by simp)]
                  omega
            · intro r _ hne _
              simp only [List.mem_append, List.mem_singleton, CountNode.Int.injEq]
              exact ⟨fun h => h.elim id (fun e => absurd e hne), Or.inl⟩
        | BlockEnter => exact hnone _ rfl rfl
        | BlockExit => exact hnone _ rfl rfl
        | DefaultSingle => exact hnone _ rfl rfl
        | DefaultMultiple => exact hnone _ rfl rfl
        | Align => exact hnone _ rfl rfl

theorem selectLoop_consistent (Flags : CompressionFlags) (fuel : Nat) :
    ∀ st : AbbreviationsCollector, ConsistentUpTo st.TrimmedNodes st.Root →
      ConsistentUpTo (selectLoop getWeight Flags fuel st).TrimmedNodes
        (selectLoop getWeight Flags fuel st).Root ∧
      (∀ s ∈ selectSteps getWeight Flags fuel st, s.Count ≤ s.OldCount) ∧
      (∀ x, subtractedFrom x (selectSteps getWeight Flags fuel st)
        + (selectLoop getWeight Flags fuel st).Root.getCount x = st.Root.getCount x) := by
  induction fuel with
  | zero =>
    intro st hJ
    exact ⟨hJ, by simp [selectSteps], fun x => by simp [selectSteps, selectLoop, subtractedFrom]⟩
  | succ fuel ih =>
    intro st hJ
    unfold selectLoop selectSteps selectStep
    cases hH : st.ValuesHeap with
    | nil =>
      exact ⟨hJ, by simp, fun x => by simp [subtractedFrom]⟩
    | cons Nd Heap =>
      dsimp only
      by_cases hmax : st.Assignments.length < Flags.MaxAbbreviations
      · rw [if_pos hmax, if_pos hmax]
        dsimp only
        obtain ⟨a1, a2, a3⟩ := addAbbreviation_consistent getWeight Flags
          { st with ValuesHeap := Heap } Nd hJ
        obtain ⟨b1, b2, b3⟩ := ih _ a1
        refine ⟨b1, ?_, ?_⟩
        · intro s hs
          rcases List.mem_append.1 hs with h | h
          · exact a2 s h
          · exact b2 s h
        · intro x
          rw [subtractedFrom_append]
          have := a3 x
          have := b3 x
          simp only at *
          omega
      · rw [if_neg hmax, if_neg hmax]
        exact ⟨hJ, by simp, fun x => by simp [subtractedFrom]⟩

theorem addAbbreviation_structural_TrimmedNodes (Flags : CompressionFlags)
    (st : AbbreviationsCollector) (Nd : CountNode) (hNd : Nd.isInt = false) :
    (st.addAbbreviation getWeight Flags Nd).TrimmedNodes = st.TrimmedNodes := by
  unfold AbbreviationsCollector.addAbbreviation
  cases Nd <;> first | (simp [CountNode.isInt] at hNd; done) | (split_ifs <;> rfl)

theorem addOthers_TrimmedNodes (Flags : CompressionFlags) (Others : List CountNode) :
    ∀ (st : AbbreviationsCollector), (∀ Nd ∈ Others, Nd.isInt = false) →
      (addOthers getWeight Flags Others st).TrimmedNodes = st.TrimmedNodes := by
  induction Others with
  | nil => intro st _; rfl
  | cons Nd Others ih =>
    intro st h
    unfold addOthers
    split_ifs
    · exact ih st (fun x hx => h x (List.mem_cons_of_mem _ hx))
    · rw [ih _ (fun x hx => h x (List.mem_cons_of_mem _ hx))]
      exact addAbbreviation_structural_TrimmedNodes getWeight Flags st Nd
        (h Nd (List.mem_cons_self _ _))

theorem assignAbbreviationsInit_TrimmedNodes (Flags : CompressionFlags)
    (Collected : List CountNode) (st : AbbreviationsCollector) :
    (assignAbbreviationsInit getWeight Flags Collected st).TrimmedNodes = [] := by
  unfold assignAbbreviationsInit AbbreviationsCollector.buildHeap
  dsimp only
  rw [(pushHeap_fold_frame getWeight _ _).2.2.1]
  exact addOthers_TrimmedNodes getWeight Flags getOthers _ (by decide)

theorem consistentUpTo_nil (Root : RootCountNode) (h : TrieConsistent Root) :
    ConsistentUpTo [] Root := by
  intro p hp us hus
  have := h p hp us hus
  simpa [childSum] using this

/-- C33: trimming never saturates on a consistent trie.  When the count of
every node of the trie is at least the sum of the counts of its children,
`assignAbbreviations` starts its selection loop with that trie and no node
marked as trimmed, and through any number of rounds of the loop: every round
of a trim walk that computes `NewCount` finds a parent whose count is at
least the count subtracted, the amounts subtracted from a node and the count
it is left with add up to its count at the start, and the trie stays
consistent up to the nodes marked as trimmed.  A call of `addAbbreviation`
for a structural singleton makes no walk. -/
theorem trimming_never_saturates (Flags : CompressionFlags) (Root : RootCountNode)
    (A Collected : List CountNode) (hcons : TrieConsistent Root) (fuel : Nat) :
    (assignAbbreviationsInit getWeight Flags Collected
      (AbbreviationsCollector.make Root A)).Root = Root ∧
    (assignAbbreviationsInit getWeight Flags Collected
      (AbbreviationsCollector.make Root A)).TrimmedNodes = [] ∧
    (∀ s ∈ selectSteps getWeight Flags fuel (assignAbbreviationsInit getWeight Flags Collected
        (AbbreviationsCollector.make Root A)), s.Count ≤ s.OldCount) ∧
    (∀ x, subtractedFrom x (selectSteps getWeight Flags fuel
        (assignAbbreviationsInit getWeight Flags Collected (AbbreviationsCollector.make Root A)))
      + (selectLoop getWeight Flags fuel (assignAbbreviationsInit getWeight Flags Collected
        (AbbreviationsCollector.make Root A))).Root.getCount x = Root.getCount x) ∧
    ConsistentUpTo
      (selectLoop getWeight Flags fuel (assignAbbreviationsInit getWeight Flags Collected
        (AbbreviationsCollector.make Root A))).TrimmedNodes
      (selectLoop getWeight Flags fuel (assignAbbreviationsInit getWeight Flags Collected
        (AbbreviationsCollector.make Root A))).Root ∧
    (∀ (st : AbbreviationsCollector) (Nd : CountNode), Nd.isInt = false →
      addAbbreviationSteps getWeight Flags st Nd = []) := by
  have hR := (assignAbbreviationsInit_frame getWeight Flags Collected
    (AbbreviationsCollector.make Root A)).1
  have hT := assignAbbreviationsInit_TrimmedNodes getWeight Flags Collected
    (AbbreviationsCollector.make Root A)
  have hJ : ConsistentUpTo
      (assignAbbreviationsInit getWeight Flags Collected
        (AbbreviationsCollector.make Root A)).TrimmedNodes
      (assignAbbreviationsInit getWeight Flags Collected
        (AbbreviationsCollector.make Root A)).Root := by
    rw [hR, hT]
    exact consistentUpTo_nil Root hcons
  obtain ⟨b1, b2, b3⟩ := selectLoop_consistent getWeight Flags fuel _ hJ
  refine ⟨hR, hT, b2, ?_, b1, ?_⟩
  · intro x
    have := b3 x
    rw [hR] at this
    exact this
  · intro st Nd hNd
    unfold addAbbreviationSteps
    cases Nd <;> first | (simp [CountNode.isInt] at hNd; done) | (split_ifs <;> rfl)

theorem consistentExample_getCount (x : IntPath) :
    consistentExample.getCount (.Int x)
      = if x = [2, 1] then 3 else if x = [1] then 5 else 0 := by
  unfold consistentExample
  rw [getCount_setCount, getCount_setCount]
  simp [RootCountNode.empty, RootCountNode.getCount]

theorem consistentExample_consistent : TrieConsistent consistentExample := by
  intro p hp us hus
  apply sum_le_of_single _ 2 _ _ us hus
  · intro u _ hu
    rw [consistentExample_getCount]
    have h1 : u :: p ≠ [2, 1] := by
      intro e
      exact hu (List.cons.inj e).1
    have h2 : u :: p ≠ [1] := by
      intro e
      exact hp (List.cons.inj e).2
    rw [if_neg h1, if_neg h2]
  · rw [consistentExample_getCount, consistentExample_getCount]
    by_cases h1 : p = [1]
    · subst h1
      decide
    · have : (2 :: p : IntPath) ≠ [2, 1] := by
        intro e
        exact h1 (List.cons.inj e).2
      have h2 : (2 :: p : IntPath) ≠ [1] := by
        intro e
        exact hp (List.cons.inj e).2
      rw [if_neg this, if_neg h2]
      exact Nat.zero_le _

theorem trimming_never_saturates_witness :
    TrieConsistent consistentExample ∧
    (∀ s ∈ selectSteps weightCountTimesLength exampleFlags 2
        (assignAbbreviationsInit weightCountTimesLength exampleFlags [.Int [2, 1], .Int [1]]
          (AbbreviationsCollector.make consistentExample [])), s.Count ≤ s.OldCount) :=
  ⟨consistentExample_consistent,
    (trimming_never_saturates weightCountTimesLength exampleFlags consistentExample []
      [.Int [2, 1], .Int [1]] consistentExample_consistent 2).2.2.1⟩

theorem trimming_never_saturates_example :
    selectSteps weightCountTimesLength exampleFlags 2
        (assignAbbreviationsInit weightCountTimesLength exampleFlags [.Int [2, 1], .Int [1]]
          (AbbreviationsCollector.make consistentExample []))
      = [{ Parent := .Int [1], OldCount := 5, Count := 3 }] ∧
    (selectLoop weightCountTimesLength exampleFlags 2
        (assignAbbreviationsInit weightCountTimesLength exampleFlags [.Int [2, 1], .Int [1]]
          (AbbreviationsCollector.make consistentExample []))).Root.getCount (.Int [1]) = 2 := by
  decide

end SaturationTheorems

section RoundTripTheorems

variable (getWeight : CountNode → Nat → Nat)

theorem pushSubblock_frame (s : IntStream) (B X : BlockPtr) :
    (s.pushSubblock B X).Values = s.Values ∧
    (s.pushSubblock B X).isFrozenFlag = s.isFrozenFlag ∧
    (s.pushSubblock B X).Blocks.length = s.Blocks.length := by
  cases B with
  | Top => simp [IntStream.pushSubblock]
  | Sub i =>
    cases h : s.Blocks[i]? with
    | none => simp [IntStream.pushSubblock, h]
    | some b => simp [IntStream.pushSubblock, h]

theorem getBlock_pushSubblock (s : IntStream) (B X B2 : BlockPtr) :
    (s.pushSubblock B X).getBlock B2
      = (s.getBlock B2).map (fun b =>
          if B2 = B then { b with Subblocks := b.Subblocks ++ [X] } else b) := by
  cases B with
  | Top =>
    cases B2 with
    | Top => simp [IntStream.pushSubblock, IntStream.getBlock]
    | Sub j => simp [IntStream.pushSubblock, IntStream.getBlock]
  | Sub i =>
    cases h : s.Blocks[i]? with
    | none =>
      simp only [IntStream.pushSubblock, h]
      cases B2 with
      | Top => simp [IntStream.getBlock]
      | Sub j =>
        by_cases hji : j = i
        · subst hji
          simp [IntStream.getBlock, h]
        · have : BlockPtr.Sub j ≠ BlockPtr.Sub i := fun e => hji (BlockPtr.Sub.inj e)
          simp [IntStream.getBlock, this]
    | some b =>
      simp only [IntStream.pushSubblock, h]
      cases B2 with
      | Top => simp [IntStream.getBlock]
      | Sub j =>
        by_cases hji : j = i
        · subst hji
          have hlt : j < s.Blocks.length := by
            by_contra hge
            rw [List.getElem?_eq_none (by omega)] at h
            cases h
          simp [IntStream.getBlock, h, hlt]
        · have : BlockPtr.Sub j ≠ BlockPtr.Sub i := fun e => hji (BlockPtr.Sub.inj e)
          have hij : i ≠ j := fun e => hji e.symm
          simp [IntStream.getBlock, this, List.getElem?_set_ne hij]

theorem getBlock_values (s : IntStream) (vs : List IntType) (B : BlockPtr) :
    ({ s with Values := vs } : IntStream).getBlock B = s.getBlock B := by
  cases B <;> rfl

theorem getBlock_appendBlock (s : IntStream) (nb : Block) (B : BlockPtr) (b : Block)
    (h : s.getBlock B = some b) :
    ({ s with Blocks := s.Blocks ++ [nb] } : IntStream).getBlock B = some b := by
  cases B with
  | Top => exact h
  | Sub i =>
    simp only [IntStream.getBlock] at h ⊢
    have hlt : i < s.Blocks.length := by
      by_contra hge
      rw [List.getElem?_eq_none (by omega)] at h
      cases h
    rw [List.getElem?_append_left hlt]
    exact h

theorem getBlock_appendBlock_new (s : IntStream) (nb : Block) :
    ({ s with Blocks := s.Blocks ++ [nb] } : IntStream).getBlock (.Sub s.Blocks.length)
      = some nb := by
  simp [IntStream.getBlock]

theorem getBlock_sub_lt (s : IntStream) (i : Nat) (b : Block)
    (h : s.getBlock (.Sub i) = some b) : i < s.Blocks.length := by
  simp only [IntStream.getBlock] at h
  by_contra hge
  rw [List.getElem?_eq_none (by omega)] at h
  cases h

theorem writeInv_last (c : WriteCursor) (s : IntStream) (hW : WriteInv c s) :
    ∃ Blk b, c.EnclosingBlocks.getLast? = some Blk ∧ Blk ∈ c.EnclosingBlocks ∧
      s.getBlock Blk = some b ∧ b.EndIndex = sizeMax := by
  obtain ⟨-, -, -, ⟨rest, hrest, -⟩, hopen⟩ := hW
  have hne : c.EnclosingBlocks ≠ [] := by
    rw [hrest]
    exact List.cons_ne_nil _ _
  have hmem := List.getLast_mem hne
  obtain ⟨b, hb, hb2⟩ := hopen _ hmem
  exact ⟨_, b, List.getLast?_eq_getLast _ hne, hmem, hb, hb2⟩

theorem write_ok (c : WriteCursor) (s : IntStream) (v : IntType) (hW : WriteInv c s)
    (hle : s.Values.length ≤ sizeMax) :
    ∃ c1 s1, c.apply s (.write v) = some (c1, s1) ∧ WriteInv c1 s1 ∧
      c1.EnclosingBlocks = c.EnclosingBlocks ∧ s1.Values.length = s.Values.length + 1 ∧
      ∀ t, Extends c1 s1 t →
        Extends c s t ∧
        (readCursorOf c s t.Blocks.length).apply t (.write v)
          = some (.value v, readCursorOf c1 s1 t.Blocks.length) := by
  obtain ⟨Blk, b, hlast, hmem, hb, hbe⟩ := writeInv_last c s hW
  obtain ⟨hidx, hfr, hnd, ⟨rest, hrest, hsub⟩, hopen⟩ := hW
  refine ⟨{ c with Index := c.Index + 1 }, { s with Values := s.Values ++ [v] }, ?_, ?_, rfl,
    by simp, ?_⟩
  · simp only [WriteCursor.apply, WriteCursor.write, hlast, hb]
    rw [if_pos (by rw [hbe, hidx]; exact hle)]
    rfl
  · refine ⟨by simp [hidx], hfr, hnd, ⟨rest, hrest, hsub⟩, ?_⟩
    intro B hB
    obtain ⟨b2, h1, h2⟩ := hopen B hB
    exact ⟨b2, by rw [getBlock_values]; exact h1, h2⟩
  · intro t ⟨e1, e2, e3, e4, e5⟩
    refine ⟨⟨?_, ?_, ?_, ?_, e5⟩, ?_⟩
    · exact (List.prefix_append _ _).trans e1
    · intro B b2 h1 h2
      exact e2 B b2 (by rw [getBlock_values]; exact h1) h2
    · intro B b2 h1
      exact e3 B b2 (by rw [getBlock_values]; exact h1)
    · intro B hB
      obtain ⟨b2, h1, h2⟩ := e4 B hB
      exact ⟨b2, h1, by simp only at h2; omega⟩
    · obtain ⟨b2, h1, h2⟩ := e4 Blk hmem
      simp only at h2
      obtain ⟨tl, htl⟩ := e1
      simp only at htl
      have hv : t.Values[c.Index]? = some v := by
        rw [← htl, hidx, List.append_assoc, List.getElem?_append_right (Nat.le_refl _)]
        simp
      have hl : (readCursorOf c s t.Blocks.length).EnclosingBlocks.getLast? = some Blk := hlast
      simp only [ReadCursor.apply, ReadCursor.read, hl, h1]
      have hi : (readCursorOf c s t.Blocks.length).Index = c.Index := rfl
      rw [hi, if_pos (by omega)]
      simp only [hv]
      rfl

theorem open_ok (c : WriteCursor) (s : IntStream) (hW : WriteInv c s) :
    ∃ c1 s1, c.apply s .openBlock = some (c1, s1) ∧ WriteInv c1 s1 ∧
      c1.EnclosingBlocks.length = c.EnclosingBlocks.length + 1 ∧ s1.Values = s.Values ∧
      ∀ t, Extends c1 s1 t →
        Extends c s t ∧
        (readCursorOf c s t.Blocks.length).apply t .openBlock
          = some (.result true, readCursorOf c1 s1 t.Blocks.length) := by
  obtain ⟨Blk, b, hlast, hmem, hb, hbe⟩ := writeInv_last c s hW
  obtain ⟨hidx, hfr, hnd, ⟨rest, hrest, hsub⟩, hopen⟩ := hW
  obtain ⟨f1, f2, f3⟩ := pushSubblock_frame s Blk (.Sub s.Blocks.length)
  have hnew : BlockPtr.Sub s.Blocks.length ∉ c.EnclosingBlocks := by
    rw [hrest]
    intro hm
    rcases List.mem_cons.1 hm with h | h
    · cases h
    · obtain ⟨i, hi, hlt⟩ := hsub _ h
      have := BlockPtr.Sub.inj hi
      omega
  have hkeep : ∀ B b2, s.getBlock B = some b2 →
      ∃ b3, ({ s.pushSubblock Blk (.Sub s.Blocks.length) with
          Blocks := (s.pushSubblock Blk (.Sub s.Blocks.length)).Blocks
            ++ [Block.make c.Index] } : IntStream).getBlock B = some b3 ∧
        b3.BeginIndex = b2.BeginIndex ∧ b3.EndIndex = b2.EndIndex ∧ (B ≠ Blk → b3 = b2) := by
    intro B b2 h1
    have h2 := getBlock_pushSubblock s Blk (.Sub s.Blocks.length) B
    rw [h1] at h2
    simp only [Option.map_some'] at h2
    refine ⟨_, getBlock_appendBlock _ _ B _ h2, ?_, ?_, ?_⟩
    · split_ifs <;> rfl
    · split_ifs <;> rfl
    · intro hne
      rw [if_neg hne]
  have hnewblock : ({ s.pushSubblock Blk (.Sub s.Blocks.length) with
      Blocks := (s.pushSubblock Blk (.Sub s.Blocks.length)).Blocks
        ++ [Block.make c.Index] } : IntStream).getBlock (.Sub s.Blocks.length)
      = some (Block.make c.Index) := by
    have := getBlock_appendBlock_new (s.pushSubblock Blk (.Sub s.Blocks.length))
      (Block.make c.Index)
    rw [f3] at this
    exact this
  refine ⟨{ c with EnclosingBlocks := c.EnclosingBlocks ++ [.Sub s.Blocks.length] },
    { s.pushSubblock Blk (.Sub s.Blocks.length) with
      Blocks := (s.pushSubblock Blk (.Sub s.Blocks.length)).Blocks ++ [Block.make c.Index] },
    ?_, ?_, by simp, f1, ?_⟩
  · simp only [WriteCursor.apply, WriteCursor.openBlock, hlast]
    rfl
  · refine ⟨by simp only; rw [f1]; exact hidx, by simp only; rw [f2]; exact hfr, ?_, ?_, ?_⟩
    · simp only
      rw [List.nodup_append]
      refine ⟨hnd, List.nodup_singleton _, ?_⟩
      intro x hx hx2
      simp only [List.mem_singleton] at hx2
      subst hx2
      exact hnew hx
    · refine ⟨rest ++ [.Sub s.Blocks.length], by simp [hrest], ?_⟩
      intro B hB
      simp only [List.length_append, List.length_singleton, f3]
      rcases List.mem_append.1 hB with h | h
      · obtain ⟨i, hi, hlt⟩ := hsub B h
        exact ⟨i, hi, by omega⟩
      · simp only [List.mem_singleton] at h
        exact ⟨s.Blocks.length, h, by omega⟩
    · intro B hB
      simp only at hB
      rcases List.mem_append.1 hB with h | h
      · obtain ⟨b2, h1, h2⟩ := hopen B h
        obtain ⟨b3, g1, -, g3, -⟩ := hkeep B b2 h1
        exact ⟨b3, g1, by rw [g3, h2]⟩
      · simp only [List.mem_singleton] at h
        subst h
        exact ⟨_, hnewblock, rfl⟩
  · intro t ⟨e1, e2, e3, e4, e5⟩
    simp only [List.length_append, List.length_singleton, f3] at e5
    refine ⟨⟨?_, ?_, ?_, ?_, by omega⟩, ?_⟩
    · simp only at e1
      rw [f1] at e1
      exact e1
    · intro B b2 h1 h2
      have hne : B ≠ Blk := fun e => h2 (e ▸ hmem)
      obtain ⟨b3, g1, -, -, g4⟩ := hkeep B b2 h1
      rw [g4 hne] at g1
      refine e2 B b2 g1 ?_
      simp only
      intro hm
      rcases List.mem_append.1 hm with h | h
      · exact h2 h
      · simp only [List.mem_singleton] at h
        subst h
        have := getBlock_sub_lt s _ _ h1
        omega
    · intro B b2 h1
      obtain ⟨b3, g1, g2, -, -⟩ := hkeep B b2 h1
      obtain ⟨b4, k1, k2⟩ := e3 B b3 g1
      exact ⟨b4, k1, by rw [k2, g2]⟩
    · intro B hB
      exact e4 B (List.mem_append_left _ hB)
    · obtain ⟨b4, k1, k2⟩ := e3 _ _ hnewblock
      have hk : t.Blocks[s.Blocks.length]? = some b4 := k1
      have hbegin : b4.BeginIndex = c.Index := k2
      have hl : (readCursorOf c s t.Blocks.length).EnclosingBlocks.getLast? = some Blk := hlast
      have hn : (readCursorOf c s t.Blocks.length).NextBlock = s.Blocks.length := rfl
      have hE : (readCursorOf c s t.Blocks.length).EndBlocks = t.Blocks.length := rfl
      have hi : (readCursorOf c s t.Blocks.length).Index = c.Index := rfl
      simp only [ReadCursor.apply, ReadCursor.openBlock, hn, hE, hi]
      rw [if_neg (by omega)]
      simp only [hk, hbegin, ne_eq, not_true_eq_false, if_false, hl, Option.map_some']
      simp [readCursorOf, f3]

theorem close_ok (c : WriteCursor) (s : IntStream) (hW : WriteInv c s)
    (hlen : 2 ≤ c.EnclosingBlocks.length) :
    ∃ c1 s1, c.apply s .closeBlock = some (c1, s1) ∧ WriteInv c1 s1 ∧
      c1.EnclosingBlocks.length + 1 = c.EnclosingBlocks.length ∧ s1.Values = s.Values ∧
      ∀ t, Extends c1 s1 t →
        Extends c s t ∧
        (readCursorOf c s t.Blocks.length).apply t .closeBlock
          = some (.result true, readCursorOf c1 s1 t.Blocks.length) := by
  obtain ⟨Blk, b, hlast, hmem, hb, hbe⟩ := writeInv_last c s hW
  obtain ⟨hidx, hfr, hnd, ⟨rest, hrest, hsub⟩, hopen⟩ := hW
  have hsplit : c.EnclosingBlocks.dropLast ++ [Blk] = c.EnclosingBlocks :=
    List.dropLast_append_getLast? Blk hlast
  have hnd2 : (c.EnclosingBlocks.dropLast ++ [Blk]).Nodup := by rw [hsplit]; exact hnd
  have hnotin : Blk ∉ c.EnclosingBlocks.dropLast := by
    intro hm
    exact (List.nodup_append.1 hnd2).2.2 hm (List.mem_singleton_self _)
  have hin : ∀ B, B ∈ c.EnclosingBlocks.dropLast → B ∈ c.EnclosingBlocks := by
    intro B hB
    rw [← hsplit]
    exact List.mem_append_left _ hB
  obtain ⟨f1, -, -, f4, f5⟩ := setEndIndex_frame s Blk c.Index
  have hget : ∀ B, (s.setEndIndex Blk c.Index).getBlock B
      = (s.getBlock B).map (fun b2 => if B = Blk then { b2 with EndIndex := c.Index } else b2) :=
    fun B => getBlock_setEndIndex s Blk B c.Index
  have hcur : c.toCursor.closeBlock
      = (some Blk, { c.toCursor with EnclosingBlocks := c.EnclosingBlocks.dropLast }) := by
    unfold Cursor.closeBlock
    rw [if_neg (by omega), hlast]
  refine ⟨{ c with toCursor := { c.toCursor with EnclosingBlocks := c.EnclosingBlocks.dropLast } },
    s.setEndIndex Blk c.Index, ?_, ?_, ?_, f1, ?_⟩
  · simp only [WriteCursor.apply, WriteCursor.closeBlock, hcur]
  · refine ⟨by simp only; rw [f1]; exact hidx, by rw [f4]; exact hfr,
      (List.nodup_append.1 hnd2).1, ?_, ?_⟩
    · refine ⟨rest.dropLast, ?_, ?_⟩
      · simp only
        rw [hrest]
        cases rest with
        | nil => rw [hrest] at hlen; simp at hlen
        | cons x xs => rfl
      · intro B hB
        rw [f5]
        exact hsub B (List.dropLast_subset _ hB)
    · intro B hB
      simp only at hB
      obtain ⟨b2, h1, h2⟩ := hopen B (hin B hB)
      have hne : B ≠ Blk := fun e => hnotin (e ▸ hB)
      exact ⟨b2, by rw [hget, h1]; simp [hne], h2⟩
  · simp only [List.length_dropLast]
    omega
  · intro t ⟨e1, e2, e3, e4, e5⟩
    have hBlk : t.getBlock Blk = some { b with EndIndex := c.Index } := by
      apply e2 Blk _ _ hnotin
      rw [hget, hb]
      simp
    refine ⟨⟨by rw [f1] at e1; exact e1, ?_, ?_, ?_, by rw [f5] at e5; exact e5⟩, ?_⟩
    · intro B b2 h1 h2
      have hne : B ≠ Blk := fun e => h2 (e ▸ hmem)
      refine e2 B b2 (by rw [hget, h1]; simp [hne]) ?_
      intro hm
      exact h2 (hin B hm)
    · intro B b2 h1
      have : ∃ b3, (s.setEndIndex Blk c.Index).getBlock B = some b3
          ∧ b3.BeginIndex = b2.BeginIndex := by
        rw [hget, h1]
        refine ⟨_, rfl, ?_⟩
        split_ifs <;> rfl
      obtain ⟨b3, g1, g2⟩ := this
      obtain ⟨b4, k1, k2⟩ := e3 B b3 g1
      exact ⟨b4, k1, by rw [k2, g2]⟩
    · intro B hB
      rw [← hsplit] at hB
      rcases List.mem_append.1 hB with h | h
      · exact e4 B h
      · simp only [List.mem_singleton] at h
        subst h
        exact ⟨_, hBlk, Nat.le_refl _⟩
    · have hcur2 : (readCursorOf c s t.Blocks.length).toCursor.closeBlock
          = (some Blk, { c.toCursor with EnclosingBlocks := c.EnclosingBlocks.dropLast }) := hcur
      simp only [ReadCursor.apply, ReadCursor.closeBlock, hcur2, hBlk]
      simp [readCursorOf, f5]

theorem round_trip_nil (c : WriteCursor) (s : IntStream) (hW : WriteInv c s)
    (hlen : c.EnclosingBlocks.length = 1) :
    (c.freezeEof s).1 = true ∧ Extends c s (c.freezeEof s).2 ∧
    (readCursorOf c s (c.freezeEof s).2.Blocks.length).atEnd (c.freezeEof s).2 = some true := by
  obtain ⟨hidx, hfr, hnd, ⟨rest, hrest, hsub⟩, hopen⟩ := hW
  have hE : c.EnclosingBlocks = [.Top] := by
    rw [hrest] at hlen ⊢
    cases rest with
    | nil => rfl
    | cons x xs => simp at hlen
  have hf : c.freezeEof s
      = (true, ({ s with isFrozenFlag := true } : IntStream).setEndIndex .Top s.Values.length) := by
    unfold WriteCursor.freezeEof
    rw [if_neg (by simp [IntStream.isFrozen, hfr]), hE]
    rfl
  rw [hf]
  have hget : ∀ B, (({ s with isFrozenFlag := true } : IntStream).setEndIndex .Top
      s.Values.length).getBlock B
      = (s.getBlock B).map (fun b =>
          if B = .Top then { b with EndIndex := s.Values.length } else b) := by
    intro B
    rw [getBlock_setEndIndex]
    cases B <;> rfl
  refine ⟨rfl, ⟨List.prefix_refl _, ?_, ?_, ?_, Nat.le_refl _⟩, ?_⟩
  · intro B b h1 h2
    simp only
    rw [hget, h1]
    have : B ≠ .Top := by
      intro e
      apply h2
      rw [hE, e]
      simp
    simp [this]
  · intro B b h1
    simp only
    rw [hget, h1]
    refine ⟨_, rfl, ?_⟩
    split_ifs <;> rfl
  · intro B hB
    rw [hE] at hB
    simp only [List.mem_singleton] at hB
    subst hB
    simp only
    rw [hget]
    refine ⟨{ s.TopBlock with EndIndex := s.Values.length }, by simp [IntStream.getBlock], ?_⟩
    simp only
    omega
  · simp only
    unfold Cursor.atEnd
    have h1 : (readCursorOf c s (({ s with isFrozenFlag := true } : IntStream).setEndIndex .Top
        s.Values.length).Blocks.length).EnclosingBlocks = [.Top] := hE
    have h2 : (readCursorOf c s (({ s with isFrozenFlag := true } : IntStream).setEndIndex .Top
        s.Values.length).Blocks.length).Index = c.Index := rfl
    rw [h1]
    simp only [List.length_singleton, if_true]
    unfold Cursor.atEof
    rw [h1]
    simp only [List.head?_cons, hget, h2]
    simp [IntStream.getBlock, hidx]

theorem round_trip_from (ops : List CursorOp) :
    ∀ (c : WriteCursor) (s : IntStream) (d : Nat), WriteInv c s →
      c.EnclosingBlocks.length = d + 1 → wellNested d ops = true →
      s.Values.length + ops.length ≤ sizeMax →
      ∃ c2 s2, c.run s ops = some (c2, s2) ∧ (c2.freezeEof s2).1 = true ∧
        Extends c s (c2.freezeEof s2).2 ∧
        ∃ rc, (readCursorOf c s (c2.freezeEof s2).2.Blocks.length).replay
            (c2.freezeEof s2).2 ops = some (expectedResults ops, rc) ∧
          rc.atEnd (c2.freezeEof s2).2 = some true := by
  induction ops with
  | nil =>
    intro c s d hW hd hn _
    have hd0 : d = 0 := by simpa [wellNested] using hn
    subst hd0
    obtain ⟨h1, h2, h3⟩ := round_trip_nil c s hW hd
    exact ⟨c, s, rfl, h1, h2, _, rfl, h3⟩
  | cons op ops ih =>
    intro c s d hW hd hn hlen
    simp only [List.length_cons] at hlen
    have hstep : ∀ (c1 : WriteCursor) (s1 : IntStream) (d1 : Nat) (r : ReadResult),
        c.apply s op = some (c1, s1) → WriteInv c1 s1 → c1.EnclosingBlocks.length = d1 + 1 →
        wellNested d1 ops = true → s1.Values.length + ops.length ≤ sizeMax →
        expectedResults (op :: ops) = r :: expectedResults ops →
        (∀ t, Extends c1 s1 t → Extends c s t ∧
          (readCursorOf c s t.Blocks.length).apply t op
            = some (r, readCursorOf c1 s1 t.Blocks.length)) →
        ∃ c2 s2, c.run s (op :: ops) = some (c2, s2) ∧ (c2.freezeEof s2).1 = true ∧
          Extends c s (c2.freezeEof s2).2 ∧
          ∃ rc, (readCursorOf c s (c2.freezeEof s2).2.Blocks.length).replay
              (c2.freezeEof s2).2 (op :: ops) = some (expectedResults (op :: ops), rc) ∧
            rc.atEnd (c2.freezeEof s2).2 = some true := by
      intro c1 s1 d1 r happ hW1 hd1 hn1 hlen1 hexp hext
      obtain ⟨c2, s2, g1, g2, g3, rc, g4, g5⟩ := ih c1 s1 d1 hW1 hd1 hn1 hlen1
      obtain ⟨k1, k2⟩ := hext _ g3
      refine ⟨c2, s2, ?_, g2, k1, rc, ?_, g5⟩
      · simp only [WriteCursor.run, happ]
        exact g1
      · simp only [ReadCursor.replay, k2, g4, hexp]
    cases op with
    | write v =>
      obtain ⟨c1, s1, a1, a2, a3, a4, a5⟩ := write_ok c s v hW (by omega)
      exact hstep c1 s1 d (.value v) a1 a2 (by rw [a3]; exact hd)
        (by simpa [wellNested] using hn) (by omega) rfl a5
    | openBlock =>
      obtain ⟨c1, s1, a1, a2, a3, a4, a5⟩ := open_ok c s hW
      exact hstep c1 s1 (d + 1) (.result true) a1 a2 (by omega)
        (by simpa [wellNested] using hn) (by rw [a4]; omega) rfl a5
    | closeBlock =>
      cases d with
      | zero => simp [wellNested] at hn
      | succ d =>
        obtain ⟨c1, s1, a1, a2, a3, a4, a5⟩ := close_ok c s hW (by omega)
        exact hstep c1 s1 d (.result true) a1 a2 (by omega)
          (by simpa [wellNested] using hn) (by rw [a4]; omega) rfl a5

theorem writeInv_make : WriteInv WriteCursor.make IntStream.reset := by
  refine ⟨rfl, rfl, by simp [WriteCursor.make, Cursor.make], ⟨[], rfl, by simp⟩, ?_⟩
  intro B hB
  simp only [WriteCursor.make, Cursor.make, List.mem_singleton] at hB
  subst hB
  exact ⟨_, rfl, rfl⟩

/-- C34: the round trip of a stream.  For every well-nested sequence of
`write`, `openBlock` and `closeBlock` of at most `SIZE_MAX` operations, run
by a new write cursor on a new stream: no assertion fails, the following
`freezeEof` returns true, and the replay of the same sequence by a new read
cursor on the frozen stream goes through step by step, where every `read`
returns the value written at that step and every `openBlock` and `closeBlock`
returns true, and `atEnd()` is true for the read cursor at the end. -/
theorem stream_round_trip (ops : List CursorOp) (hn : wellNested 0 ops = true)
    (hlen : ops.length ≤ sizeMax) :
    ∃ c s, WriteCursor.make.run IntStream.reset ops = some (c, s) ∧
      (c.freezeEof s).1 = true ∧
      ∃ rc, (ReadCursor.make (c.freezeEof s).2).replay (c.freezeEof s).2 ops
          = some (expectedResults ops, rc) ∧
        rc.atEnd (c.freezeEof s).2 = some true := by
  obtain ⟨c, s, h1, h2, -, rc, h4, h5⟩ := round_trip_from ops WriteCursor.make IntStream.reset 0
    writeInv_make rfl hn (by simpa [IntStream.reset] using hlen)
  exact ⟨c, s, h1, h2, rc, h4, h5⟩

theorem stream_round_trip_witness :
    (wellNested 0 roundTripExample = true ∧ roundTripExample.length ≤ sizeMax) ∧
    ∃ c s, WriteCursor.make.run IntStream.reset roundTripExample = some (c, s) ∧
      (c.freezeEof s).1 = true ∧
      ∃ rc, (ReadCursor.make (c.freezeEof s).2).replay (c.freezeEof s).2 roundTripExample
          = some (expectedResults roundTripExample, rc) ∧
        rc.atEnd (c.freezeEof s).2 = some true :=
  ⟨⟨by decide, by decide⟩, stream_round_trip roundTripExample (by decide) (by decide)⟩

theorem stream_round_trip_example :
    (WriteCursor.make.run IntStream.reset roundTripExample).map
        (fun r => ((r.1.freezeEof r.2).2.Values,
          (r.1.freezeEof r.2).2.Blocks.map (fun b => (b.BeginIndex, b.EndIndex))))
      = some ([7, 8, 9, 10], [(1, 3), (2, 2)]) ∧
    expectedResults roundTripExample
      = [.value 7, .result true, .value 8, .result true, .result true, .value 9, .result true,
          .value 10] ∧
    (WriteCursor.make.run IntStream.reset [.openBlock]).bind
        (fun r => ((ReadCursor.make (r.1.freezeEof r.2).2).replay (r.1.freezeEof r.2).2
          [.openBlock]).bind (fun x => x.2.atEnd (r.1.freezeEof r.2).2))
      = some false := by
  decide

end RoundTripTheorems

section BackPatchTheorems

variable (getWeight : CountNode → Nat → Nat)

theorem writeBytes_eq (Bytes : List Nat) :
    ∀ (X Y : List Nat), writeBytes { CurAddress := X.length } (X ++ Y) Bytes
      = some ({ CurAddress := X.length + Bytes.length }, X ++ Bytes ++ Y.drop Bytes.length) := by
  induction Bytes with
  | nil => intro X Y; simp [writeBytes]
  | cons b bs ih =>
    intro X Y
    have h1 : decode.WriteCursor.writeByte { CurAddress := X.length } (X ++ Y) b
        = some ({ CurAddress := (X ++ [b]).length }, (X ++ [b]) ++ Y.drop 1) := by
      unfold decode.WriteCursor.writeByte
      rw [if_pos (by simp)]
      simp
    rw [writeBytes, h1]
    simp only
    rw [ih (X ++ [b]) (Y.drop 1)]
    simp [Nat.add_comm, Nat.add_left_comm]

theorem moveBlockLoop_eq (body : List Nat) :
    ∀ (X G rest : List Nat), ∃ T,
      ByteWriteStream.moveBlockLoop body.length { CurAddress := X.length }
          { CurAddress := X.length + G.length } (X ++ G ++ body ++ rest)
        = some ({ CurAddress := X.length + body.length }, X ++ body ++ T) ∧
      T.length = G.length + rest.length := by
  induction body with
  | nil =>
    intro X G rest
    exact ⟨G ++ rest, by simp [ByteWriteStream.moveBlockLoop], by simp⟩
  | cons b bs ih =>
    intro X G rest
    have hread : (decode.ReadCursor.readByte { CurAddress := X.length + G.length }
        (X ++ G ++ (b :: bs) ++ rest)) = (b, { CurAddress := X.length + G.length + 1 }) := by
      unfold decode.ReadCursor.readByte
      have : (X ++ G ++ (b :: bs) ++ rest)[X.length + G.length]? = some b := by
        have e : X ++ G ++ (b :: bs) ++ rest = (X ++ G) ++ (b :: (bs ++ rest)) := by simp
        rw [e, List.getElem?_append_right (by simp)]
        simp
      rw [this]
      rfl
    cases G with
    | nil =>
      have hwrite : decode.WriteCursor.writeByte { CurAddress := X.length }
          (X ++ [] ++ (b :: bs) ++ rest) b
          = some ({ CurAddress := (X ++ [b]).length }, (X ++ [b]) ++ [] ++ bs ++ rest) := by
        unfold decode.WriteCursor.writeByte
        rw [if_pos (by simp)]
        simp
      obtain ⟨T, h1, h2⟩ := ih (X ++ [b]) [] rest
      refine ⟨T, ?_, by simpa using h2⟩
      simp only [List.length_cons, List.length_nil, Nat.add_zero] at hread ⊢
      simp only [ByteWriteStream.moveBlockLoop, hread, hwrite]
      simp only [List.length_append, List.length_singleton, List.length_nil, Nat.add_zero] at h1 ⊢
      rw [h1]
      simp [Nat.add_comm, Nat.add_left_comm]
    | cons g G =>
      have hwrite : decode.WriteCursor.writeByte { CurAddress := X.length }
          (X ++ (g :: G) ++ (b :: bs) ++ rest) b
          = some ({ CurAddress := (X ++ [b]).length },
              (X ++ [b]) ++ (G ++ [b]) ++ bs ++ rest) := by
        unfold decode.WriteCursor.writeByte
        rw [if_pos (by simp)]
        simp
      obtain ⟨T, h1, h2⟩ := ih (X ++ [b]) (G ++ [b]) rest
      refine ⟨T, ?_, by simpa using h2⟩
      simp only [List.length_cons] at hread ⊢
      simp only [ByteWriteStream.moveBlockLoop, hread, hwrite]
      simp only [List.length_append, List.length_singleton] at h1 ⊢
      have e : X.length + (G.length + 1) + 1 = X.length + 1 + (G.length + 1) := by omega
      rw [e, h1]
      simp [Nat.add_comm, Nat.add_left_comm]

theorem sizeSub_of_le (a b : Nat) (h : b ≤ a) : sizeSub a b = a - b := by
  unfold sizeSub
  rw [if_pos h]

/-- C38: the back-patching of the block size is consistent.  `writeBlock` is
called with the bytes `pre` before the write position; the fixed-width size
field has `ChunksInWord` bytes, `ApplyFn` writes the bytes `body` after the
size field and leaves the write position behind them, and the addresses fit
`size_t`.  Then the size computed is the number of body bytes and no
subtraction of addresses borrows.  Without minimisation the size field is
overwritten with the fixed-width encoding of that number and the rest of the
queue and the write position are as `ApplyFn` left them.  With minimisation,
for a variable-length encoding of at most `ChunksInWord` bytes, the number of
bytes moved is the number of body bytes, and the queue holds `pre`, the size
in its variable-length encoding, and the body bytes in their order, with the
write position directly behind them. -/
theorem writeBlock_backpatch (ChunksInWord : Nat) (fixedVaruint32 varuint32 : Nat → List Nat)
    (ApplyFn : BinaryWriter → Option BinaryWriter) (w w2 : BinaryWriter)
    (pre old body rest : List Nat)
    (hfix : ∀ v, (fixedVaruint32 v).length = ChunksInWord)
    (hvar : (varuint32 body.length).length ≤ ChunksInWord)
    (hQ : w.Que = pre ++ old) (hA : w.WritePos.getCurAddress = pre.length)
    (hApply : ApplyFn { w with
      WritePos := { CurAddress := pre.length + ChunksInWord },
      Que := pre ++ fixedVaruint32 0 ++ old.drop ChunksInWord } = some w2)
    (hQ2 : w2.Que = pre ++ fixedVaruint32 0 ++ body ++ rest)
    (hA2 : w2.WritePos.getCurAddress = pre.length + ChunksInWord + body.length)
    (hfit : pre.length + ChunksInWord + body.length < 2 ^ 64) :
    ByteWriteStream.getBlockSize ChunksInWord w.WritePos w2.WritePos = body.length ∧
    w.WritePos.getCurAddress + ChunksInWord ≤ w2.WritePos.getCurAddress ∧
    (w2.MinimizeBlockSize = false →
      BinaryWriter.writeBlock ChunksInWord fixedVaruint32 varuint32 ApplyFn w
        = some { w2 with Que := pre ++ fixedVaruint32 body.length ++ body ++ rest }) ∧
    (w2.MinimizeBlockSize = true →
      pre.length + (varuint32 body.length).length ≤ pre.length + ChunksInWord ∧
      BinaryWriter.blockDiff (pre.length + ChunksInWord)
          (pre.length + (varuint32 body.length).length)
        = ChunksInWord - (varuint32 body.length).length ∧
      ChunksInWord - (varuint32 body.length).length ≤ w2.WritePos.getCurAddress ∧
      pre.length + (varuint32 body.length).length
        ≤ w2.WritePos.getCurAddress - (ChunksInWord - (varuint32 body.length).length) ∧
      BinaryWriter.moveSize w2.WritePos.getCurAddress
          (ChunksInWord - (varuint32 body.length).length)
          (pre.length + (varuint32 body.length).length) = body.length ∧
      ∃ T, BinaryWriter.writeBlock ChunksInWord fixedVaruint32 varuint32 ApplyFn w
          = some { w2 with
              Que := pre ++ varuint32 body.length ++ body ++ T,
              WritePos := { CurAddress :=
                pre.length + (varuint32 body.length).length + body.length } } ∧
        T.length = ChunksInWord - (varuint32 body.length).length + rest.length) := by
  obtain ⟨Q, ⟨a⟩, m⟩ := w
  obtain ⟨Q2, ⟨a2⟩, m2⟩ := w2
  simp only [decode.WriteCursor.getCurAddress] at hA hA2 hQ hQ2 ⊢
  subst hQ hA hQ2 hA2
  have hsize : ByteWriteStream.getBlockSize ChunksInWord { CurAddress := pre.length }
      { CurAddress := pre.length + ChunksInWord + body.length } = body.length := by
    unfold ByteWriteStream.getBlockSize
    simp only [decode.WriteCursor.getCurAddress]
    rw [Nat.mod_eq_of_lt (by omega), sizeSub_of_le _ _ (by omega)]
    omega
  have hstep1 : ByteWriteStream.writeFixedBlockSize fixedVaruint32 { CurAddress := pre.length }
      (pre ++ old) 0
      = some ({ CurAddress := pre.length + ChunksInWord },
          pre ++ fixedVaruint32 0 ++ old.drop ChunksInWord) := by
    unfold ByteWriteStream.writeFixedBlockSize
    rw [writeBytes_eq, hfix]
  refine ⟨hsize, by omega, ?_, ?_⟩
  · intro hm
    subst hm
    have hstep3 : ByteWriteStream.writeFixedBlockSize fixedVaruint32
        { CurAddress := pre.length } (pre ++ fixedVaruint32 0 ++ body ++ rest) body.length
        = some ({ CurAddress := pre.length + ChunksInWord },
            pre ++ fixedVaruint32 body.length ++ body ++ rest) := by
      unfold ByteWriteStream.writeFixedBlockSize
      have e : pre ++ fixedVaruint32 0 ++ body ++ rest
          = pre ++ (fixedVaruint32 0 ++ (body ++ rest)) := by simp
      rw [e, writeBytes_eq, hfix]
      have : (fixedVaruint32 0 ++ (body ++ rest)).drop ChunksInWord = body ++ rest := by
        rw [← hfix 0, List.drop_left]
      rw [this]
      simp
    simp only [BinaryWriter.writeBlock, hstep1, hApply, hsize, hstep3, if_true]
  · intro hm
    subst hm
    obtain ⟨k, hk⟩ : ∃ k, k = (varuint32 body.length).length := ⟨_, rfl⟩
    rw [← hk] at hvar ⊢
    have hdiff : BinaryWriter.blockDiff (pre.length + ChunksInWord) (pre.length + k)
        = ChunksInWord - k := by
      unfold BinaryWriter.blockDiff
      rw [sizeSub_of_le _ _ (by omega)]
      omega
    have hmove : BinaryWriter.moveSize (pre.length + ChunksInWord + body.length)
        (ChunksInWord - k) (pre.length + k) = body.length := by
      unfold BinaryWriter.moveSize
      rw [sizeSub_of_le (pre.length + ChunksInWord + body.length) (ChunksInWord - k) (by omega),
        sizeSub_of_le _ _ (by omega)]
      omega
    refine ⟨by omega, hdiff, by omega, by omega, hmove, ?_⟩
    have hstep3 : ByteWriteStream.writeVarintBlockSize varuint32
        { CurAddress := pre.length } (pre ++ fixedVaruint32 0 ++ body ++ rest) body.length
        = some ({ CurAddress := pre.length + k },
            pre ++ varuint32 body.length ++ (fixedVaruint32 0).drop k ++ body ++ rest) := by
      unfold ByteWriteStream.writeVarintBlockSize
      have e : pre ++ fixedVaruint32 0 ++ body ++ rest
          = pre ++ (fixedVaruint32 0 ++ (body ++ rest)) := by simp
      rw [e, writeBytes_eq, ← hk]
      have : (fixedVaruint32 0 ++ (body ++ rest)).drop k
          = (fixedVaruint32 0).drop k ++ (body ++ rest) :=
        List.drop_append_of_le_length (by rw [hfix]; exact hvar)
      rw [this]
      simp
    by_cases hd : ChunksInWord - k = 0
    · have hkC : k = ChunksInWord := by omega
      have hnil : (fixedVaruint32 0).drop k = [] := by
        rw [List.drop_eq_nil_iff]
        rw [hfix]
        omega
      refine ⟨rest, ?_, by omega⟩
      simp only [BinaryWriter.writeBlock, hstep1, hApply, hsize, hstep3,
        ByteWriteStream.getStreamAddress, decode.WriteCursor.getCurAddress, hdiff, hd,
        ne_eq, not_true_eq_false, if_false, Bool.true_eq_false]
      rw [hnil, hkC]
      simp
    · obtain ⟨T, h1, h2⟩ := moveBlockLoop_eq body (pre ++ varuint32 body.length)
        ((fixedVaruint32 0).drop k) rest
      have hlenX : (pre ++ varuint32 body.length).length = pre.length + k := by
        rw [List.length_append, hk]
      have hlenG : ((fixedVaruint32 0).drop k).length = ChunksInWord - k := by
        rw [List.length_drop, hfix]
      rw [hlenX, hlenG] at h1
      have haddr : pre.length + k + (ChunksInWord - k) = pre.length + ChunksInWord := by omega
      rw [haddr] at h1
      refine ⟨T, ?_, by rw [h2, hlenG]⟩
      simp only [BinaryWriter.writeBlock, hstep1, hApply, hsize, hstep3,
        ByteWriteStream.getStreamAddress, decode.WriteCursor.getCurAddress, hdiff, hd,
        ne_eq, not_false_eq_true, if_true, Bool.true_eq_false, if_false, hmove,
        ByteWriteStream.moveBlock, h1]

theorem writeBlock_backpatch_witness :
    ((exampleVaruint32 [10, 20, 30].length).length ≤ 5 ∧
      exampleApplyFn { exampleBlockWriter with
        WritePos := { CurAddress := [1, 2].length + 5 },
        Que := [1, 2] ++ exampleFixedVaruint32 0 ++ ([] : List Nat).drop 5 }
        = some exampleBlockWritten ∧
      [1, 2].length + 5 + [10, 20, 30].length < 2 ^ 64) ∧
    ByteWriteStream.getBlockSize 5 exampleBlockWriter.WritePos exampleBlockWritten.WritePos
      = [10, 20, 30].length ∧
    BinaryWriter.moveSize exampleBlockWritten.WritePos.getCurAddress
      (5 - (exampleVaruint32 [10, 20, 30].length).length)
      ([1, 2].length + (exampleVaruint32 [10, 20, 30].length).length) = [10, 20, 30].length :=
  ⟨⟨by decide, by decide, by decide⟩,
    (writeBlock_backpatch 5 exampleFixedVaruint32 exampleVaruint32 exampleApplyFn
      exampleBlockWriter exampleBlockWritten [1, 2] [] [10, 20, 30] [] (fun _ => rfl)
      (by decide) rfl rfl (by decide) rfl rfl (by decide)).1,
    ((writeBlock_backpatch 5 exampleFixedVaruint32 exampleVaruint32 exampleApplyFn
      exampleBlockWriter exampleBlockWritten [1, 2] [] [10, 20, 30] [] (fun _ => rfl)
      (by decide) rfl rfl (by decide) rfl rfl (by decide)).2.2.2 rfl).2.2.2.2.1⟩

theorem writeBlock_backpatch_example :
    BinaryWriter.writeBlock 5 exampleFixedVaruint32 exampleVaruint32 exampleApplyFn
        exampleBlockWriter
      = some { Que := [1, 2, 3, 10, 20, 30, 0, 10, 20, 30], WritePos := { CurAddress := 6 },
               MinimizeBlockSize := true } ∧
    BinaryWriter.writeBlock 5 exampleFixedVaruint32 exampleVaruint32 exampleApplyFn
        { exampleBlockWriter with MinimizeBlockSize := false }
      = some { Que := [1, 2, 131, 128, 128, 128, 0, 10, 20, 30], WritePos := { CurAddress := 10 },
               MinimizeBlockSize := false } ∧
    (BinaryWriter.writeBlock 5 exampleFixedVaruint32 exampleVaruint32
        (BinaryWriter.writeBlock 5 exampleFixedVaruint32 exampleVaruint32 exampleApplyFn)
        exampleBlockWriter).map (fun w => (w.Que.take w.WritePos.getCurAddress))
      = some [1, 2, 4, 3, 10, 20, 30] := by
  decide

end BackPatchTheorems

section RewriteTheorems

variable (getWeight : CountNode → Nat → Nat)

theorem seedDefaultCounts_others (MyFlags : CompressionFlags) (Root : RootCountNode) :
    (seedDefaultCounts MyFlags Root).getCount .BlockEnter = Root.getCount .BlockEnter ∧
    (seedDefaultCounts MyFlags Root).getCount .BlockExit = Root.getCount .BlockExit := by
  unfold seedDefaultCounts
  dsimp only
  split_ifs <;> simp [getCount_setCount]

theorem generateIntOutput_decodes (co : Collaborators) (c : IntCompressor)
    (A : List CountNode) (hA : c.AbbrevAssignments = some A)
    (hD : DictOK A c.AbbrevIndex)
    (hS : SingletonsAssigned A (!c.MyFlags.UseHuffmanEncoding) (c.Contents.getD [])) :
    (c.generateIntOutput co).2 = !co.RewriteErrors ∧
    ∃ out, (c.generateIntOutput co).1.IntOutput = some out ∧
      decode A c.AbbrevIndex out = some (streamBody (c.Contents.getD [])) := by
  obtain ⟨h1, _, h3, _⟩ := rewriter_structuralRead_spec (c.Contents.getD [])
    (AbbrevAssignWriter.make (c.Root.getD RootCountNode.empty) A c.AbbrevIndex
      (c.MyFlags.PatternLengthLimit * c.MyFlags.PatternLengthMultiplier)
      (!c.MyFlags.UseHuffmanEncoding)) hD hS [] rfl
  unfold IntCompressor.generateIntOutput
  dsimp only
  rw [hA]
  dsimp only [Option.getD_some]
  rw [h1]
  exact ⟨by simp, _, rfl, by simpa using h3⟩

theorem assignInitialAbbreviations_state (co : Collaborators) (c : IntCompressor)
    (R : RootCountNode) (hR : c.Root = some R) :
    (c.assignInitialAbbreviations getWeight co []).AbbrevAssignments
      = some ((AbbreviationsCollector.make R []).assignAbbreviations getWeight c.MyFlags
          (co.Collected R)).Assignments ∧
    (c.assignInitialAbbreviations getWeight co []).AbbrevIndex
      = ((AbbreviationsCollector.make R []).assignAbbreviations getWeight c.MyFlags
          (co.Collected R)).AbbrevIndex ∧
    (c.assignInitialAbbreviations getWeight co []).Contents = c.Contents ∧
    (c.assignInitialAbbreviations getWeight co []).MyFlags = c.MyFlags := by
  have hg : c.getRoot = (c, R) := by
    simp only [IntCompressor.getRoot, hR]
  unfold IntCompressor.assignInitialAbbreviations
  dsimp only
  rw [hg]
  exact ⟨rfl, rfl, rfl, rfl⟩

theorem compressSelected_results (co : Collaborators) (c : IntCompressor) :
    (c.compressSelected getWeight co).AbbrevAssignments
      = (IntCompressor.assignInitialAbbreviations getWeight co
          { c with Root := c.Root.map (seedDefaultCounts c.MyFlags) } []).AbbrevAssignments ∧
    (c.compressSelected getWeight co).AbbrevIndex
      = (IntCompressor.assignInitialAbbreviations getWeight co
          { c with Root := c.Root.map (seedDefaultCounts c.MyFlags) } []).AbbrevIndex ∧
    (c.compressSelected getWeight co).IntOutput
      = (IntCompressor.generateIntOutput co
          { (IntCompressor.assignInitialAbbreviations getWeight co
              { c with Root := c.Root.map (seedDefaultCounts c.MyFlags) } []) with
            Root := (IntCompressor.assignInitialAbbreviations getWeight co
              { c with Root := c.Root.map (seedDefaultCounts c.MyFlags) } []).Root.map
                co.zeroSmallUsageCounts
            IntOutput := some [] }).1.IntOutput := by
  unfold IntCompressor.compressSelected
  dsimp only
  split_ifs
  · exact ⟨rfl, rfl, rfl⟩
  · exact ⟨rfl, rfl, rfl⟩
  · unfold IntCompressor.writeDataOutput
    dsimp only
    split_ifs <;> exact ⟨rfl, rfl, rfl⟩

theorem compressSelected_decodes (co : Collaborators) (c : IntCompressor) (R : RootCountNode)
    (hR : c.Root = some R)
    (hE : StreamEvent.BlockEnter ∈ c.Contents.getD [] → R.getCount .BlockEnter ≠ 0)
    (hX : StreamEvent.BlockExit ∈ c.Contents.getD [] → R.getCount .BlockExit ≠ 0) :
    ∃ A out, (c.compressSelected getWeight co).AbbrevAssignments = some A ∧
      (c.compressSelected getWeight co).IntOutput = some out ∧
      decode A (c.compressSelected getWeight co).AbbrevIndex out
        = some (streamBody (c.Contents.getD [])) := by
  obtain ⟨r1, r2, r3⟩ := compressSelected_results getWeight co c
  obtain ⟨a1, a2, a3, a4⟩ := assignInitialAbbreviations_state getWeight co
    { c with Root := c.Root.map (seedDefaultCounts c.MyFlags) } (seedDefaultCounts c.MyFlags R)
    (by simp [hR])
  dsimp only at a1 a2 a3 a4
  obtain ⟨s1, s2, s3⟩ := seedDefaultCounts_getCount c.MyFlags R
  obtain ⟨o1, o2⟩ := seedDefaultCounts_others c.MyFlags R
  have hD := assignAbbreviations_DictOK getWeight c.MyFlags
    (co.Collected (seedDefaultCounts c.MyFlags R))
    (AbbreviationsCollector.make (seedDefaultCounts c.MyFlags R) [])
  have hS : SingletonsAssigned
      ((AbbreviationsCollector.make (seedDefaultCounts c.MyFlags R) []).assignAbbreviations
        getWeight c.MyFlags (co.Collected (seedDefaultCounts c.MyFlags R))).Assignments
      (!c.MyFlags.UseHuffmanEncoding) (c.Contents.getD []) := by
    refine ⟨?_, ?_, ?_, ?_⟩
    · apply structural_singleton_assigned getWeight _ _ _ _ _ (by decide)
      rw [s1]; decide
    · intro h
      apply structural_singleton_assigned getWeight _ _ _ _ _ (by decide)
      rw [s3 (by simpa using h)]; decide
    · intro h
      apply structural_singleton_assigned getWeight _ _ _ _ _ (by decide)
      rw [o1]; exact hE h
    · intro h
      apply structural_singleton_assigned getWeight _ _ _ _ _ (by decide)
      rw [o2]; exact hX h
  obtain ⟨_, out, g1, g2⟩ := generateIntOutput_decodes co
    { (IntCompressor.assignInitialAbbreviations getWeight co
        { c with Root := c.Root.map (seedDefaultCounts c.MyFlags) } []) with
      Root := (IntCompressor.assignInitialAbbreviations getWeight co
        { c with Root := c.Root.map (seedDefaultCounts c.MyFlags) } []).Root.map
          co.zeroSmallUsageCounts
      IntOutput := some [] } _ a1
    (by dsimp only; rw [a2]; exact hD)
    (by dsimp only; rw [a3, a4]; exact hS)
  dsimp only at g2
  rw [a2, a3] at g2
  refine ⟨_, out, r1.trans a1, r3.trans g1, ?_⟩
  rw [r2, a2]
  exact g2

theorem compressUpToSize_Root (co : Collaborators) (c : IntCompressor) (Size : Nat) :
    (c.compressUpToSize getWeight co Size).1.Root
      = some (compressUpToSize getWeight (c.Root.getD RootCountNode.empty)
          c.MyFlags.CountCutoff Size (c.Contents.getD [])).1 ∧
    (c.compressUpToSize getWeight co Size).1.Contents = c.Contents := by
  unfold IntCompressor.compressUpToSize IntCompressor.getRoot
  cases c.Root <;> exact ⟨rfl, rfl⟩

theorem readInput_Contents (co : Collaborators) (c : IntCompressor) :
    (c.readInput co).Contents = some co.Contents ∧ (c.readInput co).MyFlags = c.MyFlags := by
  unfold IntCompressor.readInput
  dsimp only
  split_ifs <;> exact ⟨rfl, rfl⟩

theorem marker_count_pos (es : List StreamEvent) (hlen : es.length < 2 ^ 63)
    (e : StreamEvent) (he : e ∈ es) :
    0 < es.count e ∧ es.count e < 2 ^ 63 := by
  have h1 := List.count_pos_iff.2 he
  have h2 := List.count_le_length e es
  omega

theorem first_pass_markers (C : Nat) (es : List StreamEvent) (hlen : es.length < 2 ^ 63) :
    (compressUpToSize getWeight RootCountNode.empty C 1 es).1.getCount .BlockEnter
      = es.count .BlockEnter ∧
    (compressUpToSize getWeight RootCountNode.empty C 1 es).1.getCount .BlockExit
      = es.count .BlockExit := by
  obtain ⟨f1, _⟩ := compressUpToSize_flat getWeight RootCountNode.empty C es
  have h1 := List.count_le_length StreamEvent.BlockEnter es
  have h2 := List.count_le_length StreamEvent.BlockExit es
  have e1 : RootCountNode.empty.getCount .BlockEnter = 0 := rfl
  have e2 : RootCountNode.empty.getCount .BlockExit = 0 := rfl
  constructor
  · rw [f1, e1, incrementedBy_of_lt _ _ (by simp only [flatCount]; omega)]
    simp only [flatCount]
    omega
  · rw [f1, e2, incrementedBy_of_lt _ _ (by simp only [flatCount]; omega)]
    simp only [flatCount]
    omega

theorem second_pass_markers (Root : RootCountNode) (C L : Nat) (hL : L ≠ 1)
    (es : List StreamEvent) (hlen : es.length < 2 ^ 63)
    (hE : Root.getCount .BlockEnter = es.count .BlockEnter)
    (hX : Root.getCount .BlockExit = es.count .BlockExit) :
    (compressUpToSize getWeight Root C L es).1.getCount .BlockEnter
      = 2 * es.count .BlockEnter ∧
    (compressUpToSize getWeight Root C L es).1.getCount .BlockExit
      = 2 * es.count .BlockExit := by
  obtain ⟨m1, _⟩ := compressUpToSize_multi getWeight Root C L hL es
  have h1 := List.count_le_length StreamEvent.BlockEnter es
  have h2 := List.count_le_length StreamEvent.BlockExit es
  constructor
  · rw [m1, hE, incrementedBy_of_lt _ _ (by simp only [multiCount]; omega)]
    simp only [multiCount]
    omega
  · rw [m1, hX, incrementedBy_of_lt _ _ (by simp only [multiCount]; omega)]
    simp only [multiCount]
    omega

theorem after_first_pass_decodes (co : Collaborators) (c2 : IntCompressor)
    (R1 : RootCountNode) (es : List StreamEvent) (hlen : es.length < 2 ^ 63)
    (hS : ∀ R : RootCountNode,
      (co.removeSmallSingletonUsageCounts R).getCount .BlockEnter = R.getCount .BlockEnter ∧
      (co.removeSmallSingletonUsageCounts R).getCount .BlockExit = R.getCount .BlockExit)
    (hA : ∀ R : RootCountNode,
      (co.removeAllSmallUsageCounts R).getCount .BlockEnter = R.getCount .BlockEnter ∧
      (co.removeAllSmallUsageCounts R).getCount .BlockExit = R.getCount .BlockExit)
    (hR1 : c2.Root = some R1) (hC1 : c2.Contents = some es)
    (p1 : R1.getCount .BlockEnter = es.count .BlockEnter)
    (p2 : R1.getCount .BlockExit = es.count .BlockExit) :
    (c2.MyFlags.PatternLengthLimit > 1 →
      ∃ A out,
        (IntCompressor.compressSelected getWeight co
          { (IntCompressor.compressUpToSize getWeight co
              { c2 with Root := c2.Root.map co.removeSmallSingletonUsageCounts }
              c2.MyFlags.PatternLengthLimit).1 with
            Root := (IntCompressor.compressUpToSize getWeight co
              { c2 with Root := c2.Root.map co.removeSmallSingletonUsageCounts }
              c2.MyFlags.PatternLengthLimit).1.Root.map
                co.removeAllSmallUsageCounts }).AbbrevAssignments = some A ∧
        (IntCompressor.compressSelected getWeight co
          { (IntCompressor.compressUpToSize getWeight co
              { c2 with Root := c2.Root.map co.removeSmallSingletonUsageCounts }
              c2.MyFlags.PatternLengthLimit).1 with
            Root := (IntCompressor.compressUpToSize getWeight co
              { c2 with Root := c2.Root.map co.removeSmallSingletonUsageCounts }
              c2.MyFlags.PatternLengthLimit).1.Root.map
                co.removeAllSmallUsageCounts }).IntOutput = some out ∧
        decode A (IntCompressor.compressSelected getWeight co
          { (IntCompressor.compressUpToSize getWeight co
              { c2 with Root := c2.Root.map co.removeSmallSingletonUsageCounts }
              c2.MyFlags.PatternLengthLimit).1 with
            Root := (IntCompressor.compressUpToSize getWeight co
              { c2 with Root := c2.Root.map co.removeSmallSingletonUsageCounts }
              c2.MyFlags.PatternLengthLimit).1.Root.map
                co.removeAllSmallUsageCounts }).AbbrevIndex out
          = some (streamBody es)) ∧
    (∃ A out,
        (IntCompressor.compressSelected getWeight co
          { c2 with Root := c2.Root.map co.removeSmallSingletonUsageCounts }).AbbrevAssignments
          = some A ∧
        (IntCompressor.compressSelected getWeight co
          { c2 with Root := c2.Root.map co.removeSmallSingletonUsageCounts }).IntOutput
          = some out ∧
        decode A (IntCompressor.compressSelected getWeight co
          { c2 with Root := c2.Root.map co.removeSmallSingletonUsageCounts }).AbbrevIndex out
          = some (streamBody es)) := by
  obtain ⟨F, Cn, Rt, AA, AI, Ou, O, E, Cl⟩ := c2
  dsimp only at hR1 hC1 ⊢
  subst hR1 hC1
  dsimp only [Option.map_some']
  constructor
  · intro h3
    have hL : F.PatternLengthLimit ≠ 1 := by omega
    obtain ⟨hR2, hC2⟩ := compressUpToSize_Root getWeight co
      { MyFlags := F, Contents := some es,
        Root := some (co.removeSmallSingletonUsageCounts R1), AbbrevAssignments := AA,
        AbbrevIndex := AI, IntOutput := Ou, Output := O, ErrorsFound := E, Calls := Cl }
      F.PatternLengthLimit
    dsimp only [Option.getD_some] at hR2 hC2
    obtain ⟨q1, q2⟩ := second_pass_markers getWeight (co.removeSmallSingletonUsageCounts R1)
      F.CountCutoff _ hL es hlen ((hS _).1.trans p1) ((hS _).2.trans p2)
    have := compressSelected_decodes getWeight co
      { (IntCompressor.compressUpToSize getWeight co
          { MyFlags := F, Contents := some es,
            Root := some (co.removeSmallSingletonUsageCounts R1), AbbrevAssignments := AA,
            AbbrevIndex := AI, IntOutput := Ou, Output := O, ErrorsFound := E, Calls := Cl }
          F.PatternLengthLimit).1 with
        Root := (IntCompressor.compressUpToSize getWeight co
          { MyFlags := F, Contents := some es,
            Root := some (co.removeSmallSingletonUsageCounts R1), AbbrevAssignments := AA,
            AbbrevIndex := AI, IntOutput := Ou, Output := O, ErrorsFound := E, Calls := Cl }
          F.PatternLengthLimit).1.Root.map co.removeAllSmallUsageCounts }
      _ (by dsimp only; rw [hR2]; rfl)
      (by
        dsimp only
        rw [hC2]
        intro hm
        rw [(hA _).1, q1]
        have := (marker_count_pos es hlen _ hm).1
        omega)
      (by
        dsimp only
        rw [hC2]
        intro hm
        rw [(hA _).2, q2]
        have := (marker_count_pos es hlen _ hm).1
        omega)
    dsimp only at this
    rw [hC2] at this
    exact this
  · have := compressSelected_decodes getWeight co
      { MyFlags := F, Contents := some es,
        Root := some (co.removeSmallSingletonUsageCounts R1), AbbrevAssignments := AA,
        AbbrevIndex := AI, IntOutput := Ou, Output := O, ErrorsFound := E, Calls := Cl }
      _ rfl
      (by
        intro hm
        rw [(hS _).1, p1]
        have := (marker_count_pos es hlen _ hm).1
        omega)
      (by
        intro hm
        rw [(hS _).2, p2]
        have := (marker_count_pos es hlen _ hm).1
        omega)
    exact this

/-- C1: round-trip fidelity.  In every run of `compress` on a new compressor
that reaches `generateIntOutput`, for every input sequence of fewer than
`2 ^ 63` events, every flags, weight function and behaviour of the parts of the
pipeline that are not part of the sources, as long as the two pruning walks
leave the counts of the `BlockEnter` and `BlockExit` singletons as they are:
`generateIntOutput` stores a rewritten sequence, and that sequence, expanded
with the reading grammar of the Assignment Set and the abbreviation indices of
the run, is the original sequence, with the same values and the same block
markers in the same order. -/
theorem rewrite_round_trip (MyFlags : CompressionFlags) (co : Collaborators)
    (hlen : co.Contents.length < 2 ^ 63)
    (hS : ∀ R : RootCountNode,
      (co.removeSmallSingletonUsageCounts R).getCount .BlockEnter = R.getCount .BlockEnter ∧
      (co.removeSmallSingletonUsageCounts R).getCount .BlockExit = R.getCount .BlockExit)
    (hA : ∀ R : RootCountNode,
      (co.removeAllSmallUsageCounts R).getCount .BlockEnter = R.getCount .BlockEnter ∧
      (co.removeAllSmallUsageCounts R).getCount .BlockExit = R.getCount .BlockExit)
    (hreach : Phase.generateIntOutput
      ∈ ((IntCompressor.make MyFlags).compress getWeight co).Calls) :
    ∃ A out,
      ((IntCompressor.make MyFlags).compress getWeight co).AbbrevAssignments = some A ∧
      ((IntCompressor.make MyFlags).compress getWeight co).IntOutput = some out ∧
      decode A ((IntCompressor.make MyFlags).compress getWeight co).AbbrevIndex out
        = some (streamBody co.Contents) := by
  revert hreach
  unfold IntCompressor.compress
  dsimp only
  have hread : ((IntCompressor.make MyFlags).readInput co).Calls = [.readInput] ∧
      ((IntCompressor.make MyFlags).readInput co).MyFlags = MyFlags := by
    unfold IntCompressor.readInput
    dsimp only
    split_ifs <;> exact ⟨rfl, rfl⟩
  have hroot0 : ((IntCompressor.make MyFlags).readInput co).Root = none :=
    (readInput_frame co (IntCompressor.make MyFlags)).2.2.1
  obtain ⟨hcont0, _⟩ := readInput_Contents co (IntCompressor.make MyFlags)
  obtain ⟨_, f1, k1, _⟩ := compressUpToSize_state getWeight co
    ((IntCompressor.make MyFlags).readInput co) 1
  obtain ⟨hR1, hC1⟩ := compressUpToSize_Root getWeight co
    ((IntCompressor.make MyFlags).readInput co) 1
  rw [hroot0, hcont0] at hR1
  rw [hcont0] at hC1
  dsimp only [Option.getD_none, Option.getD_some] at hR1
  obtain ⟨p1, p2⟩ := first_pass_markers getWeight
    ((IntCompressor.make MyFlags).readInput co).MyFlags.CountCutoff co.Contents hlen
  obtain ⟨t1, t2⟩ := after_first_pass_decodes getWeight co
    (IntCompressor.compressUpToSize getWeight co
      ((IntCompressor.make MyFlags).readInput co) 1).1 _ co.Contents hlen hS hA hR1 hC1 p1 p2
  split_ifs with h1 h2 h3 h4
  · intro h
    rw [hread.1] at h
    simp at h
  · intro h
    rw [k1, hread.1] at h
    simp at h
  · intro h
    obtain ⟨_, _, k2, _⟩ := compressUpToSize_state getWeight co
      { (IntCompressor.compressUpToSize getWeight co
            ((IntCompressor.make MyFlags).readInput co) 1).1 with
        Root := (IntCompressor.compressUpToSize getWeight co
            ((IntCompressor.make MyFlags).readInput co) 1).1.Root.map
          co.removeSmallSingletonUsageCounts }
      (IntCompressor.compressUpToSize getWeight co
            ((IntCompressor.make MyFlags).readInput co) 1).1.MyFlags.PatternLengthLimit
    rw [k2] at h
    dsimp only at h
    rw [k1, hread.1] at h
    simp at h
  · intro _
    exact t1 h3
  · intro _
    exact t2

/-- The theorem `rewrite_round_trip` for the run on `[1, 2, <enter>, 1, 2, <exit>]`
in which every phase succeeds. -/
theorem rewrite_round_trip_witness :
    blockCollaborators.Contents.length < 2 ^ 63 ∧
    Phase.generateIntOutput ∈ ((IntCompressor.make exampleFlags).compress
      weightCountTimesLength blockCollaborators).Calls ∧
    ∃ A out,
      ((IntCompressor.make exampleFlags).compress weightCountTimesLength
        blockCollaborators).AbbrevAssignments = some A ∧
      ((IntCompressor.make exampleFlags).compress weightCountTimesLength
        blockCollaborators).IntOutput = some out ∧
      decode A ((IntCompressor.make exampleFlags).compress weightCountTimesLength
        blockCollaborators).AbbrevIndex out = some (streamBody blockCollaborators.Contents) :=
  ⟨by decide, by decide,
    rewrite_round_trip weightCountTimesLength exampleFlags blockCollaborators (by decide)
      (fun _ => ⟨rfl, rfl⟩) (fun _ => ⟨rfl, rfl⟩) (by decide)⟩

/-- The run of `compress` on `[1, 2, <enter>, 1, 2, <exit>]`: the rewritten
sequence is the code 2 of the path `(1, 2)`, the block-enter code, the code 2
again and the block-exit code, and it expands to the input. -/
theorem rewrite_round_trip_example :
    ((IntCompressor.make exampleFlags).compress weightCountTimesLength
      blockCollaborators).IntOutput
      = some [.Abbrev 2, .BlockEnter, .Abbrev 2, .BlockExit] ∧
    ((IntCompressor.make exampleFlags).compress weightCountTimesLength
      blockCollaborators).AbbrevIndex (.Int [2, 1]) = some 2 ∧
    decode
      (((IntCompressor.make exampleFlags).compress weightCountTimesLength
        blockCollaborators).AbbrevAssignments.getD [])
      ((IntCompressor.make exampleFlags).compress weightCountTimesLength
        blockCollaborators).AbbrevIndex
      [.Abbrev 2, .BlockEnter, .Abbrev 2, .BlockExit] = some blockBoundaryExample := by
  decide

end RewriteTheorems

end intcomp

end wasm
